import Mathlib

/-!
# Elon: eligibility filter, termination orchestrator, groups and schedule

A shallow embedding of the Go packages `elon`, `grp`, `eligible`, `term`, `deploy`
and `schedule`.

Conventions of the embedding:

* Go strings are Lean strings.
* A Go result `(T, error)` is `Except Error T`; a lone `error` result is
  `Option Error`, with `none` for `nil`.
* Collaborators reached through interfaces (the deployment, the configuration,
  the checker, the trackers, the terminator) are records of functions giving the
  answer of each call. Every call a function makes to a collaborator is written,
  in order, to a list of `Call`s returned next to the result (`Traced`).
* `frigga.Parse` belongs to the external library `SmartThingsOSS/frigga-go`;
  it is a parameter `Parse` of every function that uses it.
* A `panic` or `log.Fatalf` is a result `Except.error` with the value of type
  `deploy.Abort`.
* A Go `int` is a Lean integer: the hours, minutes and counts computed stay far from
  the bounds of 64 bits. An instant is a number of seconds since 1 January 1970 UTC,
  a finite `float64` is the rational number it denotes.
* What a function draws from a random source or reads from the clock is a parameter.
-/

set_option autoImplicit false

/-! ## Package `elon`: domain model -/

namespace elon

/-- Go `error` values. `wrap` is `errors.Wrap` and `errors.Wrapf` of `github.com/pkg/errors`,
`msg` is any other error value, the two remaining constructors are the named error
types of the repository. -/
inductive Error where
  | msg (text : String)
  | wrap (cause : Error) (message : String)
  | UnleashedInTestEnv
  | ErrViolatesMinTime (EmployeeId : String) (FiredAt : Int)
  deriving DecidableEq, Repr

/-- Type `Exception` of `elon.go`: an opt-out rule. -/
structure Exception where
  Account : String
  Stack : String
  Detail : String
  Region : String
  deriving DecidableEq, Repr

/-- Type `TeamConfig` of `elon.go`. `Grouping` is the Go `Group int`; `Whitelist` is the
Go pointer `*[]Exception`, `none` for `nil`. -/
structure TeamConfig where
  Enabled : Bool
  RegionsAreIndependent : Bool
  MeanTimeBetweenFiresInWorkDays : Int
  MinTimeBetweenFiresInWorkDays : Int
  Grouping : Int
  Exceptions : List Exception
  Whitelist : Option (List Exception)
  deriving DecidableEq, Repr

/-- Function `exFieldMatches` of `elon.go`. -/
def exFieldMatches (field value : String) : Bool :=
  field == "*" || field == value

/-- Method `Exception.Matches` of `elon.go`. -/
def Exception.Matches (ex : Exception) (account stack detail region : String) : Bool :=
  exFieldMatches ex.Account account &&
    exFieldMatches ex.Stack stack &&
    exFieldMatches ex.Detail detail &&
    exFieldMatches ex.Region region

/-- Constant `Team` of `elon.go`, the first of the `Group` values (`iota`, so 0): the
grouping by app. The source names both the first and the third constant `Team`. -/
def Team : Int := 0

/-- Constant `Stack` of `elon.go`, the second `Group` value: the grouping by stack. -/
def Stack : Int := 1

/-- Constant `Team` of `elon.go`, the third of the `Group` values (so 2): the grouping by
team, that is by app-stack-detail. It is the second constant of that name in the source. -/
def Team2 : Int := 2

end elon

/-! ## External library `frigga-go` and Go standard library -/

namespace frigga

/-- The fields of `frigga.Names` the repository reads. `Team` is the app part of an
`app-stack-detail` name. -/
structure Names where
  Team : String
  Stack : String
  Detail : String
  deriving DecidableEq, Repr

end frigga

namespace strings

/-- Go `strings.HasSuffix`: `len(s) >= len(suffix) && s[len(s)-len(suffix):] == suffix`. -/
def HasSuffix (s suffix : String) : Bool :=
  decide (suffix.data.length ≤ s.data.length) &&
    s.data.drop (s.data.length - suffix.data.length) == suffix.data

end strings

/-! ## Package `grp`: selection groups -/

namespace grp

/-- Type `group` of `grp.go`, the only implementation of `employeeGroup`. -/
structure group where
  app : String
  account : String
  region : String
  stack : String
  team : String
  deriving DecidableEq, Repr

/-- Function `New` of `grp.go`. -/
def New (app account region stack team : String) : group :=
  { app := app, account := account, region := region, stack := stack, team := team }

/-- Method `group.Team() string` of `grp.go`, which returns the field `app`. -/
def group.Team (g : group) : String := g.app

/-- Method `group.Account` of `grp.go`. -/
def group.Account (g : group) : String := g.account

/-- Method `group.Region` of `grp.go`. -/
def group.Region (g : group) : String × Bool :=
  if g.region == "" then ("", false) else (g.region, true)

/-- Method `group.Stack` of `grp.go`. -/
def group.Stack (g : group) : String × Bool :=
  if g.stack == "" then ("", false) else (g.stack, true)

/-- Method `group.Team() (string, bool)` of `grp.go`, which returns the field `team`.
The source declares two methods called `Team`; this is the two-valued one. -/
def group.Team2 (g : group) : String × Bool :=
  if g.team == "" then ("", false) else (g.team, true)

/-- Function `AnyRegion` of `grp.go`. -/
def AnyRegion (g : group) : Bool := !(g.Region).2

/-- Function `AnyStack` of `grp.go`. -/
def AnyStack (g : group) : Bool := !(g.Stack).2

/-- Function `AnyTeam` of `grp.go`. -/
def AnyTeam (g : group) : Bool := !(g.Team2).2

/-- Function `must` of `grp.go`; `none` is the panic "specific was unexpectedly false". -/
def must (p : String × Bool) : Option String :=
  if !p.2 then none else some p.1

/-- One conjunct `any || value == must(p)` of `Contains`: `must` is evaluated only when
`any` is false. -/
def anyOrEq (any : Bool) (value : String) (p : String × Bool) : Option Bool :=
  if any then some true
  else
    match must p with
    | none => none
    | some v => some (value == v)

/-- Function `Contains` of `grp.go`. `none` is a panic raised by `must`; the conjuncts
are evaluated left to right and evaluation stops at the first false one. -/
def Contains (Parse : String → Except elon.Error frigga.Names)
    (g : group) (account region team : String) : Option Bool :=
  match Parse team with
  | .error _ => some false
  | .ok names =>
    if !(names.Team == g.Team) then some false
    else if !(account == g.Account) then some false
    else
      match anyOrEq (AnyRegion g) region g.Region with
      | none => none
      | some false => some false
      | some true =>
        match anyOrEq (AnyStack g) names.Stack g.Stack with
        | none => none
        | some false => some false
        | some true => anyOrEq (AnyTeam g) team g.Team2

/-- Function `Equal` of `grp.go`. The first test `g1 == g2` compares the two interface
values, which hold `group` structs: it is true when all five fields agree. -/
def Equal (g1 g2 : group) : Bool :=
  if g1 == g2 then true
  else if g1.Team != g2.Team then false
  else if g1.Account != g2.Account then false
  else if (g1.Region).2 != (g2.Region).2 then false
  else if (g1.Region).2 && ((g1.Region).1 != (g2.Region).1) then false
  else if (g1.Stack).2 != (g2.Stack).2 then false
  else if (g1.Stack).2 && ((g1.Stack).1 != (g2.Stack).1) then false
  else if (g1.Team2).2 != (g2.Team2).2 then false
  else if (g1.Team2).2 && ((g1.Team2).1 != (g2.Team2).1) then false
  else true

end grp

/-! ## Calls to collaborators -/

namespace eligible

/-- Type `employee` of `eligible.go`. -/
structure employee where
  appName : String
  accountName : String
  regionName : String
  stackName : String
  teamName : String
  asgName : String
  id : String
  cloudProvider : String
  deriving DecidableEq, Repr

/-- Type `team` of `eligible.go`. -/
structure team where
  appName : String
  accountName : String
  cloudProvider : String
  regionName : String
  teamName : String
  deriving DecidableEq, Repr

end eligible

namespace elon

/-- Type `Termination` of `elon.go`; `Time` is an instant. -/
structure Termination where
  employee : eligible.employee
  Time : Int
  Leashed : Bool
  deriving DecidableEq, Repr

/-- A call made to a collaborator, with its arguments. `Execute` is `Execute` on the
injected terminator `d.T`; `LeashedExecute` is `leashedFireer.Execute`, which only logs. -/
inductive Call where
  | MonkeyEnabled
  | Outage
  | AccountEnabled (account : String)
  | Leashed
  | InTest
  | ConfGet (app : String)
  | CloudProvider (account : String)
  | GetTeamNames (app account : String)
  | Parse (name : String)
  | GetRegionNames (app account team : String)
  | GetEmployeeIds (app account cloudProvider region team : String)
  | Intn (n : Nat)
  | Location
  | Now
  | EndHour
  | Check (trm : Termination) (appCfg : TeamConfig) (endHour : Int) (loc : String)
  | Track (tracker : Nat) (trm : Termination)
  | Execute (trm : Termination)
  | LeashedExecute (trm : Termination)
  deriving DecidableEq, Repr

/-- A result together with the calls made to obtain it, oldest first. -/
structure Traced (α : Type) where
  calls : List Call
  out : α
  deriving Repr

/-- Finish with a result, making no call. -/
def Traced.done {α : Type} (a : α) : Traced α := ⟨[], a⟩

/-- Make the call `c`, then continue with `t`. -/
def Traced.step {α : Type} (c : Call) (t : Traced α) : Traced α := ⟨c :: t.calls, t.out⟩

/-- Run `t`, then continue with `f` on its result. -/
def Traced.bind {α β : Type} (t : Traced α) (f : α → Traced β) : Traced β :=
  ⟨t.calls ++ (f t.out).calls, (f t.out).out⟩

end elon

/-! ## Package `deploy`: the deployment interface -/

namespace deploy

/-- The methods of interface `Deployment` (`deployment.go`) used to compute eligible
employees; each field is the answer the deployment gives to that call. -/
structure Deployment where
  GetEmployeeIds : String → String → String → String → String →
    Except elon.Error (String × List String)
  GetTeamNames : String → String → Except elon.Error (List String)
  GetRegionNames : String → String → String → Except elon.Error (List String)
  CloudProvider : String → Except elon.Error String

end deploy

/-! ## Package `eligible` -/

namespace eligible

open elon (Error Call Traced)
open elon.Traced (done step)

/-- Variable `neverEligibleSuffixes` of `eligible.go`. -/
def neverEligibleSuffixes : List String := ["-canary", "-baseline", "-citrus", "-citrusproxy"]

/-- Function `isException` of `eligible.go`. -/
def isException (exs : List elon.Exception) (account : String) (names : frigga.Names)
    (region : String) : Bool :=
  match exs with
  | [] => false
  | ex :: rest =>
    if ex.Matches account names.Stack names.Detail region then true
    else isException rest account names region

/-- The loop of `isNeverEligible` over a list of suffixes. -/
def hasAnySuffix (team : String) : List String → Bool
  | [] => false
  | suffix :: rest => if strings.HasSuffix team suffix then true else hasAnySuffix team rest

/-- Function `isNeverEligible` of `eligible.go`. -/
def isNeverEligible (team : String) : Bool := hasAnySuffix team neverEligibleSuffixes

/-- Function `contains` of `eligible.go`. -/
def contains (region : String) : List String → Bool
  | [] => false
  | r :: rest => if region == r then true else contains region rest

/-- Function `regionsWhenTermScopedtoSingleRegion` of `eligible.go`. -/
def regionsWhenTermScopedtoSingleRegion (region : String) (deployedRegions : List String) :
    List String :=
  if contains region deployedRegions then [region] else []

/-- Function `regions` of `eligible.go`. -/
def regions (group : grp.group) (deployedRegions : List String) : List String :=
  if (group.Region).2 then regionsWhenTermScopedtoSingleRegion (group.Region).1 deployedRegions
  else deployedRegions

/-- The inner loop of `teams`, over the candidate regions of one team; `result` is the
slice built so far. `grp.Contains` cannot panic here (`grp.Contains_isSome`), so only
its answer `true` appends. -/
def teamsRegions (Parse : String → Except Error frigga.Names) (group : grp.group)
    (cloudProvider : String) (exs : List elon.Exception) (account : String)
    (names : frigga.Names) (teamName : String) (result : List team) : List String → List team
  | [] => result
  | region :: rest =>
    if isException exs account names region then
      teamsRegions Parse group cloudProvider exs account names teamName result rest
    else if isNeverEligible teamName then
      teamsRegions Parse group cloudProvider exs account names teamName result rest
    else if grp.Contains Parse group account region teamName = some true then
      teamsRegions Parse group cloudProvider exs account names teamName
        (result ++ [{ appName := names.Team, accountName := account,
                      cloudProvider := cloudProvider, regionName := region,
                      teamName := teamName }]) rest
    else
      teamsRegions Parse group cloudProvider exs account names teamName result rest

/-- The outer loop of `teams`, over the team names; `result` is the slice built so far. -/
def teamsLoop (Parse : String → Except Error frigga.Names) (group : grp.group)
    (cloudProvider : String) (exs : List elon.Exception) (dep : deploy.Deployment)
    (account : String) (result : List team) : List String → Traced (Except Error (List team))
  | [] => done (.ok result)
  | teamName :: rest =>
    step (.Parse teamName) <|
    match Parse teamName with
    | .error err => done (.error err)
    | .ok names =>
      step (.GetRegionNames names.Team account teamName) <|
      match dep.GetRegionNames names.Team account teamName with
      | .error err => done (.error err)
      | .ok deployedRegions =>
        teamsLoop Parse group cloudProvider exs dep account
          (teamsRegions Parse group cloudProvider exs account names teamName result
            (regions group deployedRegions)) rest

/-- Function `teams` of `eligible.go`. -/
def teams (Parse : String → Except Error frigga.Names) (group : grp.group)
    (cloudProvider : String) (exs : List elon.Exception) (dep : deploy.Deployment) :
    Traced (Except Error (List team)) :=
  step (.GetTeamNames group.Team group.Account) <|
  match dep.GetTeamNames group.Team group.Account with
  | .error err => done (.error err)
  | .ok teamNames => teamsLoop Parse group cloudProvider exs dep group.Account [] teamNames

/-- The loop of `getemployees` over the employee ids; `result` is the slice built so far.
The ASG name is parsed once per id. -/
def getemployeesLoop (Parse : String → Except Error frigga.Names) (cl : team)
    (asgName : String) (result : List employee) : List String →
    Traced (Except Error (List employee))
  | [] => done (.ok result)
  | id :: rest =>
    step (.Parse asgName) <|
    match Parse asgName with
    | .error err => done (.error (.wrap err "failed to parse"))
    | .ok names =>
      getemployeesLoop Parse cl asgName
        (result ++ [{ appName := cl.appName, accountName := cl.accountName,
                      regionName := cl.regionName, stackName := names.Stack,
                      teamName := cl.teamName, asgName := asgName, id := id,
                      cloudProvider := cl.cloudProvider }]) rest

/-- Function `getemployees` of `eligible.go`. -/
def getemployees (Parse : String → Except Error frigga.Names) (cl : team)
    (dep : deploy.Deployment) : Traced (Except Error (List employee)) :=
  step (.GetEmployeeIds cl.appName cl.accountName cl.cloudProvider cl.regionName cl.teamName) <|
  match dep.GetEmployeeIds cl.appName cl.accountName cl.cloudProvider cl.regionName
      cl.teamName with
  | .error err => done (.error err)
  | .ok (asgName, ids) => getemployeesLoop Parse cl asgName [] ids

/-- The loop of `employees` over the teams; `result` is the slice built so far. -/
def employeesLoop (Parse : String → Except Error frigga.Names) (dep : deploy.Deployment)
    (result : List employee) : List team → Traced (Except Error (List employee))
  | [] => done (.ok result)
  | cl :: rest =>
    (getemployees Parse cl dep).bind fun r =>
    match r with
    | .error err => done (.error err)
    | .ok found => employeesLoop Parse dep (result ++ found) rest

/-- Function `employees` of `eligible.go`. -/
def employees (Parse : String → Except Error frigga.Names) (group : grp.group)
    (exs : List elon.Exception) (dep : deploy.Deployment) :
    Traced (Except Error (List employee)) :=
  step (.CloudProvider group.Account) <|
  match dep.CloudProvider group.Account with
  | .error err => done (.error (.wrap err "retrieve cloud provider failed"))
  | .ok cloudProvider =>
    (teams Parse group cloudProvider exs dep).bind fun r =>
    match r with
    | .error err => done (.error err)
    | .ok cls => employeesLoop Parse dep [] cls

end eligible

/-! ## Packages `config` and `deps`: what `term` is given -/

namespace config

/-- The methods of `config.Monkey` that `term` calls. The package `config` is not
embedded: its methods are parameters, each field being the answer of the call.
`Location` stands for the `*time.Location` by its name. -/
structure Monkey where
  Enabled : Except elon.Error Bool
  AccountEnabled : String → Except elon.Error Bool
  Leashed : Except elon.Error Bool
  Location : Except elon.Error String
  EndHour : Int

end config

namespace deps

/-- The fields of `deps.Deps` that `term` uses, as listed in `mock/deps.go` and
`terminate_test.go`; the collaborators are parameters. A collaborator with a single
method is given by the answer of that method: `Checker` is `d.Checker.Check`, `ConfGetter` is
`d.ConfGetter.Get`, `Cl` is `d.Cl.Now()`, `T` is `d.T.Execute`, each tracker is its
`Track`, `Ou` is the pair returned by `d.Ou.Outage()` and `Env` is `d.Env.InTest()`. -/
structure Deps where
  MonkeyCfg : config.Monkey
  Checker : elon.Termination → elon.TeamConfig → Int → String → Option elon.Error
  ConfGetter : String → Except elon.Error elon.TeamConfig
  Cl : Int
  Dep : deploy.Deployment
  T : elon.Termination → Option elon.Error
  Trackers : List (elon.Termination → Option elon.Error)
  Ou : Bool × Option elon.Error
  Env : Bool

end deps

/-! ## Package `term`: the termination orchestrator -/

namespace term

open elon (Error Call Traced Termination)
open elon.Traced (done step)

/-- The value of the variable `fireer` of `doTerminate`: the stub `leashedFireer`
or the injected terminator `d.T`. -/
inductive Fireer where
  | leashedFireer
  | T
  deriving DecidableEq, Repr

/-- Method `Execute` of the chosen terminator. `leashedFireer.Execute` logs and returns
nil; the other case is `d.T.Execute`. -/
def Fireer.Execute (d : deps.Deps) : Fireer → Termination → Traced (Option Error)
  | .leashedFireer, trm => step (.LeashedExecute trm) <| done none
  | .T, trm => step (.Execute trm) <| done (d.T trm)

/-- Function `PickRandomemployee` of `term.go`. `Intn n` is the value drawn by `r.Intn(n)`
from the freshly seeded source; it is reduced modulo `n`, the range of `r.Intn(n)`.
`none` is the Go result `(nil, false)`. -/
def PickRandomemployee (Parse : String → Except Error frigga.Names) (Intn : Nat → Nat)
    (group : grp.group) (cfg : elon.TeamConfig) (dep : deploy.Deployment) :
    Traced (Option eligible.employee) :=
  (eligible.employees Parse group cfg.Exceptions dep).bind fun r =>
  match r with
  | .error _ => done none
  | .ok employees =>
    if h : employees.length = 0 then done none
    else
      step (.Intn employees.length) <|
      done (some (employees.get ⟨Intn employees.length % employees.length,
        Nat.mod_lt _ (Nat.pos_of_ne_zero h)⟩))

/-- The loop of `doTerminate` over `d.Trackers`; `i` is the position of the next tracker.
The result is the error `doTerminate` returns from inside the loop, if any. -/
def trackLoop (trm : Termination) : Nat → List (Termination → Option Error) →
    Traced (Option Error)
  | _, [] => done none
  | i, tracker :: rest =>
    step (.Track i trm) <|
    match tracker trm with
    | some err => done (some (.wrap err "not terminating: recording termination event failed"))
    | none => trackLoop trm (i + 1) rest

/-- Function `doTerminate` of `term.go`. -/
def doTerminate (Parse : String → Except Error frigga.Names) (Intn : Nat → Nat)
    (d : deps.Deps) (group : grp.group) : Traced (Option Error) :=
  step .Leashed <|
  match d.MonkeyCfg.Leashed with
  | .error err => done (some (.wrap err "not terminating: could not determine leashed status"))
  | .ok leashed =>
    step .InTest <|
    if d.Env && !leashed then done (some .UnleashedInTestEnv)
    else
      let fireer : Fireer := if leashed then .leashedFireer else .T
      step (.ConfGet group.Team) <|
      match d.ConfGetter group.Team with
      | .error err =>
        done (some (.wrap err
          ("not terminating: Could not retrieve config for app=" ++ group.Team)))
      | .ok appCfg =>
        if !appCfg.Enabled then done none
        else if appCfg.Whitelist.isSome then done none
        else
          (PickRandomemployee Parse Intn group appCfg d.Dep).bind fun picked =>
          match picked with
          | none => done none
          | some employee =>
            step .Location <|
            match d.MonkeyCfg.Location with
            | .error err => done (some (.wrap err "not terminating: could not retrieve location"))
            | .ok loc =>
              step .Now <|
              let trm : Termination := { employee := employee, Time := d.Cl, Leashed := leashed }
              step .EndHour <|
              step (.Check trm appCfg d.MonkeyCfg.EndHour loc) <|
              match d.Checker trm appCfg d.MonkeyCfg.EndHour loc with
              | some err =>
                done (some (.wrap err
                  "not terminating: check for min time between terminations failed"))
              | none =>
                (trackLoop trm 0 d.Trackers).bind fun tracked =>
                match tracked with
                | some err => done (some err)
                | none =>
                  (fireer.Execute d trm).bind fun executed =>
                  match executed with
                  | some err => done (some (.wrap err "termination failed"))
                  | none => done none

/-- Function `Terminate` of `term.go`. -/
def Terminate (Parse : String → Except Error frigga.Names) (Intn : Nat → Nat)
    (d : deps.Deps) (app account region stack team : String) : Traced (Option Error) :=
  step .MonkeyEnabled <|
  match d.MonkeyCfg.Enabled with
  | .error err =>
    done (some (.wrap err "not terminating: could not determine if monkey is enabled"))
  | .ok enabled =>
    if !enabled then done none
    else
      step .Outage <|
      match d.Ou with
      | (_, some err) =>
        done (some (.wrap err "not terminating: problem checking if there is an outage"))
      | (problem, none) =>
        if problem then done none
        else
          step (.AccountEnabled account) <|
          match d.MonkeyCfg.AccountEnabled account with
          | .error err =>
            done (some (.wrap err "not terminating: could not determine if account is enabled"))
          | .ok accountEnabled =>
            if !accountEnabled then done none
            else
              doTerminate Parse Intn d (grp.New app account region stack team)

end term

/-! ## Package `deploy`: apps and their groups of employees -/

namespace deploy

/-- The order in which a Go `range` visits the entries of a map: some rearrangement of
the entries. The language leaves the order open, so it is a parameter. -/
structure MapOrder where
  iter : {α : Type} → List α → List α
  perm : ∀ {α : Type} (entries : List α), (iter entries).Perm entries

/-- The order that visits the entries as they are listed. -/
def MapOrder.listed : MapOrder where
  iter := fun entries => entries
  perm := fun entries => List.Perm.refl entries

/-- A Go map used as a set is given by the list of the keys added to it; ranging over it
visits every distinct key once. -/
def MapOrder.range {α : Type} [DecidableEq α] (o : MapOrder) (added : List α) : List α :=
  o.iter added.dedup

/-- How a call ends without returning: `log.Fatalf` or `panic`. -/
inductive Abort where
  | fatal (msg : String)
  | panic (value : elon.Error)
  deriving DecidableEq, Repr

/-- Type `employee` of `deployment.go`, without the pointer back to its ASG. -/
structure employee where
  id : String
  deriving DecidableEq, Repr

/-- Type `ASG` of `asg.go`, without the pointer back to its team. -/
structure ASG where
  name : String
  region : String
  employees : List employee
  deriving DecidableEq, Repr

/-- Type `Team` of `deployment.go` (a team, named app-stack-detail), without the pointer
back to its account. -/
structure Team where
  name : String
  asgs : List ASG
  deriving DecidableEq, Repr

/-- Type `Account` of `deployment.go`, without the pointer back to its app. -/
structure Account where
  name : String
  teams : List Team
  cloudProvider : String
  deriving DecidableEq, Repr

/-- Type `Team` of `app.go` (an application). The source gives the application type and
the team type the same name; the application type is called `App` here. -/
structure App where
  name : String
  accounts : List Account
  deriving DecidableEq, Repr

/-- Type `TeamMap` of `app.go` that maps a team name to its employees by region and ASG.
A Go map is the list of its entries, whose keys are distinct. -/
abbrev TeamMap := List (String × List (String × List (String × List String)))

/-- Type `AccountInfo` of `app.go`. -/
structure AccountInfo where
  CloudProvider : String
  Teams : TeamMap
  deriving DecidableEq, Repr

/-- Type `TeamMap` of `app.go` that maps an account name to its `AccountInfo`; the source
gives both map types the same name. -/
abbrev AppMap := List (String × AccountInfo)

/-- Function `NewTeam` of `app.go`. Every loop ranges over a map, in an order given by `o`. -/
def NewTeam (o : MapOrder) (name : String) (data : AppMap) : App :=
  { name := name
    accounts := (o.iter data).map fun accountEntry =>
      { name := accountEntry.1
        cloudProvider := accountEntry.2.CloudProvider
        teams := (o.iter accountEntry.2.Teams).map fun teamEntry =>
          { name := teamEntry.1
            asgs := (o.iter teamEntry.2).flatMap fun regionEntry =>
              (o.iter regionEntry.2).map fun asgEntry =>
                { name := asgEntry.1
                  region := regionEntry.1
                  employees := asgEntry.2.map fun id => { id := id } } } } }

/-- Method `Team.StackName` of `deployment.go`; it panics when the name does not parse. -/
def Team.StackName (Parse : String → Except elon.Error frigga.Names) (c : Team) :
    Except Abort String :=
  match Parse c.name with
  | .error err => .error (.panic err)
  | .ok names => .ok names.Stack

/-- Method `Team.RegionNames` of `deployment.go`. -/
def Team.RegionNames (o : MapOrder) (c : Team) : List String :=
  o.range (c.asgs.map fun asg => asg.region)

/-- Method `Account.RegionNames` of `deployment.go`. -/
def Account.RegionNames (o : MapOrder) (a : Account) : List String :=
  o.range (a.teams.flatMap fun team => team.RegionNames o)

/-- The loop of `Account.StackNames` over the teams; `names` lists the names added to
the set so far. -/
def Account.stackNamesLoop (Parse : String → Except elon.Error frigga.Names)
    (names : List String) : List Team → Except Abort (List String)
  | [] => .ok names
  | team :: rest =>
    match team.StackName Parse with
    | .error abort => .error abort
    | .ok stackName => Account.stackNamesLoop Parse (names ++ [stackName]) rest

/-- Method `Account.StackNames` of `deployment.go`. -/
def Account.StackNames (Parse : String → Except elon.Error frigga.Names) (o : MapOrder)
    (a : Account) : Except Abort (List String) :=
  match Account.stackNamesLoop Parse [] a.teams with
  | .error abort => .error abort
  | .ok names => .ok (o.range names)

/-- Function `appIndep` of `eligible_instance_groups.go`. -/
def appIndep (o : MapOrder) (app : App) : List grp.group :=
  app.accounts.foldl (fun result account =>
    (account.RegionNames o).foldl (fun result regionName =>
      result ++ [grp.New app.name account.name regionName "" ""]) result) []

/-- Function `appDep` of `eligible_instance_groups.go`. -/
def appDep (app : App) : List grp.group :=
  app.accounts.foldl (fun result account =>
    result ++ [grp.New app.name account.name "" "" ""]) []

/-- Type `asr` local to `stackIndep`. -/
structure asr where
  account : String
  stack : String
  region : String
  deriving DecidableEq, Repr

/-- The loop of `stackIndep` over the teams of one account; `set` lists the keys added to
the set so far. -/
def stackIndepTeams (Parse : String → Except elon.Error frigga.Names) (o : MapOrder)
    (accountName : String) (set : List asr) : List Team → Except Abort (List asr)
  | [] => .ok set
  | team :: rest =>
    match team.StackName Parse with
    | .error abort => .error abort
    | .ok stackName =>
      stackIndepTeams Parse o accountName
        ((team.RegionNames o).foldl (fun set regionName =>
          set ++ [{ account := accountName, stack := stackName, region := regionName }]) set)
        rest

/-- The loop of `stackIndep` over the accounts. -/
def stackIndepAccounts (Parse : String → Except elon.Error frigga.Names) (o : MapOrder)
    (set : List asr) : List Account → Except Abort (List asr)
  | [] => .ok set
  | account :: rest =>
    match stackIndepTeams Parse o account.name set account.teams with
    | .error abort => .error abort
    | .ok set2 => stackIndepAccounts Parse o set2 rest

/-- Function `stackIndep` of `eligible_instance_groups.go`. -/
def stackIndep (Parse : String → Except elon.Error frigga.Names) (o : MapOrder) (app : App) :
    Except Abort (List grp.group) :=
  match stackIndepAccounts Parse o [] app.accounts with
  | .error abort => .error abort
  | .ok set =>
    .ok ((o.range set).foldl (fun result x =>
      result ++ [grp.New app.name x.account x.region x.stack ""]) [])

/-- The loop of `stackDep` over the accounts; `result` is the slice built so far. -/
def stackDepAccounts (Parse : String → Except elon.Error frigga.Names) (o : MapOrder)
    (appName : String) (result : List grp.group) :
    List Account → Except Abort (List grp.group)
  | [] => .ok result
  | account :: rest =>
    match account.StackNames Parse o with
    | .error abort => .error abort
    | .ok stackNames =>
      stackDepAccounts Parse o appName
        (stackNames.foldl (fun result stackName =>
          result ++ [grp.New appName account.name "" stackName ""]) result) rest

/-- Function `stackDep` of `eligible_instance_groups.go`. -/
def stackDep (Parse : String → Except elon.Error frigga.Names) (o : MapOrder) (app : App) :
    Except Abort (List grp.group) :=
  stackDepAccounts Parse o app.name [] app.accounts

/-- Function `teamIndep` of `eligible_instance_groups.go`. -/
def teamIndep (o : MapOrder) (app : App) : List grp.group :=
  app.accounts.foldl (fun result account =>
    account.teams.foldl (fun result team =>
      (team.RegionNames o).foldl (fun result regionName =>
        result ++ [grp.New app.name account.name regionName "" team.name]) result) result) []

/-- Function `teamDep` of `eligible_instance_groups.go`. -/
def teamDep (app : App) : List grp.group :=
  app.accounts.foldl (fun result account =>
    account.teams.foldl (fun result team =>
      result ++ [grp.New app.name account.name "" "" team.name]) result) []

/-- Method `EligibleemployeeGroups` of `eligible_instance_groups.go`. The first two cases
of the switch test the grouping by app, the last two the grouping by team. -/
def EligibleemployeeGroups (Parse : String → Except elon.Error frigga.Names) (o : MapOrder)
    (app : App) (cfg : elon.TeamConfig) : Except Abort (List grp.group) :=
  if !cfg.Enabled then .error (.fatal ("app " ++ app.name ++ " unexpectedly disabled"))
  else if cfg.Grouping == elon.Team && cfg.RegionsAreIndependent then .ok (appIndep o app)
  else if cfg.Grouping == elon.Team && !cfg.RegionsAreIndependent then .ok (appDep app)
  else if cfg.Grouping == elon.Stack && cfg.RegionsAreIndependent then stackIndep Parse o app
  else if cfg.Grouping == elon.Stack && !cfg.RegionsAreIndependent then stackDep Parse o app
  else if cfg.Grouping == elon.Team2 && cfg.RegionsAreIndependent then .ok (teamIndep o app)
  else if cfg.Grouping == elon.Team2 && !cfg.RegionsAreIndependent then .ok (teamDep app)
  else .error (.panic (.msg ("Unknown grouping: " ++ toString cfg.Grouping)))

end deploy

/-! ## Go `int` and `int64` -/

namespace int64

/-- The value that an integer has once stored in 64 bits in two's complement: arithmetic
on Go's `int64`, and on `int` where it is 64 bits wide, wraps around silently. The type
`int` is taken 64 bits wide, as on the platforms the program is built for. -/
def wrap (x : Int) : Int := (x + 9223372036854775808) % 18446744073709551616 - 9223372036854775808

/-- The integer is a value of `int64`. -/
def inRange (x : Int) : Prop := -9223372036854775808 ≤ x ∧ x ≤ 9223372036854775807

/-- Go `x - y` on values of `int` or `int64`. -/
def sub (x y : Int) : Int := wrap (x - y)

/-- Go `x * y` on values of `int` or `int64`. -/
def mul (x y : Int) : Int := wrap (x * y)

end int64

/-! ## Go `float64`, `time` and `math/rand` -/

namespace float64

/-- The integer nearest to `x`, the even one of the two when `x` lies halfway. -/
def roundHalfEven (x : ℚ) : Int :=
  if x - ⌊x⌋ < 1 / 2 then ⌊x⌋
  else if 1 / 2 < x - ⌊x⌋ then ⌊x⌋ + 1
  else if ⌊x⌋ % 2 = 0 then ⌊x⌋ else ⌊x⌋ + 1

/-- The finite `float64` nearest to the real `x` (IEEE 754 binary64, 53 significant bits,
round to nearest, ties to even). A finite `float64` is the rational number it denotes. The
exponent range is not limited: the quotients `1 / n` of a Go `int` lie far inside it. -/
def round (x : ℚ) : ℚ :=
  if x = 0 then 0
  else (roundHalfEven (x / 2 ^ (Int.log 2 |x| - 52)) : ℚ) * 2 ^ (Int.log 2 |x| - 52)

/-- Go conversion `float64(n)` of an `int`. -/
def ofInt (n : Int) : ℚ := round n

/-- Go `x / y` on `float64`, for a divisor other than zero. -/
def div (x y : ℚ) : ℚ := round (x / y)

end float64

namespace time

/-- A `*time.Location`. The package `time` and its zone database are not embedded; a
location is given by the answers of the two conversions the repository needs: `offset t`
is the number of seconds east of UTC in force at the instant `t`, and `Date day hour` is
the instant returned by `time.Date(year, month, day, hour, 0, 0, 0, loc)` for the calendar
date whose day number is `day`. Instants are seconds since 1 January 1970 UTC, and a
calendar date (year, month, day) is represented by the number of its day, counted from
1 January 1970. -/
structure Location where
  offset : Int → Int
  Date : Int → Int → Int

/-- Function `time.FixedZone`: the location that always uses the given offset. Hours
outside 0..23 are normalised by `time.Date`, which here is plain arithmetic. -/
def FixedZone (offset : Int) : Location :=
  { offset := fun _ => offset
    Date := fun day hour => day * 86400 + hour * 3600 - offset }

/-- Variable `time.UTC`. -/
def UTC : Location := FixedZone 0

/-- Type `time.Time`: an instant together with the location it is expressed in. -/
structure Time where
  unix : Int
  loc : Location

/-- The day number of the calendar date that the instant `t` has in the location. -/
def Location.day (l : Location) (t : Int) : Int := (t + l.offset t) / 86400

/-- Method `Time.Date`: the calendar date of the instant in the location of the value. -/
def Time.Date (t : Time) : Int := t.loc.day t.unix

/-- Constant `time.Minute`: a `time.Duration`, which is a number of nanoseconds held in an
`int64`. -/
def Minute : Int := 60000000000

/-- Method `Time.Add` of the Go library, on a time `t` without a fraction of a second and a
duration `d` in nanoseconds. Instants are kept to the second: the result is the second in
which the time `t` plus `d` lies. -/
def Add (t d : Int) : Int := t + d / 1000000000

/-- Method `Time.Minute` of an instant read in UTC. -/
def minuteOf (t : Int) : Int := t / 60 % 60

/-- Method `Time.Hour` of an instant read in UTC. -/
def hourOf (t : Int) : Int := t / 3600 % 24

/-- Method `Time.Weekday` of an instant read in UTC, 0 for Sunday; 1 January 1970 was a
Thursday. -/
def weekdayOf (t : Int) : Int := (t / 86400 + 4) % 7

/-- The position, counted from March, of the month and the day of the month of a day
number, in the proleptic Gregorian calendar: the day is moved to an era of 400 years that
starts on 1 March. -/
def civil (day : Int) : Int × Int :=
  let doe := (day + 719468) % 146097
  let yoe := (doe - doe / 1460 + doe / 36524 - doe / 146096) / 365
  let doy := doe - (365 * yoe + yoe / 4 - yoe / 100)
  let mp := (5 * doy + 2) / 153
  (mp, doy - (153 * mp + 2) / 5 + 1)

/-- Method `Time.Month` of an instant read in UTC, 1 for January. -/
def monthOf (t : Int) : Int :=
  if (civil (t / 86400)).1 < 10 then (civil (t / 86400)).1 + 3 else (civil (t / 86400)).1 - 9

/-- Method `Time.Day` of an instant read in UTC: the day of the month. -/
def dayOf (t : Int) : Int := (civil (t / 86400)).2

end time

namespace rand

/-- Method `Rand.Intn` of `math/rand`: it panics when `n <= 0` and returns a number of
`[0, n)` otherwise. `draw` is the value drawn by the source; it is reduced modulo `n`. -/
def Intn (draw : Nat) (n : Int) : Except deploy.Abort Int :=
  if n ≤ 0 then .error (.panic (.msg "invalid argument to Intn"))
  else .ok ((draw : Int) % n)

end rand

/-! ## Package `schedule` -/

namespace sort

/-- Function `sort.Sort` of the Go library, which is not embedded: it rearranges the data
so that no element is `Less` than an element placed before it. The library does not say
where elements go of which neither is `Less` than the other, so the rearrangement is a
parameter. -/
structure Sorter (α : Type) (Less : α → α → Bool) where
  sort : List α → List α
  perm : ∀ data, (sort data).Perm data
  sorted : ∀ data, (sort data).Pairwise fun a b => Less b a = false

end sort

namespace config

/-- The methods of `config.Monkey` that `schedule` calls; the package `config` is not
embedded, each field is the answer of the call. -/
structure Window where
  MaxTeams : Int
  StartHour : Int
  EndHour : Int
  Location : Except elon.Error time.Location

end config

namespace deploy

/-- The methods of interface `Deployment` (`deployment.go`) that `schedule` calls.
`Teams apps` lists, in order, the apps that `Teams(c, apps)` sends on the channel `c`
before it closes the channel. -/
structure Apps where
  TeamNames : Except elon.Error (List String)
  Teams : List String → List App

end deploy

namespace schedule

open elon (Error)
open deploy (Abort)

/-- Type `Entry` of `schedule.go`; `Time` is an instant. -/
structure Entry where
  Group : grp.group
  Time : Int
  deriving DecidableEq, Repr

/-- Type `Schedule` of `schedule.go`. -/
structure Schedule where
  entries : List Entry
  deriving DecidableEq, Repr

/-- Function `New` of `schedule.go`. -/
def New : Schedule := { entries := [] }

/-- Method `Schedule.Add` of `schedule.go`. -/
def Schedule.Add (s : Schedule) (tm : Int) (group : grp.group) : Schedule :=
  { entries := s.entries ++ [{ Group := group, Time := tm }] }

/-- Method `Schedule.Entries` of `schedule.go`. -/
def Schedule.Entries (s : Schedule) : List Entry := s.entries

/-- Interface `float64Rand` of `schedule.go`: a source of floats, given by the samples it
returns, in order. -/
structure float64Rand where
  samples : Nat → ℚ

/-- Method `Float64` of `float64Rand`: the next sample, and the source after the draw. -/
def float64Rand.Float64 (r : float64Rand) : ℚ × float64Rand :=
  (r.samples 0, { samples := fun i => r.samples (i + 1) })

/-- Function `shouldFireemployee` of `schedule.go`. The second component is the source
after the call. -/
def shouldFireemployee (meanTimeBetweenFiresInWorkDays : Int) (r : float64Rand) :
    Except Abort Bool × float64Rand :=
  if meanTimeBetweenFiresInWorkDays ≤ 0 then
    (.error (.panic (.msg "meanTimeBetweenFiresInWorkDays is zero or negative")), r)
  else
    (.ok (decide (r.Float64.1 ≤ float64.div 1 (float64.ofInt meanTimeBetweenFiresInWorkDays))),
      r.Float64.2)

/-- Function `chooseTerminationTime` of `schedule.go`. `draw` is the value drawn by the
source that the function seeds from the clock. The hours are values of `int`: the window
`(endHour - startHour) * 60` is computed in `int` and the offset
`time.Duration(sample) * time.Minute` in `int64`, both with wrap-around. -/
def chooseTerminationTime (draw : Nat) (now : time.Time) (startHour endHour : Int)
    (location : time.Location) : Except Abort Int :=
  if endHour ≤ startHour then
    .error (.panic (.msg ("ChooseTermination called with startHour <= endHour, startHour: " ++
      toString startHour ++ ". endHour: " ++ toString endHour)))
  else
    match rand.Intn draw (int64.mul (int64.sub endHour startHour) 60) with
    | .error abort => .error abort
    | .ok sample =>
      .ok (time.Add (location.Date now.Date startHour) (int64.mul sample time.Minute))

/-- What one call of `doScheduleTeam` takes from outside: the source `r` that it seeds from
the clock, the value `Intn i` drawn and the clock `Now i` read when a time is chosen for
the group at position `i`, and the order `o` in which `EligibleemployeeGroups` ranges over
its maps. -/
structure Chance where
  r : float64Rand
  Intn : Nat → Nat
  Now : Nat → time.Time
  o : deploy.MapOrder

/-- The loop of `doScheduleTeam` over the groups; `i` is the position of the next group. -/
def scheduleGroups (cfg : elon.TeamConfig) (startHour endHour : Int)
    (location : time.Location) (c : Chance) :
    Nat → float64Rand → Schedule → List grp.group → Except Abort Schedule
  | _, _, schedule, [] => .ok schedule
  | i, r, schedule, group :: rest =>
    match shouldFireemployee cfg.MeanTimeBetweenFiresInWorkDays r with
    | (.error abort, _) => .error abort
    | (.ok fire, r2) =>
      if fire then
        match chooseTerminationTime (c.Intn i) (c.Now i) startHour endHour location with
        | .error abort => .error abort
        | .ok tm => scheduleGroups cfg startHour endHour location c (i + 1) r2
            (schedule.Add tm group) rest
      else scheduleGroups cfg startHour endHour location c (i + 1) r2 schedule rest

/-- Function `doScheduleTeam` of `schedule.go`; the result is the schedule after the call.
The panic value is the text "Could not get Location for time zone calculation: " followed
by the text of the error, written as a wrapped error. -/
def doScheduleTeam (Parse : String → Except Error frigga.Names) (c : Chance)
    (schedule : Schedule) (app : deploy.App) (cfg : elon.TeamConfig)
    (chaosConfig : config.Window) : Except Abort Schedule :=
  if !cfg.Enabled then .ok schedule
  else
    match chaosConfig.Location with
    | .error err =>
      .error (.panic (.wrap err "Could not get Location for time zone calculation"))
    | .ok location =>
      match deploy.EligibleemployeeGroups Parse c.o app cfg with
      | .error abort => .error abort
      | .ok groups =>
        scheduleGroups cfg chaosConfig.StartHour chaosConfig.EndHour location c 0 c.r
          schedule groups

/-- The loop of `Populate` over the apps received from the channel; `i` is the number of
apps already processed and `chance i` is what the call of `doScheduleTeam` for the next
app takes from outside. -/
def populateApps (Parse : String → Except Error frigga.Names) (chance : Nat → Chance)
    (getter : String → Except Error elon.TeamConfig) (chaosConfig : config.Window) :
    Nat → Schedule → List deploy.App → Except Abort Schedule
  | _, s, [] => .ok s
  | i, s, app :: rest =>
    if chaosConfig.MaxTeams ≤ (i : Int) then .ok s
    else
      match getter app.name with
      | .error _ => populateApps Parse chance getter chaosConfig (i + 1) s rest
      | .ok cfg =>
        match doScheduleTeam Parse (chance i) s app cfg chaosConfig with
        | .error abort => .error abort
        | .ok s2 => populateApps Parse chance getter chaosConfig (i + 1) s2 rest

/-- Method `Schedule.Populate` of `schedule.go`. The result is the error returned together
with the schedule after the call. The error of `fmt.Errorf` has the text "could not
retrieve list of apps: " followed by the text of the cause; it is written as a wrapped
error. -/
def Schedule.Populate (Parse : String → Except Error frigga.Names) (chance : Nat → Chance)
    (s : Schedule) (d : deploy.Apps) (getter : String → Except Error elon.TeamConfig)
    (chaosConfig : config.Window) (apps : List String) :
    Except Abort (Option Error × Schedule) :=
  match (if apps.length = 0 then d.TeamNames else .ok apps) with
  | .error err => .ok (some (.wrap err "could not retrieve list of apps"), s)
  | .ok apps2 =>
    match populateApps Parse chance getter chaosConfig 0 s (d.Teams apps2) with
    | .error abort => .error abort
    | .ok s2 => .ok (none, s2)

/-- Function `terminateCommand` of `schedule.go`. -/
def terminateCommand (termPath : String) (group : grp.group) : String :=
  let cmd := termPath ++ " " ++ group.Team ++ " " ++ group.Account
  let cmd := if (group.Team2).2 then cmd ++ " --team=" ++ (group.Team2).1 else cmd
  let cmd := if (group.Stack).2 then cmd ++ " --stack=" ++ (group.Stack).1 else cmd
  if (group.Region).2 then cmd ++ " --region=" ++ (group.Region).1 else cmd

/-- Method `Entry.Crontab` of `schedule.go`; the verb `%d` writes an integer in decimal. -/
def Entry.Crontab (e : Entry) (termPath account : String) : String :=
  toString (time.minuteOf e.Time) ++ " " ++ toString (time.hourOf e.Time) ++ " " ++
    toString (time.dayOf e.Time) ++ " " ++ toString (time.monthOf e.Time) ++ " " ++
    toString (time.weekdayOf e.Time) ++ " " ++ account ++ " " ++
    terminateCommand termPath e.Group

/-- Method `ByTime.Less` of `schedule.go`, on the two entries compared. -/
def ByTime.Less (a b : Entry) : Bool := decide (a.Time < b.Time)

/-- Method `Schedule.Crontab` of `schedule.go`; the bytes returned are a string. `sorter`
is what `sort.Sort(ByTime(s.entries))` does. `WriteString` on a `bytes.Buffer` returns a
nil error, so the two panics of the source are not reached. -/
def Schedule.Crontab (sorter : sort.Sorter Entry ByTime.Less) (s : Schedule)
    (exPath account : String) : String :=
  (sorter.sort s.entries).foldl
    (fun result entry => result ++ entry.Crontab exPath account ++ "\n") ""

end schedule

/-! ## Package `mock` -/

namespace mock

/-- Type `Deployment` of `mock/deployment.go`: a map from app names to the data of the
apps, given by the list of its entries. -/
structure Deployment where
  TeamMap : List (String × deploy.AppMap)

/-- Function `Dep` of `mock/deployment.go`. -/
def Dep : Deployment :=
  { TeamMap :=
    [("foo", [("prod", { CloudProvider := "aws", Teams :=
        [("foo-prod", [("us-east-1", [("foo-prod-v001", ["i-d3e3d611", "i-63f52e25"])])])] })]),
     ("bar", [("prod", { CloudProvider := "aws", Teams :=
        [("bar-prod", [("us-east-1", [("bar-prod-v011", ["i-d7f06d45", "i-ce433cf1"])])])] })]),
     ("baz", [("prod", { CloudProvider := "aws", Teams :=
        [("baz-prod", [("us-east-1", [("baz-prod-v004", ["i-25b86646", "i-573d46d5"])])])] })]),
     ("quux", [("test", { CloudProvider := "aws", Teams :=
        [("quux-test", [("us-east-1", [("quux-test-v004", ["i-25b866ab", "i-892d46d5"])])])] })])] }

/-- Method `Deployment.Teams` of `mock/deployment.go`: every app of the map is sent, in
the order `o` of the maps, whatever `apps` lists. -/
def Deployment.Teams (o : deploy.MapOrder) (d : Deployment) (_apps : List String) :
    List deploy.App :=
  (o.iter d.TeamMap).map fun entry => deploy.NewTeam o entry.1 entry.2

/-- Method `Deployment.TeamNames` of `mock/deployment.go`. -/
def Deployment.TeamNames (o : deploy.MapOrder) (d : Deployment) :
    Except elon.Error (List String) :=
  .ok ((o.iter d.TeamMap).map fun entry => entry.1)

/-- The mock deployment as `schedule` sees it. -/
def Deployment.apps (o : deploy.MapOrder) (d : Deployment) : deploy.Apps :=
  { TeamNames := d.TeamNames o, Teams := d.Teams o }

end mock

/-! ## Package `sysbreaker`: the config of an app from JSON -/

namespace sysbreaker

open elon (Error)

/-- Type `parsedElon` of `fromjson.go`; a Go pointer is an `Option`, `none` for `nil`
(the key is missing or null). -/
structure parsedElon where
  Enabled : Option Bool
  Grouping : String
  MeanTimeBetweenFiresInWorkDays : Option Int
  MinTimeBetweenFiresInWorkDays : Option Int
  RegionsAreIndependent : Bool
  Exceptions : List elon.Exception
  Whitelist : Option (List elon.Exception)
  deriving DecidableEq, Repr

/-- Type `parsedAttr` of `fromjson.go`. -/
structure parsedAttr where
  Elon : Option parsedElon
  deriving DecidableEq, Repr

/-- Type `parsedJSON` of `fromjson.go`. -/
structure parsedJSON where
  Name : String
  Attributes : Option parsedAttr
  deriving DecidableEq, Repr

/-- The loop of `fromJSON` over the exceptions: the error it returns, if any. -/
def checkExceptions : List elon.Exception → Option Error
  | [] => none
  | exception :: rest =>
    if exception.Account == "" then some (.msg "missing account field in exception")
    else if exception.Region == "" then some (.msg "missing region field in exception")
    else checkExceptions rest

/-- The `switch` of `fromJSON` on the grouping: the value chosen, or the error returned
for an enabled app. -/
def groupingOf (enabled : Bool) (grouping : String) : Except Error Int :=
  if grouping == "app" then .ok elon.Team
  else if grouping == "stack" then .ok elon.Stack
  else if grouping == "team" then .ok elon.Team2
  else if enabled then .error (.msg ("Unknown grouping: " ++ grouping))
  else .ok elon.Team

/-- Function `fromJSON` of `fromjson.go`. `Unmarshal` is `json.Unmarshal` into a
`parsedJSON`, of the Go library. The text of the error for a mean that is not positive
ends, in the source, with the address of the integer; the model leaves the address out.
The dereference of the mean in that test is guarded by the test for `nil` before it. -/
def fromJSON (Unmarshal : String → Except Error parsedJSON) (js : String) :
    Except Error elon.TeamConfig :=
  match Unmarshal js with
  | .error err => .error (.wrap err "json unmarshal failed")
  | .ok parsed =>
    match parsed.Attributes with
    | none => .error (.msg "'attributes' field missing")
    | some attributes =>
      match attributes.Elon with
      | none => .error (.msg "'attributes.elon' field missing")
      | some cm =>
        match cm.Enabled with
        | none => .error (.msg "'attributes.elon.enabled' field missing")
        | some enabled =>
          if enabled && cm.MeanTimeBetweenFiresInWorkDays.isNone then
            .error (.msg "attributes.elon.meanTimeBetweenFiresInWorkDays missing")
          else if enabled && cm.MinTimeBetweenFiresInWorkDays.isNone then
            .error (.msg "attributes.elon.minTimeBetweenFiresInWorkDays missing")
          else if enabled && decide (cm.MeanTimeBetweenFiresInWorkDays.getD 0 ≤ 0) then
            .error (.msg "invalid attributes.elon.meanTimeBetweenFiresInWorkDays: ")
          else
            match groupingOf enabled cm.Grouping with
            | .error err => .error err
            | .ok grouping =>
              match checkExceptions cm.Exceptions with
              | some err => .error err
              | none =>
                .ok { Enabled := enabled
                      RegionsAreIndependent := cm.RegionsAreIndependent
                      Grouping := grouping
                      MeanTimeBetweenFiresInWorkDays := cm.MeanTimeBetweenFiresInWorkDays.getD 0
                      MinTimeBetweenFiresInWorkDays := cm.MinTimeBetweenFiresInWorkDays.getD 0
                      Exceptions := cm.Exceptions
                      Whitelist := cm.Whitelist }

end sysbreaker

/-! ## The wire form of a schedule -/

namespace grp

/-- The JSON object written by `group.MarshalJSON` of `grp.go`: the keys `region`, `stack`
and `team` carry the tag `omitempty` and are left out (`none`) for an empty string. The
text of the JSON, written and read by `encoding/json`, is not embedded: a document is
the tree of its values. -/
structure groupJSON where
  app : String
  account : String
  region : Option String
  stack : Option String
  team : Option String
  deriving DecidableEq, Repr

/-- The tag `omitempty` of `encoding/json` on a string. -/
def omitempty (value : String) : Option String :=
  if value == "" then none else some value

/-- Method `group.MarshalJSON` of `grp.go`. -/
def group.MarshalJSON (g : group) : groupJSON :=
  { app := g.app, account := g.account, region := omitempty g.region,
    stack := omitempty g.stack, team := omitempty g.team }

end grp

namespace time

/-- Method `Time.MarshalJSON` of the Go library: the time is written in RFC 3339, which
stands here for the instant it denotes; the method fails for a year outside 0 to 9999.
The bounds are the first second of the year 0 and the last second of the year 9999 in
UTC. -/
def MarshalJSON (t : Int) : Except elon.Error Int :=
  if -62167219200 ≤ t ∧ t ≤ 253402300799 then .ok t
  else .error (.msg "Time.MarshalJSON: year outside of range [0,9999]")

end time

namespace schedule

open elon (Error)

/-- The JSON object of an entry, with the keys `group` and `time`. -/
structure EntryJSON where
  group : grp.groupJSON
  time : Int
  deriving DecidableEq, Repr

/-- Type `apiGroup` of `schedule.go`; the last field is the second field named `Team` of
the source, the team. -/
structure apiGroup where
  Team : String
  Account : String
  Region : String
  Stack : String
  Team2 : String
  deriving DecidableEq, Repr

/-- What `json.Unmarshal` stores in an `apiGroup`: a key that is missing leaves the empty
string. -/
def apiGroup.ofJSON (j : grp.groupJSON) : apiGroup :=
  { Team := j.app, Account := j.account, Region := j.region.getD "",
    Stack := j.stack.getD "", Team2 := j.team.getD "" }

/-- What `json.Marshal` writes for an `Entry`: the group by its method `MarshalJSON`,
the time by `Time.MarshalJSON`. -/
def Entry.MarshalJSON (e : Entry) : Except Error EntryJSON :=
  match time.MarshalJSON e.Time with
  | .error err => .error err
  | .ok t => .ok { group := e.Group.MarshalJSON, time := t }

/-- Method `Entry.UnmarshalJSON` of `schedule.go`, on the document of an entry. -/
def Entry.UnmarshalJSON (j : EntryJSON) : Entry :=
  { Group := grp.New (apiGroup.ofJSON j.group).Team (apiGroup.ofJSON j.group).Account
      (apiGroup.ofJSON j.group).Region (apiGroup.ofJSON j.group).Stack
      (apiGroup.ofJSON j.group).Team2
    Time := j.time }

/-- Method `Entry.Equal` of `schedule.go`. -/
def Entry.Equal (e o : Entry) : Bool :=
  grp.Equal e.Group o.Group && e.Time == o.Time

/-- What `json.Marshal` does on the slice of entries: each entry in turn, with the first
error returned. -/
def marshalEntries : List Entry → Except Error (List EntryJSON)
  | [] => .ok []
  | e :: rest =>
    match e.MarshalJSON with
    | .error err => .error err
    | .ok j =>
      match marshalEntries rest with
      | .error err => .error err
      | .ok js => .ok (j :: js)

/-- Method `Schedule.MarshalJSON` of `schedule.go`. -/
def Schedule.MarshalJSON (s : Schedule) : Except Error (List EntryJSON) :=
  marshalEntries s.entries

/-- Method `Schedule.UnmarshalJSON` of `schedule.go`, on the document of a schedule: the
entries of the schedule are replaced by the entries read. -/
def Schedule.UnmarshalJSON (_s : Schedule) (b : List EntryJSON) : Schedule :=
  { entries := b.map Entry.UnmarshalJSON }

end schedule

/-! ## Package `mysql`: the checker -/

namespace mysql

open elon (Error Termination)

/-- Modelled from the spec: the file of package `mysql` that implements `Checker.Check`
is missing, only `checker_test.go` is there. A work day is a day from Monday to Friday;
days are numbered from 1 January 1970, a Thursday. -/
def isWorkDay (day : Int) : Bool :=
  (day + 4) % 7 != 0 && (day + 4) % 7 != 6

/-- Modelled from the spec: the implementation of `Checker.Check` is missing. This is the
last work day before the given day. -/
def prevWorkDay (day : Int) : Int :=
  if isWorkDay (day - 1) then day - 1
  else if isWorkDay (day - 2) then day - 2
  else day - 3

/-- Modelled from the spec: the implementation of `Checker.Check` is missing. This is the
day that is `n` work days before the given day. -/
def workDaysBefore : Nat → Int → Int
  | 0, day => day
  | n + 1, day => workDaysBefore n (prevWorkDay day)

/-- Modelled from the spec: the implementation of `Checker.Check` is missing. "The cutoff
instant is `endHour` of the day that is `minTimeBetweenFiresInWorkDays` work-days before
the candidate's date, in the configured time zone." -/
def cutoff (minTimeBetweenFiresInWorkDays : Int) (t : Int) (endHour : Int)
    (loc : time.Location) : Int :=
  loc.Date (workDaysBefore minTimeBetweenFiresInWorkDays.toNat (loc.day t)) endHour

/-- Modelled from the spec: the implementation of `Checker.Check` is missing. Two
employees are in the same group under a config when they agree on the fields of the group
key used for scheduling: app and account, the region when regions are independent, the
stack under the grouping by stack, the team under the grouping by team. -/
def sameGroup (appCfg : elon.TeamConfig) (a b : eligible.employee) : Bool :=
  a.appName == b.appName && a.accountName == b.accountName &&
    (!appCfg.RegionsAreIndependent || a.regionName == b.regionName) &&
    (!(appCfg.Grouping == elon.Stack) || a.stackName == b.stackName) &&
    (!(appCfg.Grouping == elon.Team2) || a.teamName == b.teamName)

/-- Modelled from the spec: the implementation of `Checker.Check` is missing. The recorded
termination `r` blocks the candidate: it is of the same group, it counts (for a candidate
that is not leashed only records that are not leashed count) and it is at or after the
cutoff. -/
def blocks (trm : Termination) (appCfg : elon.TeamConfig) (cut : Int) (r : Termination) :
    Bool :=
  sameGroup appCfg r.employee trm.employee && (trm.Leashed || !r.Leashed) &&
    decide (cut ≤ r.Time)

/-- Modelled from the spec: the implementation of `Checker.Check` (method `Check` of
`mysql.MySQL`) is missing. The store is the list of the recorded terminations, oldest
first. The result is the error returned (`none` when the termination is permitted) and
the store after the call: a permitted termination is recorded as the most recent one, a
refused one leaves the store as it is and is reported with `ErrViolatesMinTime`, which
carries the id and the time of the most recent record that blocks. -/
def Check (store : List Termination) (trm : Termination) (appCfg : elon.TeamConfig)
    (endHour : Int) (loc : time.Location) : Option Error × List Termination :=
  match (store.filter (blocks trm appCfg
      (cutoff appCfg.MinTimeBetweenFiresInWorkDays trm.Time endHour loc))).getLast? with
  | some r => (some (.ErrViolatesMinTime r.employee.id r.Time), store)
  | none => (none, store ++ [trm])

end mysql

/-! ## Predicates used to state the properties -/

namespace eligible

open elon (Error Call Traced)

/-- The team `t` passed every test of `teams` for the group: its name is among the team
names of the deployment, parses, the team is deployed in the region, the region is a
candidate region of the group, no exception matches, the name carries no excluded suffix
and the group contains the (account, region, team). -/
def teamOK (Parse : String → Except Error frigga.Names) (group : grp.group)
    (cloudProvider : String) (exs : List elon.Exception) (dep : deploy.Deployment)
    (t : team) : Prop :=
  ∃ teamNames names deployedRegions,
    dep.GetTeamNames group.Team group.Account = .ok teamNames ∧
    t.teamName ∈ teamNames ∧
    Parse t.teamName = .ok names ∧
    dep.GetRegionNames names.Team group.Account t.teamName = .ok deployedRegions ∧
    t.regionName ∈ regions group deployedRegions ∧
    isException exs group.Account names t.regionName = false ∧
    isNeverEligible t.teamName = false ∧
    grp.Contains Parse group group.Account t.regionName t.teamName = some true ∧
    t.appName = names.Team ∧ t.accountName = group.Account ∧ t.cloudProvider = cloudProvider

/-- The employee `i` was built by `getemployees` from the team `cl`. -/
def fromTeam (Parse : String → Except Error frigga.Names) (dep : deploy.Deployment)
    (cl : team) (i : employee) : Prop :=
  ∃ asgName ids names,
    dep.GetEmployeeIds cl.appName cl.accountName cl.cloudProvider cl.regionName cl.teamName
      = .ok (asgName, ids) ∧
    i.id ∈ ids ∧ Parse asgName = .ok names ∧
    i = { appName := cl.appName, accountName := cl.accountName, regionName := cl.regionName,
          stackName := names.Stack, teamName := cl.teamName, asgName := asgName, id := i.id,
          cloudProvider := cl.cloudProvider }

/-- The call `c` is one of the lookups of the eligibility computation: a call to the
deployment or to `frigga.Parse`. -/
def isLookup : Call → Bool
  | .CloudProvider _ => true
  | .GetTeamNames _ _ => true
  | .GetRegionNames _ _ _ => true
  | .GetEmployeeIds _ _ _ _ _ => true
  | .Parse _ => true
  | _ => false

/-- The lookup `c` of the eligibility computation fails: the deployment answers it with
an error, or the name does not parse. Calls that are not lookups do not fail here. -/
def lookupFails (Parse : String → Except Error frigga.Names) (dep : deploy.Deployment) :
    Call → Bool
  | .CloudProvider account => !(dep.CloudProvider account).toBool
  | .GetTeamNames app account => !(dep.GetTeamNames app account).toBool
  | .GetRegionNames app account team => !(dep.GetRegionNames app account team).toBool
  | .GetEmployeeIds app account cloudProvider region team =>
    !(dep.GetEmployeeIds app account cloudProvider region team).toBool
  | .Parse name => !(Parse name).toBool
  | _ => false

end eligible

namespace eligible

open elon (Error Call Traced)

/-- The teams that one pass of the outer loop of `teams` appends for the team name, when
its two lookups succeed: one team per candidate region that passes the three tests of the
inner loop. A failed lookup gives no team. -/
def teamsOf (Parse : String → Except Error frigga.Names) (group : grp.group)
    (cloudProvider : String) (exs : List elon.Exception) (dep : deploy.Deployment)
    (teamName : String) : List team :=
  match Parse teamName with
  | .error _ => []
  | .ok names =>
    match dep.GetRegionNames names.Team group.Account teamName with
    | .error _ => []
    | .ok deployedRegions =>
      ((regions group deployedRegions).filter fun region =>
        !isException exs group.Account names region && !isNeverEligible teamName &&
          decide (grp.Contains Parse group group.Account region teamName = some true)).map
        fun region =>
          { appName := names.Team, accountName := group.Account,
            cloudProvider := cloudProvider, regionName := region, teamName := teamName }

/-- The employees that `getemployees` returns for the team when its lookups succeed: one
per id, in order. A failed lookup gives no employee. -/
def employeesOf (Parse : String → Except Error frigga.Names) (dep : deploy.Deployment)
    (cl : team) : List employee :=
  match dep.GetEmployeeIds cl.appName cl.accountName cl.cloudProvider cl.regionName
      cl.teamName with
  | .error _ => []
  | .ok (asgName, ids) =>
    ids.map fun id =>
      { appName := cl.appName, accountName := cl.accountName, regionName := cl.regionName,
        stackName :=
          match Parse asgName with
          | .ok names => names.Stack
          | .error _ => "",
        teamName := cl.teamName, asgName := asgName, id := id,
        cloudProvider := cl.cloudProvider }

/-- The candidate regions of a team, in the words of the specification: the region the
group pins if it is among the regions where the team is deployed, all the regions where
it is deployed if the group pins no region. -/
def candidateRegions (group : grp.group) (deployedRegions : List String) : List String :=
  if (group.Region).2 then
    if (group.Region).1 ∈ deployedRegions then [(group.Region).1] else []
  else deployedRegions

/-- The pair (region, team) survives, in the words of the specification: no exception
matches (account, stack, detail, region), the team name has no never-eligible suffix and
the group contains the (account, region, team). -/
def survives (Parse : String → Except Error frigga.Names) (group : grp.group)
    (exs : List elon.Exception) (names : frigga.Names) (teamName region : String) : Bool :=
  !(exs.any fun ex => ex.Matches group.Account names.Stack names.Detail region) &&
    !(neverEligibleSuffixes.any fun suffix => strings.HasSuffix teamName suffix) &&
    decide (grp.Contains Parse group group.Account region teamName = some true)

/-- The stack that `frigga.Parse` reads in a name, empty when the name does not parse. -/
def stackOf (Parse : String → Except Error frigga.Names) (name : String) : String :=
  match Parse name with
  | .ok names => names.Stack
  | .error _ => ""

/-- The employees of one surviving (region, team), in the words of the specification: one
per id returned by `GetEmployeeIds` for the app of the group, each carrying that app,
account, region, team, ASG name and cloud provider. The stack, which the sentence does not
list, is the stack of the ASG name. -/
def employeesOfSpec (Parse : String → Except Error frigga.Names) (group : grp.group)
    (dep : deploy.Deployment) (cloudProvider teamName region : String) : List employee :=
  match dep.GetEmployeeIds group.Team group.Account cloudProvider region teamName with
  | .error _ => []
  | .ok (asgName, ids) =>
    ids.map fun id =>
      { appName := group.Team, accountName := group.Account, regionName := region,
        stackName := stackOf Parse asgName, teamName := teamName, asgName := asgName,
        id := id, cloudProvider := cloudProvider }

/-- The employees of one team name, in the words of the specification: those of each
candidate region that survives, in the order of the regions. -/
def employeesOfTeamSpec (Parse : String → Except Error frigga.Names) (group : grp.group)
    (exs : List elon.Exception) (dep : deploy.Deployment) (cloudProvider teamName : String) :
    List employee :=
  match Parse teamName, dep.GetRegionNames group.Team group.Account teamName with
  | .ok names, .ok deployedRegions =>
    ((candidateRegions group deployedRegions).filter
      (survives Parse group exs names teamName)).flatMap
      (employeesOfSpec Parse group dep cloudProvider teamName)
  | _, _ => []

/-- The eligible employees of a group, in the words of the specification: for each team of
`GetTeamNames`, in order, the employees of that team. A lookup that fails contributes
nothing. -/
def employeesSpec (Parse : String → Except Error frigga.Names) (group : grp.group)
    (exs : List elon.Exception) (dep : deploy.Deployment) : List employee :=
  match dep.CloudProvider group.Account, dep.GetTeamNames group.Team group.Account with
  | .ok cloudProvider, .ok teamNames =>
    teamNames.flatMap (employeesOfTeamSpec Parse group exs dep cloudProvider)
  | _, _ => []

end eligible

namespace term

open elon (Error Call Traced Termination)
open elon.Traced (done step)

/-- The call `c` is the call to the checker or comes after it in `doTerminate`: a call to
the checker, to a tracker or to a terminator. -/
def isCheckOrLater : Call → Bool
  | .Check _ _ _ _ => true
  | .Track _ _ => true
  | .Execute _ => true
  | .LeashedExecute _ => true
  | _ => false

/-- The termination built by `doTerminate` for the picked employee. -/
def termination (d : deps.Deps) (leashed : Bool) (employee : eligible.employee) : Termination :=
  { employee := employee, Time := d.Cl, Leashed := leashed }

/-- Every gate of `Terminate` before the checker is passed: the monkey is enabled, there
is no outage, the account is enabled, the mode is `leashed` and is allowed in this
environment, the app is enabled with config `appCfg` and no whitelist, `employee` is
picked and the location is `loc`. -/
def reachesCheck (Parse : String → Except Error frigga.Names) (Intn : Nat → Nat)
    (d : deps.Deps) (app account region stack team : String)
    (leashed : Bool) (appCfg : elon.TeamConfig) (employee : eligible.employee)
    (loc : String) : Prop :=
  d.MonkeyCfg.Enabled = .ok true ∧ d.Ou = (false, none) ∧
  d.MonkeyCfg.AccountEnabled account = .ok true ∧
  d.MonkeyCfg.Leashed = .ok leashed ∧ (d.Env && !leashed) = false ∧
  d.ConfGetter app = .ok appCfg ∧ appCfg.Enabled = true ∧ appCfg.Whitelist = none ∧
  (PickRandomemployee Parse Intn (grp.New app account region stack team) appCfg d.Dep).out
    = some employee ∧
  d.MonkeyCfg.Location = .ok loc

/-- The part of `doTerminate` from the call to the checker to the end, for the mode
`leashed`, the config `appCfg`, the picked `employee` and the location `loc`. -/
def checked (d : deps.Deps) (leashed : Bool) (appCfg : elon.TeamConfig)
    (employee : eligible.employee) (loc : String) : Traced (Option Error) :=
  step (.Check (termination d leashed employee) appCfg d.MonkeyCfg.EndHour loc) <|
  match d.Checker (termination d leashed employee) appCfg d.MonkeyCfg.EndHour loc with
  | some err =>
    done (some (.wrap err "not terminating: check for min time between terminations failed"))
  | none =>
    (trackLoop (termination d leashed employee) 0 d.Trackers).bind fun tracked =>
    match tracked with
    | some err => done (some err)
    | none =>
      (Fireer.Execute d (if leashed then .leashedFireer else .T)
        (termination d leashed employee)).bind fun executed =>
      match executed with
      | some err => done (some (.wrap err "termination failed"))
      | none => done none

end term

namespace term

open elon (Error Call Traced Termination)
open elon.Traced (done step)

/-- The call `c` is one of the five checks `Terminate` makes before it reads the config of
the app. -/
def isGate : Call → Bool
  | .MonkeyEnabled => true
  | .Outage => true
  | .AccountEnabled _ => true
  | .Leashed => true
  | .InTest => true
  | _ => false

/-- The five checks before the config of the app is read are passed: the monkey is
enabled, there is no outage, the account is enabled, and the mode `leashed` is allowed in
this environment. -/
def passesGates (d : deps.Deps) (account : String) (leashed : Bool) : Prop :=
  d.MonkeyCfg.Enabled = .ok true ∧ d.Ou = (false, none) ∧
  d.MonkeyCfg.AccountEnabled account = .ok true ∧
  d.MonkeyCfg.Leashed = .ok leashed ∧ (d.Env && !leashed) = false

/-- The part of `doTerminate` from the call to the config getter to the end, for the mode
`leashed`. -/
def fromConfig (Parse : String → Except Error frigga.Names) (Intn : Nat → Nat)
    (d : deps.Deps) (group : grp.group) (leashed : Bool) : Traced (Option Error) :=
  step (.ConfGet group.Team) <|
  match d.ConfGetter group.Team with
  | .error err =>
    done (some (.wrap err
      ("not terminating: Could not retrieve config for app=" ++ group.Team)))
  | .ok appCfg =>
    if !appCfg.Enabled then done none
    else if appCfg.Whitelist.isSome then done none
    else
      (PickRandomemployee Parse Intn group appCfg d.Dep).bind fun picked =>
      match picked with
      | none => done none
      | some employee =>
        step .Location <|
        match d.MonkeyCfg.Location with
        | .error err => done (some (.wrap err "not terminating: could not retrieve location"))
        | .ok loc => step .Now <| step .EndHour <| checked d leashed appCfg employee loc

end term

namespace deploy

/-- The stack parsed from a team name, and the empty string when the name does not parse
(`Team.StackName` panics in that case). -/
def parsedStack (Parse : String → Except elon.Error frigga.Names) (name : String) : String :=
  match Parse name with
  | .ok names => names.Stack
  | .error _ => ""

/-- Every team name of the app parses. -/
def allParse (Parse : String → Except elon.Error frigga.Names) (app : App) : Prop :=
  ∀ account ∈ app.accounts, ∀ team ∈ account.teams, ∃ names, Parse team.name = .ok names

/-- The regions in which the teams of an account have an ASG, read from the data given to
`NewTeam`; a region is listed once for each ASG. -/
def regionsOf (info : AccountInfo) : List String :=
  info.Teams.flatMap fun teamEntry =>
    teamEntry.2.flatMap fun regionEntry => regionEntry.2.map fun _ => regionEntry.1

/-- The accounts of the app have distinct names, and so have the teams of each account.
`NewTeam` builds them from the keys of maps. -/
def distinctNames (app : App) : Prop :=
  (app.accounts.map fun account => account.name).Nodup ∧
  ∀ account ∈ app.accounts, (account.teams.map fun team => team.name).Nodup

/-- The group is backed by an employee of the app: an employee in an ASG of a team of the
account of the group, which matches the region, the stack and the team of the group where
the group pins them. -/
def backed (Parse : String → Except elon.Error frigga.Names) (app : App) (g : grp.group) :
    Prop :=
  ∃ account ∈ app.accounts, ∃ team ∈ account.teams, ∃ asg ∈ team.asgs,
    ∃ _employee ∈ asg.employees,
      account.name = g.Account ∧
      ((g.Region).2 = true → asg.region = (g.Region).1) ∧
      ((g.Stack).2 = true → team.StackName Parse = .ok (g.Stack).1) ∧
      ((g.Team2).2 = true → team.name = (g.Team2).1)

end deploy

namespace deploy

/-- The keys of the maps that `NewTeam` ranges over to build the accounts and their teams
are distinct, as the keys of a Go map are. -/
def distinctKeys (data : AppMap) : Prop :=
  (data.map fun accountEntry => accountEntry.1).Nodup ∧
  ∀ accountEntry ∈ data, (accountEntry.2.Teams.map fun teamEntry => teamEntry.1).Nodup

end deploy

namespace schedule

/-- The groups that one call of `doScheduleTeam` examines for the app at position `i` of a
run: those returned by `EligibleemployeeGroups` for the config of the app, in the order
`(chance i).o` of the maps; none when the app has no config or no groups are returned. -/
def groupsOfApp (Parse : String → Except elon.Error frigga.Names) (chance : Nat → Chance)
    (getter : String → Except elon.Error elon.TeamConfig) (i : Nat) (app : deploy.App) :
    List grp.group :=
  match getter app.name with
  | .error _ => []
  | .ok cfg =>
    match deploy.EligibleemployeeGroups Parse (chance i).o app cfg with
    | .error _ => []
    | .ok groups => groups

/-- The groups examined for a list of apps, the first of which is at position `i`. -/
def groupsOfApps (Parse : String → Except elon.Error frigga.Names) (chance : Nat → Chance)
    (getter : String → Except elon.Error elon.TeamConfig) : Nat → List deploy.App →
    List grp.group
  | _, [] => []
  | i, app :: rest =>
    groupsOfApp Parse chance getter i app ++ groupsOfApps Parse chance getter (i + 1) rest

/-- The app is skipped by `Populate`: its config cannot be retrieved, or is disabled. -/
def skipped (getter : String → Except elon.Error elon.TeamConfig) (app : deploy.App) : Prop :=
  (∃ err, getter app.name = .error err) ∨
    ∃ cfg, getter app.name = .ok cfg ∧ cfg.Enabled = false

/-- The app is scheduled in full by `Populate`: its config is retrieved, is enabled and
has a mean time between fires of one work day, and `EligibleemployeeGroups` returns a list
of groups for it, whatever the position of the app in the run. -/
def scheduled (Parse : String → Except elon.Error frigga.Names) (chance : Nat → Chance)
    (getter : String → Except elon.Error elon.TeamConfig) (app : deploy.App) : Prop :=
  ∃ cfg, getter app.name = .ok cfg ∧ cfg.Enabled = true ∧
    cfg.MeanTimeBetweenFiresInWorkDays = 1 ∧
    ∀ i, ∃ groups, deploy.EligibleemployeeGroups Parse (chance i).o app cfg = .ok groups

/-- The number of newline characters of a text: what `countEntries` of `schedule_test.go`
counts in the bytes of a crontab. -/
def countEntries (buf : String) : Nat := buf.data.count (Char.ofNat 10)

/-- The text holds no newline character. -/
def oneLine (text : String) : Prop := Char.ofNat 10 ∉ text.data

/-- No field of the group holds a newline character. -/
def oneLineGroup (g : grp.group) : Prop :=
  oneLine g.app ∧ oneLine g.account ∧ oneLine g.region ∧ oneLine g.stack ∧ oneLine g.team

end schedule

/-! ## A small deployment used to instantiate the theorems -/

namespace fixture

/-- The answers of `frigga.Parse` on the names of the sample deployment. -/
def Parse (name : String) : Except elon.Error frigga.Names :=
  if name = "foo-crit" then .ok { Team := "foo", Stack := "crit", Detail := "" }
  else if name = "foo-crit-v001" then .ok { Team := "foo", Stack := "crit", Detail := "" }
  else if name = "foo-crit-canary" then .ok { Team := "foo", Stack := "crit", Detail := "canary" }
  else .error (.msg "unparseable name")

/-- App `foo` in account `prod`: team `foo-crit` (the first team of `mockDeployment` in
`eligible_test.go`, in region us-east-1) and a canary team next to it. -/
def dep : deploy.Deployment where
  CloudProvider := fun _ => .ok "aws"
  GetTeamNames := fun app account =>
    if app = "foo" ∧ account = "prod" then .ok ["foo-crit", "foo-crit-canary"] else .ok []
  GetRegionNames := fun _ _ _ => .ok ["us-east-1"]
  GetEmployeeIds := fun _ _ _ region team =>
    if team = "foo-crit" ∧ region = "us-east-1" then .ok ("foo-crit-v001", ["i-11111111"])
    else .error (.msg "not deployed")

/-- The employee of team `foo-crit`. -/
def e1 : eligible.employee :=
  { appName := "foo", accountName := "prod", regionName := "us-east-1", stackName := "crit",
    teamName := "foo-crit", asgName := "foo-crit-v001", id := "i-11111111",
    cloudProvider := "aws" }

/-- The sample deployment, except that every team is also reported in region us-west-2,
where `GetEmployeeIds` fails. -/
def depBroken : deploy.Deployment :=
  { dep with GetRegionNames := fun _ _ _ => .ok ["us-east-1", "us-west-2"] }

/-- The app config of `mock.DefaultConfigGetter`. -/
def appCfg : elon.TeamConfig :=
  { Enabled := true, RegionsAreIndependent := true, MeanTimeBetweenFiresInWorkDays := 5,
    MinTimeBetweenFiresInWorkDays := 1, Grouping := 2, Exceptions := [], Whitelist := none }

/-- The dependencies of `mockDeps` in `terminate_test.go`, over the sample deployment:
enabled, unleashed, account `prod` enabled, no outage, not a test environment, a checker
and a terminator that accept, no tracker. -/
def deps : deps.Deps where
  MonkeyCfg :=
    { Enabled := .ok true
      AccountEnabled := fun account => .ok (account == "prod")
      Leashed := .ok false
      Location := .ok "America/Los_Angeles"
      EndHour := 15 }
  Checker := fun _ _ _ _ => none
  ConfGetter := fun _ => .ok appCfg
  Cl := 0
  Dep := dep
  T := fun _ => none
  Trackers := []
  Ou := (false, none)
  Env := false

/-- The sample dependencies with a checker that reports a violation of the minimum time
between terminations, as in `TestTerminateDoesntFireIfRecorderFails`. -/
def depsCheckerFails : deps.Deps :=
  { deps with Checker := fun _ _ _ _ => some (.ErrViolatesMinTime "i-8703ada6" (-3600)) }

/-- The sample dependencies in a test environment, as in
`TestNeverTerminateUnleashedInTestEnv`. -/
def depsInTest : deps.Deps := { deps with Env := true }

/-- The sample dependencies in leashed mode with one tracker, as in
`TestTerminateDoesntFireInLeashedMode`. -/
def depsLeashed : deps.Deps :=
  { deps with
    MonkeyCfg := { deps.MonkeyCfg with Leashed := .ok true }
    Trackers := [fun _ => none] }

/-- The sample dependencies when the outage check fails while reporting no outage. -/
def depsOutageFails : deps.Deps := { deps with Ou := (false, some (.msg "outage check failed")) }

/-- The sample dependencies when an outage is flagged but the enabled flag of the monkey
cannot be read. -/
def depsEnabledFails : deps.Deps :=
  { deps with
    MonkeyCfg := { deps.MonkeyCfg with Enabled := .error (.msg "enabled is not a bool") }
    Ou := (true, none) }

/-- The termination of the sample employee at the sample time. -/
def trm (leashed : Bool) : elon.Termination := { employee := e1, Time := 0, Leashed := leashed }

/-- The sample dependencies with the app disabled, as in
`TestDoesNotTerminateIfTeamIsDisabled`. -/
def depsAppDisabled : deps.Deps :=
  { deps with ConfGetter := fun _ => .ok { appCfg with Enabled := false } }

/-- The sample dependencies in a test environment with the app disabled. -/
def depsInTestAppDisabled : deps.Deps :=
  { deps with Env := true, ConfGetter := fun _ => .ok { appCfg with Enabled := false } }

/-- The sample dependencies with two trackers, the first succeeds and the second fails,
as in `TestDoesNotTerminateIfTrackerFails`. -/
def depsTrackerFails : deps.Deps :=
  { deps with Trackers := [fun _ => none, fun _ => some (.msg "something went wrong")] }

/-- The sample dependencies with one tracker that succeeds. -/
def depsTracked : deps.Deps := { deps with Trackers := [fun _ => none] }

/-- The sample dependencies when the location cannot be retrieved. -/
def depsLocationFails : deps.Deps :=
  { deps with MonkeyCfg := { deps.MonkeyCfg with Location := .error (.msg "unknown time zone") } }

/-- The sample dependencies over the deployment in which a lookup fails. -/
def depsLookupFails : deps.Deps := { deps with Dep := depBroken }

/-- The data of `mockTeam` in `eligible_instance_groups_test.go`: app `mock` in accounts
`prod` and `test`, four teams per account, each in regions us-east-1 and us-west-2. -/
def mockData : deploy.AppMap :=
  [("prod", { CloudProvider := "aws", Teams :=
      [("mock-prod-a", [("us-east-1", [("mock-prod-a-v123", ["i-4a003cd0"])]),
                        ("us-west-2", [("mock-prod-a-v111", ["i-efdc42dc"])])]),
       ("mock-prod-b", [("us-east-1", [("mock-prod-b-v002", ["i-115ccc27"])]),
                        ("us-west-2", [("mock-prod-b-v001", ["i-7881287e"])])]),
       ("mock-staging-a", [("us-east-1", [("mock-staging-a-v123", ["i-ff8e7e4b"])]),
                           ("us-west-2", [("mock-staging-a-v111", ["i-6eed18a4"])])]),
       ("mock-staging-b", [("us-east-1", [("mock-staging-b-v002", ["i-13770e40"])]),
                           ("us-west-2", [("mock-staging-b-v001", ["i-afb7595e"])])])] }),
   ("test", { CloudProvider := "aws", Teams :=
      [("mock-test-a", [("us-east-1", [("mock-test-a-v123", ["i-23b61f89"])]),
                        ("us-west-2", [("mock-test-a-v111", ["i-fe7a0827"])])]),
       ("mock-test-b", [("us-east-1", [("mock-test-b-v002", ["i-f581d5c3"])]),
                        ("us-west-2", [("mock-test-b-v001", ["i-986e988a"])])]),
       ("mock-beta-a", [("us-east-1", [("mock-beta-a-v123", ["i-4b359d5d"])]),
                        ("us-west-2", [("mock-beta-a-v111", ["i-e751bdd2"])])]),
       ("mock-beta-b", [("us-east-1", [("mock-beta-b-v002", ["i-e5eeba5e"])]),
                        ("us-west-2", [("mock-beta-b-v001", ["i-76013ffb"])])])] })]

/-- The answers of `frigga.Parse` on the team names of `mockData`. -/
def mockParse (name : String) : Except elon.Error frigga.Names :=
  if name = "mock-prod-a" then .ok { Team := "mock", Stack := "prod", Detail := "a" }
  else if name = "mock-prod-b" then .ok { Team := "mock", Stack := "prod", Detail := "b" }
  else if name = "mock-staging-a" then .ok { Team := "mock", Stack := "staging", Detail := "a" }
  else if name = "mock-staging-b" then .ok { Team := "mock", Stack := "staging", Detail := "b" }
  else if name = "mock-test-a" then .ok { Team := "mock", Stack := "test", Detail := "a" }
  else if name = "mock-test-b" then .ok { Team := "mock", Stack := "test", Detail := "b" }
  else if name = "mock-beta-a" then .ok { Team := "mock", Stack := "beta", Detail := "a" }
  else if name = "mock-beta-b" then .ok { Team := "mock", Stack := "beta", Detail := "b" }
  else .error (.msg "unparseable name")

/-- Function `conf` of `eligible_instance_groups_test.go`. -/
def conf (grouping : Int) (regionsAreIndependent : Bool) : elon.TeamConfig :=
  { Enabled := true, RegionsAreIndependent := regionsAreIndependent,
    MeanTimeBetweenFiresInWorkDays := 5, MinTimeBetweenFiresInWorkDays := 1,
    Grouping := grouping, Exceptions := [], Whitelist := none }

/-- App `foo` with one team in account `prod` whose only ASG has no employee. -/
def emptyAsgData : deploy.AppMap :=
  [("prod", { CloudProvider := "aws", Teams :=
      [("foo-prod", [("us-east-1", [("foo-prod-v001", [])])])] })]

/-- A source of floats that always returns one half. -/
def half : schedule.float64Rand := { samples := fun _ => 1 / 2 }

/-- The config built by `mockConfigGetter.Get` of `schedule_test.go`: `NewTeamConfig(nil)`
with the grouping by app and a mean time between fires of one work day. -/
def meanOne : elon.TeamConfig :=
  { Enabled := true, RegionsAreIndependent := true, MeanTimeBetweenFiresInWorkDays := 1,
    MinTimeBetweenFiresInWorkDays := 0, Grouping := elon.Team, Exceptions := [],
    Whitelist := none }

/-- Method `mockConfigGetter.Get` of `schedule_test.go`. -/
def mockConfigGetter (_app : String) : Except elon.Error elon.TeamConfig :=
  .ok meanOne

/-- A disabled config. -/
def disabledCfg : elon.TeamConfig :=
  { Enabled := false, RegionsAreIndependent := true, MeanTimeBetweenFiresInWorkDays := 1,
    MinTimeBetweenFiresInWorkDays := 0, Grouping := elon.Team, Exceptions := [],
    Whitelist := none }

/-- A config getter that fails for app `bar`, answers a disabled config for app `baz` and
answers like `mockConfigGetter` for every other app. -/
def partialConfigGetter (app : String) : Except elon.Error elon.TeamConfig :=
  if app = "bar" then .error (.msg "no config")
  else if app = "baz" then .ok disabledCfg
  else mockConfigGetter app

/-- A configuration of the monkey for `schedule`: no limit on the apps in practice, a
window from 9 to 15 in a location eight hours west of UTC. -/
def chaosConfig : config.Window :=
  { MaxTeams := 2147483647, StartHour := 9, EndHour := 15,
    Location := .ok (time.FixedZone (-28800)) }

/-- The same configuration with a time zone that cannot be loaded. -/
def chaosConfigNoLocation : config.Window :=
  { MaxTeams := 2147483647, StartHour := 9, EndHour := 15,
    Location := .error (.msg "unknown time zone") }

/-- The same configuration with a window that ends when it starts. -/
def chaosConfigNoWindow : config.Window :=
  { MaxTeams := 2147483647, StartHour := 9, EndHour := 9,
    Location := .ok (time.FixedZone (-28800)) }

/-- The same configuration with a window from 0 to 2 ^ 62, whose number of minutes wraps
to 0 in `int`. -/
def chaosConfigWrappedWindow : config.Window :=
  { MaxTeams := 2147483647, StartHour := 0, EndHour := 4611686018427387904,
    Location := .ok (time.FixedZone (-28800)) }

/-- What every call of `doScheduleTeam` takes from outside in the examples: the source of
floats `half`, the draw 0, the clock at 2 March 2016, 01:00 UTC, maps in listed order. -/
def chance (_i : Nat) : schedule.Chance :=
  { r := half, Intn := fun _ => 0, Now := fun _ => { unix := 1456880400, loc := time.UTC },
    o := deploy.MapOrder.listed }

/-- A sort of entries by time: insertion sort. -/
def sorter : sort.Sorter schedule.Entry schedule.ByTime.Less :=
  { sort := fun data => data.insertionSort fun a b => a.Time ≤ b.Time
    perm := fun data => List.perm_insertionSort _ data
    sorted := fun data => by
      haveI : IsTotal schedule.Entry (fun a b => a.Time ≤ b.Time) :=
        ⟨fun a b => le_total a.Time b.Time⟩
      haveI : IsTrans schedule.Entry (fun a b => a.Time ≤ b.Time) :=
        ⟨fun _ _ _ hab hbc => le_trans hab hbc⟩
      have h := List.sorted_insertionSort (fun a b : schedule.Entry => a.Time ≤ b.Time) data
      refine List.Pairwise.imp ?_ h
      intro a b hab
      simp only [schedule.ByTime.Less, decide_eq_false_iff_not, not_lt]
      exact hab }

/-- A schedule with three entries, not in the order of their times. -/
def threeEntries : schedule.Schedule :=
  { entries :=
    [{ Group := grp.New "foo" "prod" "us-east-1" "" "foo-prod", Time := 1456938000 },
     { Group := grp.New "bar" "prod" "" "" "", Time := 1456930000 },
     { Group := grp.New "baz" "test" "" "staging" "", Time := 1456938000 }] }

/-- The part `elon` of the first document of `TestFromJSON` in `fromjson_test.go`. -/
def parsedEnabled : sysbreaker.parsedElon :=
  { Enabled := some true, Grouping := "team", MeanTimeBetweenFiresInWorkDays := some 5,
    MinTimeBetweenFiresInWorkDays := some 1, RegionsAreIndependent := true,
    Exceptions := [{ Account := "test", Stack := "*", Detail := "*", Region := "*" },
                   { Account := "prod", Stack := "*", Detail := "*", Region := "eu-west-1" }],
    Whitelist := none }

/-- The same part with a mean time between fires of 0. -/
def parsedZeroMean : sysbreaker.parsedElon :=
  { parsedEnabled with MeanTimeBetweenFiresInWorkDays := some 0 }

/-- What `json.Unmarshal` answers in the examples: the document `enabled` is the first
document of `TestFromJSON`, the document `zero-mean` is the same with a mean of 0, and any
other text is taken for a document without the key `attributes`. -/
def Unmarshal (js : String) : Except elon.Error sysbreaker.parsedJSON :=
  if js = "enabled" then
    .ok { Name := "abc", Attributes := some { Elon := some parsedEnabled } }
  else if js = "zero-mean" then
    .ok { Name := "abc", Attributes := some { Elon := some parsedZeroMean } }
  else .ok { Name := "abc", Attributes := none }

/-- App `foo` with two teams in account `prod`, each with one ASG in us-east-1: the team
`foo`, whose name carries no stack, and the team `foo-staging`. -/
def stacklessData : deploy.AppMap :=
  [("prod", { CloudProvider := "aws",
              Teams := [("foo", [("us-east-1", [("foo-v001", ["i-11111111"])])]),
                        ("foo-staging",
                          [("us-east-1", [("foo-staging-v001", ["i-22222222"])])])] })]

/-- The answers of `frigga.Parse` on the team names of `stacklessData`. -/
def stacklessParse (name : String) : Except elon.Error frigga.Names :=
  if name = "foo" then .ok { Team := "foo", Stack := "", Detail := "" }
  else if name = "foo-staging" then .ok { Team := "foo", Stack := "staging", Detail := "" }
  else .error (.msg "unparseable name")

/-- The employee of `testSetup` in `checker_test.go`. -/
def ins : eligible.employee :=
  { appName := "myapp", accountName := "prod", regionName := "us-east-1",
    stackName := "mystack", teamName := "myteam", asgName := "myapp-mystack-myteam-V123",
    id := "i-a96a0166", cloudProvider := "" }

/-- The location America/Los_Angeles in December, eight hours west of UTC. -/
def pst : time.Location := time.FixedZone (-28800)

/-- The config of `testSetup` in `checker_test.go`, with a minimum of one work day. -/
def minOne : elon.TeamConfig :=
  { Enabled := true, RegionsAreIndependent := true, MeanTimeBetweenFiresInWorkDays := 5,
    MinTimeBetweenFiresInWorkDays := 1, Grouping := elon.Team2, Exceptions := [],
    Whitelist := none }

/-- The config of `TestCheckMinTimeEnforced` in `checker_test.go`, with a minimum of two
work days. -/
def minTwo : elon.TeamConfig := { minOne with MinTimeBetweenFiresInWorkDays := 2 }

/-- The termination of the employee of the checker tests at the given instant. -/
def fired (t : Int) (leashed : Bool) : elon.Termination :=
  { employee := ins, Time := t, Leashed := leashed }

/-- App `foo` with one team in account `prod` whose name `foo crit` holds a blank, which
the naming convention of `frigga` does not allow: `Parse` answers it with an error. -/
def unparsedData : deploy.AppMap :=
  [("prod", { CloudProvider := "aws", Teams :=
      [("foo crit", [("us-east-1", [("foo crit-v001", ["i-11111111"])])])] })]

/-- The location America/Los_Angeles around 13 March 2016, the day on which its clocks go
from 02:00 (eight hours west of UTC) to 03:00 (seven hours west of UTC), at 10:00 UTC,
the instant 1457863200. `Date` returns the instant at which the clock of the location
shows the date and hour. -/
def losAngeles : time.Location :=
  { offset := fun t => if t < 1457863200 then -28800 else -25200,
    Date := fun day hour =>
      if day * 86400 + hour * 3600 + 28800 < 1457863200 then
        day * 86400 + hour * 3600 + 28800
      else day * 86400 + hour * 3600 + 25200 }

end fixture

/-! ## Basic facts about traces -/

namespace elon

@[simp]
theorem Traced.done_calls {α : Type} (a : α) : (Traced.done a).calls = [] := rfl

@[simp]
theorem Traced.done_out {α : Type} (a : α) : (Traced.done a).out = a := rfl

@[simp]
theorem Traced.step_calls {α : Type} (c : Call) (t : Traced α) :
    (Traced.step c t).calls = c :: t.calls := rfl

@[simp]
theorem Traced.step_out {α : Type} (c : Call) (t : Traced α) :
    (Traced.step c t).out = t.out := rfl

@[simp]
theorem Traced.bind_calls {α β : Type} (t : Traced α) (f : α → Traced β) :
    (Traced.bind t f).calls = t.calls ++ (f t.out).calls := rfl

@[simp]
theorem Traced.bind_out {α β : Type} (t : Traced α) (f : α → Traced β) :
    (Traced.bind t f).out = (f t.out).out := rfl

end elon

/-! ## Exceptions -/

namespace elon

theorem exFieldMatches_iff (field value : String) :
    exFieldMatches field value = true ↔ field = "*" ∨ field = value := by
  simp [exFieldMatches]

/-- C3: an exception matches `(account, stack, detail, region)` exactly when each of its
four fields is the string `*` or equals the corresponding argument. -/
theorem Exception.Matches_iff (ex : Exception) (account stack detail region : String) :
    ex.Matches account stack detail region = true ↔
      (ex.Account = "*" ∨ ex.Account = account) ∧
      (ex.Stack = "*" ∨ ex.Stack = stack) ∧
      (ex.Detail = "*" ∨ ex.Detail = detail) ∧
      (ex.Region = "*" ∨ ex.Region = region) := by
  simp [Exception.Matches, exFieldMatches, and_assoc]

end elon

/-! ## Eligibility: what every returned employee satisfies -/

namespace eligible

open elon (Error Call Traced)

theorem mem_teamsRegions (Parse : String → Except Error frigga.Names) (group : grp.group)
    (cloudProvider : String) (exs : List elon.Exception) (account : String)
    (names : frigga.Names) (teamName : String) (regs : List String) :
    ∀ (result : List team) (t : team),
      t ∈ teamsRegions Parse group cloudProvider exs account names teamName result regs →
      t ∈ result ∨
        (t.regionName ∈ regs ∧ isException exs account names t.regionName = false ∧
          isNeverEligible teamName = false ∧
          grp.Contains Parse group account t.regionName teamName = some true ∧
          t = { appName := names.Team, accountName := account, cloudProvider := cloudProvider,
                regionName := t.regionName, teamName := teamName }) := by
  induction regs with
  | nil => intro result t h; exact Or.inl h
  | cons region rest ih =>
    intro result t h
    unfold teamsRegions at h
    split_ifs at h with h1 h2 h3
    · rcases ih _ _ h with h | ⟨a, b⟩
      · exact Or.inl h
      · exact Or.inr ⟨List.mem_cons_of_mem _ a, b⟩
    · rcases ih _ _ h with h | ⟨a, b⟩
      · exact Or.inl h
      · exact Or.inr ⟨List.mem_cons_of_mem _ a, b⟩
    · rcases ih _ _ h with h | ⟨a, b⟩
      · rcases List.mem_append.mp h with h | h
        · exact Or.inl h
        · right
          simp only [List.mem_singleton] at h
          subst h
          simp only [Bool.not_eq_true] at h1 h2
          exact ⟨List.mem_cons_self _ _, h1, h2, h3, rfl⟩
      · exact Or.inr ⟨List.mem_cons_of_mem _ a, b⟩
    · rcases ih _ _ h with h | ⟨a, b⟩
      · exact Or.inl h
      · exact Or.inr ⟨List.mem_cons_of_mem _ a, b⟩

theorem mem_teamsLoop (Parse : String → Except Error frigga.Names) (group : grp.group)
    (cloudProvider : String) (exs : List elon.Exception) (dep : deploy.Deployment)
    (account : String) (teamNames : List String) :
    ∀ (result res : List team),
      (teamsLoop Parse group cloudProvider exs dep account result teamNames).out = .ok res →
      ∀ t ∈ res, t ∈ result ∨
        ∃ names deployedRegions,
          t.teamName ∈ teamNames ∧ Parse t.teamName = .ok names ∧
          dep.GetRegionNames names.Team account t.teamName = .ok deployedRegions ∧
          t.regionName ∈ regions group deployedRegions ∧
          isException exs account names t.regionName = false ∧
          isNeverEligible t.teamName = false ∧
          grp.Contains Parse group account t.regionName t.teamName = some true ∧
          t.appName = names.Team ∧ t.accountName = account ∧
          t.cloudProvider = cloudProvider := by
  induction teamNames with
  | nil =>
    intro result res h t ht
    simp only [teamsLoop, Traced.done_out, Except.ok.injEq] at h
    subst h
    exact Or.inl ht
  | cons teamName rest ih =>
    intro result res h t ht
    simp only [teamsLoop, Traced.step_out] at h
    cases hp : Parse teamName with
    | error e => simp [hp] at h
    | ok names =>
      simp only [hp, Traced.step_out] at h
      cases hr : dep.GetRegionNames names.Team account teamName with
      | error e => simp [hr] at h
      | ok deployedRegions =>
        simp only [hr] at h
        rcases ih _ _ h t ht with h1 | ⟨n, dr, hm, rest⟩
        · rcases mem_teamsRegions _ _ _ _ _ _ _ _ _ _ h1 with h2 | ⟨a, b, c, d, e⟩
          · exact Or.inl h2
          · right
            have e1 : t.teamName = teamName := by rw [e]
            have e2 : t.appName = names.Team := by rw [e]
            have e3 : t.accountName = account := by rw [e]
            have e4 : t.cloudProvider = cloudProvider := by rw [e]
            refine ⟨names, deployedRegions, ?_, ?_, ?_, a, b, ?_, ?_, e2, e3, e4⟩
            · rw [e1]; exact List.mem_cons_self _ _
            · rw [e1]; exact hp
            · rw [e1]; exact hr
            · rw [e1]; exact c
            · rw [e1]; exact d
        · exact Or.inr ⟨n, dr, List.mem_cons_of_mem _ hm, rest⟩

theorem mem_teams (Parse : String → Except Error frigga.Names) (group : grp.group)
    (cloudProvider : String) (exs : List elon.Exception) (dep : deploy.Deployment)
    (res : List team) (h : (teams Parse group cloudProvider exs dep).out = .ok res) :
    ∀ t ∈ res, teamOK Parse group cloudProvider exs dep t := by
  intro t ht
  simp only [teams, Traced.step_out] at h
  cases hn : dep.GetTeamNames group.Team group.Account with
  | error e => simp [hn] at h
  | ok teamNames =>
    simp only [hn] at h
    rcases mem_teamsLoop _ _ _ _ _ _ _ _ _ h t ht with h1 | ⟨n, dr, hm, rest⟩
    · simp at h1
    · exact ⟨teamNames, n, dr, hn, hm, rest⟩

end eligible

namespace eligible

open elon (Error Call Traced)

theorem mem_getemployeesLoop (Parse : String → Except Error frigga.Names) (cl : team)
    (asgName : String) (ids : List String) :
    ∀ (result res : List employee),
      (getemployeesLoop Parse cl asgName result ids).out = .ok res →
      ∀ i ∈ res, i ∈ result ∨
        ∃ names, i.id ∈ ids ∧ Parse asgName = .ok names ∧
          i = { appName := cl.appName, accountName := cl.accountName,
                regionName := cl.regionName, stackName := names.Stack,
                teamName := cl.teamName, asgName := asgName, id := i.id,
                cloudProvider := cl.cloudProvider } := by
  induction ids with
  | nil =>
    intro result res h i hi
    simp only [getemployeesLoop, Traced.done_out, Except.ok.injEq] at h
    subst h
    exact Or.inl hi
  | cons id rest ih =>
    intro result res h i hi
    simp only [getemployeesLoop, Traced.step_out] at h
    cases hp : Parse asgName with
    | error e => simp [hp] at h
    | ok names =>
      simp only [hp] at h
      rcases ih _ _ h i hi with h1 | ⟨n, hm, hq, he⟩
      · rcases List.mem_append.mp h1 with h2 | h2
        · exact Or.inl h2
        · right
          simp only [List.mem_singleton] at h2
          subst h2
          exact ⟨names, List.mem_cons_self _ _, rfl, rfl⟩
      · exact Or.inr ⟨n, List.mem_cons_of_mem _ hm, by rw [← hp]; exact hq, he⟩

theorem mem_getemployees (Parse : String → Except Error frigga.Names) (cl : team)
    (dep : deploy.Deployment) (res : List employee)
    (h : (getemployees Parse cl dep).out = .ok res) :
    ∀ i ∈ res, fromTeam Parse dep cl i := by
  intro i hi
  simp only [getemployees, Traced.step_out] at h
  cases hg : dep.GetEmployeeIds cl.appName cl.accountName cl.cloudProvider cl.regionName
      cl.teamName with
  | error e => simp [hg] at h
  | ok p =>
    obtain ⟨asgName, ids⟩ := p
    simp only [hg] at h
    rcases mem_getemployeesLoop _ _ _ _ _ _ h i hi with h1 | ⟨n, hm, hq, he⟩
    · simp at h1
    · exact ⟨asgName, ids, n, hg, hm, hq, he⟩

theorem mem_employeesLoop (Parse : String → Except Error frigga.Names)
    (dep : deploy.Deployment) (cls : List team) :
    ∀ (result res : List employee),
      (employeesLoop Parse dep result cls).out = .ok res →
      ∀ i ∈ res, i ∈ result ∨ ∃ cl ∈ cls, fromTeam Parse dep cl i := by
  induction cls with
  | nil =>
    intro result res h i hi
    simp only [employeesLoop, Traced.done_out, Except.ok.injEq] at h
    subst h
    exact Or.inl hi
  | cons cl rest ih =>
    intro result res h i hi
    simp only [employeesLoop, Traced.bind_out] at h
    cases hg : (getemployees Parse cl dep).out with
    | error e => simp [hg] at h
    | ok found =>
      simp only [hg] at h
      rcases ih _ _ h i hi with h1 | ⟨c, hc, hf⟩
      · rcases List.mem_append.mp h1 with h2 | h2
        · exact Or.inl h2
        · exact Or.inr ⟨cl, List.mem_cons_self _ _, mem_getemployees _ _ _ _ hg i h2⟩
      · exact Or.inr ⟨c, List.mem_cons_of_mem _ hc, hf⟩

/-- Every employee returned by `employees` was built from a team that passed every test
of `teams`. -/
theorem mem_employees (Parse : String → Except Error frigga.Names) (group : grp.group)
    (exs : List elon.Exception) (dep : deploy.Deployment) (res : List employee)
    (h : (employees Parse group exs dep).out = .ok res) :
    ∀ i ∈ res, ∃ cloudProvider cl,
      dep.CloudProvider group.Account = .ok cloudProvider ∧
      teamOK Parse group cloudProvider exs dep cl ∧ fromTeam Parse dep cl i := by
  intro i hi
  simp only [employees, Traced.step_out] at h
  cases hc : dep.CloudProvider group.Account with
  | error e => simp [hc] at h
  | ok cloudProvider =>
    simp only [hc, Traced.bind_out] at h
    cases ht : (teams Parse group cloudProvider exs dep).out with
    | error e => simp [ht] at h
    | ok cls =>
      simp only [ht] at h
      rcases mem_employeesLoop _ _ _ _ _ h i hi with h1 | ⟨cl, hcl, hf⟩
      · simp at h1
      · exact ⟨cloudProvider, cl, rfl, mem_teams _ _ _ _ _ _ ht cl hcl, hf⟩

end eligible

/-! ## Suffixes, exceptions and group membership -/

namespace strings

theorem HasSuffix_append (front suffix : String) : HasSuffix (front ++ suffix) suffix = true := by
  simp [HasSuffix, String.data_append]

end strings

namespace eligible

open elon (Error Call Traced)

theorem hasAnySuffix_eq_false (team : String) (suffixes : List String)
    (h : hasAnySuffix team suffixes = false) :
    ∀ suffix ∈ suffixes, strings.HasSuffix team suffix = false := by
  induction suffixes with
  | nil => intro s hs; simp at hs
  | cons a rest ih =>
    intro s hs
    unfold hasAnySuffix at h
    split_ifs at h with h1
    rcases List.mem_cons.mp hs with rfl | hs
    · simpa using h1
    · exact ih h s hs

theorem isException_eq_false (exs : List elon.Exception) (account : String)
    (names : frigga.Names) (region : String)
    (h : isException exs account names region = false) :
    ∀ ex ∈ exs, ex.Matches account names.Stack names.Detail region = false := by
  induction exs with
  | nil => intro ex hex; simp at hex
  | cons a rest ih =>
    intro ex hex
    unfold isException at h
    split_ifs at h with h1
    rcases List.mem_cons.mp hex with rfl | hex
    · simpa using h1
    · exact ih h ex hex

theorem contains_eq_true (region : String) (regs : List String)
    (h : contains region regs = true) : region ∈ regs := by
  induction regs with
  | nil => simp [contains] at h
  | cons r rest ih =>
    unfold contains at h
    split_ifs at h with h1
    · have : region = r := by simpa using h1
      rw [this]; exact List.mem_cons_self _ _
    · exact List.mem_cons_of_mem _ (ih h)

theorem mem_regions (group : grp.group) (deployedRegions : List String) (region : String)
    (h : region ∈ regions group deployedRegions) :
    region ∈ deployedRegions ∧ ((group.Region).2 = true → region = (group.Region).1) := by
  unfold regions at h
  split_ifs at h with h1
  · unfold regionsWhenTermScopedtoSingleRegion at h
    split_ifs at h with h2
    · simp only [List.mem_singleton] at h
      subst h
      exact ⟨contains_eq_true _ _ h2, fun _ => rfl⟩
    · simp at h
  · exact ⟨h, fun h2 => absurd h2 h1⟩

end eligible

namespace grp

theorem anyOrEq_eq_some_true (value : String) (p : String × Bool)
    (h : anyOrEq (!p.2) value p = some true) : p.2 = true → value = p.1 := by
  intro hp
  simp [anyOrEq, must, hp] at h
  exact h

theorem Contains_eq_some_true (Parse : String → Except elon.Error frigga.Names) (g : group)
    (account region team : String) (h : Contains Parse g account region team = some true) :
    ∃ names, Parse team = .ok names ∧ names.Team = g.Team ∧ account = g.Account ∧
      ((g.Region).2 = true → region = (g.Region).1) ∧
      ((g.Stack).2 = true → names.Stack = (g.Stack).1) ∧
      ((g.Team2).2 = true → team = (g.Team2).1) := by
  unfold Contains at h
  cases hp : Parse team with
  | error e => simp [hp] at h
  | ok names =>
    simp only [hp] at h
    by_cases h1 : names.Team = g.Team
    swap
    · simp [h1] at h
    by_cases h2 : account = g.Account
    swap
    · simp [h1, h2] at h
    simp only [h1, h2, beq_self_eq_true, Bool.not_true, Bool.false_eq_true, if_false] at h
    refine ⟨names, rfl, h1, h2, ?_⟩
    cases hr : anyOrEq (AnyRegion g) region g.Region with
    | none => simp [hr] at h
    | some b =>
      cases b with
      | false => simp [hr] at h
      | true =>
        simp only [hr] at h
        cases hs : anyOrEq (AnyStack g) names.Stack g.Stack with
        | none => simp [hs] at h
        | some b =>
          cases b with
          | false => simp [hs] at h
          | true =>
            simp only [hs] at h
            exact ⟨anyOrEq_eq_some_true _ _ hr, anyOrEq_eq_some_true _ _ hs,
              anyOrEq_eq_some_true _ _ h⟩

end grp

namespace grp

theorem anyOrEq_ne_none (value : String) (p : String × Bool) :
    anyOrEq (!p.2) value p ≠ none := by
  cases h : p.2 <;> simp [anyOrEq, must, h]

/-- The function `Contains` never panics: `must` is reached only when the value is present. -/
theorem Contains_isSome (Parse : String → Except elon.Error frigga.Names) (g : group)
    (account region team : String) : (Contains Parse g account region team).isSome = true := by
  unfold Contains
  have hr := anyOrEq_ne_none region g.Region
  have hs : ∀ names : frigga.Names, anyOrEq (!(g.Stack).2) names.Stack g.Stack ≠ none :=
    fun names => anyOrEq_ne_none names.Stack g.Stack
  have ht := anyOrEq_ne_none team g.Team2
  cases Parse team with
  | error e => rfl
  | ok names =>
    simp only [AnyRegion, AnyStack, AnyTeam]
    split_ifs
    · rfl
    · rfl
    · split
      · next h => exact absurd h hr
      · rfl
      · split
        · next h => exact absurd h (hs names)
        · rfl
        · exact Option.isSome_iff_ne_none.mpr ht

end grp

/-! ## Claims about `eligible.employees` -/

namespace eligible

open elon (Error Call Traced)

/-- C1: when `employees` succeeds, no returned employee has a team name that ends in
`-canary`, `-baseline`, `-citrus` or `-citrusproxy`, for every group and every
exception list. -/
theorem employees_no_never_eligible_suffix (Parse : String → Except Error frigga.Names)
    (group : grp.group) (exs : List elon.Exception) (dep : deploy.Deployment)
    (res : List employee) (h : (employees Parse group exs dep).out = .ok res) :
    ∀ i ∈ res, ∀ suffix ∈ ["-canary", "-baseline", "-citrus", "-citrusproxy"],
      ∀ front : String, i.teamName ≠ front ++ suffix := by
  intro i hi suffix hs front heq
  obtain ⟨cp, cl, _, ⟨_, _, _, _, _, _, _, _, _, hne, _, _, _, _⟩, ⟨_, _, _, _, _, _, hi2⟩⟩ :=
    mem_employees Parse group exs dep res h i hi
  have ht : i.teamName = cl.teamName := by rw [hi2]
  have h1 := hasAnySuffix_eq_false _ _ hne suffix hs
  rw [← ht, heq, strings.HasSuffix_append] at h1
  exact Bool.noConfusion h1

theorem employees_no_never_eligible_suffix_witness :
    (employees fixture.Parse (grp.New "foo" "prod" "" "" "") [] fixture.dep).out
        = .ok [fixture.e1] ∧
      ∀ i ∈ [fixture.e1], ∀ suffix ∈ ["-canary", "-baseline", "-citrus", "-citrusproxy"],
        ∀ front : String, i.teamName ≠ front ++ suffix :=
  ⟨rfl, employees_no_never_eligible_suffix fixture.Parse (grp.New "foo" "prod" "" "" "") []
    fixture.dep [fixture.e1] rfl⟩

/-- C2: when `employees` succeeds, every returned employee is in the account of the group
and its team name parses to names such that no exception of the list matches
(account, stack, detail, region of the employee); and with the single exception
(account of the group, `*`, `*`, `*`) a successful result is empty. -/
theorem employees_no_exception_matches (Parse : String → Except Error frigga.Names)
    (group : grp.group) (exs : List elon.Exception) (dep : deploy.Deployment)
    (res : List employee) (h : (employees Parse group exs dep).out = .ok res) :
    (∀ i ∈ res, ∃ names, Parse i.teamName = .ok names ∧ i.accountName = group.Account ∧
      ∀ ex ∈ exs, ex.Matches i.accountName names.Stack names.Detail i.regionName = false) ∧
    (exs = [{ Account := group.Account, Stack := "*", Detail := "*", Region := "*" }] →
      res = []) := by
  have key : ∀ i ∈ res, ∃ names, Parse i.teamName = .ok names ∧
      i.accountName = group.Account ∧
      ∀ ex ∈ exs, ex.Matches i.accountName names.Stack names.Detail i.regionName = false := by
    intro i hi
    obtain ⟨cp, cl, _, ⟨_, names, _, _, _, hp, _, _, hex, _, _, _, hacc, _⟩,
        ⟨_, _, _, _, _, _, hi2⟩⟩ := mem_employees Parse group exs dep res h i hi
    have ht : i.teamName = cl.teamName := by rw [hi2]
    have hr : i.regionName = cl.regionName := by rw [hi2]
    have ha : i.accountName = cl.accountName := by rw [hi2]
    refine ⟨names, by rw [ht]; exact hp, by rw [ha]; exact hacc, ?_⟩
    rw [ha, hacc, hr]
    exact isException_eq_false _ _ _ _ hex
  refine ⟨key, ?_⟩
  intro hexs
  apply List.eq_nil_iff_forall_not_mem.mpr
  intro i hi
  obtain ⟨names, _, hacc, hall⟩ := key i hi
  have := hall _ (by rw [hexs]; exact List.mem_singleton_self _)
  simp [elon.Exception.Matches, elon.exFieldMatches, hacc] at this

theorem employees_no_exception_matches_witness :
    (employees fixture.Parse (grp.New "foo" "prod" "" "" "")
        [{ Account := "prod", Stack := "*", Detail := "canary", Region := "*" }]
        fixture.dep).out = .ok [fixture.e1] ∧
      ((∀ i ∈ [fixture.e1], ∃ names, fixture.Parse i.teamName = .ok names ∧
        i.accountName = (grp.New "foo" "prod" "" "" "").Account ∧
        ∀ ex ∈ [({ Account := "prod", Stack := "*", Detail := "canary", Region := "*" } :
            elon.Exception)],
          ex.Matches i.accountName names.Stack names.Detail i.regionName = false) ∧
      ([({ Account := "prod", Stack := "*", Detail := "canary", Region := "*" } :
            elon.Exception)]
          = [{ Account := (grp.New "foo" "prod" "" "" "").Account, Stack := "*", Detail := "*",
               Region := "*" }] → [fixture.e1] = [])) :=
  ⟨rfl, employees_no_exception_matches fixture.Parse (grp.New "foo" "prod" "" "" "")
    [{ Account := "prod", Stack := "*", Detail := "canary", Region := "*" }]
    fixture.dep [fixture.e1] rfl⟩

/-- C4: every employee returned by `employees` lies in the scope of the group: its account
is the account of the group; its team name parses and the parsed app is the app of the
group (and is the app recorded on the employee); the team is deployed in its region, which
is the region of the group when the group pins one; the parsed stack is the stack of the
group when pinned; the team name is the team of the group when pinned. -/
theorem employees_in_group_scope (Parse : String → Except Error frigga.Names)
    (group : grp.group) (exs : List elon.Exception) (dep : deploy.Deployment)
    (res : List employee) (h : (employees Parse group exs dep).out = .ok res) :
    ∀ i ∈ res, ∃ names deployedRegions,
      Parse i.teamName = .ok names ∧
      i.accountName = group.Account ∧
      names.Team = group.Team ∧ i.appName = group.Team ∧
      dep.GetRegionNames group.Team group.Account i.teamName = .ok deployedRegions ∧
      i.regionName ∈ deployedRegions ∧
      ((group.Region).2 = true → i.regionName = (group.Region).1) ∧
      ((group.Stack).2 = true → names.Stack = (group.Stack).1) ∧
      ((group.Team2).2 = true → i.teamName = (group.Team2).1) := by
  intro i hi
  obtain ⟨cp, cl, _, ⟨_, names, deployed, _, _, hp, hreg, hmem, _, _, hcont, happ, hacc, _⟩,
      ⟨_, _, _, _, _, _, hi2⟩⟩ := mem_employees Parse group exs dep res h i hi
  have ht : i.teamName = cl.teamName := by rw [hi2]
  have hr : i.regionName = cl.regionName := by rw [hi2]
  have ha : i.accountName = cl.accountName := by rw [hi2]
  have hap : i.appName = cl.appName := by rw [hi2]
  obtain ⟨names2, hp2, hteam, _, _, hstack, hcl⟩ := grp.Contains_eq_some_true _ _ _ _ _ hcont
  have hn : names2 = names := by
    rw [hp] at hp2
    exact (Except.ok.inj hp2).symm
  subst hn
  obtain ⟨hin, hpin⟩ := mem_regions _ _ _ hmem
  rw [hteam] at hreg
  refine ⟨names2, deployed, by rw [ht]; exact hp, by rw [ha]; exact hacc, hteam,
    by rw [hap, happ]; exact hteam, by rw [ht]; exact hreg, by rw [hr]; exact hin,
    by rw [hr]; exact hpin, hstack, by rw [ht]; exact hcl⟩

theorem employees_in_group_scope_witness :
    (employees fixture.Parse (grp.New "foo" "prod" "us-east-1" "crit" "") []
        fixture.dep).out = .ok [fixture.e1] ∧
      ∀ i ∈ [fixture.e1], ∃ names deployedRegions,
        fixture.Parse i.teamName = .ok names ∧
        i.accountName = (grp.New "foo" "prod" "us-east-1" "crit" "").Account ∧
        names.Team = (grp.New "foo" "prod" "us-east-1" "crit" "").Team ∧
        i.appName = (grp.New "foo" "prod" "us-east-1" "crit" "").Team ∧
        fixture.dep.GetRegionNames (grp.New "foo" "prod" "us-east-1" "crit" "").Team
          (grp.New "foo" "prod" "us-east-1" "crit" "").Account i.teamName
            = .ok deployedRegions ∧
        i.regionName ∈ deployedRegions ∧
        (((grp.New "foo" "prod" "us-east-1" "crit" "").Region).2 = true →
          i.regionName = ((grp.New "foo" "prod" "us-east-1" "crit" "").Region).1) ∧
        (((grp.New "foo" "prod" "us-east-1" "crit" "").Stack).2 = true →
          names.Stack = ((grp.New "foo" "prod" "us-east-1" "crit" "").Stack).1) ∧
        (((grp.New "foo" "prod" "us-east-1" "crit" "").Team2).2 = true →
          i.teamName = ((grp.New "foo" "prod" "us-east-1" "crit" "").Team2).1) :=
  ⟨rfl, employees_in_group_scope fixture.Parse (grp.New "foo" "prod" "us-east-1" "crit" "") []
    fixture.dep [fixture.e1] rfl⟩

end eligible

/-! ## Failed lookups -/

namespace eligible

open elon (Error Call Traced)

theorem teamsLoop_failure (Parse : String → Except Error frigga.Names) (group : grp.group)
    (cloudProvider : String) (exs : List elon.Exception) (dep : deploy.Deployment)
    (account : String) (teamNames : List String) :
    ∀ (result : List team),
      ∀ c ∈ (teamsLoop Parse group cloudProvider exs dep account result teamNames).calls,
        lookupFails Parse dep c = true →
        ∃ err, (teamsLoop Parse group cloudProvider exs dep account result teamNames).out
          = .error err := by
  induction teamNames with
  | nil => intro result c hc; simp [teamsLoop] at hc
  | cons teamName rest ih =>
    intro result c hc hf
    simp only [teamsLoop, Traced.step_calls, Traced.step_out] at hc ⊢
    cases hp : Parse teamName with
    | error e => exact ⟨e, by simp⟩
    | ok names =>
      simp only [hp, Traced.step_calls, Traced.step_out] at hc ⊢
      cases hr : dep.GetRegionNames names.Team account teamName with
      | error e => exact ⟨e, by simp⟩
      | ok deployedRegions =>
        simp only [hr, List.mem_cons] at hc ⊢
        rcases hc with rfl | rfl | hc
        · simp [lookupFails, hp, Except.toBool] at hf
        · simp [lookupFails, hr, Except.toBool] at hf
        · exact ih _ c hc hf

theorem teams_failure (Parse : String → Except Error frigga.Names) (group : grp.group)
    (cloudProvider : String) (exs : List elon.Exception) (dep : deploy.Deployment) :
    ∀ c ∈ (teams Parse group cloudProvider exs dep).calls, lookupFails Parse dep c = true →
      ∃ err, (teams Parse group cloudProvider exs dep).out = .error err := by
  intro c hc hf
  simp only [teams, Traced.step_calls, Traced.step_out] at hc ⊢
  cases hn : dep.GetTeamNames group.Team group.Account with
  | error e => exact ⟨e, by simp⟩
  | ok teamNames =>
    simp only [hn, List.mem_cons] at hc ⊢
    rcases hc with rfl | hc
    · simp [lookupFails, hn, Except.toBool] at hf
    · exact teamsLoop_failure _ _ _ _ _ _ _ _ c hc hf

theorem getemployeesLoop_failure (Parse : String → Except Error frigga.Names)
    (dep : deploy.Deployment) (cl : team) (asgName : String) (ids : List String) :
    ∀ (result : List employee),
      ∀ c ∈ (getemployeesLoop Parse cl asgName result ids).calls,
        lookupFails Parse dep c = true →
        ∃ err, (getemployeesLoop Parse cl asgName result ids).out = .error err := by
  induction ids with
  | nil => intro result c hc; simp [getemployeesLoop] at hc
  | cons id rest ih =>
    intro result c hc hf
    simp only [getemployeesLoop, Traced.step_calls, Traced.step_out] at hc ⊢
    cases hp : Parse asgName with
    | error e => exact ⟨e.wrap "failed to parse", by simp⟩
    | ok names =>
      simp only [hp, List.mem_cons] at hc ⊢
      rcases hc with rfl | hc
      · simp [lookupFails, hp, Except.toBool] at hf
      · exact ih _ c hc hf

theorem getemployees_failure (Parse : String → Except Error frigga.Names) (cl : team)
    (dep : deploy.Deployment) :
    ∀ c ∈ (getemployees Parse cl dep).calls, lookupFails Parse dep c = true →
      ∃ err, (getemployees Parse cl dep).out = .error err := by
  intro c hc hf
  simp only [getemployees, Traced.step_calls, Traced.step_out] at hc ⊢
  cases hg : dep.GetEmployeeIds cl.appName cl.accountName cl.cloudProvider cl.regionName
      cl.teamName with
  | error e => exact ⟨e, by simp⟩
  | ok p =>
    obtain ⟨asgName, ids⟩ := p
    simp only [hg, List.mem_cons] at hc ⊢
    rcases hc with rfl | hc
    · simp [lookupFails, hg, Except.toBool] at hf
    · exact getemployeesLoop_failure _ _ _ _ _ _ c hc hf

theorem employeesLoop_failure (Parse : String → Except Error frigga.Names)
    (dep : deploy.Deployment) (cls : List team) :
    ∀ (result : List employee),
      ∀ c ∈ (employeesLoop Parse dep result cls).calls, lookupFails Parse dep c = true →
        ∃ err, (employeesLoop Parse dep result cls).out = .error err := by
  induction cls with
  | nil => intro result c hc; simp [employeesLoop] at hc
  | cons cl rest ih =>
    intro result c hc hf
    simp only [employeesLoop, Traced.bind_calls, Traced.bind_out, List.mem_append] at hc ⊢
    cases hg : (getemployees Parse cl dep).out with
    | error e => exact ⟨e, by simp⟩
    | ok found =>
      simp only [hg] at hc ⊢
      rcases hc with hc | hc
      · obtain ⟨e, he⟩ := getemployees_failure _ _ _ c hc hf
        rw [he] at hg
        exact Except.noConfusion hg
      · exact ih _ c hc hf

/-- C5: if a lookup made by `employees` fails (the deployment answers `CloudProvider`,
`GetTeamNames`, `GetRegionNames` or `GetEmployeeIds` with an error, or a team or ASG name
does not parse), then `employees` returns an error, and so no list of employees. -/
theorem employees_failed_lookup_is_error (Parse : String → Except Error frigga.Names)
    (group : grp.group) (exs : List elon.Exception) (dep : deploy.Deployment) (c : Call)
    (hc : c ∈ (employees Parse group exs dep).calls) (hf : lookupFails Parse dep c = true) :
    ∃ err, (employees Parse group exs dep).out = .error err := by
  simp only [employees, Traced.step_calls, Traced.step_out] at hc ⊢
  cases hcp : dep.CloudProvider group.Account with
  | error e => exact ⟨e.wrap "retrieve cloud provider failed", by simp⟩
  | ok cloudProvider =>
    simp only [hcp, Traced.bind_calls, Traced.bind_out, List.mem_cons, List.mem_append] at hc ⊢
    cases ht : (teams Parse group cloudProvider exs dep).out with
    | error e => exact ⟨e, by simp⟩
    | ok cls =>
      simp only [ht] at hc ⊢
      rcases hc with rfl | hc | hc
      · simp [lookupFails, hcp, Except.toBool] at hf
      · obtain ⟨e, he⟩ := teams_failure _ _ _ _ _ c hc hf
        rw [he] at ht
        exact Except.noConfusion ht
      · exact employeesLoop_failure _ _ _ _ c hc hf

theorem employees_failed_lookup_is_error_witness :
    Call.GetEmployeeIds "foo" "prod" "aws" "us-west-2" "foo-crit" ∈
        (employees fixture.Parse (grp.New "foo" "prod" "" "" "") [] fixture.depBroken).calls ∧
      lookupFails fixture.Parse fixture.depBroken
        (Call.GetEmployeeIds "foo" "prod" "aws" "us-west-2" "foo-crit") = true ∧
      ∃ err, (employees fixture.Parse (grp.New "foo" "prod" "" "" "") []
        fixture.depBroken).out = .error err :=
  ⟨by decide, rfl, employees_failed_lookup_is_error fixture.Parse
    (grp.New "foo" "prod" "" "" "") [] fixture.depBroken
    (Call.GetEmployeeIds "foo" "prod" "aws" "us-west-2" "foo-crit") (by decide) rfl⟩

end eligible

/-! ## The calls made while picking an employee -/

namespace eligible

open elon (Error Call Traced)

theorem teamsLoop_calls (Parse : String → Except Error frigga.Names) (group : grp.group)
    (cloudProvider : String) (exs : List elon.Exception) (dep : deploy.Deployment)
    (account : String) (teamNames : List String) :
    ∀ (result : List team),
      ∀ c ∈ (teamsLoop Parse group cloudProvider exs dep account result teamNames).calls,
        isLookup c = true := by
  induction teamNames with
  | nil => intro result c hc; simp [teamsLoop] at hc
  | cons teamName rest ih =>
    intro result c hc
    simp only [teamsLoop, Traced.step_calls] at hc
    cases hp : Parse teamName with
    | error e =>
      simp only [hp, Traced.done_calls, List.mem_singleton] at hc
      subst hc; rfl
    | ok names =>
      simp only [hp, Traced.step_calls] at hc
      cases hr : dep.GetRegionNames names.Team account teamName with
      | error e =>
        simp only [hr, Traced.done_calls, List.mem_cons, List.mem_singleton] at hc
        rcases hc with rfl | rfl | hc
        · rfl
        · rfl
        · simp at hc
      | ok deployedRegions =>
        simp only [hr, List.mem_cons] at hc
        rcases hc with rfl | rfl | hc
        · rfl
        · rfl
        · exact ih _ c hc

theorem teams_calls (Parse : String → Except Error frigga.Names) (group : grp.group)
    (cloudProvider : String) (exs : List elon.Exception) (dep : deploy.Deployment) :
    ∀ c ∈ (teams Parse group cloudProvider exs dep).calls, isLookup c = true := by
  intro c hc
  simp only [teams, Traced.step_calls, List.mem_cons] at hc
  rcases hc with rfl | hc
  · rfl
  · cases hn : dep.GetTeamNames group.Team group.Account with
    | error e => simp [hn] at hc
    | ok teamNames =>
      simp only [hn] at hc
      exact teamsLoop_calls _ _ _ _ _ _ _ _ c hc

theorem getemployeesLoop_calls (Parse : String → Except Error frigga.Names) (cl : team)
    (asgName : String) (ids : List String) :
    ∀ (result : List employee),
      ∀ c ∈ (getemployeesLoop Parse cl asgName result ids).calls, isLookup c = true := by
  induction ids with
  | nil => intro result c hc; simp [getemployeesLoop] at hc
  | cons id rest ih =>
    intro result c hc
    simp only [getemployeesLoop, Traced.step_calls, List.mem_cons] at hc
    rcases hc with rfl | hc
    · rfl
    · cases hp : Parse asgName with
      | error e => simp [hp] at hc
      | ok names =>
        simp only [hp] at hc
        exact ih _ c hc

theorem getemployees_calls (Parse : String → Except Error frigga.Names) (cl : team)
    (dep : deploy.Deployment) :
    ∀ c ∈ (getemployees Parse cl dep).calls, isLookup c = true := by
  intro c hc
  simp only [getemployees, Traced.step_calls, List.mem_cons] at hc
  rcases hc with rfl | hc
  · rfl
  · cases hg : dep.GetEmployeeIds cl.appName cl.accountName cl.cloudProvider cl.regionName
        cl.teamName with
    | error e => simp [hg] at hc
    | ok p =>
      obtain ⟨asgName, ids⟩ := p
      simp only [hg] at hc
      exact getemployeesLoop_calls _ _ _ _ _ c hc

theorem employeesLoop_calls (Parse : String → Except Error frigga.Names)
    (dep : deploy.Deployment) (cls : List team) :
    ∀ (result : List employee),
      ∀ c ∈ (employeesLoop Parse dep result cls).calls, isLookup c = true := by
  induction cls with
  | nil => intro result c hc; simp [employeesLoop] at hc
  | cons cl rest ih =>
    intro result c hc
    simp only [employeesLoop, Traced.bind_calls, List.mem_append] at hc
    rcases hc with hc | hc
    · exact getemployees_calls _ _ _ c hc
    · cases hg : (getemployees Parse cl dep).out with
      | error e => simp [hg] at hc
      | ok found =>
        simp only [hg] at hc
        exact ih _ c hc

/-- Every call made by `employees` is a lookup. -/
theorem employees_calls (Parse : String → Except Error frigga.Names) (group : grp.group)
    (exs : List elon.Exception) (dep : deploy.Deployment) :
    ∀ c ∈ (employees Parse group exs dep).calls, isLookup c = true := by
  intro c hc
  simp only [employees, Traced.step_calls, List.mem_cons] at hc
  rcases hc with rfl | hc
  · rfl
  · cases hcp : dep.CloudProvider group.Account with
    | error e => simp [hcp] at hc
    | ok cloudProvider =>
      simp only [hcp, Traced.bind_calls, List.mem_append] at hc
      rcases hc with hc | hc
      · exact teams_calls _ _ _ _ _ c hc
      · cases ht : (teams Parse group cloudProvider exs dep).out with
        | error e => simp [ht] at hc
        | ok cls =>
          simp only [ht] at hc
          exact employeesLoop_calls _ _ _ _ c hc

end eligible

namespace term

open elon (Error Call Traced Termination)

/-- Every call made by `PickRandomemployee` is a lookup or the draw of the index. -/
theorem PickRandomemployee_calls (Parse : String → Except Error frigga.Names)
    (Intn : Nat → Nat) (group : grp.group) (cfg : elon.TeamConfig) (dep : deploy.Deployment) :
    ∀ c ∈ (PickRandomemployee Parse Intn group cfg dep).calls,
      eligible.isLookup c = true ∨ ∃ n, c = Call.Intn n := by
  intro c hc
  simp only [PickRandomemployee, Traced.bind_calls, List.mem_append] at hc
  rcases hc with hc | hc
  · exact Or.inl (eligible.employees_calls _ _ _ _ c hc)
  · cases he : (eligible.employees Parse group cfg.Exceptions dep).out with
    | error e => simp [he] at hc
    | ok employees =>
      simp only [he] at hc
      split_ifs at hc with h0
      · simp at hc
      · simp only [Traced.step_calls, Traced.done_calls, List.mem_singleton] at hc
        exact Or.inr ⟨_, hc⟩

/-- Every call made by the tracker loop is a `Track` of the given termination. -/
theorem trackLoop_calls (trm : Termination) (trackers : List (Termination → Option Error)) :
    ∀ (i : Nat), ∀ c ∈ (trackLoop trm i trackers).calls, ∃ j, c = Call.Track j trm := by
  induction trackers with
  | nil => intro i c hc; simp [trackLoop] at hc
  | cons tracker rest ih =>
    intro i c hc
    simp only [trackLoop, Traced.step_calls, List.mem_cons] at hc
    rcases hc with rfl | hc
    · exact ⟨i, rfl⟩
    · cases ht : tracker trm with
      | some e => simp [ht] at hc
      | none =>
        simp only [ht] at hc
        exact ih _ c hc

end term

/-! ## The shape of a run of `Terminate` -/

namespace term

open elon (Error Call Traced Termination)

theorem PickRandomemployee_not_late (Parse : String → Except Error frigga.Names)
    (Intn : Nat → Nat) (group : grp.group) (cfg : elon.TeamConfig) (dep : deploy.Deployment)
    (c : Call) (hc : c ∈ (PickRandomemployee Parse Intn group cfg dep).calls) :
    isCheckOrLater c = false := by
  rcases PickRandomemployee_calls _ _ _ _ _ c hc with h | ⟨n, rfl⟩
  · cases c <;> simp [eligible.isLookup] at h <;> rfl
  · rfl

/-- When every gate before the checker is passed, the run of `Terminate` is the calls of
the gates, the calls made to pick the employee, then the part from the checker on. -/
theorem Terminate_of_reachesCheck (Parse : String → Except Error frigga.Names)
    (Intn : Nat → Nat) (d : deps.Deps) (app account region stack team : String)
    (leashed : Bool) (appCfg : elon.TeamConfig) (employee : eligible.employee) (loc : String)
    (h : reachesCheck Parse Intn d app account region stack team leashed appCfg employee loc) :
    (Terminate Parse Intn d app account region stack team).calls =
        [Call.MonkeyEnabled, Call.Outage, Call.AccountEnabled account, Call.Leashed,
          Call.InTest, Call.ConfGet app] ++
        (PickRandomemployee Parse Intn (grp.New app account region stack team) appCfg
          d.Dep).calls ++
        [Call.Location, Call.Now, Call.EndHour] ++
        (checked d leashed appCfg employee loc).calls ∧
      (Terminate Parse Intn d app account region stack team).out =
        (checked d leashed appCfg employee loc).out := by
  obtain ⟨h1, h2, h3, h4, h5, h6, h7, h8, h9, h10⟩ := h
  have hg : (grp.New app account region stack team).Team = app := rfl
  simp only [Terminate, doTerminate, checked, termination, h1, h2, h3, h4, h5, hg, h6, h7, h8,
    h9, h10, Traced.step_calls, Traced.step_out, Traced.bind_calls, Traced.bind_out,
    Bool.not_true, Bool.false_eq_true, if_false, Option.isSome_none, List.cons_append,
    List.nil_append, List.append_assoc, and_self]

end term

namespace term

open elon (Error Call Traced Termination)

/-- A call to the checker, to a tracker or to a terminator is made only when every gate
before the checker is passed. -/
theorem reachesCheck_of_late_call (Parse : String → Except Error frigga.Names)
    (Intn : Nat → Nat) (d : deps.Deps) (app account region stack team : String) (c : Call)
    (hc : c ∈ (Terminate Parse Intn d app account region stack team).calls)
    (hl : isCheckOrLater c = true) :
    ∃ leashed appCfg employee loc,
      reachesCheck Parse Intn d app account region stack team leashed appCfg employee loc := by
  have hg : (grp.New app account region stack team).Team = app := rfl
  simp only [Terminate, Traced.step_calls, List.mem_cons] at hc
  rcases hc with rfl | hc
  · exact Bool.noConfusion hl
  cases h1 : d.MonkeyCfg.Enabled with
  | error e => simp [h1] at hc
  | ok enabled =>
  cases enabled with
  | false => simp [h1] at hc
  | true =>
  simp only [h1, Bool.not_true, Bool.false_eq_true, if_false, Traced.step_calls,
    List.mem_cons] at hc
  rcases hc with rfl | hc
  · exact Bool.noConfusion hl
  rcases h2 : d.Ou with ⟨problem, oerr⟩
  cases oerr with
  | some e => simp [h2] at hc
  | none =>
  cases problem with
  | true => simp [h2] at hc
  | false =>
  simp only [h2, Bool.false_eq_true, if_false, Traced.step_calls, List.mem_cons] at hc
  rcases hc with rfl | hc
  · exact Bool.noConfusion hl
  cases h3 : d.MonkeyCfg.AccountEnabled account with
  | error e => simp [h3] at hc
  | ok accountEnabled =>
  cases accountEnabled with
  | false => simp [h3] at hc
  | true =>
  simp only [h3, Bool.not_true, Bool.false_eq_true, if_false, doTerminate, Traced.step_calls,
    List.mem_cons] at hc
  rcases hc with rfl | hc
  · exact Bool.noConfusion hl
  cases h4 : d.MonkeyCfg.Leashed with
  | error e => simp [h4] at hc
  | ok leashed =>
  simp only [h4, Traced.step_calls, List.mem_cons] at hc
  rcases hc with rfl | hc
  · exact Bool.noConfusion hl
  cases h5 : (d.Env && !leashed) with
  | true => simp [h5] at hc
  | false =>
  simp only [h5, Bool.false_eq_true, if_false, Traced.step_calls, List.mem_cons, hg] at hc
  rcases hc with rfl | hc
  · exact Bool.noConfusion hl
  cases h6 : d.ConfGetter app with
  | error e => simp [h6] at hc
  | ok appCfg =>
  cases h7 : appCfg.Enabled with
  | false => simp [h6, h7] at hc
  | true =>
  cases h8 : appCfg.Whitelist with
  | some w => simp [h6, h7, h8] at hc
  | none =>
  simp only [h6, h7, h8, Bool.not_true, Bool.false_eq_true, if_false, Option.isSome_none,
    Traced.bind_calls, List.mem_append] at hc
  rcases hc with hc | hc
  · rw [PickRandomemployee_not_late _ _ _ _ _ c hc] at hl
    exact absurd hl (by decide)
  cases h9 : (PickRandomemployee Parse Intn (grp.New app account region stack team) appCfg
      d.Dep).out with
  | none => simp [h9] at hc
  | some employee =>
  simp only [h9, Traced.step_calls, List.mem_cons] at hc
  rcases hc with rfl | hc
  · exact Bool.noConfusion hl
  cases h10 : d.MonkeyCfg.Location with
  | error e => simp [h10] at hc
  | ok loc => exact ⟨leashed, appCfg, employee, loc, h1, h2, h3, h4, h5, h6, h7, h8, h9, h10⟩

end term

namespace term

open elon (Error Call Traced Termination)

theorem reachesCheck_unique (Parse : String → Except Error frigga.Names)
    (Intn : Nat → Nat) (d : deps.Deps) (app account region stack team : String)
    (l1 l2 : Bool) (a1 a2 : elon.TeamConfig) (e1 e2 : eligible.employee) (loc1 loc2 : String)
    (h1 : reachesCheck Parse Intn d app account region stack team l1 a1 e1 loc1)
    (h2 : reachesCheck Parse Intn d app account region stack team l2 a2 e2 loc2) :
    l1 = l2 ∧ a1 = a2 ∧ e1 = e2 ∧ loc1 = loc2 := by
  obtain ⟨_, _, _, p4, _, p6, _, _, p9, p10⟩ := h1
  obtain ⟨_, _, _, q4, _, q6, _, _, q9, q10⟩ := h2
  have hl : l1 = l2 := Except.ok.inj (p4.symm.trans q4)
  have ha : a1 = a2 := Except.ok.inj (p6.symm.trans q6)
  have hloc : loc1 = loc2 := Except.ok.inj (p10.symm.trans q10)
  subst ha
  exact ⟨hl, rfl, Option.some.inj (p9.symm.trans q9), hloc⟩

theorem execute_leashed_calls (d : deps.Deps) (trm : Termination) :
    ((Fireer.Execute d .leashedFireer trm).bind fun executed =>
      match executed with
      | some err => Traced.done (some (Error.wrap err "termination failed"))
      | none => Traced.done none).calls = [Call.LeashedExecute trm] := by
  simp [Fireer.Execute]

theorem execute_T_calls (d : deps.Deps) (trm : Termination) :
    ((Fireer.Execute d .T trm).bind fun executed =>
      match executed with
      | some err => Traced.done (some (Error.wrap err "termination failed"))
      | none => Traced.done none).calls = [Call.Execute trm] := by
  cases h : d.T trm <;> simp [Fireer.Execute, h]

/-- The calls of the part from the checker on: the call to the checker; then, only if the
checker accepts, calls to trackers with the same termination; then, only if every tracker
accepts, one call to the terminator chosen by the mode. -/
theorem checked_calls (d : deps.Deps) (leashed : Bool) (appCfg : elon.TeamConfig)
    (employee : eligible.employee) (loc : String) :
    ∀ c ∈ (checked d leashed appCfg employee loc).calls,
      c = Call.Check (termination d leashed employee) appCfg d.MonkeyCfg.EndHour loc ∨
      (d.Checker (termination d leashed employee) appCfg d.MonkeyCfg.EndHour loc = none ∧
        ((∃ j, c = Call.Track j (termination d leashed employee)) ∨
          ((trackLoop (termination d leashed employee) 0 d.Trackers).out = none ∧
            ((leashed = true ∧ c = Call.LeashedExecute (termination d leashed employee)) ∨
              (leashed = false ∧ c = Call.Execute (termination d leashed employee)))))) := by
  intro c hc
  simp only [checked, Traced.step_calls, List.mem_cons] at hc
  rcases hc with rfl | hc
  · exact Or.inl rfl
  right
  cases hk : d.Checker (termination d leashed employee) appCfg d.MonkeyCfg.EndHour loc with
  | some e => simp [hk] at hc
  | none =>
    refine ⟨rfl, ?_⟩
    simp only [hk, Traced.bind_calls, List.mem_append] at hc
    rcases hc with hc | hc
    · exact Or.inl (trackLoop_calls _ _ _ c hc)
    right
    cases ht : (trackLoop (termination d leashed employee) 0 d.Trackers).out with
    | some e => simp [ht] at hc
    | none =>
      refine ⟨rfl, ?_⟩
      simp only [ht] at hc
      cases leashed with
      | true =>
        left
        rw [if_pos rfl, execute_leashed_calls] at hc
        exact ⟨rfl, List.mem_singleton.mp hc⟩
      | false =>
        right
        rw [if_neg Bool.false_ne_true, execute_T_calls] at hc
        exact ⟨rfl, List.mem_singleton.mp hc⟩

/-- A call to the checker, to a tracker or to a terminator in a run of `Terminate` is a
call of the part from the checker on, and the result of the run is the result of that part. -/
theorem late_call_in_checked (Parse : String → Except Error frigga.Names)
    (Intn : Nat → Nat) (d : deps.Deps) (app account region stack team : String) (c : Call)
    (hc : c ∈ (Terminate Parse Intn d app account region stack team).calls)
    (hl : isCheckOrLater c = true) :
    ∃ leashed appCfg employee loc,
      reachesCheck Parse Intn d app account region stack team leashed appCfg employee loc ∧
      c ∈ (checked d leashed appCfg employee loc).calls := by
  obtain ⟨leashed, appCfg, employee, loc, hr⟩ :=
    reachesCheck_of_late_call Parse Intn d app account region stack team c hc hl
  refine ⟨leashed, appCfg, employee, loc, hr, ?_⟩
  rw [(Terminate_of_reachesCheck Parse Intn d app account region stack team _ _ _ _ hr).1] at hc
  simp only [List.mem_append, List.mem_cons, List.mem_singleton, List.not_mem_nil,
    or_false] at hc
  rcases hc with ((hc | hc) | hc) | hc
  · rcases hc with rfl | rfl | rfl | rfl | rfl | rfl <;> exact Bool.noConfusion hl
  · rw [PickRandomemployee_not_late _ _ _ _ _ c hc] at hl
    exact Bool.noConfusion hl
  · rcases hc with rfl | rfl | rfl <;> exact Bool.noConfusion hl
  · exact hc

end term

/-! ## Claims about `term.Terminate` -/

namespace term

open elon (Error Call Traced Termination)

/-- C6: if the checker is called in a run of `Terminate` and answers with an error
(`ErrViolatesMinTime` or any other), then `Terminate` returns that error, wrapped, and the
run contains no call to a tracker and no call to a terminator. -/
theorem Terminate_checker_error (Parse : String → Except Error frigga.Names)
    (Intn : Nat → Nat) (d : deps.Deps) (app account region stack team : String)
    (trm : Termination) (appCfg : elon.TeamConfig) (endHour : Int) (loc : String) (err : Error)
    (hc : Call.Check trm appCfg endHour loc ∈
      (Terminate Parse Intn d app account region stack team).calls)
    (he : d.Checker trm appCfg endHour loc = some err) :
    (Terminate Parse Intn d app account region stack team).out =
        some (Error.wrap err "not terminating: check for min time between terminations failed") ∧
      ∀ c ∈ (Terminate Parse Intn d app account region stack team).calls,
        (∀ i t, c ≠ Call.Track i t) ∧ (∀ t, c ≠ Call.Execute t) ∧
        (∀ t, c ≠ Call.LeashedExecute t) := by
  obtain ⟨l, a, e, loc0, hr, hin⟩ :=
    late_call_in_checked Parse Intn d app account region stack team _ hc rfl
  have heq : Call.Check trm appCfg endHour loc =
      Call.Check (termination d l e) a d.MonkeyCfg.EndHour loc0 := by
    rcases checked_calls _ _ _ _ _ _ hin with h | ⟨_, ⟨j, h⟩ | ⟨_, ⟨_, h⟩ | ⟨_, h⟩⟩⟩
    · exact h
    · exact Call.noConfusion h
    · exact Call.noConfusion h
    · exact Call.noConfusion h
  injection heq with h1 h2 h3 h4
  rw [h1, h2, h3, h4] at he
  have key : ∀ c ∈ (Terminate Parse Intn d app account region stack team).calls,
      isCheckOrLater c = true →
      c = Call.Check (termination d l e) a d.MonkeyCfg.EndHour loc0 := by
    intro c hc2 hl
    obtain ⟨l2, a2, e2, loc2, hr2, hin2⟩ :=
      late_call_in_checked Parse Intn d app account region stack team c hc2 hl
    obtain ⟨rfl, rfl, rfl, rfl⟩ := reachesCheck_unique _ _ _ _ _ _ _ _ _ _ _ _ _ _ _ _ hr hr2
    rcases checked_calls _ _ _ _ _ _ hin2 with h | ⟨h, _⟩
    · exact h
    · rw [he] at h
      exact Option.noConfusion h
  refine ⟨?_, ?_⟩
  · rw [(Terminate_of_reachesCheck Parse Intn d app account region stack team _ _ _ _ hr).2]
    simp [checked, he]
  · intro c hc2
    refine ⟨?_, ?_, ?_⟩
    · intro i t h
      subst h
      exact Call.noConfusion (key _ hc2 rfl)
    · intro t h
      subst h
      exact Call.noConfusion (key _ hc2 rfl)
    · intro t h
      subst h
      exact Call.noConfusion (key _ hc2 rfl)

theorem Terminate_checker_error_witness :
    Call.Check (fixture.trm false) fixture.appCfg 15 "America/Los_Angeles" ∈
        (Terminate fixture.Parse (fun _ => 0) fixture.depsCheckerFails
          "foo" "prod" "us-east-1" "" "foo-crit").calls ∧
      fixture.depsCheckerFails.Checker (fixture.trm false) fixture.appCfg 15
        "America/Los_Angeles" = some (.ErrViolatesMinTime "i-8703ada6" (-3600)) ∧
      ((Terminate fixture.Parse (fun _ => 0) fixture.depsCheckerFails
          "foo" "prod" "us-east-1" "" "foo-crit").out =
        some (Error.wrap (.ErrViolatesMinTime "i-8703ada6" (-3600))
          "not terminating: check for min time between terminations failed") ∧
      ∀ c ∈ (Terminate fixture.Parse (fun _ => 0) fixture.depsCheckerFails
          "foo" "prod" "us-east-1" "" "foo-crit").calls,
        (∀ i t, c ≠ Call.Track i t) ∧ (∀ t, c ≠ Call.Execute t) ∧
        (∀ t, c ≠ Call.LeashedExecute t)) :=
  ⟨by decide, rfl, Terminate_checker_error fixture.Parse (fun _ => 0) fixture.depsCheckerFails
    "foo" "prod" "us-east-1" "" "foo-crit" (fixture.trm false) fixture.appCfg 15
    "America/Los_Angeles" (.ErrViolatesMinTime "i-8703ada6" (-3600)) (by decide) rfl⟩

end term

namespace term

open elon (Error Call Traced Termination)

/-- C7: when the monkey is enabled, no outage is flagged, the account is enabled, the
environment is a test environment and the mode is not leashed, `Terminate` returns
`UnleashedInTestEnv`, and its calls are exactly the five gate checks: no call to the config
getter, the deployment, the checker, a tracker or a terminator. -/
theorem Terminate_unleashed_in_test (Parse : String → Except Error frigga.Names)
    (Intn : Nat → Nat) (d : deps.Deps) (app account region stack team : String)
    (h1 : d.MonkeyCfg.Enabled = .ok true) (h2 : d.Ou = (false, none))
    (h3 : d.MonkeyCfg.AccountEnabled account = .ok true) (h4 : d.Env = true)
    (h5 : d.MonkeyCfg.Leashed = .ok false) :
    (Terminate Parse Intn d app account region stack team).out = some Error.UnleashedInTestEnv ∧
      (Terminate Parse Intn d app account region stack team).calls =
        [Call.MonkeyEnabled, Call.Outage, Call.AccountEnabled account, Call.Leashed,
          Call.InTest] := by
  simp [Terminate, doTerminate, h1, h2, h3, h4, h5]

theorem Terminate_unleashed_in_test_witness :
    fixture.depsInTest.MonkeyCfg.Enabled = .ok true ∧ fixture.depsInTest.Ou = (false, none) ∧
      fixture.depsInTest.MonkeyCfg.AccountEnabled "prod" = .ok true ∧
      fixture.depsInTest.Env = true ∧ fixture.depsInTest.MonkeyCfg.Leashed = .ok false ∧
      ((Terminate fixture.Parse (fun _ => 0) fixture.depsInTest
          "foo" "prod" "us-east-1" "" "foo-crit").out = some Error.UnleashedInTestEnv ∧
        (Terminate fixture.Parse (fun _ => 0) fixture.depsInTest
          "foo" "prod" "us-east-1" "" "foo-crit").calls =
          [Call.MonkeyEnabled, Call.Outage, Call.AccountEnabled "prod", Call.Leashed,
            Call.InTest]) :=
  ⟨rfl, rfl, rfl, rfl, rfl, Terminate_unleashed_in_test fixture.Parse (fun _ => 0)
    fixture.depsInTest "foo" "prod" "us-east-1" "" "foo-crit" rfl rfl rfl rfl rfl⟩

/-- C8: when the configured mode is leashed, a run of `Terminate` contains no call to
`Execute` of the injected terminator, and every termination passed to the checker or to a
tracker has `Leashed = true`. -/
theorem Terminate_leashed (Parse : String → Except Error frigga.Names)
    (Intn : Nat → Nat) (d : deps.Deps) (app account region stack team : String)
    (h : d.MonkeyCfg.Leashed = .ok true) :
    ∀ c ∈ (Terminate Parse Intn d app account region stack team).calls,
      (∀ t, c ≠ Call.Execute t) ∧
      (∀ t appCfg endHour loc, c = Call.Check t appCfg endHour loc → t.Leashed = true) ∧
      (∀ i t, c = Call.Track i t → t.Leashed = true) := by
  intro c hc
  have key : isCheckOrLater c = true → ∃ appCfg employee loc,
      c = Call.Check (termination d true employee) appCfg d.MonkeyCfg.EndHour loc ∨
      (∃ j, c = Call.Track j (termination d true employee)) ∨
      c = Call.LeashedExecute (termination d true employee) := by
    intro hl
    obtain ⟨l, a, e, loc, hr, hin⟩ :=
      late_call_in_checked Parse Intn d app account region stack team c hc hl
    have hl2 : l = true := by
      obtain ⟨_, _, _, p4, _⟩ := hr
      exact (Except.ok.inj (h.symm.trans p4)).symm
    subst hl2
    refine ⟨a, e, loc, ?_⟩
    rcases checked_calls _ _ _ _ _ _ hin with h | ⟨_, h | ⟨_, ⟨_, h⟩ | ⟨h, _⟩⟩⟩
    · exact Or.inl h
    · exact Or.inr (Or.inl h)
    · exact Or.inr (Or.inr h)
    · exact Bool.noConfusion h
  refine ⟨?_, ?_, ?_⟩
  · intro t ht
    subst ht
    obtain ⟨a, e, loc, h | ⟨j, h⟩ | h⟩ := key rfl <;> exact Call.noConfusion h
  · intro t appCfg endHour loc ht
    subst ht
    obtain ⟨a, e, loc, h | ⟨j, h⟩ | h⟩ := key rfl
    · injection h with h1
      rw [h1]; rfl
    · exact Call.noConfusion h
    · exact Call.noConfusion h
  · intro i t ht
    subst ht
    obtain ⟨a, e, loc, h | ⟨j, h⟩ | h⟩ := key rfl
    · exact Call.noConfusion h
    · injection h with _ h2
      rw [h2]; rfl
    · exact Call.noConfusion h

theorem Terminate_leashed_witness :
    fixture.depsLeashed.MonkeyCfg.Leashed = .ok true ∧
      (Terminate fixture.Parse (fun _ => 0) fixture.depsLeashed
          "foo" "prod" "us-east-1" "" "foo-crit").calls =
        [Call.MonkeyEnabled, Call.Outage, Call.AccountEnabled "prod", Call.Leashed,
          Call.InTest, Call.ConfGet "foo", Call.CloudProvider "prod",
          Call.GetTeamNames "foo" "prod", Call.Parse "foo-crit",
          Call.GetRegionNames "foo" "prod" "foo-crit", Call.Parse "foo-crit-canary",
          Call.GetRegionNames "foo" "prod" "foo-crit-canary",
          Call.GetEmployeeIds "foo" "prod" "aws" "us-east-1" "foo-crit",
          Call.Parse "foo-crit-v001", Call.Intn 1, Call.Location, Call.Now, Call.EndHour,
          Call.Check (fixture.trm true) fixture.appCfg 15 "America/Los_Angeles",
          Call.Track 0 (fixture.trm true), Call.LeashedExecute (fixture.trm true)] ∧
      ∀ c ∈ (Terminate fixture.Parse (fun _ => 0) fixture.depsLeashed
          "foo" "prod" "us-east-1" "" "foo-crit").calls,
        (∀ t, c ≠ Call.Execute t) ∧
        (∀ t appCfg endHour loc, c = Call.Check t appCfg endHour loc → t.Leashed = true) ∧
        (∀ i t, c = Call.Track i t → t.Leashed = true) :=
  ⟨rfl, by decide, Terminate_leashed fixture.Parse (fun _ => 0) fixture.depsLeashed
    "foo" "prod" "us-east-1" "" "foo-crit" rfl⟩

/-- C10: if the monkey is enabled and the outage check returns an error, then whatever
boolean comes with it, `Terminate` returns that error, wrapped, and its calls are exactly
the enabled check and the outage check: no call to the checker, a tracker or a terminator. -/
theorem Terminate_outage_check_fails (Parse : String → Except Error frigga.Names)
    (Intn : Nat → Nat) (d : deps.Deps) (app account region stack team : String)
    (problem : Bool) (err : Error)
    (h1 : d.MonkeyCfg.Enabled = .ok true) (h2 : d.Ou = (problem, some err)) :
    (Terminate Parse Intn d app account region stack team).out =
        some (Error.wrap err "not terminating: problem checking if there is an outage") ∧
      (Terminate Parse Intn d app account region stack team).calls =
        [Call.MonkeyEnabled, Call.Outage] := by
  simp [Terminate, h1, h2]

theorem Terminate_outage_check_fails_witness :
    fixture.depsOutageFails.MonkeyCfg.Enabled = .ok true ∧
      fixture.depsOutageFails.Ou = (false, some (.msg "outage check failed")) ∧
      ((Terminate fixture.Parse (fun _ => 0) fixture.depsOutageFails
          "foo" "prod" "us-east-1" "" "foo-crit").out =
        some (Error.wrap (.msg "outage check failed")
          "not terminating: problem checking if there is an outage") ∧
      (Terminate fixture.Parse (fun _ => 0) fixture.depsOutageFails
          "foo" "prod" "us-east-1" "" "foo-crit").calls =
        [Call.MonkeyEnabled, Call.Outage]) :=
  ⟨rfl, rfl, Terminate_outage_check_fails fixture.Parse (fun _ => 0) fixture.depsOutageFails
    "foo" "prod" "us-east-1" "" "foo-crit" false (.msg "outage check failed") rfl rfl⟩

end term

namespace term

open elon (Error Call Traced Termination)

/-- C9, as stated, fails: with the monkey enabled and account `test` not in the enabled
accounts, but an outage check that returns an error, `Terminate` returns an error and not
nil. -/
theorem Terminate_gate_closed_counterexample :
    fixture.depsOutageFails.MonkeyCfg.AccountEnabled "test" = .ok false ∧
      (Terminate fixture.Parse (fun _ => 0) fixture.depsOutageFails
          "quux" "test" "us-east-1" "" "quux-test").out =
        some (Error.wrap (.msg "outage check failed")
          "not terminating: problem checking if there is an outage") :=
  ⟨rfl, rfl⟩

/-- C9, amended: if the monkey is disabled, or the outage check reports an outage, or the
account is not enabled, the only calls of `Terminate` are gate checks (the enabled check, the
outage check, the account check): no call to the config getter, the deployment, the checker,
a tracker or a terminator. `Terminate` returns nil when the gate that closes is reached
without an error: the enabled check answers false; or it answers true and the outage check
reports an outage without error; or it answers true, the outage check reports no outage
without error, and the account check answers false. -/
theorem Terminate_gate_closed (Parse : String → Except Error frigga.Names)
    (Intn : Nat → Nat) (d : deps.Deps) (app account region stack team : String)
    (h : d.MonkeyCfg.Enabled = .ok false ∨ d.Ou.1 = true ∨
      d.MonkeyCfg.AccountEnabled account = .ok false) :
    (∀ c ∈ (Terminate Parse Intn d app account region stack team).calls,
      c = Call.MonkeyEnabled ∨ c = Call.Outage ∨ c = Call.AccountEnabled account) ∧
    ((d.MonkeyCfg.Enabled = .ok false ∨
      (d.MonkeyCfg.Enabled = .ok true ∧ d.Ou = (true, none)) ∨
      (d.MonkeyCfg.Enabled = .ok true ∧ d.Ou = (false, none) ∧
        d.MonkeyCfg.AccountEnabled account = .ok false)) →
      (Terminate Parse Intn d app account region stack team).out = none) := by
  constructor
  · intro c hc
    simp only [Terminate, Traced.step_calls, List.mem_cons] at hc
    rcases hc with rfl | hc
    · exact Or.inl rfl
    cases h1 : d.MonkeyCfg.Enabled with
    | error e => simp [h1] at hc
    | ok enabled =>
    cases enabled with
    | false => simp [h1] at hc
    | true =>
    simp only [h1, Bool.not_true, Bool.false_eq_true, if_false, Traced.step_calls,
      List.mem_cons] at hc
    rcases hc with rfl | hc
    · exact Or.inr (Or.inl rfl)
    rcases h2 : d.Ou with ⟨problem, oerr⟩
    cases oerr with
    | some e => simp [h2] at hc
    | none =>
    cases problem with
    | true => simp [h2] at hc
    | false =>
    simp only [h2, Bool.false_eq_true, if_false, Traced.step_calls, List.mem_cons] at hc
    rcases hc with rfl | hc
    · exact Or.inr (Or.inr rfl)
    cases h3 : d.MonkeyCfg.AccountEnabled account with
    | error e => simp [h3] at hc
    | ok accountEnabled =>
    cases accountEnabled with
    | false => simp [h3] at hc
    | true =>
    rcases h with h | h | h
    · rw [h1] at h
      exact absurd h (by simp)
    · rw [h2] at h
      exact Bool.noConfusion h
    · rw [h3] at h
      exact absurd h (by simp)
  · rintro (h1 | ⟨h1, h2⟩ | ⟨h1, h2, h3⟩)
    · simp [Terminate, h1]
    · simp [Terminate, h1, h2]
    · simp [Terminate, h1, h2, h3]

theorem Terminate_gate_closed_witness :
    (fixture.deps.MonkeyCfg.Enabled = .ok false ∨ fixture.deps.Ou.1 = true ∨
      fixture.deps.MonkeyCfg.AccountEnabled "test" = .ok false) ∧
    (fixture.deps.MonkeyCfg.Enabled = .ok true ∧ fixture.deps.Ou = (false, none) ∧
      fixture.deps.MonkeyCfg.AccountEnabled "test" = .ok false) ∧
    (∀ c ∈ (Terminate fixture.Parse (fun _ => 0) fixture.deps
        "quux" "test" "us-east-1" "" "quux-test").calls,
      c = Call.MonkeyEnabled ∨ c = Call.Outage ∨ c = Call.AccountEnabled "test") ∧
    (Terminate fixture.Parse (fun _ => 0) fixture.deps
        "quux" "test" "us-east-1" "" "quux-test").out = none :=
  ⟨Or.inr (Or.inr rfl), ⟨rfl, rfl, rfl⟩,
    (Terminate_gate_closed fixture.Parse (fun _ => 0) fixture.deps
      "quux" "test" "us-east-1" "" "quux-test" (Or.inr (Or.inr rfl))).1,
    (Terminate_gate_closed fixture.Parse (fun _ => 0) fixture.deps
      "quux" "test" "us-east-1" "" "quux-test" (Or.inr (Or.inr rfl))).2
      (Or.inr (Or.inr ⟨rfl, rfl, rfl⟩))⟩

end term

/-! ## Claims about `grp` -/

namespace grp

theorem Region_New (app account region stack team : String) :
    (New app account region stack team).Region =
      if region = "" then ("", false) else (region, true) := by
  simp [New, group.Region]

theorem Stack_New (app account region stack team : String) :
    (New app account region stack team).Stack =
      if stack = "" then ("", false) else (stack, true) := by
  simp [New, group.Stack]

theorem Team2_New (app account region stack team : String) :
    (New app account region stack team).Team2 =
      if team = "" then ("", false) else (team, true) := by
  simp [New, group.Team2]

/-- The two tests `Equal` makes on an optional field pass exactly when the field has the
same value in both groups. -/
theorem optional_tests_iff (x y : String) :
    ((((if x = "" then ("", false) else (x, true)) : String × Bool).2 !=
        ((if y = "" then ("", false) else (y, true)) : String × Bool).2) = false ∧
      (((if x = "" then ("", false) else (x, true)) : String × Bool).2 &&
        (((if x = "" then ("", false) else (x, true)) : String × Bool).1 !=
          ((if y = "" then ("", false) else (y, true)) : String × Bool).1)) = false) ↔
      x = y := by
  by_cases hx : x = "" <;> by_cases hy : y = "" <;> simp [hx, hy]
  exact fun h => hy h.symm

theorem same_optional_iff (x y : String) :
    ((x = "" ∧ y = "") ∨ (x ≠ "" ∧ y ≠ "" ∧ x = y)) ↔ x = y := by
  constructor
  · rintro (⟨h1, h2⟩ | ⟨_, _, h⟩)
    · rw [h1, h2]
    · exact h
  · intro h
    subst h
    by_cases hx : x = ""
    · exact Or.inl ⟨hx, hx⟩
    · exact Or.inr ⟨hx, hx, rfl⟩


theorem chain_iff (b0 b1 b2 b3 b4 b5 b6 b7 b8 : Bool) :
    (if b0 = true then true
      else if b1 = true then false
      else if b2 = true then false
      else if b3 = true then false
      else if b4 = true then false
      else if b5 = true then false
      else if b6 = true then false
      else if b7 = true then false
      else if b8 = true then false
      else true) = true ↔
    (b0 = true ∨ (b1 = false ∧ b2 = false ∧ (b3 = false ∧ b4 = false) ∧
      (b5 = false ∧ b6 = false) ∧ (b7 = false ∧ b8 = false))) := by
  cases b0 <;> cases b1 <;> cases b2 <;> cases b3 <;> cases b4 <;> cases b5 <;>
    cases b6 <;> cases b7 <;> cases b8 <;> simp

/-- C15: `Equal (New a1 c1 r1 s1 t1) (New a2 c2 r2 s2 t2)` is true exactly when the apps
agree, the accounts agree, and each of region, stack and team is either empty in both
groups or non-empty in both with the same value. -/
theorem Equal_New_iff (a1 c1 r1 s1 t1 a2 c2 r2 s2 t2 : String) :
    Equal (New a1 c1 r1 s1 t1) (New a2 c2 r2 s2 t2) = true ↔
      a1 = a2 ∧ c1 = c2 ∧
      ((r1 = "" ∧ r2 = "") ∨ (r1 ≠ "" ∧ r2 ≠ "" ∧ r1 = r2)) ∧
      ((s1 = "" ∧ s2 = "") ∨ (s1 ≠ "" ∧ s2 ≠ "" ∧ s1 = s2)) ∧
      ((t1 = "" ∧ t2 = "") ∨ (t1 ≠ "" ∧ t2 ≠ "" ∧ t1 = t2)) := by
  rw [same_optional_iff, same_optional_iff, same_optional_iff]
  have hr := optional_tests_iff r1 r2
  have hs := optional_tests_iff s1 s2
  have ht := optional_tests_iff t1 t2
  unfold Equal
  rw [Region_New, Region_New, Stack_New, Stack_New, Team2_New, Team2_New]
  have hT : ∀ a c r s t, (New a c r s t).Team = a := fun _ _ _ _ _ => rfl
  have hA : ∀ a c r s t, (New a c r s t).Account = c := fun _ _ _ _ _ => rfl
  rw [hT, hT, hA, hA]
  have hg : (New a1 c1 r1 s1 t1 == New a2 c2 r2 s2 t2) = true ↔
      a1 = a2 ∧ c1 = c2 ∧ r1 = r2 ∧ s1 = s2 ∧ t1 = t2 := by
    rw [beq_iff_eq]
    simp only [New, group.mk.injEq]
  have h1 : (a1 != a2) = false ↔ a1 = a2 := by simp
  have h2 : (c1 != c2) = false ↔ c1 = c2 := by simp
  generalize (New a1 c1 r1 s1 t1 == New a2 c2 r2 s2 t2) = b0 at hg ⊢
  generalize (a1 != a2) = b1 at h1 ⊢
  generalize (c1 != c2) = b2 at h2 ⊢
  generalize (((if r1 = "" then ("", false) else (r1, true)) : String × Bool).2 !=
    ((if r2 = "" then ("", false) else (r2, true)) : String × Bool).2) = b3 at hr ⊢
  generalize (((if r1 = "" then ("", false) else (r1, true)) : String × Bool).2 &&
    (((if r1 = "" then ("", false) else (r1, true)) : String × Bool).1 !=
      ((if r2 = "" then ("", false) else (r2, true)) : String × Bool).1)) = b4 at hr ⊢
  generalize (((if s1 = "" then ("", false) else (s1, true)) : String × Bool).2 !=
    ((if s2 = "" then ("", false) else (s2, true)) : String × Bool).2) = b5 at hs ⊢
  generalize (((if s1 = "" then ("", false) else (s1, true)) : String × Bool).2 &&
    (((if s1 = "" then ("", false) else (s1, true)) : String × Bool).1 !=
      ((if s2 = "" then ("", false) else (s2, true)) : String × Bool).1)) = b6 at hs ⊢
  generalize (((if t1 = "" then ("", false) else (t1, true)) : String × Bool).2 !=
    ((if t2 = "" then ("", false) else (t2, true)) : String × Bool).2) = b7 at ht ⊢
  generalize (((if t1 = "" then ("", false) else (t1, true)) : String × Bool).2 &&
    (((if t1 = "" then ("", false) else (t1, true)) : String × Bool).1 !=
      ((if t2 = "" then ("", false) else (t2, true)) : String × Bool).1)) = b8 at ht ⊢
  rw [chain_iff, hg, h1, h2, hr, hs, ht]
  constructor
  · rintro (h | h)
    · exact h
    · exact h
  · exact fun h => Or.inl h

/-- C16, as stated, fails: `New` accepts a stack and a team together, and then both
`Stack()` and the two-valued `Team()` report ok = true. -/
theorem New_stack_and_team_counterexample :
    ((New "foo" "prod" "" "staging" "foo-staging").Stack).2 = true ∧
      ((New "foo" "prod" "" "staging" "foo-staging").Team2).2 = true :=
  ⟨by decide, by decide⟩

/-- C16, amended: for the group `New app account region stack team`, `Stack()` and the
two-valued `Team()` both report ok = true exactly when the arguments `stack` and `team`
are both non-empty; they are never both present when at most one of the two is given. -/
theorem New_stack_and_team_iff (app account region stack team : String) :
    (((New app account region stack team).Stack).2 = true ∧
      ((New app account region stack team).Team2).2 = true) ↔
      (stack ≠ "" ∧ team ≠ "") := by
  rw [Stack_New, Team2_New]
  by_cases hs : stack = "" <;> by_cases ht : team = "" <;> simp [hs, ht]

end grp

/-! ## More on the shape of a run of `Terminate` -/

namespace term

open elon (Error Call Traced Termination)

/-- When the five checks before the config getter are passed, the run of `Terminate` is
those five calls followed by the part from the config getter on. -/
theorem Terminate_of_passesGates (Parse : String → Except Error frigga.Names)
    (Intn : Nat → Nat) (d : deps.Deps) (app account region stack team : String)
    (leashed : Bool) (h : passesGates d account leashed) :
    (Terminate Parse Intn d app account region stack team).calls =
        [Call.MonkeyEnabled, Call.Outage, Call.AccountEnabled account, Call.Leashed,
          Call.InTest] ++
        (fromConfig Parse Intn d (grp.New app account region stack team) leashed).calls ∧
      (Terminate Parse Intn d app account region stack team).out =
        (fromConfig Parse Intn d (grp.New app account region stack team) leashed).out := by
  obtain ⟨h1, h2, h3, h4, h5⟩ := h
  simp only [Terminate, doTerminate, fromConfig, checked, termination, h1, h2, h3, h4, h5,
    Traced.step_calls, Traced.step_out, Bool.not_true, Bool.false_eq_true, if_false,
    List.cons_append, List.nil_append, and_self]

/-- Every call of a run of `Terminate` is one of the five checks before the config getter,
or the five checks are passed and the call belongs to the part from the config getter on. -/
theorem Terminate_calls_cases (Parse : String → Except Error frigga.Names)
    (Intn : Nat → Nat) (d : deps.Deps) (app account region stack team : String) (c : Call)
    (hc : c ∈ (Terminate Parse Intn d app account region stack team).calls) :
    c ∈ [Call.MonkeyEnabled, Call.Outage, Call.AccountEnabled account, Call.Leashed,
        Call.InTest] ∨
      ∃ leashed, passesGates d account leashed ∧
        c ∈ (fromConfig Parse Intn d (grp.New app account region stack team) leashed).calls := by
  by_cases hg : ∃ leashed, passesGates d account leashed
  · obtain ⟨leashed, hp⟩ := hg
    rw [(Terminate_of_passesGates Parse Intn d app account region stack team leashed hp).1,
      List.mem_append] at hc
    rcases hc with hc | hc
    · exact Or.inl hc
    · exact Or.inr ⟨leashed, hp, hc⟩
  left
  simp only [Terminate, Traced.step_calls, List.mem_cons] at hc
  rcases hc with rfl | hc
  · simp
  cases h1 : d.MonkeyCfg.Enabled with
  | error e => simp [h1] at hc
  | ok enabled =>
  cases enabled with
  | false => simp [h1] at hc
  | true =>
  simp only [h1, Bool.not_true, Bool.false_eq_true, if_false, Traced.step_calls,
    List.mem_cons] at hc
  rcases hc with rfl | hc
  · simp
  rcases h2 : d.Ou with ⟨problem, oerr⟩
  cases oerr with
  | some e => simp [h2] at hc
  | none =>
  cases problem with
  | true => simp [h2] at hc
  | false =>
  simp only [h2, Bool.false_eq_true, if_false, Traced.step_calls, List.mem_cons] at hc
  rcases hc with rfl | hc
  · simp
  cases h3 : d.MonkeyCfg.AccountEnabled account with
  | error e => simp [h3] at hc
  | ok accountEnabled =>
  cases accountEnabled with
  | false => simp [h3] at hc
  | true =>
  simp only [h3, Bool.not_true, Bool.false_eq_true, if_false, doTerminate, Traced.step_calls,
    List.mem_cons] at hc
  rcases hc with rfl | hc
  · simp
  cases h4 : d.MonkeyCfg.Leashed with
  | error e => simp [h4] at hc
  | ok leashed =>
  simp only [h4, Traced.step_calls, List.mem_cons] at hc
  rcases hc with rfl | hc
  · simp
  cases h5 : (d.Env && !leashed) with
  | true => simp [h5] at hc
  | false => exact absurd ⟨leashed, h1, h2, h3, h4, h5⟩ hg

end term

namespace term

open elon (Error Call Traced Termination)

theorem fromConfig_app_disabled (Parse : String → Except Error frigga.Names)
    (Intn : Nat → Nat) (d : deps.Deps) (group : grp.group) (leashed : Bool)
    (cfg : elon.TeamConfig) (hcfg : d.ConfGetter group.Team = .ok cfg)
    (h : cfg.Enabled = false ∨ cfg.Whitelist ≠ none) :
    fromConfig Parse Intn d group leashed = ⟨[Call.ConfGet group.Team], none⟩ := by
  unfold fromConfig
  rw [hcfg]
  rcases h with h | h
  · simp [h, Traced.step, Traced.done]
  · cases hw : cfg.Whitelist with
    | none => exact absurd hw h
    | some w =>
      cases he : cfg.Enabled <;> simp [he, hw, Traced.step, Traced.done]

/-- C11, as stated, fails: in a test environment and unleashed mode, `Terminate` returns
`UnleashedInTestEnv`, not nil, also when the config of the app has Enabled = false. -/
theorem Terminate_app_disabled_counterexample :
    (∃ cfg, fixture.depsInTestAppDisabled.ConfGetter "foo" = .ok cfg ∧ cfg.Enabled = false) ∧
      (Terminate fixture.Parse (fun _ => 0) fixture.depsInTestAppDisabled
        "foo" "prod" "us-east-1" "" "foo-crit").out = some Error.UnleashedInTestEnv :=
  ⟨⟨_, rfl, rfl⟩, rfl⟩

/-- C11, amended: if the config of the app has Enabled = false or carries a whitelist
(empty or not), the only calls of `Terminate` are the five checks before the config getter
and the call to the config getter (no eligibility lookup, no call to the checker, a tracker
or a terminator), and `Terminate` returns nil whenever it gets as far as calling the config
getter. -/
theorem Terminate_app_disabled (Parse : String → Except Error frigga.Names)
    (Intn : Nat → Nat) (d : deps.Deps) (app account region stack team : String)
    (cfg : elon.TeamConfig) (hcfg : d.ConfGetter app = .ok cfg)
    (h : cfg.Enabled = false ∨ cfg.Whitelist ≠ none) :
    (∀ c ∈ (Terminate Parse Intn d app account region stack team).calls,
      c ∈ [Call.MonkeyEnabled, Call.Outage, Call.AccountEnabled account, Call.Leashed,
        Call.InTest, Call.ConfGet app]) ∧
    (Call.ConfGet app ∈ (Terminate Parse Intn d app account region stack team).calls →
      (Terminate Parse Intn d app account region stack team).out = none) := by
  have hg : (grp.New app account region stack team).Team = app := rfl
  have hf : ∀ leashed,
      fromConfig Parse Intn d (grp.New app account region stack team) leashed =
        ⟨[Call.ConfGet app], none⟩ := by
    intro leashed
    have := fromConfig_app_disabled Parse Intn d (grp.New app account region stack team)
      leashed cfg (by rw [hg]; exact hcfg) h
    rw [hg] at this
    exact this
  constructor
  · intro c hc
    rcases Terminate_calls_cases Parse Intn d app account region stack team c hc with
      hc | ⟨leashed, _, hc⟩
    · simp only [List.mem_cons, List.mem_singleton, List.not_mem_nil, or_false] at hc ⊢
      rcases hc with h | h | h | h | h <;> simp [h]
    · rw [hf leashed] at hc
      simp only [List.mem_singleton] at hc
      simp [hc]
  · intro hc
    rcases Terminate_calls_cases Parse Intn d app account region stack team _ hc with
      hc | ⟨leashed, hp, _⟩
    · simp at hc
    · rw [(Terminate_of_passesGates Parse Intn d app account region stack team leashed hp).2,
        hf leashed]

theorem Terminate_app_disabled_witness :
    fixture.depsAppDisabled.ConfGetter "foo" = .ok { fixture.appCfg with Enabled := false } ∧
      (({ fixture.appCfg with Enabled := false } : elon.TeamConfig).Enabled = false ∨
        ({ fixture.appCfg with Enabled := false } : elon.TeamConfig).Whitelist ≠ none) ∧
      Call.ConfGet "foo" ∈ (Terminate fixture.Parse (fun _ => 0) fixture.depsAppDisabled
        "foo" "prod" "us-east-1" "" "foo-crit").calls ∧
      (∀ c ∈ (Terminate fixture.Parse (fun _ => 0) fixture.depsAppDisabled
          "foo" "prod" "us-east-1" "" "foo-crit").calls,
        c ∈ [Call.MonkeyEnabled, Call.Outage, Call.AccountEnabled "prod", Call.Leashed,
          Call.InTest, Call.ConfGet "foo"]) ∧
      (Terminate fixture.Parse (fun _ => 0) fixture.depsAppDisabled
        "foo" "prod" "us-east-1" "" "foo-crit").out = none :=
  ⟨rfl, Or.inl rfl, by decide,
    (Terminate_app_disabled fixture.Parse (fun _ => 0) fixture.depsAppDisabled
      "foo" "prod" "us-east-1" "" "foo-crit" _ rfl (Or.inl rfl)).1,
    (Terminate_app_disabled fixture.Parse (fun _ => 0) fixture.depsAppDisabled
      "foo" "prod" "us-east-1" "" "foo-crit" _ rfl (Or.inl rfl)).2 (by decide)⟩

end term

namespace eligible

open elon (Error Call Traced)

/-- A failed lookup in the calls of `employees` forces an error result. -/
theorem employees_lookup_failure (Parse : String → Except Error frigga.Names)
    (group : grp.group) (exs : List elon.Exception) (dep : deploy.Deployment) (c : Call)
    (hc : c ∈ (employees Parse group exs dep).calls) (hf : lookupFails Parse dep c = true) :
    ∃ err, (employees Parse group exs dep).out = .error err := by
  simp only [employees, Traced.step_calls, Traced.step_out] at hc ⊢
  cases hcp : dep.CloudProvider group.Account with
  | error e => exact ⟨e.wrap "retrieve cloud provider failed", by simp⟩
  | ok cloudProvider =>
    simp only [hcp, Traced.bind_calls, Traced.bind_out, List.mem_cons, List.mem_append] at hc ⊢
    cases ht : (teams Parse group cloudProvider exs dep).out with
    | error e => exact ⟨e, by simp⟩
    | ok cls =>
      simp only [ht] at hc ⊢
      rcases hc with rfl | hc | hc
      · simp [lookupFails, hcp, Except.toBool] at hf
      · obtain ⟨e, he⟩ := teams_failure _ _ _ _ _ c hc hf
        rw [he] at ht
        exact Except.noConfusion ht
      · exact employeesLoop_failure _ _ _ _ c hc hf

end eligible

namespace term

open elon (Error Call Traced Termination)

theorem checked_calls_late (d : deps.Deps) (leashed : Bool) (appCfg : elon.TeamConfig)
    (employee : eligible.employee) (loc : String) :
    ∀ c ∈ (checked d leashed appCfg employee loc).calls, isCheckOrLater c = true := by
  intro c hc
  rcases checked_calls _ _ _ _ _ c hc with h | ⟨_, ⟨j, h⟩ | ⟨_, ⟨_, h⟩ | ⟨_, h⟩⟩⟩ <;>
    (rw [h]; rfl)

/-- The calls of the part from the config getter on: the call to the config getter; then,
only for an enabled config without whitelist, the calls made to pick an employee; then,
only if one is picked, the location lookup; then, only if it succeeds, the reading of the
clock and of the end hour and the part from the checker on. -/
theorem fromConfig_calls (Parse : String → Except Error frigga.Names) (Intn : Nat → Nat)
    (d : deps.Deps) (group : grp.group) (leashed : Bool) :
    ∀ c ∈ (fromConfig Parse Intn d group leashed).calls,
      c = Call.ConfGet group.Team ∨
      ∃ cfg, d.ConfGetter group.Team = .ok cfg ∧ cfg.Enabled = true ∧ cfg.Whitelist = none ∧
        (c ∈ (PickRandomemployee Parse Intn group cfg d.Dep).calls ∨
          ∃ employee, (PickRandomemployee Parse Intn group cfg d.Dep).out = some employee ∧
            (c = Call.Location ∨
              ∃ loc, d.MonkeyCfg.Location = .ok loc ∧
                (c = Call.Now ∨ c = Call.EndHour ∨
                  c ∈ (checked d leashed cfg employee loc).calls))) := by
  intro c hc
  simp only [fromConfig, Traced.step_calls, List.mem_cons] at hc
  rcases hc with rfl | hc
  · exact Or.inl rfl
  right
  cases h6 : d.ConfGetter group.Team with
  | error e => simp [h6] at hc
  | ok cfg =>
  cases h7 : cfg.Enabled with
  | false => simp [h6, h7] at hc
  | true =>
  cases h8 : cfg.Whitelist with
  | some w => simp [h6, h7, h8] at hc
  | none =>
  refine ⟨cfg, rfl, h7, h8, ?_⟩
  simp only [h6, h7, h8, Bool.not_true, Bool.false_eq_true, if_false, Option.isSome_none,
    Traced.bind_calls, List.mem_append] at hc
  rcases hc with hc | hc
  · exact Or.inl hc
  right
  cases h9 : (PickRandomemployee Parse Intn group cfg d.Dep).out with
  | none => simp [h9] at hc
  | some employee =>
  refine ⟨employee, rfl, ?_⟩
  simp only [h9, Traced.step_calls, List.mem_cons] at hc
  rcases hc with rfl | hc
  · exact Or.inl rfl
  right
  cases h10 : d.MonkeyCfg.Location with
  | error e => simp [h10] at hc
  | ok loc =>
  refine ⟨loc, rfl, ?_⟩
  simp only [h10, Traced.step_calls, List.mem_cons] at hc
  exact hc

/-- When the eligibility computation fails, nobody is picked: the part from the config
getter on is the call to the config getter and the lookups, and its result is nil. -/
theorem fromConfig_of_lookup_error (Parse : String → Except Error frigga.Names)
    (Intn : Nat → Nat) (d : deps.Deps) (group : grp.group) (leashed : Bool)
    (cfg : elon.TeamConfig) (err : Error)
    (h6 : d.ConfGetter group.Team = .ok cfg) (h7 : cfg.Enabled = true)
    (h8 : cfg.Whitelist = none)
    (he : (eligible.employees Parse group cfg.Exceptions d.Dep).out = .error err) :
    (fromConfig Parse Intn d group leashed).calls =
        Call.ConfGet group.Team :: (eligible.employees Parse group cfg.Exceptions d.Dep).calls ∧
      (fromConfig Parse Intn d group leashed).out = none := by
  simp [fromConfig, PickRandomemployee, h6, h7, h8, he]

end term

namespace term

open elon (Error Call Traced Termination)

theorem isLookup_not_late (c : Call) (h : eligible.isLookup c = true) :
    isCheckOrLater c = false := by
  cases c <;> simp [eligible.isLookup] at h <;> rfl

theorem lookup_of_PickRandomemployee (Parse : String → Except Error frigga.Names)
    (Intn : Nat → Nat) (group : grp.group) (cfg : elon.TeamConfig) (dep : deploy.Deployment)
    (c : Call) (hc : c ∈ (PickRandomemployee Parse Intn group cfg dep).calls)
    (hl : eligible.isLookup c = true) :
    c ∈ (eligible.employees Parse group cfg.Exceptions dep).calls := by
  simp only [PickRandomemployee, Traced.bind_calls, List.mem_append] at hc
  rcases hc with hc | hc
  · exact hc
  · cases he : (eligible.employees Parse group cfg.Exceptions dep).out with
    | error e => simp [he] at hc
    | ok employees =>
      simp only [he] at hc
      split_ifs at hc with h0
      · simp at hc
      · simp only [Traced.step_calls, Traced.done_calls, List.mem_singleton] at hc
        rw [hc] at hl
        exact Bool.noConfusion hl

/-- C14, as stated, fails: on the deployment where `GetEmployeeIds` fails in region
us-west-2, the failing lookup is made and `Terminate` returns nil. -/
theorem Terminate_lookup_failure_counterexample :
    Call.GetEmployeeIds "foo" "prod" "aws" "us-west-2" "foo-crit" ∈
        (Terminate fixture.Parse (fun _ => 0) fixture.depsLookupFails
          "foo" "prod" "" "" "").calls ∧
      eligible.lookupFails fixture.Parse fixture.depsLookupFails.Dep
        (Call.GetEmployeeIds "foo" "prod" "aws" "us-west-2" "foo-crit") = true ∧
      (Terminate fixture.Parse (fun _ => 0) fixture.depsLookupFails
        "foo" "prod" "" "" "").out = none :=
  ⟨by decide, rfl, rfl⟩

/-- C14, amended: if a lookup fails while `Terminate` computes the eligible employees of
the group, `Terminate` does not propagate the failure: it returns nil, and it calls neither
the checker, a tracker nor a terminator. -/
theorem Terminate_lookup_failure (Parse : String → Except Error frigga.Names)
    (Intn : Nat → Nat) (d : deps.Deps) (app account region stack team : String) (c : Call)
    (hc : c ∈ (Terminate Parse Intn d app account region stack team).calls)
    (hl : eligible.isLookup c = true)
    (hf : eligible.lookupFails Parse d.Dep c = true) :
    (Terminate Parse Intn d app account region stack team).out = none ∧
      ∀ c2 ∈ (Terminate Parse Intn d app account region stack team).calls,
        isCheckOrLater c2 = false := by
  have hlate := isLookup_not_late c hl
  rcases Terminate_calls_cases Parse Intn d app account region stack team c hc with
    hg | ⟨leashed, hp, hc2⟩
  · simp only [List.mem_cons, List.mem_singleton, List.not_mem_nil, or_false] at hg
    rcases hg with h | h | h | h | h <;> (rw [h] at hl; exact Bool.noConfusion hl)
  have hin : ∃ cfg, d.ConfGetter (grp.New app account region stack team).Team = .ok cfg ∧
      cfg.Enabled = true ∧ cfg.Whitelist = none ∧
      c ∈ (eligible.employees Parse (grp.New app account region stack team) cfg.Exceptions
        d.Dep).calls := by
    rcases fromConfig_calls Parse Intn d _ leashed c hc2 with
      h | ⟨cfg, h6, h7, h8, h | ⟨e, _, h | ⟨loc, _, h | h | h⟩⟩⟩
    · rw [h] at hl; exact Bool.noConfusion hl
    · exact ⟨cfg, h6, h7, h8, lookup_of_PickRandomemployee _ _ _ _ _ c h hl⟩
    · rw [h] at hl; exact Bool.noConfusion hl
    · rw [h] at hl; exact Bool.noConfusion hl
    · rw [h] at hl; exact Bool.noConfusion hl
    · rw [checked_calls_late _ _ _ _ _ c h] at hlate
      exact Bool.noConfusion hlate
  obtain ⟨cfg, h6, h7, h8, hce⟩ := hin
  obtain ⟨err, he⟩ := eligible.employees_lookup_failure Parse _ _ _ c hce hf
  obtain ⟨k1, k2⟩ := fromConfig_of_lookup_error Parse Intn d _ leashed cfg err h6 h7 h8 he
  obtain ⟨t1, t2⟩ := Terminate_of_passesGates Parse Intn d app account region stack team
    leashed hp
  refine ⟨by rw [t2, k2], ?_⟩
  intro c2 hc3
  rw [t1, k1] at hc3
  simp only [List.mem_append, List.mem_cons, List.mem_singleton, List.not_mem_nil,
    or_false] at hc3
  rcases hc3 with (h | h | h | h | h) | h | h
  · rw [h]; rfl
  · rw [h]; rfl
  · rw [h]; rfl
  · rw [h]; rfl
  · rw [h]; rfl
  · rw [h]; rfl
  · exact isLookup_not_late c2 (eligible.employees_calls _ _ _ _ c2 h)

theorem Terminate_lookup_failure_witness :
    Call.GetEmployeeIds "foo" "prod" "aws" "us-west-2" "foo-crit" ∈
        (Terminate fixture.Parse (fun _ => 0) fixture.depsLookupFails
          "foo" "prod" "" "" "").calls ∧
      eligible.isLookup (Call.GetEmployeeIds "foo" "prod" "aws" "us-west-2" "foo-crit")
        = true ∧
      eligible.lookupFails fixture.Parse fixture.depsLookupFails.Dep
        (Call.GetEmployeeIds "foo" "prod" "aws" "us-west-2" "foo-crit") = true ∧
      ((Terminate fixture.Parse (fun _ => 0) fixture.depsLookupFails
          "foo" "prod" "" "" "").out = none ∧
        ∀ c2 ∈ (Terminate fixture.Parse (fun _ => 0) fixture.depsLookupFails
            "foo" "prod" "" "" "").calls, isCheckOrLater c2 = false) :=
  ⟨by decide, rfl, rfl, Terminate_lookup_failure fixture.Parse (fun _ => 0)
    fixture.depsLookupFails "foo" "prod" "" "" ""
    (Call.GetEmployeeIds "foo" "prod" "aws" "us-west-2" "foo-crit") (by decide) rfl rfl⟩

end term

namespace term

open elon (Error Call Traced Termination)

theorem trackLoop_calls_from (trm : Termination)
    (trackers : List (Termination → Option Error)) :
    ∀ (k : Nat), ∀ c ∈ (trackLoop trm k trackers).calls, ∃ j, k ≤ j ∧ c = Call.Track j trm := by
  induction trackers with
  | nil => intro k c hc; simp [trackLoop] at hc
  | cons tracker rest ih =>
    intro k c hc
    simp only [trackLoop, Traced.step_calls, List.mem_cons] at hc
    rcases hc with rfl | hc
    · exact ⟨k, le_refl k, rfl⟩
    · cases ht : tracker trm with
      | some e => simp [ht] at hc
      | none =>
        simp only [ht] at hc
        obtain ⟨j, hj, h⟩ := ih _ c hc
        exact ⟨j, Nat.le_of_succ_le hj, h⟩

/-- If the tracker at position `i` is called and fails, the loop stops there: its result
is the wrapped error, the failing call is its last call, and the calls before it are calls
to the trackers at smaller positions. -/
theorem trackLoop_fails (trm : Termination) (trackers : List (Termination → Option Error)) :
    ∀ (k i : Nat) (tracker : Termination → Option Error) (err : Error),
      Call.Track i trm ∈ (trackLoop trm k trackers).calls →
      trackers.get? (i - k) = some tracker → tracker trm = some err →
      (trackLoop trm k trackers).out =
          some (Error.wrap err "not terminating: recording termination event failed") ∧
        ∃ pre, (trackLoop trm k trackers).calls = pre ++ [Call.Track i trm] ∧
          ∀ c ∈ pre, ∃ j, j < i ∧ c = Call.Track j trm := by
  induction trackers with
  | nil => intro k i tracker err hc; simp [trackLoop] at hc
  | cons tr0 rest ih =>
    intro k i tracker err hc hget he
    simp only [trackLoop, Traced.step_calls, Traced.step_out, List.mem_cons] at hc ⊢
    cases h0 : tr0 trm with
    | some e0 =>
      simp only [h0, Traced.done_calls, List.not_mem_nil, or_false] at hc
      injection hc with hik
      subst hik
      simp only [Nat.sub_self, List.get?_cons_zero, Option.some.injEq] at hget
      subst hget
      rw [h0] at he
      injection he with he
      subst he
      exact ⟨rfl, [], rfl, fun c hc => absurd hc (List.not_mem_nil c)⟩
    | none =>
      simp only [h0] at hc ⊢
      rcases hc with hc | hc
      · injection hc with hik
        subst hik
        simp only [Nat.sub_self, List.get?_cons_zero, Option.some.injEq] at hget
        subst hget
        rw [h0] at he
        exact Option.noConfusion he
      · obtain ⟨j, hj, hjc⟩ := trackLoop_calls_from trm rest (k + 1) _ hc
        injection hjc with hij
        subst hij
        have hsub : i - k = (i - (k + 1)) + 1 := by omega
        rw [hsub, List.get?_cons_succ] at hget
        obtain ⟨ho, pre, hp, hpre⟩ := ih (k + 1) i tracker err hc hget he
        refine ⟨ho, Call.Track k trm :: pre, by rw [hp]; rfl, ?_⟩
        intro c hcp
        rcases List.mem_cons.mp hcp with rfl | hcp
        · exact ⟨k, by omega, rfl⟩
        · exact hpre c hcp

/-- If every tracker accepts, the result of the loop is nil. -/
theorem trackLoop_succeeds (trm : Termination) (trackers : List (Termination → Option Error))
    (h : ∀ tracker ∈ trackers, tracker trm = none) :
    ∀ (k : Nat), (trackLoop trm k trackers).out = none := by
  induction trackers with
  | nil => intro k; rfl
  | cons tracker rest ih =>
    intro k
    simp only [trackLoop, Traced.step_out, h tracker (List.mem_cons_self _ _)]
    exact ih (fun t ht => h t (List.mem_cons_of_mem _ ht)) (k + 1)

end term

namespace term

open elon (Error Call Traced Termination)

/-- When the checker accepts and the tracker at position `i` is called and fails, the part
from the checker on is the call to the checker, calls to the trackers before position `i`,
then the failing call; its result is the wrapped error of the tracker. -/
theorem checked_of_tracker_error (d : deps.Deps) (leashed : Bool) (appCfg : elon.TeamConfig)
    (employee : eligible.employee) (loc : String) (i : Nat) (trm : Termination)
    (tracker : Termination → Option Error) (err : Error)
    (hc : Call.Track i trm ∈ (checked d leashed appCfg employee loc).calls)
    (hi : d.Trackers.get? i = some tracker) (he : tracker trm = some err) :
    trm = termination d leashed employee ∧
      d.Checker trm appCfg d.MonkeyCfg.EndHour loc = none ∧
      (checked d leashed appCfg employee loc).out =
        some (Error.wrap err "not terminating: recording termination event failed") ∧
      ∃ tracks, (checked d leashed appCfg employee loc).calls =
          [Call.Check trm appCfg d.MonkeyCfg.EndHour loc] ++ tracks ++ [Call.Track i trm] ∧
        ∀ c ∈ tracks, ∃ j, j < i ∧ c = Call.Track j trm := by
  simp only [checked, Traced.step_calls, Traced.step_out, List.mem_cons] at hc ⊢
  rcases hc with hc | hc
  · exact Call.noConfusion hc
  cases hk : d.Checker (termination d leashed employee) appCfg d.MonkeyCfg.EndHour loc with
  | some e => simp [hk] at hc
  | none =>
    simp only [hk, Traced.bind_calls, Traced.bind_out, List.mem_append] at hc ⊢
    have hmem : Call.Track i trm ∈
        (trackLoop (termination d leashed employee) 0 d.Trackers).calls := by
      rcases hc with hc | hc
      · exact hc
      · cases ht : (trackLoop (termination d leashed employee) 0 d.Trackers).out with
        | some e => simp [ht] at hc
        | none =>
          simp only [ht] at hc
          cases leashed with
          | true =>
            rw [if_pos rfl, execute_leashed_calls] at hc
            exact Call.noConfusion (List.mem_singleton.mp hc)
          | false =>
            rw [if_neg Bool.false_ne_true, execute_T_calls] at hc
            exact Call.noConfusion (List.mem_singleton.mp hc)
    obtain ⟨j, hj⟩ := trackLoop_calls _ _ 0 _ hmem
    injection hj with _ htrm
    subst htrm
    obtain ⟨ho, pre, hp, hpre⟩ := trackLoop_fails _ d.Trackers 0 i tracker err hmem
      (by rw [Nat.sub_zero]; exact hi) he
    refine ⟨rfl, hk, ?_, pre, ?_, hpre⟩
    · rw [ho]
      rfl
    · rw [ho, hp]
      simp

/-- C12: if a tracker is called in a run of `Terminate` and returns an error, then the
checker was called before and permitted the termination, `Terminate` returns the error of
the tracker, wrapped, and the failing call is the last call of the run: before the call to
the checker there is no call to the checker, a tracker or a terminator; between it and the
failing call there are only calls to trackers at earlier positions. So no later tracker,
no terminator and no second call to the checker. -/
theorem Terminate_tracker_error (Parse : String → Except Error frigga.Names)
    (Intn : Nat → Nat) (d : deps.Deps) (app account region stack team : String)
    (i : Nat) (trm : Termination) (tracker : Termination → Option Error) (err : Error)
    (hc : Call.Track i trm ∈ (Terminate Parse Intn d app account region stack team).calls)
    (hi : d.Trackers.get? i = some tracker) (he : tracker trm = some err) :
    (Terminate Parse Intn d app account region stack team).out =
        some (Error.wrap err "not terminating: recording termination event failed") ∧
      ∃ appCfg endHour loc before tracks,
        d.Checker trm appCfg endHour loc = none ∧
        (Terminate Parse Intn d app account region stack team).calls =
          before ++ [Call.Check trm appCfg endHour loc] ++ tracks ++ [Call.Track i trm] ∧
        (∀ c ∈ before, isCheckOrLater c = false) ∧
        (∀ c ∈ tracks, ∃ j, j < i ∧ c = Call.Track j trm) := by
  obtain ⟨l, a, e, loc, hr, hin⟩ :=
    late_call_in_checked Parse Intn d app account region stack team _ hc rfl
  obtain ⟨htrm, hk, ho, tracks, hcalls, htracks⟩ :=
    checked_of_tracker_error d l a e loc i trm tracker err hin hi he
  obtain ⟨t1, t2⟩ := Terminate_of_reachesCheck Parse Intn d app account region stack team
    _ _ _ _ hr
  refine ⟨by rw [t2, ho], a, d.MonkeyCfg.EndHour, loc,
    [Call.MonkeyEnabled, Call.Outage, Call.AccountEnabled account, Call.Leashed,
      Call.InTest, Call.ConfGet app] ++
    (PickRandomemployee Parse Intn (grp.New app account region stack team) a d.Dep).calls ++
    [Call.Location, Call.Now, Call.EndHour], tracks, hk, ?_, ?_, htracks⟩
  · rw [t1, hcalls]
    simp only [List.append_assoc]
  · intro c hcb
    simp only [List.mem_append, List.mem_cons, List.mem_singleton, List.not_mem_nil,
      or_false] at hcb
    rcases hcb with ((h | h | h | h | h | h) | h) | h | h | h
    · rw [h]; rfl
    · rw [h]; rfl
    · rw [h]; rfl
    · rw [h]; rfl
    · rw [h]; rfl
    · rw [h]; rfl
    · exact PickRandomemployee_not_late _ _ _ _ _ c h
    · rw [h]; rfl
    · rw [h]; rfl
    · rw [h]; rfl

theorem Terminate_tracker_error_witness :
    Call.Track 1 (fixture.trm false) ∈
        (Terminate fixture.Parse (fun _ => 0) fixture.depsTrackerFails
          "foo" "prod" "us-east-1" "" "foo-crit").calls ∧
      (∃ tracker, fixture.depsTrackerFails.Trackers.get? 1 = some tracker ∧
        tracker (fixture.trm false) = some (.msg "something went wrong")) ∧
      ((Terminate fixture.Parse (fun _ => 0) fixture.depsTrackerFails
          "foo" "prod" "us-east-1" "" "foo-crit").out =
        some (Error.wrap (.msg "something went wrong")
          "not terminating: recording termination event failed") ∧
      ∃ appCfg endHour loc before tracks,
        fixture.depsTrackerFails.Checker (fixture.trm false) appCfg endHour loc = none ∧
        (Terminate fixture.Parse (fun _ => 0) fixture.depsTrackerFails
            "foo" "prod" "us-east-1" "" "foo-crit").calls =
          before ++ [Call.Check (fixture.trm false) appCfg endHour loc] ++ tracks ++
            [Call.Track 1 (fixture.trm false)] ∧
        (∀ c ∈ before, isCheckOrLater c = false) ∧
        (∀ c ∈ tracks, ∃ j, j < 1 ∧ c = Call.Track j (fixture.trm false))) :=
  ⟨by decide, ⟨_, rfl, rfl⟩,
    Terminate_tracker_error fixture.Parse (fun _ => 0) fixture.depsTrackerFails
      "foo" "prod" "us-east-1" "" "foo-crit" 1 (fixture.trm false)
      (fun _ => some (.msg "something went wrong")) (.msg "something went wrong")
      (by decide) rfl rfl⟩

end term

namespace term

open elon (Error Call Traced Termination)

/-- From a non-empty list of eligible employees, one of its members is picked. -/
theorem PickRandomemployee_of_nonempty (Parse : String → Except Error frigga.Names)
    (Intn : Nat → Nat) (group : grp.group) (cfg : elon.TeamConfig) (dep : deploy.Deployment)
    (res : List eligible.employee)
    (h : (eligible.employees Parse group cfg.Exceptions dep).out = .ok res) (hne : res ≠ []) :
    ∃ e ∈ res, (PickRandomemployee Parse Intn group cfg dep).out = some e := by
  have hlen : ¬ res.length = 0 := fun h0 => hne (List.length_eq_zero.mp h0)
  refine ⟨res.get ⟨Intn res.length % res.length, Nat.mod_lt _ (Nat.pos_of_ne_zero hlen)⟩,
    List.get_mem _ _ _, ?_⟩
  simp only [PickRandomemployee, Traced.bind_out, h]
  rw [dif_neg hlen]
  rfl

/-- The employee picked is the one at the index drawn, reduced modulo the length. -/
theorem PickRandomemployee_at (Parse : String → Except Error frigga.Names)
    (Intn : Nat → Nat) (group : grp.group) (cfg : elon.TeamConfig) (dep : deploy.Deployment)
    (res : List eligible.employee) (e : eligible.employee)
    (h : (eligible.employees Parse group cfg.Exceptions dep).out = .ok res)
    (hidx : res[Intn res.length % res.length]? = some e) :
    (PickRandomemployee Parse Intn group cfg dep).out = some e := by
  obtain ⟨hlt, hget⟩ := List.getElem?_eq_some_iff.1 hidx
  have hlen : ¬ res.length = 0 := by
    intro h0
    rw [h0] at hlt
    exact Nat.not_lt_zero _ hlt
  simp only [PickRandomemployee, Traced.bind_out, h]
  rw [dif_neg hlen]
  simp only [Traced.step_out, Traced.done_out, List.get_eq_getElem, hget]

/-- From an empty list of eligible employees nobody is picked, and no index is drawn. -/
theorem PickRandomemployee_of_empty (Parse : String → Except Error frigga.Names)
    (Intn : Nat → Nat) (group : grp.group) (cfg : elon.TeamConfig) (dep : deploy.Deployment)
    (h : (eligible.employees Parse group cfg.Exceptions dep).out = .ok []) :
    (PickRandomemployee Parse Intn group cfg dep).out = none ∧
      (PickRandomemployee Parse Intn group cfg dep).calls =
        (eligible.employees Parse group cfg.Exceptions dep).calls := by
  simp [PickRandomemployee, h]

/-- When the checker, every tracker and the injected terminator accept, the part from the
checker on, in unleashed mode, is the call to the checker, calls to trackers, then one
call to `Execute` of the injected terminator; its result is nil. -/
theorem checked_of_success (d : deps.Deps) (appCfg : elon.TeamConfig)
    (employee : eligible.employee) (loc : String)
    (hk : d.Checker (termination d false employee) appCfg d.MonkeyCfg.EndHour loc = none)
    (ht : ∀ tracker ∈ d.Trackers, tracker (termination d false employee) = none)
    (hx : d.T (termination d false employee) = none) :
    (checked d false appCfg employee loc).out = none ∧
      ∃ tracks, (checked d false appCfg employee loc).calls =
          Call.Check (termination d false employee) appCfg d.MonkeyCfg.EndHour loc :: tracks ++
            [Call.Execute (termination d false employee)] ∧
        ∀ c ∈ tracks, ∃ j, c = Call.Track j (termination d false employee) := by
  have hT := trackLoop_succeeds (termination d false employee) d.Trackers ht 0
  refine ⟨?_, (trackLoop (termination d false employee) 0 d.Trackers).calls, ?_,
    trackLoop_calls _ _ 0⟩
  · simp [checked, hk, hT, Fireer.Execute, hx]
  · simp [checked, hk, hT, Fireer.Execute, hx]

end term

namespace term

open elon (Error Call Traced Termination)

/-- C13, as stated, fails: every gate named in the claim passes (monkey enabled, no outage,
account enabled, unleashed outside a test environment, app enabled without whitelist, one
eligible employee, a checker and a terminator that accept, no tracker), but the location
cannot be retrieved, and `Terminate` returns an error. -/
theorem Terminate_fires_counterexample :
    fixture.depsLocationFails.MonkeyCfg.Enabled = .ok true ∧
      fixture.depsLocationFails.Ou = (false, none) ∧
      fixture.depsLocationFails.MonkeyCfg.AccountEnabled "prod" = .ok true ∧
      fixture.depsLocationFails.MonkeyCfg.Leashed = .ok false ∧
      fixture.depsLocationFails.Env = false ∧
      fixture.depsLocationFails.ConfGetter "foo" = .ok fixture.appCfg ∧
      fixture.appCfg.Enabled = true ∧ fixture.appCfg.Whitelist = none ∧
      (eligible.employees fixture.Parse (grp.New "foo" "prod" "us-east-1" "" "foo-crit")
        fixture.appCfg.Exceptions fixture.depsLocationFails.Dep).out = .ok [fixture.e1] ∧
      (∀ t appCfg endHour loc, fixture.depsLocationFails.Checker t appCfg endHour loc = none) ∧
      fixture.depsLocationFails.Trackers = [] ∧
      (∀ t, fixture.depsLocationFails.T t = none) ∧
      (Terminate fixture.Parse (fun _ => 0) fixture.depsLocationFails
        "foo" "prod" "us-east-1" "" "foo-crit").out =
        some (Error.wrap (.msg "unknown time zone")
          "not terminating: could not retrieve location") :=
  ⟨rfl, rfl, rfl, rfl, rfl, rfl, rfl, rfl, rfl, fun _ _ _ _ => rfl, rfl, fun _ => rfl, rfl⟩

/-- C13, amended: suppose the monkey is enabled, there is no outage, the account is
enabled, the mode is unleashed outside a test environment, the app is enabled without
whitelist, and the eligibility computation for the group built from the call parameters
succeeds with the list `res`. If `res` is empty, `Terminate` returns nil and calls neither
the checker, a tracker nor a terminator. If `res` is not empty, the location lookup
succeeds, and the checker, every tracker and the terminator accept the one termination
that is submitted to them (the employee `e` of `res` at the index drawn, at the time of the
clock, with Leashed = false), then `Terminate` returns nil and its last call is the only
call to a terminator: `Execute` of the injected terminator on that termination, whose
employee is a member of `res`. -/
theorem Terminate_fires (Parse : String → Except Error frigga.Names)
    (Intn : Nat → Nat) (d : deps.Deps) (app account region stack team : String)
    (cfg : elon.TeamConfig) (res : List eligible.employee)
    (h1 : d.MonkeyCfg.Enabled = .ok true) (h2 : d.Ou = (false, none))
    (h3 : d.MonkeyCfg.AccountEnabled account = .ok true)
    (h4 : d.MonkeyCfg.Leashed = .ok false) (h5 : d.Env = false)
    (h6 : d.ConfGetter app = .ok cfg) (h7 : cfg.Enabled = true) (h8 : cfg.Whitelist = none)
    (h9 : (eligible.employees Parse (grp.New app account region stack team) cfg.Exceptions
      d.Dep).out = .ok res) :
    (res = [] →
      (Terminate Parse Intn d app account region stack team).out = none ∧
      ∀ c ∈ (Terminate Parse Intn d app account region stack team).calls,
        isCheckOrLater c = false) ∧
    (res ≠ [] → ∀ loc, d.MonkeyCfg.Location = .ok loc →
      ∀ e, res[Intn res.length % res.length]? = some e →
      d.Checker { employee := e, Time := d.Cl, Leashed := false } cfg d.MonkeyCfg.EndHour loc
        = none →
      (∀ tracker ∈ d.Trackers,
        tracker { employee := e, Time := d.Cl, Leashed := false } = none) →
      d.T { employee := e, Time := d.Cl, Leashed := false } = none →
      (Terminate Parse Intn d app account region stack team).out = none ∧
      e ∈ res ∧ ∃ pre,
        (Terminate Parse Intn d app account region stack team).calls =
          pre ++ [Call.Execute { employee := e, Time := d.Cl, Leashed := false }] ∧
        ∀ c ∈ pre, (∀ t, c ≠ Call.Execute t) ∧ (∀ t, c ≠ Call.LeashedExecute t)) := by
  have hg : (grp.New app account region stack team).Team = app := rfl
  have hp : passesGates d account false := ⟨h1, h2, h3, h4, by rw [h5]; rfl⟩
  constructor
  · intro hres
    subst hres
    obtain ⟨p1, p2⟩ := PickRandomemployee_of_empty Parse Intn
      (grp.New app account region stack team) cfg d.Dep h9
    obtain ⟨t1, t2⟩ := Terminate_of_passesGates Parse Intn d app account region stack team
      false hp
    have f1 : (fromConfig Parse Intn d (grp.New app account region stack team) false).out
        = none := by
      simp [fromConfig, hg, h6, h7, h8, p1]
    have f2 : (fromConfig Parse Intn d (grp.New app account region stack team) false).calls
        = Call.ConfGet app :: (eligible.employees Parse
          (grp.New app account region stack team) cfg.Exceptions d.Dep).calls := by
      simp [fromConfig, hg, h6, h7, h8, p1, p2]
    refine ⟨by rw [t2, f1], ?_⟩
    intro c hc
    rw [t1, f2] at hc
    simp only [List.mem_append, List.mem_cons, List.mem_singleton, List.not_mem_nil,
      or_false] at hc
    rcases hc with (h | h | h | h | h) | h | h
    · rw [h]; rfl
    · rw [h]; rfl
    · rw [h]; rfl
    · rw [h]; rfl
    · rw [h]; rfl
    · rw [h]; rfl
    · exact isLookup_not_late c (eligible.employees_calls _ _ _ _ c h)
  · intro hne loc h10 e hidx hk ht hx
    have he : e ∈ res := by
      obtain ⟨hlt, hget⟩ := List.getElem?_eq_some_iff.1 hidx
      rw [← hget]
      exact List.getElem_mem _
    have hpick := PickRandomemployee_at Parse Intn
      (grp.New app account region stack team) cfg d.Dep res e h9 hidx
    have hr : reachesCheck Parse Intn d app account region stack team false cfg e loc :=
      ⟨h1, h2, h3, h4, by rw [h5]; rfl, h6, h7, h8, hpick, h10⟩
    obtain ⟨t1, t2⟩ := Terminate_of_reachesCheck Parse Intn d app account region stack team
      _ _ _ _ hr
    obtain ⟨c1, tracks, c2, c3⟩ := checked_of_success d cfg e loc hk ht hx
    refine ⟨by rw [t2, c1], he,
      [Call.MonkeyEnabled, Call.Outage, Call.AccountEnabled account, Call.Leashed,
        Call.InTest, Call.ConfGet app] ++
      (PickRandomemployee Parse Intn (grp.New app account region stack team) cfg d.Dep).calls ++
      [Call.Location, Call.Now, Call.EndHour] ++
      (Call.Check (termination d false e) cfg d.MonkeyCfg.EndHour loc :: tracks), ?_, ?_⟩
    · rw [t1, c2]
      simp only [termination, List.append_assoc, List.cons_append]
    · intro c hc
      simp only [List.mem_append, List.mem_cons, List.mem_singleton, List.not_mem_nil,
        or_false] at hc
      rcases hc with (((h | h | h | h | h | h) | h) | h | h | h) | h | h
      · rw [h]; exact ⟨fun t => Call.noConfusion, fun t => Call.noConfusion⟩
      · rw [h]; exact ⟨fun t => Call.noConfusion, fun t => Call.noConfusion⟩
      · rw [h]; exact ⟨fun t => Call.noConfusion, fun t => Call.noConfusion⟩
      · rw [h]; exact ⟨fun t => Call.noConfusion, fun t => Call.noConfusion⟩
      · rw [h]; exact ⟨fun t => Call.noConfusion, fun t => Call.noConfusion⟩
      · rw [h]; exact ⟨fun t => Call.noConfusion, fun t => Call.noConfusion⟩
      · have hl := PickRandomemployee_not_late _ _ _ _ _ c h
        constructor
        · intro t ht2
          rw [ht2] at hl
          exact Bool.noConfusion hl
        · intro t ht2
          rw [ht2] at hl
          exact Bool.noConfusion hl
      · rw [h]; exact ⟨fun t => Call.noConfusion, fun t => Call.noConfusion⟩
      · rw [h]; exact ⟨fun t => Call.noConfusion, fun t => Call.noConfusion⟩
      · rw [h]; exact ⟨fun t => Call.noConfusion, fun t => Call.noConfusion⟩
      · rw [h]; exact ⟨fun t => Call.noConfusion, fun t => Call.noConfusion⟩
      · obtain ⟨j, hj⟩ := c3 c h
        rw [hj]; exact ⟨fun t => Call.noConfusion, fun t => Call.noConfusion⟩

end term

namespace term

open elon (Error Call Traced Termination)

theorem Terminate_fires_witness :
    fixture.depsTracked.MonkeyCfg.Enabled = .ok true ∧
      fixture.depsTracked.Ou = (false, none) ∧
      fixture.depsTracked.MonkeyCfg.AccountEnabled "prod" = .ok true ∧
      fixture.depsTracked.MonkeyCfg.Leashed = .ok false ∧
      fixture.depsTracked.Env = false ∧
      fixture.depsTracked.ConfGetter "foo" = .ok fixture.appCfg ∧
      fixture.appCfg.Enabled = true ∧ fixture.appCfg.Whitelist = none ∧
      (eligible.employees fixture.Parse (grp.New "foo" "prod" "us-east-1" "" "foo-crit")
        fixture.appCfg.Exceptions fixture.depsTracked.Dep).out = .ok [fixture.e1] ∧
      [fixture.e1] ≠ [] ∧
      fixture.depsTracked.MonkeyCfg.Location = .ok "America/Los_Angeles" ∧
      [fixture.e1][(fun _ : Nat => 0) [fixture.e1].length % [fixture.e1].length]? =
        some fixture.e1 ∧
      fixture.depsTracked.Checker
        { employee := fixture.e1, Time := fixture.depsTracked.Cl, Leashed := false }
        fixture.appCfg fixture.depsTracked.MonkeyCfg.EndHour "America/Los_Angeles" = none ∧
      (∀ tracker ∈ fixture.depsTracked.Trackers,
        tracker { employee := fixture.e1, Time := fixture.depsTracked.Cl, Leashed := false }
          = none) ∧
      fixture.depsTracked.T
        { employee := fixture.e1, Time := fixture.depsTracked.Cl, Leashed := false } = none ∧
      ((Terminate fixture.Parse (fun _ => 0) fixture.depsTracked
          "foo" "prod" "us-east-1" "" "foo-crit").out = none ∧
        fixture.e1 ∈ [fixture.e1] ∧ ∃ pre,
          (Terminate fixture.Parse (fun _ => 0) fixture.depsTracked
              "foo" "prod" "us-east-1" "" "foo-crit").calls =
            pre ++ [Call.Execute
              { employee := fixture.e1, Time := fixture.depsTracked.Cl, Leashed := false }] ∧
          ∀ c ∈ pre, (∀ t, c ≠ Call.Execute t) ∧ (∀ t, c ≠ Call.LeashedExecute t)) :=
  ⟨rfl, rfl, rfl, rfl, rfl, rfl, rfl, rfl, rfl, by simp, rfl, rfl, rfl,
    (fun tracker htr => by
      simp only [fixture.depsTracked, List.mem_singleton] at htr
      rw [htr]),
    rfl,
    (Terminate_fires fixture.Parse (fun _ => 0) fixture.depsTracked
      "foo" "prod" "us-east-1" "" "foo-crit" fixture.appCfg [fixture.e1]
      rfl rfl rfl rfl rfl rfl rfl rfl rfl).2 (by simp) "America/Los_Angeles" rfl
      fixture.e1 rfl rfl
      (fun tracker htr => by
        simp only [fixture.depsTracked, List.mem_singleton] at htr
        rw [htr])
      rfl⟩

end term

/-! ## Ranging over maps and appending in loops -/

namespace deploy

theorem MapOrder.mem_iter {α : Type} (o : MapOrder) (entries : List α) (x : α) :
    x ∈ o.iter entries ↔ x ∈ entries :=
  (o.perm entries).mem_iff

theorem MapOrder.nodup_iter {α : Type} (o : MapOrder) (entries : List α) :
    (o.iter entries).Nodup ↔ entries.Nodup :=
  (o.perm entries).nodup_iff

theorem MapOrder.length_iter {α : Type} (o : MapOrder) (entries : List α) :
    (o.iter entries).length = entries.length :=
  (o.perm entries).length_eq

theorem MapOrder.mem_range {α : Type} [DecidableEq α] (o : MapOrder) (added : List α) (x : α) :
    x ∈ o.range added ↔ x ∈ added := by
  rw [MapOrder.range, MapOrder.mem_iter, List.mem_dedup]

theorem MapOrder.nodup_range {α : Type} [DecidableEq α] (o : MapOrder) (added : List α) :
    (o.range added).Nodup := by
  rw [MapOrder.range, MapOrder.nodup_iter]
  exact List.nodup_dedup added

theorem foldl_append_singleton {α β : Type} (f : α → β) (l : List α) :
    ∀ init : List β, l.foldl (fun result x => result ++ [f x]) init = init ++ l.map f := by
  induction l with
  | nil => intro init; simp
  | cons a rest ih => intro init; simp [ih]

theorem foldl_append_list {α β : Type} (f : α → List β) (l : List α) :
    ∀ init : List β, l.foldl (fun result x => result ++ f x) init = init ++ l.flatMap f := by
  induction l with
  | nil => intro init; simp
  | cons a rest ih => intro init; simp [ih]

theorem appIndep_eq (o : MapOrder) (app : App) :
    appIndep o app = app.accounts.flatMap fun account =>
      (account.RegionNames o).map fun regionName =>
        grp.New app.name account.name regionName "" "" := by
  simp only [appIndep, foldl_append_singleton, foldl_append_list, List.nil_append]

theorem appDep_eq (app : App) :
    appDep app = app.accounts.map fun account => grp.New app.name account.name "" "" "" := by
  simp only [appDep, foldl_append_singleton, List.nil_append]

theorem teamIndep_eq (o : MapOrder) (app : App) :
    teamIndep o app = app.accounts.flatMap fun account =>
      account.teams.flatMap fun team =>
        (team.RegionNames o).map fun regionName =>
          grp.New app.name account.name regionName "" team.name := by
  simp only [teamIndep, foldl_append_singleton, foldl_append_list, List.nil_append]

theorem teamDep_eq (app : App) :
    teamDep app = app.accounts.flatMap fun account =>
      account.teams.map fun team => grp.New app.name account.name "" "" team.name := by
  simp only [teamDep, foldl_append_singleton, foldl_append_list, List.nil_append]

theorem Team.mem_RegionNames (o : MapOrder) (c : Team) (regionName : String) :
    regionName ∈ c.RegionNames o ↔ ∃ asg ∈ c.asgs, asg.region = regionName := by
  simp [Team.RegionNames, MapOrder.mem_range]

theorem Team.nodup_RegionNames (o : MapOrder) (c : Team) : (c.RegionNames o).Nodup :=
  MapOrder.nodup_range o _

theorem Account.mem_regionNames_of_account (o : MapOrder) (a : Account) (regionName : String) :
    regionName ∈ a.RegionNames o ↔
      ∃ team ∈ a.teams, ∃ asg ∈ team.asgs, asg.region = regionName := by
  simp [Account.RegionNames, MapOrder.mem_range, Team.mem_RegionNames]

theorem Account.nodup_regionNames_of_account (o : MapOrder) (a : Account) : (a.RegionNames o).Nodup :=
  MapOrder.nodup_range o _

end deploy

namespace deploy

/-- Lists built from entries with distinct keys are jointly free of repetition when each
is, and every element carries the key of its entry. -/
theorem nodup_flatMap_of_key {α β : Type} (l : List α) (key : α → String) (tag : β → String)
    (f : α → List β) (hk : (l.map key).Nodup) (hn : ∀ a ∈ l, (f a).Nodup)
    (ht : ∀ a, ∀ y ∈ f a, tag y = key a) : (l.flatMap f).Nodup := by
  rw [List.nodup_flatMap]
  refine ⟨hn, ?_⟩
  have hp : List.Pairwise (fun a b => key a ≠ key b) l := by
    rw [List.Nodup, List.pairwise_map] at hk
    exact hk
  refine hp.imp ?_
  intro a b hab
  rw [Function.onFun, List.disjoint_left]
  intro y hya hyb
  exact hab ((ht a y hya).symm.trans (ht b y hyb))

theorem mem_appIndep (o : MapOrder) (app : App) (g : grp.group) :
    g ∈ appIndep o app ↔
      ∃ account ∈ app.accounts, ∃ team ∈ account.teams, ∃ asg ∈ team.asgs,
        g = grp.New app.name account.name asg.region "" "" := by
  simp only [appIndep_eq, List.mem_flatMap, List.mem_map, Account.mem_regionNames_of_account]
  constructor
  · rintro ⟨account, ha, regionName, ⟨team, ht, asg, hasg, hr⟩, hg⟩
    exact ⟨account, ha, team, ht, asg, hasg, by rw [hr, hg]⟩
  · rintro ⟨account, ha, team, ht, asg, hasg, hg⟩
    exact ⟨account, ha, asg.region, ⟨team, ht, asg, hasg, rfl⟩, hg.symm⟩

theorem nodup_appIndep (o : MapOrder) (app : App)
    (h : (app.accounts.map fun account => account.name).Nodup) : (appIndep o app).Nodup := by
  rw [appIndep_eq]
  refine nodup_flatMap_of_key _ (fun account => account.name) (fun g => g.account) _ h ?_ ?_
  · intro account _
    refine (Account.nodup_regionNames_of_account o account).map ?_
    intro r1 r2 h12
    simp only [grp.New, grp.group.mk.injEq] at h12
    exact h12.2.2.1
  · intro account g hg
    simp only [List.mem_map] at hg
    obtain ⟨r, _, rfl⟩ := hg
    rfl

theorem mem_teamIndep (o : MapOrder) (app : App) (g : grp.group) :
    g ∈ teamIndep o app ↔
      ∃ account ∈ app.accounts, ∃ team ∈ account.teams, ∃ asg ∈ team.asgs,
        g = grp.New app.name account.name asg.region "" team.name := by
  simp only [teamIndep_eq, List.mem_flatMap, List.mem_map, Team.mem_RegionNames]
  constructor
  · rintro ⟨account, ha, team, ht, regionName, ⟨asg, hasg, hr⟩, hg⟩
    exact ⟨account, ha, team, ht, asg, hasg, by rw [hr, hg]⟩
  · rintro ⟨account, ha, team, ht, asg, hasg, hg⟩
    exact ⟨account, ha, team, ht, asg.region, ⟨asg, hasg, rfl⟩, hg.symm⟩

theorem mem_teamDep (app : App) (g : grp.group) :
    g ∈ teamDep app ↔
      ∃ account ∈ app.accounts, ∃ team ∈ account.teams,
        g = grp.New app.name account.name "" "" team.name := by
  simp only [teamDep_eq, List.mem_flatMap, List.mem_map]
  constructor
  · rintro ⟨account, ha, team, ht, hg⟩
    exact ⟨account, ha, team, ht, hg.symm⟩
  · rintro ⟨account, ha, team, ht, hg⟩
    exact ⟨account, ha, team, ht, hg.symm⟩

theorem nodup_teamIndep (o : MapOrder) (app : App) (h : distinctNames app) :
    (teamIndep o app).Nodup := by
  rw [teamIndep_eq]
  refine nodup_flatMap_of_key _ (fun account => account.name) (fun g => g.account) _ h.1 ?_ ?_
  · intro account ha
    refine nodup_flatMap_of_key _ (fun team => team.name) (fun g => g.team) _
      (h.2 account ha) ?_ ?_
    · intro team _
      refine (Team.nodup_RegionNames o team).map ?_
      intro r1 r2 h12
      simp only [grp.New, grp.group.mk.injEq] at h12
      exact h12.2.2.1
    · intro team g hg
      simp only [List.mem_map] at hg
      obtain ⟨r, _, rfl⟩ := hg
      rfl
  · intro account g hg
    simp only [List.mem_flatMap, List.mem_map] at hg
    obtain ⟨team, _, r, _, rfl⟩ := hg
    rfl

theorem nodup_teamDep (app : App) (h : distinctNames app) : (teamDep app).Nodup := by
  rw [teamDep_eq]
  refine nodup_flatMap_of_key _ (fun account => account.name) (fun g => g.account) _ h.1 ?_ ?_
  · intro account ha
    have hn := h.2 account ha
    rw [List.Nodup, List.pairwise_map] at hn
    rw [List.Nodup, List.pairwise_map]
    refine hn.imp ?_
    intro t1 t2 h12 heq
    simp only [grp.New, grp.group.mk.injEq] at heq
    exact h12 heq.2.2.2.2
  · intro account g hg
    simp only [List.mem_map] at hg
    obtain ⟨team, _, rfl⟩ := hg
    rfl

end deploy

namespace deploy

theorem Team.StackName_of_parse (Parse : String → Except elon.Error frigga.Names) (c : Team)
    (names : frigga.Names) (h : Parse c.name = .ok names) :
    c.StackName Parse = .ok names.Stack ∧ parsedStack Parse c.name = names.Stack := by
  simp [Team.StackName, parsedStack, h]

theorem Team.StackName_ok (Parse : String → Except elon.Error frigga.Names) (c : Team)
    (h : ∃ names, Parse c.name = .ok names) :
    c.StackName Parse = .ok (parsedStack Parse c.name) := by
  obtain ⟨names, hn⟩ := h
  obtain ⟨h1, h2⟩ := Team.StackName_of_parse Parse c names hn
  rw [h1, h2]

theorem stackIndepTeams_ok (Parse : String → Except elon.Error frigga.Names) (o : MapOrder)
    (accountName : String) (teams : List Team) :
    ∀ (set : List asr), (∀ team ∈ teams, ∃ names, Parse team.name = .ok names) →
      stackIndepTeams Parse o accountName set teams =
        .ok (set ++ teams.flatMap fun team =>
          (team.RegionNames o).map fun regionName =>
            { account := accountName, stack := parsedStack Parse team.name,
              region := regionName }) := by
  induction teams with
  | nil => intro set _; simp [stackIndepTeams]
  | cons team rest ih =>
    intro set h
    rw [stackIndepTeams, Team.StackName_ok Parse team (h team (List.mem_cons_self _ _))]
    simp only [foldl_append_singleton]
    rw [ih _ (fun t ht => h t (List.mem_cons_of_mem _ ht))]
    simp

theorem stackIndepAccounts_ok (Parse : String → Except elon.Error frigga.Names) (o : MapOrder)
    (accounts : List Account) :
    ∀ (set : List asr),
      (∀ account ∈ accounts, ∀ team ∈ account.teams, ∃ names, Parse team.name = .ok names) →
      stackIndepAccounts Parse o set accounts =
        .ok (set ++ accounts.flatMap fun account =>
          account.teams.flatMap fun team =>
            (team.RegionNames o).map fun regionName =>
              { account := account.name, stack := parsedStack Parse team.name,
                region := regionName }) := by
  induction accounts with
  | nil => intro set _; simp [stackIndepAccounts]
  | cons account rest ih =>
    intro set h
    rw [stackIndepAccounts, stackIndepTeams_ok Parse o account.name account.teams set
      (h account (List.mem_cons_self _ _))]
    simp only
    rw [ih _ (fun a ha => h a (List.mem_cons_of_mem _ ha))]
    simp

theorem stackIndep_ok (Parse : String → Except elon.Error frigga.Names) (o : MapOrder)
    (app : App) (h : allParse Parse app) :
    stackIndep Parse o app =
      .ok ((o.range (app.accounts.flatMap fun account =>
          account.teams.flatMap fun team =>
            (team.RegionNames o).map fun regionName =>
              ({ account := account.name, stack := parsedStack Parse team.name,
                 region := regionName } : asr))).map
        fun x => grp.New app.name x.account x.region x.stack "") := by
  rw [stackIndep, stackIndepAccounts_ok Parse o app.accounts [] h]
  simp only [List.nil_append, foldl_append_singleton]

theorem stackNamesLoop_ok (Parse : String → Except elon.Error frigga.Names)
    (teams : List Team) :
    ∀ (names : List String), (∀ team ∈ teams, ∃ n, Parse team.name = .ok n) →
      Account.stackNamesLoop Parse names teams =
        .ok (names ++ teams.map fun team => parsedStack Parse team.name) := by
  induction teams with
  | nil => intro names _; simp [Account.stackNamesLoop]
  | cons team rest ih =>
    intro names h
    rw [Account.stackNamesLoop, Team.StackName_ok Parse team (h team (List.mem_cons_self _ _))]
    simp only
    rw [ih _ (fun t ht => h t (List.mem_cons_of_mem _ ht))]
    simp

theorem Account.StackNames_ok (Parse : String → Except elon.Error frigga.Names)
    (o : MapOrder) (a : Account) (h : ∀ team ∈ a.teams, ∃ n, Parse team.name = .ok n) :
    a.StackNames Parse o = .ok (o.range (a.teams.map fun team => parsedStack Parse team.name)) := by
  rw [Account.StackNames, stackNamesLoop_ok Parse a.teams [] h]
  simp

theorem stackDepAccounts_ok (Parse : String → Except elon.Error frigga.Names) (o : MapOrder)
    (appName : String) (accounts : List Account) :
    ∀ (result : List grp.group),
      (∀ account ∈ accounts, ∀ team ∈ account.teams, ∃ names, Parse team.name = .ok names) →
      stackDepAccounts Parse o appName result accounts =
        .ok (result ++ accounts.flatMap fun account =>
          (o.range (account.teams.map fun team => parsedStack Parse team.name)).map
            fun stackName => grp.New appName account.name "" stackName "") := by
  induction accounts with
  | nil => intro result _; simp [stackDepAccounts]
  | cons account rest ih =>
    intro result h
    rw [stackDepAccounts, Account.StackNames_ok Parse o account
      (h account (List.mem_cons_self _ _))]
    simp only [foldl_append_singleton]
    rw [ih _ (fun a ha => h a (List.mem_cons_of_mem _ ha))]
    simp

theorem stackDep_ok (Parse : String → Except elon.Error frigga.Names) (o : MapOrder)
    (app : App) (h : allParse Parse app) :
    stackDep Parse o app =
      .ok (app.accounts.flatMap fun account =>
        (o.range (account.teams.map fun team => parsedStack Parse team.name)).map
          fun stackName => grp.New app.name account.name "" stackName "") := by
  rw [stackDep, stackDepAccounts_ok Parse o app.name app.accounts [] h]
  simp

end deploy

/-! ## The number of groups of an app built by `NewTeam` -/

namespace deploy

theorem NewTeam_accounts (o : MapOrder) (name : String) (data : AppMap) :
    (NewTeam o name data).accounts = (o.iter data).map fun accountEntry =>
      ({ name := accountEntry.1
         cloudProvider := accountEntry.2.CloudProvider
         teams := (o.iter accountEntry.2.Teams).map fun teamEntry =>
           { name := teamEntry.1
             asgs := (o.iter teamEntry.2).flatMap fun regionEntry =>
               (o.iter regionEntry.2).map fun asgEntry =>
                 { name := asgEntry.1
                   region := regionEntry.1
                   employees := asgEntry.2.map fun id => { id := id } } } } : Account) :=
  rfl

/-- The region names of an account built by `NewTeam` are, in some order, the distinct
regions of its data. -/
theorem NewTeam_RegionNames_length (o1 o2 : MapOrder) (accountEntry : String × AccountInfo) :
    (Account.RegionNames o1
      { name := accountEntry.1
        cloudProvider := accountEntry.2.CloudProvider
        teams := (o2.iter accountEntry.2.Teams).map fun teamEntry =>
          { name := teamEntry.1
            asgs := (o2.iter teamEntry.2).flatMap fun regionEntry =>
              (o2.iter regionEntry.2).map fun asgEntry =>
                { name := asgEntry.1
                  region := regionEntry.1
                  employees := asgEntry.2.map fun id => { id := id } } } }).length =
      (regionsOf accountEntry.2).dedup.length := by
  apply List.Perm.length_eq
  rw [List.perm_ext_iff_of_nodup (Account.nodup_regionNames_of_account o1 _) (List.nodup_dedup _)]
  intro r
  rw [Account.mem_regionNames_of_account, List.mem_dedup]
  simp only [regionsOf, List.mem_map, List.mem_flatMap, MapOrder.mem_iter]
  constructor
  · rintro ⟨team, ⟨te, hte, hteam⟩, asg, hasg, hr⟩
    subst hteam
    simp only [List.mem_map, List.mem_flatMap, MapOrder.mem_iter] at hasg
    obtain ⟨re, hre, ge, hge, hasg2⟩ := hasg
    subst hasg2
    exact ⟨te, hte, re, hre, ge, hge, hr⟩
  · rintro ⟨te, hte, re, hre, ge, hge, hr⟩
    refine ⟨_, ⟨te, hte, rfl⟩, ASG.mk ge.1 re.1 (ge.2.map fun id => employee.mk id), ?_, hr⟩
    simp only [List.mem_map, List.mem_flatMap, MapOrder.mem_iter]
    exact ⟨re, hre, ge, hge, rfl⟩

theorem length_appIndep_NewTeam (o1 o2 : MapOrder) (name : String) (data : AppMap) :
    (appIndep o1 (NewTeam o2 name data)).length =
      (data.map fun accountEntry => (regionsOf accountEntry.2).dedup.length).sum := by
  rw [appIndep_eq, List.length_flatMap, NewTeam_accounts, List.map_map]
  have h : (List.length ∘ fun account : Account =>
      List.map (fun regionName =>
        grp.New (NewTeam o2 name data).name account.name regionName "" "")
        (Account.RegionNames o1 account)) ∘
      (fun accountEntry : String × AccountInfo =>
        ({ name := accountEntry.1
           cloudProvider := accountEntry.2.CloudProvider
           teams := (o2.iter accountEntry.2.Teams).map fun teamEntry =>
             { name := teamEntry.1
               asgs := (o2.iter teamEntry.2).flatMap fun regionEntry =>
                 (o2.iter regionEntry.2).map fun asgEntry =>
                   { name := asgEntry.1
                     region := regionEntry.1
                     employees := asgEntry.2.map fun id => { id := id } } } } : Account)) =
      fun accountEntry => (regionsOf accountEntry.2).dedup.length := by
    funext accountEntry
    simp only [Function.comp, List.length_map]
    exact NewTeam_RegionNames_length o1 o2 accountEntry
  rw [h]
  exact ((o2.perm data).map _).sum_eq

theorem length_appDep_NewTeam (o2 : MapOrder) (name : String) (data : AppMap) :
    (appDep (NewTeam o2 name data)).length = data.length := by
  rw [appDep_eq, List.length_map, NewTeam_accounts, List.length_map, MapOrder.length_iter]

end deploy

/-! ## Claims about `EligibleemployeeGroups` -/

namespace deploy

theorem EligibleemployeeGroups_eq (Parse : String → Except elon.Error frigga.Names)
    (o : MapOrder) (app : App) (cfg : elon.TeamConfig) (he : cfg.Enabled = true) :
    (cfg.Grouping = 0 → cfg.RegionsAreIndependent = true →
      EligibleemployeeGroups Parse o app cfg = .ok (appIndep o app)) ∧
    (cfg.Grouping = 0 → cfg.RegionsAreIndependent = false →
      EligibleemployeeGroups Parse o app cfg = .ok (appDep app)) ∧
    (cfg.Grouping = 1 → cfg.RegionsAreIndependent = true →
      EligibleemployeeGroups Parse o app cfg = stackIndep Parse o app) ∧
    (cfg.Grouping = 1 → cfg.RegionsAreIndependent = false →
      EligibleemployeeGroups Parse o app cfg = stackDep Parse o app) ∧
    (cfg.Grouping = 2 → cfg.RegionsAreIndependent = true →
      EligibleemployeeGroups Parse o app cfg = .ok (teamIndep o app)) ∧
    (cfg.Grouping = 2 → cfg.RegionsAreIndependent = false →
      EligibleemployeeGroups Parse o app cfg = .ok (teamDep app)) := by
  refine ⟨?_, ?_, ?_, ?_, ?_, ?_⟩ <;> intro hg hi <;>
    simp [EligibleemployeeGroups, he, hg, hi, elon.Team, elon.Stack, elon.Team2]

/-- C17: for an enabled config with the grouping by app (value 0): when regions are
independent, `EligibleemployeeGroups` returns a list whose members are exactly the groups
`New app account region "" ""` for an account of the app and a region of an ASG of a
team of that account; when regions are not independent, it returns the list of the groups
`New app account "" "" ""`, one per account. On the app of the test, built by `NewTeam`
from two accounts with two regions each, these lists have 4 and 2 groups, in whatever
order maps are ranged over. -/
theorem EligibleemployeeGroups_by_app (Parse : String → Except elon.Error frigga.Names)
    (o : MapOrder) (app : App) (cfg : elon.TeamConfig) (he : cfg.Enabled = true)
    (hg : cfg.Grouping = 0) :
    (cfg.RegionsAreIndependent = true →
      ∃ gs, EligibleemployeeGroups Parse o app cfg = .ok gs ∧
        ∀ g, g ∈ gs ↔
          ∃ account ∈ app.accounts, ∃ team ∈ account.teams, ∃ asg ∈ team.asgs,
            g = grp.New app.name account.name asg.region "" "") ∧
    (cfg.RegionsAreIndependent = false →
      EligibleemployeeGroups Parse o app cfg =
        .ok (app.accounts.map fun account => grp.New app.name account.name "" "" "")) ∧
    (∀ o2 : MapOrder,
      ∃ gs4 gs2,
        EligibleemployeeGroups Parse o (NewTeam o2 "mock" fixture.mockData)
          (fixture.conf 0 true) = .ok gs4 ∧ gs4.length = 4 ∧
        EligibleemployeeGroups Parse o (NewTeam o2 "mock" fixture.mockData)
          (fixture.conf 0 false) = .ok gs2 ∧ gs2.length = 2) := by
  refine ⟨?_, ?_, ?_⟩
  · intro hi
    exact ⟨appIndep o app, (EligibleemployeeGroups_eq Parse o app cfg he).1 hg hi,
      mem_appIndep o app⟩
  · intro hi
    rw [(EligibleemployeeGroups_eq Parse o app cfg he).2.1 hg hi, appDep_eq]
  · intro o2
    refine ⟨_, _, (EligibleemployeeGroups_eq Parse o _ (fixture.conf 0 true) rfl).1 rfl rfl,
      ?_, (EligibleemployeeGroups_eq Parse o _ (fixture.conf 0 false) rfl).2.1 rfl rfl, ?_⟩
    · rw [length_appIndep_NewTeam]
      decide
    · rw [length_appDep_NewTeam]
      rfl

theorem EligibleemployeeGroups_by_app_witness :
    (fixture.conf 0 true).Enabled = true ∧ (fixture.conf 0 true).Grouping = 0 ∧
      (fixture.conf 0 true).RegionsAreIndependent = true ∧
      ∃ gs, EligibleemployeeGroups fixture.mockParse MapOrder.listed
          (NewTeam MapOrder.listed "mock" fixture.mockData) (fixture.conf 0 true) = .ok gs ∧
        ∀ g, g ∈ gs ↔
          ∃ account ∈ (NewTeam MapOrder.listed "mock" fixture.mockData).accounts,
            ∃ team ∈ account.teams, ∃ asg ∈ team.asgs,
              g = grp.New (NewTeam MapOrder.listed "mock" fixture.mockData).name
                account.name asg.region "" "" :=
  ⟨rfl, rfl, rfl, (EligibleemployeeGroups_by_app fixture.mockParse MapOrder.listed
    (NewTeam MapOrder.listed "mock" fixture.mockData) (fixture.conf 0 true) rfl rfl).1 rfl⟩

end deploy

namespace deploy

theorem parsedStack_of_parse (Parse : String → Except elon.Error frigga.Names) (name : String)
    (names : frigga.Names) (h : Parse name = .ok names) :
    parsedStack Parse name = names.Stack := by
  simp [parsedStack, h]

/-- C18, as stated, fails: for an enabled config with the grouping by stack and an app with
a team whose name does not parse, `Team.StackName` panics and `EligibleemployeeGroups`
returns no list, for independent regions and for dependent ones. -/
theorem EligibleemployeeGroups_by_stack_counterexample :
    (fixture.conf elon.Stack true).Enabled = true ∧
      (fixture.conf elon.Stack true).Grouping = elon.Stack ∧
      fixture.Parse "foo crit" = .error (.msg "unparseable name") ∧
      EligibleemployeeGroups fixture.Parse MapOrder.listed
          (NewTeam MapOrder.listed "foo" fixture.unparsedData) (fixture.conf elon.Stack true) =
        .error (.panic (.msg "unparseable name")) ∧
      EligibleemployeeGroups fixture.Parse MapOrder.listed
          (NewTeam MapOrder.listed "foo" fixture.unparsedData) (fixture.conf elon.Stack false) =
        .error (.panic (.msg "unparseable name")) :=
  ⟨rfl, rfl, rfl, rfl, rfl⟩

/-- C18, amended: for an enabled config with the grouping by stack, on an app whose team
names all parse: when regions are independent, `EligibleemployeeGroups` returns a list without
repetition whose members are exactly the groups `New app account region stack ""` such
that some team of the account has that parsed stack and an ASG in that region; when
regions are not independent, it returns a list whose members are exactly the groups
`New app account "" stack ""` such that some team of the account has that parsed stack,
without repetition when the accounts have distinct names. -/
theorem EligibleemployeeGroups_by_stack (Parse : String → Except elon.Error frigga.Names)
    (o : MapOrder) (app : App) (cfg : elon.TeamConfig) (he : cfg.Enabled = true)
    (hg : cfg.Grouping = 1) (hp : allParse Parse app) :
    (cfg.RegionsAreIndependent = true →
      ∃ gs, EligibleemployeeGroups Parse o app cfg = .ok gs ∧ gs.Nodup ∧
        ∀ g, g ∈ gs ↔
          ∃ account ∈ app.accounts, ∃ team ∈ account.teams, ∃ asg ∈ team.asgs,
            ∃ names, Parse team.name = .ok names ∧
              g = grp.New app.name account.name asg.region names.Stack "") ∧
    (cfg.RegionsAreIndependent = false →
      ∃ gs, EligibleemployeeGroups Parse o app cfg = .ok gs ∧
        ((app.accounts.map fun account => account.name).Nodup → gs.Nodup) ∧
        ∀ g, g ∈ gs ↔
          ∃ account ∈ app.accounts, ∃ team ∈ account.teams,
            ∃ names, Parse team.name = .ok names ∧
              g = grp.New app.name account.name "" names.Stack "") := by
  constructor
  · intro hi
    refine ⟨_, ((EligibleemployeeGroups_eq Parse o app cfg he).2.2.1 hg hi).trans
      (stackIndep_ok Parse o app hp), ?_, ?_⟩
    · refine (MapOrder.nodup_range o _).map ?_
      intro x y hxy
      simp only [grp.New, grp.group.mk.injEq] at hxy
      cases x
      cases y
      simp only [asr.mk.injEq]
      exact ⟨hxy.2.1, hxy.2.2.2.1, hxy.2.2.1⟩
    · intro g
      simp only [List.mem_map, MapOrder.mem_range, List.mem_flatMap, Team.mem_RegionNames]
      constructor
      · rintro ⟨x, ⟨account, ha, team, ht, r, ⟨asg, hasg, hr⟩, hx⟩, hgx⟩
        obtain ⟨names, hn⟩ := hp account ha team ht
        refine ⟨account, ha, team, ht, asg, hasg, names, hn, ?_⟩
        rw [← hgx, ← hx, hr, parsedStack_of_parse Parse _ names hn]
      · rintro ⟨account, ha, team, ht, asg, hasg, names, hn, hgx⟩
        refine ⟨⟨account.name, names.Stack, asg.region⟩,
          ⟨account, ha, team, ht, asg.region, ⟨asg, hasg, rfl⟩, ?_⟩, hgx.symm⟩
        rw [parsedStack_of_parse Parse _ names hn]
  · intro hi
    refine ⟨_, ((EligibleemployeeGroups_eq Parse o app cfg he).2.2.2.1 hg hi).trans
      (stackDep_ok Parse o app hp), ?_, ?_⟩
    · intro hn
      refine nodup_flatMap_of_key _ (fun account => account.name) (fun g => g.account) _
        hn ?_ ?_
      · intro account _
        refine (MapOrder.nodup_range o _).map ?_
        intro s1 s2 h12
        simp only [grp.New, grp.group.mk.injEq] at h12
        exact h12.2.2.2.1
      · intro account g hgm
        simp only [List.mem_map] at hgm
        obtain ⟨s, _, rfl⟩ := hgm
        rfl
    · intro g
      simp only [List.mem_map, MapOrder.mem_range, List.mem_flatMap]
      constructor
      · rintro ⟨account, ha, s, ⟨team, ht, hs⟩, hgx⟩
        obtain ⟨names, hn⟩ := hp account ha team ht
        refine ⟨account, ha, team, ht, names, hn, ?_⟩
        rw [← hgx, ← hs, parsedStack_of_parse Parse _ names hn]
      · rintro ⟨account, ha, team, ht, names, hn, hgx⟩
        exact ⟨account, ha, names.Stack,
          ⟨team, ht, parsedStack_of_parse Parse _ names hn⟩, hgx.symm⟩

end deploy

namespace deploy

theorem allParse_of_isOk (Parse : String → Except elon.Error frigga.Names) (app : App)
    (h : ∀ account ∈ app.accounts, ∀ team ∈ account.teams,
      (Parse team.name).toBool = true) : allParse Parse app := by
  intro account ha team ht
  have := h account ha team ht
  cases hp : Parse team.name with
  | ok names => exact ⟨names, rfl⟩
  | error e => rw [hp] at this; exact absurd this (by simp [Except.toBool])

theorem allParse_mock :
    allParse fixture.mockParse (NewTeam MapOrder.listed "mock" fixture.mockData) :=
  allParse_of_isOk _ _ (by decide)

end deploy

namespace deploy

theorem EligibleemployeeGroups_by_stack_witness :
    (fixture.conf 1 true).Enabled = true ∧ (fixture.conf 1 true).Grouping = 1 ∧
      allParse fixture.mockParse (NewTeam MapOrder.listed "mock" fixture.mockData) ∧
      (fixture.conf 1 true).RegionsAreIndependent = true ∧
      ∃ gs, EligibleemployeeGroups fixture.mockParse MapOrder.listed
          (NewTeam MapOrder.listed "mock" fixture.mockData) (fixture.conf 1 true) = .ok gs ∧
        gs.Nodup ∧
        ∀ g, g ∈ gs ↔
          ∃ account ∈ (NewTeam MapOrder.listed "mock" fixture.mockData).accounts,
            ∃ team ∈ account.teams, ∃ asg ∈ team.asgs,
              ∃ names, fixture.mockParse team.name = .ok names ∧
                g = grp.New (NewTeam MapOrder.listed "mock" fixture.mockData).name
                  account.name asg.region names.Stack "" :=
  ⟨rfl, rfl, allParse_mock, rfl,
    (EligibleemployeeGroups_by_stack fixture.mockParse MapOrder.listed
      (NewTeam MapOrder.listed "mock" fixture.mockData) (fixture.conf 1 true) rfl rfl
      allParse_mock).1 rfl⟩

theorem distinctNames_mock :
    distinctNames (NewTeam MapOrder.listed "mock" fixture.mockData) := by
  unfold distinctNames
  decide

/-- C19: for an enabled config with the grouping by team (value 2): when regions are
independent, `EligibleemployeeGroups` returns a list whose members are exactly the groups
`New app account region "" team` such that the team of the account has an ASG in that
region; when regions are not independent, it returns the list of the groups
`New app account "" "" team`, one for each team of each account. When the accounts have
distinct names and the teams of each account have distinct names, neither list repeats a
group. -/
theorem EligibleemployeeGroups_by_team (Parse : String → Except elon.Error frigga.Names)
    (o : MapOrder) (app : App) (cfg : elon.TeamConfig) (he : cfg.Enabled = true)
    (hg : cfg.Grouping = 2) :
    (cfg.RegionsAreIndependent = true →
      ∃ gs, EligibleemployeeGroups Parse o app cfg = .ok gs ∧
        (distinctNames app → gs.Nodup) ∧
        ∀ g, g ∈ gs ↔
          ∃ account ∈ app.accounts, ∃ team ∈ account.teams, ∃ asg ∈ team.asgs,
            g = grp.New app.name account.name asg.region "" team.name) ∧
    (cfg.RegionsAreIndependent = false →
      ∃ gs, EligibleemployeeGroups Parse o app cfg = .ok gs ∧
        (distinctNames app → gs.Nodup) ∧
        gs = app.accounts.flatMap fun account =>
          account.teams.map fun team => grp.New app.name account.name "" "" team.name) := by
  constructor
  · intro hi
    exact ⟨_, (EligibleemployeeGroups_eq Parse o app cfg he).2.2.2.2.1 hg hi,
      nodup_teamIndep o app, mem_teamIndep o app⟩
  · intro hi
    exact ⟨_, (EligibleemployeeGroups_eq Parse o app cfg he).2.2.2.2.2 hg hi,
      nodup_teamDep app, teamDep_eq app⟩

theorem EligibleemployeeGroups_by_team_witness :
    (fixture.conf 2 true).Enabled = true ∧ (fixture.conf 2 true).Grouping = 2 ∧
      (fixture.conf 2 true).RegionsAreIndependent = true ∧
      distinctNames (NewTeam MapOrder.listed "mock" fixture.mockData) ∧
      ∃ gs, EligibleemployeeGroups fixture.mockParse MapOrder.listed
          (NewTeam MapOrder.listed "mock" fixture.mockData) (fixture.conf 2 true) = .ok gs ∧
        (distinctNames (NewTeam MapOrder.listed "mock" fixture.mockData) → gs.Nodup) ∧
        ∀ g, g ∈ gs ↔
          ∃ account ∈ (NewTeam MapOrder.listed "mock" fixture.mockData).accounts,
            ∃ team ∈ account.teams, ∃ asg ∈ team.asgs,
              g = grp.New (NewTeam MapOrder.listed "mock" fixture.mockData).name
                account.name asg.region "" team.name :=
  ⟨rfl, rfl, rfl, distinctNames_mock,
    (EligibleemployeeGroups_by_team fixture.mockParse MapOrder.listed
      (NewTeam MapOrder.listed "mock" fixture.mockData) (fixture.conf 2 true) rfl rfl).1 rfl⟩

end deploy

namespace deploy

theorem MapOrder.iter_singleton {α : Type} (o : MapOrder) (a : α) : o.iter [a] = [a] :=
  List.perm_singleton.mp (o.perm [a])

theorem MapOrder.iter_nil {α : Type} (o : MapOrder) : o.iter ([] : List α) = [] :=
  List.perm_nil.mp (o.perm [])

/-- The app built from `fixture.emptyAsgData`, whatever the order of the maps. -/
theorem NewTeam_emptyAsgData (o : MapOrder) :
    NewTeam o "foo" fixture.emptyAsgData =
      { name := "foo"
        accounts := [{ name := "prod", cloudProvider := "aws"
                       teams := [{ name := "foo-prod"
                                   asgs := [{ name := "foo-prod-v001", region := "us-east-1"
                                              employees := [] }] }] }] } := by
  simp [NewTeam, fixture.emptyAsgData, MapOrder.iter_singleton]

/-- C20: on the app `foo` whose only ASG holds no employee, for every order of the maps,
`EligibleemployeeGroups` with the grouping by team and independent regions returns the
group `New "foo" "prod" "us-east-1" "" "foo-prod"`, and with the grouping by app and
dependent regions returns the group `New "foo" "prod" "" "" ""`; neither group is backed
by an employee of the app. -/
theorem EligibleemployeeGroups_returns_unbacked_group (o : MapOrder) :
    EligibleemployeeGroups fixture.mockParse o (NewTeam o "foo" fixture.emptyAsgData)
        (fixture.conf 2 true) = .ok [grp.New "foo" "prod" "us-east-1" "" "foo-prod"] ∧
      ¬ backed fixture.mockParse (NewTeam o "foo" fixture.emptyAsgData)
        (grp.New "foo" "prod" "us-east-1" "" "foo-prod") ∧
      EligibleemployeeGroups fixture.mockParse o (NewTeam o "foo" fixture.emptyAsgData)
        (fixture.conf 0 false) = .ok [grp.New "foo" "prod" "" "" ""] ∧
      ¬ backed fixture.mockParse (NewTeam o "foo" fixture.emptyAsgData)
        (grp.New "foo" "prod" "" "" "") := by
  rw [NewTeam_emptyAsgData]
  refine ⟨?_, ?_, ?_, ?_⟩
  · rw [(EligibleemployeeGroups_eq _ o _ (fixture.conf 2 true) rfl).2.2.2.2.1 rfl rfl,
      teamIndep_eq]
    simp [Team.RegionNames, MapOrder.range, MapOrder.iter_singleton]
  · simp [backed]
  · rw [(EligibleemployeeGroups_eq _ o _ (fixture.conf 0 false) rfl).2.1 rfl rfl, appDep_eq]
    simp
  · simp [backed]

end deploy

/-! ## No group is returned twice -/

namespace grp

theorem Equal_New_eq_true_iff (a1 c1 r1 s1 t1 a2 c2 r2 s2 t2 : String) :
    Equal (New a1 c1 r1 s1 t1) (New a2 c2 r2 s2 t2) = true ↔
      a1 = a2 ∧ c1 = c2 ∧ r1 = r2 ∧ s1 = s2 ∧ t1 = t2 := by
  have hr := optional_tests_iff r1 r2
  have hs := optional_tests_iff s1 s2
  have ht := optional_tests_iff t1 t2
  unfold Equal
  rw [Region_New, Region_New, Stack_New, Stack_New, Team2_New, Team2_New]
  have hT : ∀ a c r s t, (New a c r s t).Team = a := fun _ _ _ _ _ => rfl
  have hA : ∀ a c r s t, (New a c r s t).Account = c := fun _ _ _ _ _ => rfl
  rw [hT, hT, hA, hA]
  have hg : (New a1 c1 r1 s1 t1 == New a2 c2 r2 s2 t2) = true ↔
      a1 = a2 ∧ c1 = c2 ∧ r1 = r2 ∧ s1 = s2 ∧ t1 = t2 := by
    rw [beq_iff_eq]
    simp only [New, group.mk.injEq]
  have h1 : (a1 != a2) = false ↔ a1 = a2 := by simp
  have h2 : (c1 != c2) = false ↔ c1 = c2 := by simp
  generalize (New a1 c1 r1 s1 t1 == New a2 c2 r2 s2 t2) = b0 at hg ⊢
  generalize (a1 != a2) = b1 at h1 ⊢
  generalize (c1 != c2) = b2 at h2 ⊢
  generalize (((if r1 = "" then ("", false) else (r1, true)) : String × Bool).2 !=
    ((if r2 = "" then ("", false) else (r2, true)) : String × Bool).2) = b3 at hr ⊢
  generalize (((if r1 = "" then ("", false) else (r1, true)) : String × Bool).2 &&
    (((if r1 = "" then ("", false) else (r1, true)) : String × Bool).1 !=
      ((if r2 = "" then ("", false) else (r2, true)) : String × Bool).1)) = b4 at hr ⊢
  generalize (((if s1 = "" then ("", false) else (s1, true)) : String × Bool).2 !=
    ((if s2 = "" then ("", false) else (s2, true)) : String × Bool).2) = b5 at hs ⊢
  generalize (((if s1 = "" then ("", false) else (s1, true)) : String × Bool).2 &&
    (((if s1 = "" then ("", false) else (s1, true)) : String × Bool).1 !=
      ((if s2 = "" then ("", false) else (s2, true)) : String × Bool).1)) = b6 at hs ⊢
  generalize (((if t1 = "" then ("", false) else (t1, true)) : String × Bool).2 !=
    ((if t2 = "" then ("", false) else (t2, true)) : String × Bool).2) = b7 at ht ⊢
  generalize (((if t1 = "" then ("", false) else (t1, true)) : String × Bool).2 &&
    (((if t1 = "" then ("", false) else (t1, true)) : String × Bool).1 !=
      ((if t2 = "" then ("", false) else (t2, true)) : String × Bool).1)) = b8 at ht ⊢
  rw [chain_iff, hg, h1, h2, hr, hs, ht]
  constructor
  · rintro (h | h)
    · exact h
    · exact h
  · exact fun h => Or.inl h

/-- Two groups that `Equal` accepts are the same group. -/
theorem eq_of_Equal (g1 g2 : group) (h : Equal g1 g2 = true) : g1 = g2 := by
  obtain ⟨a1, c1, r1, s1, t1⟩ := g1
  obtain ⟨a2, c2, r2, s2, t2⟩ := g2
  have h2 := (Equal_New_eq_true_iff a1 c1 r1 s1 t1 a2 c2 r2 s2 t2).1 h
  obtain ⟨ha, hc, hr, hs, ht⟩ := h2
  rw [ha, hc, hr, hs, ht]

end grp

namespace deploy

theorem Team.parse_of_StackName (Parse : String → Except elon.Error frigga.Names) (c : Team)
    (stackName : String) (h : c.StackName Parse = .ok stackName) :
    ∃ names, Parse c.name = .ok names := by
  unfold Team.StackName at h
  cases hp : Parse c.name with
  | ok names => exact ⟨names, rfl⟩
  | error err => rw [hp] at h; cases h

theorem stackIndepTeams_parse (Parse : String → Except elon.Error frigga.Names) (o : MapOrder)
    (accountName : String) (teams : List Team) :
    ∀ (set result : List asr), stackIndepTeams Parse o accountName set teams = .ok result →
      ∀ team ∈ teams, ∃ names, Parse team.name = .ok names := by
  induction teams with
  | nil => intro _ _ _ team ht; cases ht
  | cons team rest ih =>
    intro set result h t ht
    rw [stackIndepTeams] at h
    cases hs : team.StackName Parse with
    | error abort => rw [hs] at h; cases h
    | ok stackName =>
      rw [hs] at h
      rcases List.mem_cons.1 ht with rfl | ht2
      · exact Team.parse_of_StackName Parse _ stackName hs
      · exact ih _ _ h t ht2

theorem stackIndepAccounts_parse (Parse : String → Except elon.Error frigga.Names)
    (o : MapOrder) (accounts : List Account) :
    ∀ (set result : List asr), stackIndepAccounts Parse o set accounts = .ok result →
      ∀ account ∈ accounts, ∀ team ∈ account.teams, ∃ names, Parse team.name = .ok names := by
  induction accounts with
  | nil => intro _ _ _ account ha; cases ha
  | cons account rest ih =>
    intro set result h a ha
    rw [stackIndepAccounts] at h
    cases hs : stackIndepTeams Parse o account.name set account.teams with
    | error abort => rw [hs] at h; cases h
    | ok set2 =>
      rw [hs] at h
      rcases List.mem_cons.1 ha with rfl | ha2
      · exact stackIndepTeams_parse Parse o _ _ _ _ hs
      · exact ih _ _ h a ha2

theorem stackIndep_parse (Parse : String → Except elon.Error frigga.Names) (o : MapOrder)
    (app : App) (gs : List grp.group) (h : stackIndep Parse o app = .ok gs) :
    allParse Parse app := by
  unfold stackIndep at h
  cases hs : stackIndepAccounts Parse o [] app.accounts with
  | error abort => rw [hs] at h; cases h
  | ok set => exact stackIndepAccounts_parse Parse o _ _ _ hs

theorem stackNamesLoop_parse (Parse : String → Except elon.Error frigga.Names)
    (teams : List Team) :
    ∀ (names result : List String), Account.stackNamesLoop Parse names teams = .ok result →
      ∀ team ∈ teams, ∃ n, Parse team.name = .ok n := by
  induction teams with
  | nil => intro _ _ _ team ht; cases ht
  | cons team rest ih =>
    intro names result h t ht
    rw [Account.stackNamesLoop] at h
    cases hs : team.StackName Parse with
    | error abort => rw [hs] at h; cases h
    | ok stackName =>
      rw [hs] at h
      rcases List.mem_cons.1 ht with rfl | ht2
      · exact Team.parse_of_StackName Parse _ stackName hs
      · exact ih _ _ h t ht2

theorem Account.parse_of_StackNames (Parse : String → Except elon.Error frigga.Names)
    (o : MapOrder) (a : Account) (result : List String)
    (h : a.StackNames Parse o = .ok result) :
    ∀ team ∈ a.teams, ∃ n, Parse team.name = .ok n := by
  unfold Account.StackNames at h
  cases hs : Account.stackNamesLoop Parse [] a.teams with
  | error abort => rw [hs] at h; cases h
  | ok names => exact stackNamesLoop_parse Parse _ _ _ hs

theorem stackDepAccounts_parse (Parse : String → Except elon.Error frigga.Names)
    (o : MapOrder) (appName : String) (accounts : List Account) :
    ∀ (result gs : List grp.group), stackDepAccounts Parse o appName result accounts = .ok gs →
      ∀ account ∈ accounts, ∀ team ∈ account.teams, ∃ names, Parse team.name = .ok names := by
  induction accounts with
  | nil => intro _ _ _ account ha; cases ha
  | cons account rest ih =>
    intro result gs h a ha
    rw [stackDepAccounts] at h
    cases hs : account.StackNames Parse o with
    | error abort => rw [hs] at h; cases h
    | ok stackNames =>
      rw [hs] at h
      rcases List.mem_cons.1 ha with rfl | ha2
      · exact Account.parse_of_StackNames Parse o _ _ hs
      · exact ih _ _ h a ha2

theorem stackDep_parse (Parse : String → Except elon.Error frigga.Names) (o : MapOrder)
    (app : App) (gs : List grp.group) (h : stackDep Parse o app = .ok gs) :
    allParse Parse app :=
  stackDepAccounts_parse Parse o _ _ _ _ h

end deploy

namespace deploy

theorem nodup_stackIndep_groups (o : MapOrder) (appName : String) (keys : List asr) :
    ((o.range keys).map fun x => grp.New appName x.account x.region x.stack "").Nodup := by
  refine (MapOrder.nodup_range o _).map ?_
  intro x y hxy
  simp only [grp.New, grp.group.mk.injEq] at hxy
  cases x
  cases y
  simp only [asr.mk.injEq]
  exact ⟨hxy.2.1, hxy.2.2.2.1, hxy.2.2.1⟩

theorem nodup_stackDep_groups (o : MapOrder) (appName : String) (accounts : List Account)
    (stackNames : Account → List String)
    (hn : (accounts.map fun account => account.name).Nodup) :
    (accounts.flatMap fun account =>
      (o.range (stackNames account)).map fun stackName =>
        grp.New appName account.name "" stackName "").Nodup := by
  refine nodup_flatMap_of_key _ (fun account => account.name) (fun g => g.account) _ hn ?_ ?_
  · intro account _
    refine (MapOrder.nodup_range o _).map ?_
    intro s1 s2 h12
    simp only [grp.New, grp.group.mk.injEq] at h12
    exact h12.2.2.2.1
  · intro account g hgm
    simp only [List.mem_map] at hgm
    obtain ⟨s, _, rfl⟩ := hgm
    rfl

theorem nodup_appDep (app : App)
    (h : (app.accounts.map fun account => account.name).Nodup) : (appDep app).Nodup := by
  rw [appDep_eq]
  rw [List.Nodup, List.pairwise_map] at h
  rw [List.Nodup, List.pairwise_map]
  refine h.imp ?_
  intro a b hab heq
  simp only [grp.New, grp.group.mk.injEq] at heq
  exact hab heq.2.1

/-- An app built by `NewTeam` from maps has accounts with distinct names, each with teams
with distinct names. -/
theorem distinctNames_NewTeam (o : MapOrder) (name : String) (data : AppMap)
    (hk : distinctKeys data) : distinctNames (NewTeam o name data) := by
  constructor
  · rw [NewTeam_accounts, List.map_map]
    exact ((o.perm data).map _).nodup_iff.2 hk.1
  · intro account ha
    rw [NewTeam_accounts, List.mem_map] at ha
    obtain ⟨accountEntry, he, rfl⟩ := ha
    rw [List.map_map]
    exact ((o.perm accountEntry.2.Teams).map _).nodup_iff.2
      (hk.2 accountEntry ((MapOrder.mem_iter o data accountEntry).1 he))

/-- An enabled config with a grouping other than the three defined ones makes
`EligibleemployeeGroups` panic. -/
theorem EligibleemployeeGroups_unknown (Parse : String → Except elon.Error frigga.Names)
    (o : MapOrder) (app : App) (cfg : elon.TeamConfig) (he : cfg.Enabled = true)
    (h0 : cfg.Grouping ≠ 0) (h1 : cfg.Grouping ≠ 1) (h2 : cfg.Grouping ≠ 2) :
    EligibleemployeeGroups Parse o app cfg =
      .error (.panic (.msg ("Unknown grouping: " ++ toString cfg.Grouping))) := by
  simp [EligibleemployeeGroups, he, h0, h1, h2, elon.Team, elon.Stack, elon.Team2]

theorem EligibleemployeeGroups_disabled (Parse : String → Except elon.Error frigga.Names)
    (o : MapOrder) (app : App) (cfg : elon.TeamConfig) (he : cfg.Enabled = false) :
    EligibleemployeeGroups Parse o app cfg =
      .error (.fatal ("app " ++ app.name ++ " unexpectedly disabled")) := by
  simp [EligibleemployeeGroups, he]

/-- The groups returned for an app whose accounts and teams have distinct names are
pairwise different. -/
theorem EligibleemployeeGroups_nodup (Parse : String → Except elon.Error frigga.Names)
    (o : MapOrder) (app : App) (cfg : elon.TeamConfig) (gs : List grp.group)
    (hd : distinctNames app) (h : EligibleemployeeGroups Parse o app cfg = .ok gs) :
    gs.Nodup := by
  cases he : cfg.Enabled with
  | false => rw [EligibleemployeeGroups_disabled Parse o app cfg he] at h; cases h
  | true =>
    have hq := EligibleemployeeGroups_eq Parse o app cfg he
    by_cases h0 : cfg.Grouping = 0
    · cases hi : cfg.RegionsAreIndependent with
      | true =>
        rw [hq.1 h0 hi] at h
        cases h
        exact nodup_appIndep o app hd.1
      | false =>
        rw [hq.2.1 h0 hi] at h
        cases h
        exact nodup_appDep app hd.1
    · by_cases h1 : cfg.Grouping = 1
      · cases hi : cfg.RegionsAreIndependent with
        | true =>
          rw [hq.2.2.1 h1 hi] at h
          rw [stackIndep_ok Parse o app (stackIndep_parse Parse o app gs h)] at h
          cases h
          exact nodup_stackIndep_groups o _ _
        | false =>
          rw [hq.2.2.2.1 h1 hi] at h
          rw [stackDep_ok Parse o app (stackDep_parse Parse o app gs h)] at h
          cases h
          exact nodup_stackDep_groups o _ _ _ hd.1
      · by_cases h2 : cfg.Grouping = 2
        · cases hi : cfg.RegionsAreIndependent with
          | true =>
            rw [hq.2.2.2.2.1 h2 hi] at h
            cases h
            exact nodup_teamIndep o app hd
          | false =>
            rw [hq.2.2.2.2.2 h2 hi] at h
            cases h
            exact nodup_teamDep app hd
        · rw [EligibleemployeeGroups_unknown Parse o app cfg he h0 h1 h2] at h
          cases h

end deploy

namespace deploy

theorem distinctKeys_mock : distinctKeys fixture.mockData := by
  unfold distinctKeys
  decide

/-- C21: for an app built by `NewTeam` from maps (whose keys are distinct) and any config,
no two entries at different positions of a list returned by `EligibleemployeeGroups` are
`grp.Equal`; and a list is returned when the config is enabled, its grouping is one of
the three defined ones and the names of the teams parse. -/
theorem EligibleemployeeGroups_no_duplicates
    (Parse : String → Except elon.Error frigga.Names) (o o2 : MapOrder) (name : String)
    (data : AppMap) (cfg : elon.TeamConfig) (hk : distinctKeys data) :
    (∀ gs, EligibleemployeeGroups Parse o (NewTeam o2 name data) cfg = .ok gs →
      ∀ i j : Fin gs.length, i ≠ j → grp.Equal (gs.get i) (gs.get j) = false) ∧
    (cfg.Enabled = true → (cfg.Grouping = 0 ∨ cfg.Grouping = 1 ∨ cfg.Grouping = 2) →
      allParse Parse (NewTeam o2 name data) →
      ∃ gs, EligibleemployeeGroups Parse o (NewTeam o2 name data) cfg = .ok gs) := by
  constructor
  · intro gs h i j hij
    have hn := EligibleemployeeGroups_nodup Parse o _ cfg gs
      (distinctNames_NewTeam o2 name data hk) h
    cases hE : grp.Equal (gs.get i) (gs.get j) with
    | false => rfl
    | true =>
      exact absurd ((List.Nodup.get_inj_iff hn).1 (grp.eq_of_Equal _ _ hE)) hij
  · intro he hg hp
    have hq := EligibleemployeeGroups_eq Parse o (NewTeam o2 name data) cfg he
    cases hi : cfg.RegionsAreIndependent with
    | true =>
      rcases hg with h0 | h1 | h2
      · exact ⟨_, hq.1 h0 hi⟩
      · exact ⟨_, (hq.2.2.1 h1 hi).trans (stackIndep_ok Parse o _ hp)⟩
      · exact ⟨_, hq.2.2.2.2.1 h2 hi⟩
    | false =>
      rcases hg with h0 | h1 | h2
      · exact ⟨_, hq.2.1 h0 hi⟩
      · exact ⟨_, (hq.2.2.2.1 h1 hi).trans (stackDep_ok Parse o _ hp)⟩
      · exact ⟨_, hq.2.2.2.2.2 h2 hi⟩

theorem EligibleemployeeGroups_no_duplicates_witness :
    distinctKeys fixture.mockData ∧
      (∀ gs, EligibleemployeeGroups fixture.mockParse MapOrder.listed
          (NewTeam MapOrder.listed "mock" fixture.mockData) (fixture.conf 1 false) = .ok gs →
        ∀ i j : Fin gs.length, i ≠ j → grp.Equal (gs.get i) (gs.get j) = false) ∧
      ∃ gs, EligibleemployeeGroups fixture.mockParse MapOrder.listed
          (NewTeam MapOrder.listed "mock" fixture.mockData) (fixture.conf 1 false) = .ok gs :=
  ⟨distinctKeys_mock,
    (EligibleemployeeGroups_no_duplicates fixture.mockParse MapOrder.listed MapOrder.listed
      "mock" fixture.mockData (fixture.conf 1 false) distinctKeys_mock).1,
    (EligibleemployeeGroups_no_duplicates fixture.mockParse MapOrder.listed MapOrder.listed
      "mock" fixture.mockData (fixture.conf 1 false) distinctKeys_mock).2 rfl
      (Or.inr (Or.inl rfl)) allParse_mock⟩

/-- C22: for an enabled config whose grouping is none of the three defined values (0, 1
and 2), `EligibleemployeeGroups` panics with the text "Unknown grouping: " followed by
the value, whatever `RegionsAreIndependent` is; so it returns no list of groups. -/
theorem EligibleemployeeGroups_unknown_grouping
    (Parse : String → Except elon.Error frigga.Names) (o : MapOrder) (app : App)
    (cfg : elon.TeamConfig) (he : cfg.Enabled = true)
    (h0 : cfg.Grouping ≠ elon.Team) (h1 : cfg.Grouping ≠ elon.Stack)
    (h2 : cfg.Grouping ≠ elon.Team2) :
    EligibleemployeeGroups Parse o app cfg =
        .error (.panic (.msg ("Unknown grouping: " ++ toString cfg.Grouping))) ∧
      ∀ gs, EligibleemployeeGroups Parse o app cfg ≠ .ok gs := by
  have h : EligibleemployeeGroups Parse o app cfg =
      .error (.panic (.msg ("Unknown grouping: " ++ toString cfg.Grouping))) := by
    unfold EligibleemployeeGroups
    cases hi : cfg.RegionsAreIndependent <;> simp [he, h0, h1, h2]
  refine ⟨h, ?_⟩
  intro gs hgs
  rw [h] at hgs
  cases hgs

theorem EligibleemployeeGroups_unknown_grouping_witness :
    (fixture.conf 3 true).Enabled = true ∧
      EligibleemployeeGroups fixture.mockParse MapOrder.listed
          (NewTeam MapOrder.listed "mock" fixture.mockData) (fixture.conf 3 true) =
        .error (.panic (.msg "Unknown grouping: 3")) ∧
      ∀ gs, EligibleemployeeGroups fixture.mockParse MapOrder.listed
        (NewTeam MapOrder.listed "mock" fixture.mockData) (fixture.conf 3 true) ≠ .ok gs :=
  ⟨rfl, EligibleemployeeGroups_unknown_grouping fixture.mockParse MapOrder.listed
    (NewTeam MapOrder.listed "mock" fixture.mockData) (fixture.conf 3 true) rfl
    (by decide) (by decide) (by decide)⟩

end deploy

/-! ## Claims about `shouldFireemployee` -/

namespace float64

theorem roundHalfEven_intCast (n : Int) : roundHalfEven (n : ℚ) = n := by
  unfold roundHalfEven
  rw [Int.floor_intCast]
  simp

theorem round_one : round 1 = 1 := by
  unfold round
  rw [if_neg one_ne_zero, abs_one, Int.log_one_right]
  have h : (1 : ℚ) / 2 ^ ((0 : ℤ) - 52) = ((2 ^ 52 : ℤ) : ℚ) := by norm_num
  rw [h, roundHalfEven_intCast]
  norm_num

/-- The quotient `1.0 / float64(1)` is exactly one. -/
theorem div_one_ofInt_one : div 1 (ofInt 1) = 1 := by
  unfold div ofInt
  rw [Int.cast_one, round_one, div_one, round_one]

end float64

namespace schedule

/-- C23: with a mean time between fires of one work day, `shouldFireemployee` returns
true whenever the sample it draws from the source lies in `[0, 1)`. -/
theorem shouldFireemployee_mean_one (r : float64Rand)
    (h : 0 ≤ r.samples 0 ∧ r.samples 0 < 1) :
    (shouldFireemployee 1 r).1 = .ok true := by
  unfold shouldFireemployee
  rw [if_neg (by decide), float64.div_one_ofInt_one]
  simp only [float64Rand.Float64]
  rw [decide_eq_true (le_of_lt h.2)]

theorem shouldFireemployee_mean_one_witness :
    (0 ≤ fixture.half.samples 0 ∧ fixture.half.samples 0 < 1) ∧
      (shouldFireemployee 1 fixture.half).1 = .ok true :=
  ⟨by norm_num [fixture.half],
    shouldFireemployee_mean_one fixture.half (by norm_num [fixture.half])⟩

/-- C24: `shouldFireemployee` panics exactly when the mean time between fires is zero or
negative, and then the source is left as it was: no sample was drawn. For a positive mean
it returns a boolean, after one draw. -/
theorem shouldFireemployee_panics_iff (meanTimeBetweenFiresInWorkDays : Int)
    (r : float64Rand) :
    ((∃ abort, (shouldFireemployee meanTimeBetweenFiresInWorkDays r).1 = .error abort) ↔
        meanTimeBetweenFiresInWorkDays ≤ 0) ∧
      (meanTimeBetweenFiresInWorkDays ≤ 0 →
        shouldFireemployee meanTimeBetweenFiresInWorkDays r =
          (.error (.panic (.msg "meanTimeBetweenFiresInWorkDays is zero or negative")), r)) ∧
      (0 < meanTimeBetweenFiresInWorkDays →
        ∃ fire, shouldFireemployee meanTimeBetweenFiresInWorkDays r =
          (.ok fire, r.Float64.2)) := by
  by_cases hm : meanTimeBetweenFiresInWorkDays ≤ 0
  · have h : shouldFireemployee meanTimeBetweenFiresInWorkDays r =
        (.error (.panic (.msg "meanTimeBetweenFiresInWorkDays is zero or negative")), r) := by
      unfold shouldFireemployee
      rw [if_pos hm]
    refine ⟨⟨fun _ => hm, fun _ => ⟨_, by rw [h]⟩⟩, fun _ => h, fun hp => ?_⟩
    exact absurd hp (not_lt.2 hm)
  · have h : ∃ fire, shouldFireemployee meanTimeBetweenFiresInWorkDays r =
        (.ok fire, r.Float64.2) := by
      unfold shouldFireemployee
      rw [if_neg hm]
      exact ⟨_, rfl⟩
    refine ⟨⟨?_, fun hle => absurd hle hm⟩, fun hle => absurd hle hm, fun _ => h⟩
    rintro ⟨abort, ha⟩
    obtain ⟨fire, hf⟩ := h
    rw [hf] at ha
    cases ha

end schedule

/-! ## Claims about `chooseTerminationTime` -/

namespace rand

theorem Intn_of_pos (draw : Nat) (n : Int) (h : 0 < n) :
    Intn draw n = .ok ((draw : Int) % n) ∧ 0 ≤ (draw : Int) % n ∧ (draw : Int) % n < n := by
  refine ⟨?_, Int.emod_nonneg _ (ne_of_gt h), Int.emod_lt_of_pos _ h⟩
  unfold Intn
  rw [if_neg (not_le.2 h)]

end rand

namespace time

/-- In a location with a fixed offset, `time.Date` returns the instant at which the clock
of the location shows the requested date and hour, also a number of minutes later. -/
theorem FixedZone_clock (offset day hour k : Int) :
    (FixedZone offset).Date day hour + k * 60 +
        (FixedZone offset).offset ((FixedZone offset).Date day hour + k * 60) =
      day * 86400 + hour * 3600 + k * 60 := by
  simp only [FixedZone]
  ring

end time

namespace int64

theorem wrap_of_inRange (x : Int) (h : inRange x) : wrap x = x := by
  unfold inRange at h
  unfold wrap
  omega

/-- The window is the product of the integers when the hours are less than 2 ^ 63 / 60
apart. -/
theorem window_of_le (startHour endHour : Int) (hlt : startHour < endHour)
    (hs : endHour - startHour ≤ 153722867280912930) :
    mul (sub endHour startHour) 60 = (endHour - startHour) * 60 := by
  unfold mul sub wrap
  omega

/-- The offset of up to 153722867 minutes, in nanoseconds, fits an `int64`: it is that
number of minutes. -/
theorem minutes_of_le (sample : Int) (h0 : 0 ≤ sample) (h1 : sample ≤ 153722867) :
    mul sample 60000000000 / 1000000000 = sample * 60 := by
  unfold mul wrap
  omega

end int64

namespace schedule

/-- With start hour before end hour and a window that is positive once computed in `int`,
the function returns a time. -/
theorem chooseTerminationTime_of_pos (draw : Nat) (now : time.Time) (startHour endHour : Int)
    (location : time.Location) (h : startHour < endHour)
    (hw : 0 < int64.mul (int64.sub endHour startHour) 60) :
    chooseTerminationTime draw now startHour endHour location =
      .ok (time.Add (location.Date now.Date startHour)
        (int64.mul ((draw : Int) % int64.mul (int64.sub endHour startHour) 60)
          time.Minute)) := by
  obtain ⟨h1, _, _⟩ := rand.Intn_of_pos draw _ hw
  unfold chooseTerminationTime
  rw [if_neg (not_le.2 h), h1]

/-- With start hour before end hour and a window that is zero or negative once computed
in `int`, the function panics in `Intn`. -/
theorem chooseTerminationTime_of_nonpos (draw : Nat) (now : time.Time)
    (startHour endHour : Int) (location : time.Location) (h : startHour < endHour)
    (hw : int64.mul (int64.sub endHour startHour) 60 ≤ 0) :
    chooseTerminationTime draw now startHour endHour location =
      .error (.panic (.msg "invalid argument to Intn")) := by
  unfold chooseTerminationTime rand.Intn
  rw [if_neg (not_le.2 h), if_pos hw]

/-- With start hour before end hour and at most 2562047 hours between them, the function
returns `startHour:00` of the date of `now` plus the drawn number of minutes, reduced to
the length of the window. -/
theorem chooseTerminationTime_of_lt (draw : Nat) (now : time.Time) (startHour endHour : Int)
    (location : time.Location) (h : startHour < endHour)
    (hs : endHour - startHour ≤ 2562047) :
    chooseTerminationTime draw now startHour endHour location =
        .ok (location.Date now.Date startHour +
          (draw : Int) % ((endHour - startHour) * 60) * 60) ∧
      0 ≤ (draw : Int) % ((endHour - startHour) * 60) ∧
      (draw : Int) % ((endHour - startHour) * 60) < (endHour - startHour) * 60 := by
  have hpos : 0 < (endHour - startHour) * 60 := by omega
  have hw := int64.window_of_le startHour endHour h (by omega)
  obtain ⟨_, h2, h3⟩ := rand.Intn_of_pos draw _ hpos
  refine ⟨?_, h2, h3⟩
  rw [chooseTerminationTime_of_pos draw now startHour endHour location h (by rw [hw]; exact hpos),
    hw]
  unfold time.Add time.Minute
  rw [int64.minutes_of_le _ h2 (by omega)]

/-- C25, as stated, fails. On 13 March 2016 the clocks of America/Los_Angeles go from
02:00 to 03:00: with the window 1 to 3 and the draw 119 the time returned is `01:00` plus
119 minutes, which is 03:59 in the location, after `03:00` of that day. With the hours 0
and 2 ^ 62 the window `(endHour - startHour) * 60` wraps to 0 in `int` and no time is
returned. With the hours 0 and 2562048 and the draw 153722879 the offset wraps in `int64`
and the time returned is before `00:00`. -/
theorem chooseTerminationTime_in_window_counterexample :
    chooseTerminationTime 119 { unix := 1457857800, loc := fixture.losAngeles } 1 3
        fixture.losAngeles = .ok 1457866740 ∧
      time.Time.Date { unix := 1457857800, loc := fixture.losAngeles } = 16873 ∧
      fixture.losAngeles.Date 16873 1 = 1457859600 ∧
      fixture.losAngeles.Date 16873 3 = 1457863200 ∧
      ¬ ((1457866740 : Int) < fixture.losAngeles.Date 16873 3) ∧
      (1457866740 + fixture.losAngeles.offset 1457866740) % 86400 = 3 * 3600 + 59 * 60 ∧
      (0 : Int) < 4611686018427387904 ∧ int64.inRange 4611686018427387904 ∧
      chooseTerminationTime 119 { unix := 1457857800, loc := fixture.losAngeles } 0
        4611686018427387904 fixture.losAngeles =
        .error (.panic (.msg "invalid argument to Intn")) ∧
      (0 : Int) < 2562048 ∧
      chooseTerminationTime 153722879 { unix := 1457857800, loc := fixture.losAngeles } 0
        2562048 time.UTC = .ok (time.UTC.Date 16873 0 - 9223371334) := by
  unfold int64.inRange
  exact ⟨rfl, by decide, by decide, by decide, by decide, by decide, by decide,
    by decide, rfl, by decide, rfl⟩

/-- C25, amended: for every `now`, location and hours with the start hour before the end
hour and at most 2562047 hours between them, `chooseTerminationTime` returns the instant
`startHour:00` of the date of `now` plus a whole number `k` of minutes with
`0 <= k < (endHour - startHour) * 60`. So the result is not before `startHour:00` and is
less than `endHour - startHour` hours after it: it is strictly before `endHour:00` of that
date whenever the location places `endHour:00` that number of hours after
`startHour:00`. -/
theorem chooseTerminationTime_in_window (draw : Nat) (now : time.Time)
    (startHour endHour : Int) (location : time.Location) (h : startHour < endHour)
    (hs : endHour - startHour ≤ 2562047) :
    ∃ k tm : Int, 0 ≤ k ∧ k < (endHour - startHour) * 60 ∧
      chooseTerminationTime draw now startHour endHour location = .ok tm ∧
      tm = location.Date now.Date startHour + k * 60 ∧
      location.Date now.Date startHour ≤ tm ∧
      tm < location.Date now.Date startHour + (endHour - startHour) * 3600 ∧
      (location.Date now.Date endHour =
          location.Date now.Date startHour + (endHour - startHour) * 3600 →
        tm < location.Date now.Date endHour) := by
  obtain ⟨h1, h2, h3⟩ :=
    chooseTerminationTime_of_lt draw now startHour endHour location h hs
  refine ⟨_, _, h2, h3, h1, rfl, ?_, ?_, ?_⟩
  · omega
  · omega
  · intro hreg
    omega

theorem chooseTerminationTime_in_window_witness :
    (9 : Int) < 15 ∧ (15 : Int) - 9 ≤ 2562047 ∧
      ∃ k tm : Int, 0 ≤ k ∧ k < (15 - 9) * 60 ∧
        chooseTerminationTime 1000 { unix := 1456880400, loc := time.UTC } 9 15
          (time.FixedZone (-28800)) = .ok tm ∧
        tm = (time.FixedZone (-28800)).Date
          (time.Time.Date { unix := 1456880400, loc := time.UTC }) 9 + k * 60 ∧
        (time.FixedZone (-28800)).Date
          (time.Time.Date { unix := 1456880400, loc := time.UTC }) 9 ≤ tm ∧
        tm < (time.FixedZone (-28800)).Date
          (time.Time.Date { unix := 1456880400, loc := time.UTC }) 9 + (15 - 9) * 3600 ∧
        ((time.FixedZone (-28800)).Date
            (time.Time.Date { unix := 1456880400, loc := time.UTC }) 15 =
          (time.FixedZone (-28800)).Date
            (time.Time.Date { unix := 1456880400, loc := time.UTC }) 9 + (15 - 9) * 3600 →
          tm < (time.FixedZone (-28800)).Date
            (time.Time.Date { unix := 1456880400, loc := time.UTC }) 15) :=
  ⟨by decide, by decide,
    chooseTerminationTime_in_window 1000 { unix := 1456880400, loc := time.UTC }
      9 15 (time.FixedZone (-28800)) (by decide) (by decide)⟩

end schedule

namespace schedule

/-- The text of the panic of `chooseTerminationTime` is not the text of the panic of
`Intn`. -/
theorem panic_text_ne (x y : String) :
    "ChooseTermination called with startHour <= endHour, startHour: " ++ x ++
        ". endHour: " ++ y ≠ "invalid argument to Intn" := by
  intro h
  have h2 := congrArg (fun s => s.data.head?) h
  simp only [String.data_append, List.append_assoc] at h2
  simp at h2

/-- C26, as stated, fails: with the hours 0 and 2 ^ 62, both values of `int`, the end hour
is after the start hour, but the window `(endHour - startHour) * 60` wraps to 0 in `int`
and `chooseTerminationTime` panics, in `Intn`. -/
theorem chooseTerminationTime_panics_iff_counterexample :
    int64.inRange 0 ∧ int64.inRange 4611686018427387904 ∧
      ¬ ((4611686018427387904 : Int) ≤ 0) ∧
      int64.mul (int64.sub 4611686018427387904 0) 60 = 0 ∧
      chooseTerminationTime 0 { unix := 1456880400, loc := time.UTC } 0 4611686018427387904
        time.UTC = .error (.panic (.msg "invalid argument to Intn")) := by
  unfold int64.inRange
  exact ⟨by decide, by decide, by decide, by decide, rfl⟩

/-- C26, amended: `chooseTerminationTime` panics exactly when the end hour is not after
the start hour or the window `(endHour - startHour) * 60`, computed in `int` with
wrap-around, is zero or negative. In the first case it returns no time, with the panic
raised before the window is computed; in the second case the panic is that of `Intn`.
When the end hour is after the start hour by less than 2 ^ 63 / 60 hours the window is the
positive product of the integers and a time is returned. -/
theorem chooseTerminationTime_panics_iff (draw : Nat) (now : time.Time)
    (startHour endHour : Int) (location : time.Location) :
    ((∃ abort, chooseTerminationTime draw now startHour endHour location = .error abort) ↔
        endHour ≤ startHour ∨ int64.mul (int64.sub endHour startHour) 60 ≤ 0) ∧
      (endHour ≤ startHour →
        chooseTerminationTime draw now startHour endHour location =
          .error (.panic (.msg
            ("ChooseTermination called with startHour <= endHour, startHour: " ++
              toString startHour ++ ". endHour: " ++ toString endHour))) ∧
        chooseTerminationTime draw now startHour endHour location ≠
          .error (.panic (.msg "invalid argument to Intn"))) ∧
      (startHour < endHour → int64.mul (int64.sub endHour startHour) 60 ≤ 0 →
        chooseTerminationTime draw now startHour endHour location =
          .error (.panic (.msg "invalid argument to Intn"))) ∧
      (startHour < endHour → endHour - startHour ≤ 153722867280912930 →
        int64.mul (int64.sub endHour startHour) 60 = (endHour - startHour) * 60 ∧
        0 < int64.mul (int64.sub endHour startHour) 60 ∧
        ∃ tm, chooseTerminationTime draw now startHour endHour location = .ok tm) := by
  have hguard : endHour ≤ startHour →
      chooseTerminationTime draw now startHour endHour location =
        .error (.panic (.msg
          ("ChooseTermination called with startHour <= endHour, startHour: " ++
            toString startHour ++ ". endHour: " ++ toString endHour))) := by
    intro hle
    unfold chooseTerminationTime
    rw [if_pos hle]
  refine ⟨⟨?_, ?_⟩, ?_, ?_, ?_⟩
  · rintro ⟨abort, ha⟩
    by_cases hle : endHour ≤ startHour
    · exact Or.inl hle
    · right
      by_contra hw
      rw [chooseTerminationTime_of_pos draw now startHour endHour location (not_le.1 hle)
        (not_le.1 hw)] at ha
      cases ha
  · rintro (hle | hw)
    · exact ⟨_, hguard hle⟩
    · by_cases hle : endHour ≤ startHour
      · exact ⟨_, hguard hle⟩
      · exact ⟨_, chooseTerminationTime_of_nonpos draw now startHour endHour location
          (not_le.1 hle) hw⟩
  · intro hle
    refine ⟨hguard hle, ?_⟩
    rw [hguard hle]
    intro heq
    injection heq with heq
    injection heq with heq
    injection heq with heq
    exact panic_text_ne _ _ heq
  · intro hlt hw
    exact chooseTerminationTime_of_nonpos draw now startHour endHour location hlt hw
  · intro hlt hs
    have hw := int64.window_of_le startHour endHour hlt hs
    have hpos : 0 < int64.mul (int64.sub endHour startHour) 60 := by
      rw [hw]
      omega
    exact ⟨hw, hpos, _,
      chooseTerminationTime_of_pos draw now startHour endHour location hlt hpos⟩

end schedule

namespace schedule

/-- C27: the code takes the calendar date from `now.Date()`, in the time zone that `now`
is itself expressed in, not in the configured location. Here `now` is 2 March 2016, 01:00
UTC, expressed in UTC, and the configured location is eight hours west of UTC, where it is
still 1 March (day 16861). The time chosen for the window 9 to 15 is 09:00 of 2 March (day
16862) in the configured location, not a time of 1 March, the date that `now` has there. -/
theorem chooseTerminationTime_wrong_date :
    chooseTerminationTime 0 { unix := 1456880400, loc := time.UTC } 9 15
        (time.FixedZone (-28800)) = .ok 1456938000 ∧
      (time.FixedZone (-28800)).day 1456938000 = 16862 ∧
      (time.FixedZone (-28800)).day 1456880400 = 16861 ∧
      time.Time.Date { unix := 1456880400, loc := time.UTC } = 16862 ∧
      (time.FixedZone (-28800)).day 1456938000 ≠ (time.FixedZone (-28800)).day 1456880400 ∧
      chooseTerminationTime 0 { unix := 1456880400, loc := time.FixedZone (-28800) } 9 15
        (time.FixedZone (-28800)) = .ok 1456851600 ∧
      (time.FixedZone (-28800)).day 1456851600 = 16861 :=
  ⟨rfl, by decide, by decide, by decide, by decide, rfl, by decide⟩

end schedule

/-! ## Runs of `Populate` -/

namespace schedule

theorem doScheduleTeam_disabled (Parse : String → Except elon.Error frigga.Names) (c : Chance)
    (schedule : Schedule) (app : deploy.App) (cfg : elon.TeamConfig)
    (chaosConfig : config.Window) (h : cfg.Enabled = false) :
    doScheduleTeam Parse c schedule app cfg chaosConfig = .ok schedule := by
  simp [doScheduleTeam, h]

/-- A skipped app leaves the schedule as it is, and the loop goes on with the next app. -/
theorem populateApps_skip (Parse : String → Except elon.Error frigga.Names)
    (chance : Nat → Chance) (getter : String → Except elon.Error elon.TeamConfig)
    (chaosConfig : config.Window) (i : Nat) (s : Schedule) (app : deploy.App)
    (rest : List deploy.App) (hi : (i : Int) < chaosConfig.MaxTeams)
    (hs : skipped getter app) :
    populateApps Parse chance getter chaosConfig i s (app :: rest) =
      populateApps Parse chance getter chaosConfig (i + 1) s rest := by
  rw [populateApps, if_neg (not_le.2 hi)]
  rcases hs with ⟨err, he⟩ | ⟨cfg, hc, hd⟩
  · rw [he]
  · rw [hc]
    simp only
    rw [doScheduleTeam_disabled Parse _ s app cfg chaosConfig hd]

theorem populateApps_limit (Parse : String → Except elon.Error frigga.Names)
    (chance : Nat → Chance) (getter : String → Except elon.Error elon.TeamConfig)
    (chaosConfig : config.Window) (i : Nat) (s : Schedule) (apps : List deploy.App)
    (hi : chaosConfig.MaxTeams ≤ (i : Int)) :
    populateApps Parse chance getter chaosConfig i s apps = .ok s := by
  cases apps with
  | nil => rw [populateApps]
  | cons app rest => rw [populateApps, if_pos hi]

theorem populateApps_all_skipped (Parse : String → Except elon.Error frigga.Names)
    (chance : Nat → Chance) (getter : String → Except elon.Error elon.TeamConfig)
    (chaosConfig : config.Window) (s : Schedule) (apps : List deploy.App) :
    ∀ i : Nat, (∀ app ∈ apps, skipped getter app) →
      populateApps Parse chance getter chaosConfig i s apps = .ok s := by
  induction apps with
  | nil => intro i _; rw [populateApps]
  | cons app rest ih =>
    intro i h
    by_cases hi : chaosConfig.MaxTeams ≤ (i : Int)
    · exact populateApps_limit Parse chance getter chaosConfig i s _ hi
    · rw [populateApps_skip Parse chance getter chaosConfig i s app rest (not_le.1 hi)
        (h app (List.mem_cons_self _ _))]
      exact ih (i + 1) fun a ha => h a (List.mem_cons_of_mem _ ha)

/-- The only error `Populate` returns is the failure to list the apps. -/
theorem Populate_error (Parse : String → Except elon.Error frigga.Names)
    (chance : Nat → Chance) (s : Schedule) (d : deploy.Apps)
    (getter : String → Except elon.Error elon.TeamConfig) (chaosConfig : config.Window)
    (apps : List String) (e : elon.Error) (s2 : Schedule)
    (h : s.Populate Parse chance d getter chaosConfig apps = .ok (some e, s2)) :
    apps.length = 0 ∧ s2 = s ∧
      ∃ err, d.TeamNames = .error err ∧ e = .wrap err "could not retrieve list of apps" := by
  unfold Schedule.Populate at h
  by_cases ha : apps.length = 0
  · rw [if_pos ha] at h
    cases hn : d.TeamNames with
    | error err =>
      rw [hn] at h
      simp only [Except.ok.injEq, Prod.mk.injEq, Option.some.injEq] at h
      exact ⟨ha, h.2.symm, err, rfl, h.1.symm⟩
    | ok names =>
      rw [hn] at h
      simp only at h
      cases hp : populateApps Parse chance getter chaosConfig 0 s (d.Teams names) with
      | error abort => rw [hp] at h; cases h
      | ok s3 => rw [hp] at h; simp at h
  · rw [if_neg ha] at h
    simp only at h
    cases hp : populateApps Parse chance getter chaosConfig 0 s (d.Teams apps) with
    | error abort => rw [hp] at h; cases h
    | ok s3 => rw [hp] at h; simp at h

end schedule

namespace schedule

/-- The samples of the source lie in `[0, 1)`, as `Float64` promises. -/
theorem float64Rand.Float64_samples (r : float64Rand)
    (h : ∀ j, 0 ≤ r.samples j ∧ r.samples j < 1) :
    ∀ j, 0 ≤ r.Float64.2.samples j ∧ r.Float64.2.samples j < 1 :=
  fun j => h (j + 1)

theorem shouldFireemployee_one (r : float64Rand) (h : r.samples 0 < 1) :
    shouldFireemployee 1 r = (.ok true, r.Float64.2) := by
  unfold shouldFireemployee
  rw [if_neg (by decide), float64.div_one_ofInt_one]
  simp only [float64Rand.Float64]
  rw [decide_eq_true (le_of_lt h)]

/-- With a mean of one work day and a window that ends after it starts, the loop of
`doScheduleTeam` adds one entry for each group, in order. -/
theorem scheduleGroups_mean_one (cfg : elon.TeamConfig) (startHour endHour : Int)
    (location : time.Location) (c : Chance)
    (hm : cfg.MeanTimeBetweenFiresInWorkDays = 1) (hh : startHour < endHour)
    (hw : 0 < int64.mul (int64.sub endHour startHour) 60)
    (groups : List grp.group) :
    ∀ (i : Nat) (r : float64Rand) (s : Schedule),
      (∀ j, 0 ≤ r.samples j ∧ r.samples j < 1) →
      ∃ s2, scheduleGroups cfg startHour endHour location c i r s groups = .ok s2 ∧
        s2.entries.map (fun e => e.Group) = s.entries.map (fun e => e.Group) ++ groups := by
  induction groups with
  | nil =>
    intro i r s _
    exact ⟨s, by rw [scheduleGroups], by simp⟩
  | cons group rest ih =>
    intro i r s hr
    have h1 :=
      chooseTerminationTime_of_pos (c.Intn i) (c.Now i) startHour endHour location hh hw
    obtain ⟨s2, h2, h3⟩ := ih (i + 1) r.Float64.2
      (s.Add (time.Add (location.Date (c.Now i).Date startHour)
        (int64.mul ((c.Intn i : Int) % int64.mul (int64.sub endHour startHour) 60)
          time.Minute)) group)
      (float64Rand.Float64_samples r hr)
    refine ⟨s2, ?_, ?_⟩
    · rw [scheduleGroups, hm, shouldFireemployee_one r (hr 0).2]
      simp only [if_true]
      rw [h1]
      exact h2
    · rw [h3]
      simp [Schedule.Add]

/-- An app is scheduled in full: at every position its config is retrieved, is enabled,
has a mean of one work day, and `EligibleemployeeGroups` returns for it. -/
theorem doScheduleTeam_mean_one (Parse : String → Except elon.Error frigga.Names) (c : Chance)
    (s : Schedule) (app : deploy.App) (cfg : elon.TeamConfig) (chaosConfig : config.Window)
    (location : time.Location) (groups : List grp.group)
    (he : cfg.Enabled = true) (hm : cfg.MeanTimeBetweenFiresInWorkDays = 1)
    (hl : chaosConfig.Location = .ok location)
    (hh : chaosConfig.StartHour < chaosConfig.EndHour)
    (hw : 0 < int64.mul (int64.sub chaosConfig.EndHour chaosConfig.StartHour) 60)
    (hg : deploy.EligibleemployeeGroups Parse c.o app cfg = .ok groups)
    (hr : ∀ j, 0 ≤ c.r.samples j ∧ c.r.samples j < 1) :
    ∃ s2, doScheduleTeam Parse c s app cfg chaosConfig = .ok s2 ∧
      s2.entries.map (fun e => e.Group) = s.entries.map (fun e => e.Group) ++ groups := by
  obtain ⟨s2, h2, h3⟩ := scheduleGroups_mean_one cfg chaosConfig.StartHour chaosConfig.EndHour
    location c hm hh hw groups 0 c.r s hr
  refine ⟨s2, ?_, h3⟩
  unfold doScheduleTeam
  rw [he, hl, hg]
  exact h2

end schedule

namespace schedule

theorem groupsOfApp_skipped (Parse : String → Except elon.Error frigga.Names)
    (chance : Nat → Chance) (getter : String → Except elon.Error elon.TeamConfig) (i : Nat)
    (app : deploy.App) (hs : skipped getter app) :
    groupsOfApp Parse chance getter i app = [] := by
  unfold groupsOfApp
  rcases hs with ⟨err, he⟩ | ⟨cfg, hc, hd⟩
  · rw [he]
  · rw [hc]
    simp only
    rw [deploy.EligibleemployeeGroups_disabled Parse _ app cfg hd]

/-- When every app received is either skipped or scheduled in full, the location is
known, the window ends after it starts and is positive once computed in `int`, and the
limit on the number of apps is not reached,
the loop of `Populate` adds one entry for each group of each app, in order. -/
theorem populateApps_groups (Parse : String → Except elon.Error frigga.Names)
    (chance : Nat → Chance) (getter : String → Except elon.Error elon.TeamConfig)
    (chaosConfig : config.Window) (location : time.Location)
    (hl : chaosConfig.Location = .ok location)
    (hh : chaosConfig.StartHour < chaosConfig.EndHour)
    (hw : 0 < int64.mul (int64.sub chaosConfig.EndHour chaosConfig.StartHour) 60)
    (hr : ∀ i j, 0 ≤ (chance i).r.samples j ∧ (chance i).r.samples j < 1)
    (apps : List deploy.App) :
    ∀ (i : Nat) (s : Schedule), ((i + apps.length : Nat) : Int) ≤ chaosConfig.MaxTeams →
      (∀ app ∈ apps, skipped getter app ∨ scheduled Parse chance getter app) →
      ∃ s2, populateApps Parse chance getter chaosConfig i s apps = .ok s2 ∧
        s2.entries.map (fun e => e.Group) =
          s.entries.map (fun e => e.Group) ++ groupsOfApps Parse chance getter i apps := by
  induction apps with
  | nil =>
    intro i s _ _
    exact ⟨s, by rw [populateApps], by simp [groupsOfApps]⟩
  | cons app rest ih =>
    intro i s hmax happs
    have hi : (i : Int) < chaosConfig.MaxTeams := by
      rw [List.length_cons] at hmax
      push_cast at hmax
      omega
    have hmax2 : ((i + 1 + rest.length : Nat) : Int) ≤ chaosConfig.MaxTeams := by
      rw [List.length_cons] at hmax
      push_cast at hmax ⊢
      omega
    have hrest : ∀ a ∈ rest, skipped getter a ∨ scheduled Parse chance getter a :=
      fun a ha => happs a (List.mem_cons_of_mem _ ha)
    rcases happs app (List.mem_cons_self _ _) with hs | ⟨cfg, hc, he, hm, hg⟩
    · obtain ⟨s2, h2, h3⟩ := ih (i + 1) s hmax2 hrest
      refine ⟨s2, ?_, ?_⟩
      · rw [populateApps_skip Parse chance getter chaosConfig i s app rest hi hs]
        exact h2
      · rw [h3, groupsOfApps, groupsOfApp_skipped Parse chance getter i app hs]
        simp
    · obtain ⟨groups, hgi⟩ := hg i
      obtain ⟨s1, h1, h1g⟩ := doScheduleTeam_mean_one Parse (chance i) s app cfg chaosConfig
        location groups he hm hl hh hw hgi (hr i)
      obtain ⟨s2, h2, h3⟩ := ih (i + 1) s1 hmax2 hrest
      refine ⟨s2, ?_, ?_⟩
      · rw [populateApps, if_neg (not_le.2 hi), hc]
        simp only
        rw [h1]
        exact h2
      · have hga : groupsOfApp Parse chance getter i app = groups := by
          unfold groupsOfApp
          rw [hc]
          simp only
          rw [hgi]
        rw [h3, h1g, groupsOfApps, hga, List.append_assoc]

end schedule

/-! ## The text of a crontab -/

namespace schedule

theorem digitChar_small : ∀ n, n < 16 → Nat.digitChar n ≠ Char.ofNat 10 := by
  decide

theorem digitChar_ne_newline (n : Nat) : Nat.digitChar n ≠ Char.ofNat 10 := by
  by_cases h : n < 16
  · exact digitChar_small n h
  · have hstar : Nat.digitChar n = Char.ofNat 42 := by
      unfold Nat.digitChar
      repeat rw [if_neg (by omega)]
    rw [hstar]
    decide

theorem toDigitsCore_no_newline (base : Nat) :
    ∀ (fuel n : Nat) (ds : List Char), Char.ofNat 10 ∉ ds →
      Char.ofNat 10 ∉ Nat.toDigitsCore base fuel n ds := by
  intro fuel
  induction fuel with
  | zero => intro n ds h; simpa [Nat.toDigitsCore] using h
  | succ fuel ih =>
    intro n ds h
    have hd : Char.ofNat 10 ∉ Nat.digitChar (n % base) :: ds := by
      rw [List.mem_cons, not_or]
      exact ⟨fun heq => digitChar_ne_newline _ heq.symm, h⟩
    unfold Nat.toDigitsCore
    simp only
    split_ifs
    · exact hd
    · exact ih _ _ hd

theorem oneLine_append (a b : String) : oneLine (a ++ b) ↔ oneLine a ∧ oneLine b := by
  simp only [oneLine, String.data_append, List.mem_append, not_or]

theorem oneLine_toString_nat (n : Nat) : oneLine (toString n) := by
  show Char.ofNat 10 ∉ (Nat.toDigits 10 n).asString.data
  exact toDigitsCore_no_newline 10 _ _ [] (List.not_mem_nil _)

theorem oneLine_toString_int (n : Int) : oneLine (toString n) := by
  cases n with
  | ofNat m => exact oneLine_toString_nat m
  | negSucc m =>
    show oneLine ("-" ++ toString (Nat.succ m))
    rw [oneLine_append]
    exact ⟨by unfold oneLine; decide, oneLine_toString_nat _⟩

theorem oneLine_terminateCommand (termPath : String) (group : grp.group)
    (hp : oneLine termPath) (hg : oneLineGroup group) :
    oneLine (terminateCommand termPath group) := by
  obtain ⟨h1, h2, h3, h4, h5⟩ := hg
  have hsp : oneLine " " := by unfold oneLine; decide
  have ht : oneLine " --team=" := by unfold oneLine; decide
  have hs : oneLine " --stack=" := by unfold oneLine; decide
  have hr : oneLine " --region=" := by unfold oneLine; decide
  have he : oneLine "" := by unfold oneLine; decide
  unfold terminateCommand
  simp only [grp.group.Team, grp.group.Account, grp.group.Team2, grp.group.Stack,
    grp.group.Region]
  split_ifs <;> simp only [oneLine_append] <;> simp [*]

theorem oneLine_Crontab (e : Entry) (termPath account : String) (hp : oneLine termPath)
    (ha : oneLine account) (hg : oneLineGroup e.Group) :
    oneLine (e.Crontab termPath account) := by
  have hsp : oneLine " " := by unfold oneLine; decide
  unfold Entry.Crontab
  simp only [oneLine_append]
  exact ⟨⟨⟨⟨⟨⟨⟨⟨⟨⟨⟨⟨oneLine_toString_int _, hsp⟩, oneLine_toString_int _⟩, hsp⟩,
    oneLine_toString_int _⟩, hsp⟩, oneLine_toString_int _⟩, hsp⟩, oneLine_toString_int _⟩,
    hsp⟩, ha⟩, hsp⟩, oneLine_terminateCommand termPath e.Group hp hg⟩

end schedule

namespace schedule

theorem foldl_lines_data (f : Entry → String) (l : List Entry) :
    ∀ acc : String,
      (l.foldl (fun result entry => result ++ f entry ++ "\n") acc).data =
        acc.data ++ l.flatMap fun e => (f e).data ++ [Char.ofNat 10] := by
  induction l with
  | nil => intro acc; simp
  | cons e rest ih =>
    intro acc
    rw [List.foldl_cons, ih, List.flatMap_cons, String.data_append, String.data_append]
    have hn : ("\n" : String).data = [Char.ofNat 10] := by decide
    rw [hn]
    simp only [List.append_assoc]

theorem foldl_join_data (l : List String) :
    ∀ acc : String,
      (l.foldl (fun r s => r ++ s) acc).data = acc.data ++ l.flatMap fun s => s.data := by
  induction l with
  | nil => intro acc; simp
  | cons s rest ih =>
    intro acc
    rw [List.foldl_cons, ih, List.flatMap_cons, String.data_append, List.append_assoc]

/-- The crontab is the concatenation of the lines of the sorted entries, each followed by
a newline. -/
theorem Crontab_eq_join (sorter : sort.Sorter Entry ByTime.Less) (s : Schedule)
    (exPath account : String) :
    s.Crontab sorter exPath account =
      String.join ((sorter.sort s.entries).map fun e => e.Crontab exPath account ++ "\n") := by
  apply String.ext
  unfold Schedule.Crontab String.join
  rw [foldl_lines_data, foldl_join_data, List.flatMap_map]
  have hn : ("\n" : String).data = [Char.ofNat 10] := by decide
  simp only [String.data_append, hn]

theorem count_lines (f : Entry → String) (l : List Entry) (h : ∀ e ∈ l, oneLine (f e)) :
    (l.flatMap fun e => (f e).data ++ [Char.ofNat 10]).count (Char.ofNat 10) = l.length := by
  induction l with
  | nil => simp
  | cons e rest ih =>
    rw [List.flatMap_cons, List.count_append, List.count_append,
      ih fun a ha => h a (List.mem_cons_of_mem _ ha),
      List.count_eq_zero_of_not_mem (h e (List.mem_cons_self _ _))]
    simp
    omega

/-- The number of lines of the crontab is the number of entries, when no text put on a
line holds a newline. -/
theorem countEntries_Crontab (sorter : sort.Sorter Entry ByTime.Less) (s : Schedule)
    (exPath account : String) (hp : oneLine exPath) (ha : oneLine account)
    (hg : ∀ e ∈ s.entries, oneLineGroup e.Group) :
    countEntries (s.Crontab sorter exPath account) = s.entries.length := by
  unfold countEntries Schedule.Crontab
  rw [foldl_lines_data]
  have he : ("" : String).data = [] := rfl
  rw [he, List.nil_append, count_lines, (sorter.perm s.entries).length_eq]
  intro e hmem
  exact oneLine_Crontab e exPath account hp ha
    (hg e ((sorter.perm s.entries).mem_iff.1 hmem))

set_option maxRecDepth 100000 in
/-- The crontab of a schedule with three entries: the entry with the earliest time comes
first, and each line ends with a newline. -/
theorem Crontab_threeEntries :
    fixture.threeEntries.Crontab fixture.sorter "/apps/elon/term" "root" =
      "46 14 2 3 3 root /apps/elon/term bar prod\n" ++
      "0 17 2 3 3 root /apps/elon/term foo prod --team=foo-prod --region=us-east-1\n" ++
      "0 17 2 3 3 root /apps/elon/term baz test --stack=staging\n" := by
  decide

/-- C30: the crontab of a schedule is the concatenation, over a rearrangement of all its
entries in which no entry comes before an entry with an earlier time, of the line of each
entry followed by one newline. Every entry appears once (the rearrangement is a
permutation); the number of newlines is the number of entries when neither the path, the
account nor a field of a group holds a newline; and the crontab of a schedule without
entries is empty. -/
theorem Crontab_lines (sorter : sort.Sorter Entry ByTime.Less) (s : Schedule)
    (exPath account : String) :
    ∃ sorted : List Entry, sorted.Perm s.entries ∧
      sorted.Pairwise (fun a b => a.Time ≤ b.Time) ∧
      s.Crontab sorter exPath account =
        String.join (sorted.map fun e => e.Crontab exPath account ++ "\n") ∧
      (oneLine exPath → oneLine account → (∀ e ∈ s.entries, oneLineGroup e.Group) →
        countEntries (s.Crontab sorter exPath account) = s.entries.length) ∧
      (s.entries = [] → s.Crontab sorter exPath account = "") := by
  refine ⟨sorter.sort s.entries, sorter.perm s.entries, ?_,
    Crontab_eq_join sorter s exPath account,
    countEntries_Crontab sorter s exPath account, ?_⟩
  · refine (sorter.sorted s.entries).imp ?_
    intro a b hab
    simpa [ByTime.Less] using hab
  · intro he
    unfold Schedule.Crontab
    rw [he, List.perm_nil.1 (sorter.perm [])]
    rfl

end schedule

/-! ## Claims about `Populate` -/

namespace schedule

/-- With the grouping by app and independent regions, `EligibleemployeeGroups` returns for
every app. -/
theorem scheduled_mockConfigGetter (Parse : String → Except elon.Error frigga.Names)
    (chance : Nat → Chance) (app : deploy.App) :
    scheduled Parse chance fixture.mockConfigGetter app :=
  ⟨fixture.meanOne, rfl, rfl, rfl, fun i => ⟨deploy.appIndep (chance i).o app, rfl⟩⟩

theorem partialConfigGetter_cases (Parse : String → Except elon.Error frigga.Names)
    (chance : Nat → Chance) (app : deploy.App) :
    skipped fixture.partialConfigGetter app ∨
      scheduled Parse chance fixture.partialConfigGetter app := by
  by_cases h1 : app.name = "bar"
  · exact Or.inl (Or.inl ⟨.msg "no config", by simp [fixture.partialConfigGetter, h1]⟩)
  · by_cases h2 : app.name = "baz"
    · refine Or.inl (Or.inr ⟨fixture.disabledCfg, ?_, rfl⟩)
      simp [fixture.partialConfigGetter, h2]
    · refine Or.inr ⟨fixture.meanOne, ?_, rfl, rfl,
        fun i => ⟨deploy.appIndep (chance i).o app, rfl⟩⟩
      simp [fixture.partialConfigGetter, h1, h2, fixture.mockConfigGetter]

theorem fixture_samples :
    ∀ i j, 0 ≤ (fixture.chance i).r.samples j ∧ (fixture.chance i).r.samples j < 1 := by
  intro i j
  norm_num [fixture.chance, fixture.half]

/-- C29: an app whose config cannot be retrieved or is disabled, met before the limit on
the number of apps, leaves the schedule as it is, and the loop of `Populate` goes on with
the remaining apps; when every app received is such an app, `Populate` returns nil and
the schedule is unchanged. Whenever `Populate` returns an error, no list of apps was
given, the listing of the app names failed, the error is the failure of the listing and
the schedule is unchanged. On the mock deployment, where the config of `bar` cannot be
retrieved and the config of `baz` is disabled, `Populate` returns nil and leaves an
entry for `foo` and an entry for `quux`. -/
theorem Populate_skips (Parse : String → Except elon.Error frigga.Names)
    (chance : Nat → Chance) (getter : String → Except elon.Error elon.TeamConfig)
    (chaosConfig : config.Window) :
    (∀ (i : Nat) (s : Schedule) (app : deploy.App) (rest : List deploy.App),
      (i : Int) < chaosConfig.MaxTeams → skipped getter app →
      populateApps Parse chance getter chaosConfig i s (app :: rest) =
        populateApps Parse chance getter chaosConfig (i + 1) s rest) ∧
    (∀ (s : Schedule) (d : deploy.Apps) (apps names : List String),
      (if apps.length = 0 then d.TeamNames else .ok apps) = .ok names →
      (∀ app ∈ d.Teams names, skipped getter app) →
      s.Populate Parse chance d getter chaosConfig apps = .ok (none, s)) ∧
    (∀ (s : Schedule) (d : deploy.Apps) (apps : List String) (e : elon.Error)
      (s2 : Schedule), s.Populate Parse chance d getter chaosConfig apps = .ok (some e, s2) →
      apps.length = 0 ∧ s2 = s ∧
        ∃ err, d.TeamNames = .error err ∧
          e = .wrap err "could not retrieve list of apps") ∧
    (∃ s, New.Populate fixture.Parse fixture.chance (mock.Dep.apps deploy.MapOrder.listed)
        fixture.partialConfigGetter fixture.chaosConfig [] = .ok (none, s) ∧
      s.entries.map (fun e => e.Group) =
        [grp.New "foo" "prod" "us-east-1" "" "", grp.New "quux" "test" "us-east-1" "" ""]) := by
  refine ⟨populateApps_skip Parse chance getter chaosConfig, ?_,
    fun s d apps e s2 h => Populate_error Parse chance s d getter chaosConfig apps e s2 h, ?_⟩
  · intro s d apps names hn hs
    unfold Schedule.Populate
    rw [hn]
    simp only
    rw [populateApps_all_skipped Parse chance getter chaosConfig s _ 0 hs]
  · obtain ⟨s2, h2, h3⟩ := populateApps_groups fixture.Parse fixture.chance
      fixture.partialConfigGetter fixture.chaosConfig (time.FixedZone (-28800)) rfl
      (by decide) (by decide) fixture_samples
      ((mock.Dep.apps deploy.MapOrder.listed).Teams ["foo", "bar", "baz", "quux"]) 0 New
      (by decide) (fun app _ => partialConfigGetter_cases _ _ app)
    refine ⟨s2, ?_, ?_⟩
    · unfold Schedule.Populate
      have hn : (if ([] : List String).length = 0
          then (mock.Dep.apps deploy.MapOrder.listed).TeamNames else .ok []) =
          .ok ["foo", "bar", "baz", "quux"] := rfl
      rw [hn]
      simp only
      rw [h2]
    · rw [h3]
      decide

end schedule

namespace schedule

/-- When the window of hours does not end after it starts, an app that is scheduled and has
a group makes `Populate` panic: the first group fires and no time can be chosen. -/
theorem Populate_no_window (Parse : String → Except elon.Error frigga.Names)
    (chance : Nat → Chance) (s : Schedule) (d : deploy.Apps)
    (getter : String → Except elon.Error elon.TeamConfig) (chaosConfig : config.Window)
    (apps names : List String) (app : deploy.App) (rest : List deploy.App)
    (cfg : elon.TeamConfig) (location : time.Location) (group : grp.group)
    (groups : List grp.group)
    (hn : (if apps.length = 0 then d.TeamNames else .ok apps) = .ok names)
    (hT : d.Teams names = app :: rest) (h0 : 0 < chaosConfig.MaxTeams)
    (hc : getter app.name = .ok cfg) (he : cfg.Enabled = true)
    (hm : cfg.MeanTimeBetweenFiresInWorkDays = 1)
    (hl : chaosConfig.Location = .ok location)
    (hh : chaosConfig.EndHour ≤ chaosConfig.StartHour)
    (hg : deploy.EligibleemployeeGroups Parse (chance 0).o app cfg = .ok (group :: groups))
    (hr : (chance 0).r.samples 0 < 1) :
    s.Populate Parse chance d getter chaosConfig apps =
      .error (.panic (.msg
        ("ChooseTermination called with startHour <= endHour, startHour: " ++
          toString chaosConfig.StartHour ++ ". endHour: " ++
          toString chaosConfig.EndHour))) := by
  have hi : ¬ chaosConfig.MaxTeams ≤ ((0 : Nat) : Int) := by
    rw [Int.ofNat_zero]
    exact not_le.2 h0
  unfold Schedule.Populate
  rw [hn]
  simp only
  rw [hT, populateApps, if_neg hi, hc]
  simp only
  unfold doScheduleTeam
  rw [he, hl, hg]
  simp only [Bool.not_true, Bool.false_eq_true, if_false]
  rw [scheduleGroups, hm, shouldFireemployee_one _ hr]
  simp only [if_true]
  unfold chooseTerminationTime
  rw [if_pos hh]

/-- When the window of hours ends after it starts but its number of minutes, computed in
`int`, is zero or negative, an app that is scheduled and has a group makes `Populate`
panic: the first group fires and `Intn` refuses the window. -/
theorem Populate_wrapped_window (Parse : String → Except elon.Error frigga.Names)
    (chance : Nat → Chance) (s : Schedule) (d : deploy.Apps)
    (getter : String → Except elon.Error elon.TeamConfig) (chaosConfig : config.Window)
    (apps names : List String) (app : deploy.App) (rest : List deploy.App)
    (cfg : elon.TeamConfig) (location : time.Location) (group : grp.group)
    (groups : List grp.group)
    (hn : (if apps.length = 0 then d.TeamNames else .ok apps) = .ok names)
    (hT : d.Teams names = app :: rest) (h0 : 0 < chaosConfig.MaxTeams)
    (hc : getter app.name = .ok cfg) (he : cfg.Enabled = true)
    (hm : cfg.MeanTimeBetweenFiresInWorkDays = 1)
    (hl : chaosConfig.Location = .ok location)
    (hh : chaosConfig.StartHour < chaosConfig.EndHour)
    (hw : int64.mul (int64.sub chaosConfig.EndHour chaosConfig.StartHour) 60 ≤ 0)
    (hg : deploy.EligibleemployeeGroups Parse (chance 0).o app cfg = .ok (group :: groups))
    (hr : (chance 0).r.samples 0 < 1) :
    s.Populate Parse chance d getter chaosConfig apps =
      .error (.panic (.msg "invalid argument to Intn")) := by
  have hi : ¬ chaosConfig.MaxTeams ≤ ((0 : Nat) : Int) := by
    rw [Int.ofNat_zero]
    exact not_le.2 h0
  unfold Schedule.Populate
  rw [hn]
  simp only
  rw [hT, populateApps, if_neg hi, hc]
  simp only
  unfold doScheduleTeam
  rw [he, hl, hg]
  simp only [Bool.not_true, Bool.false_eq_true, if_false]
  rw [scheduleGroups, hm, shouldFireemployee_one _ hr]
  simp only [if_true]
  rw [chooseTerminationTime_of_nonpos _ _ _ _ _ hh hw]

end schedule

namespace schedule

/-- C28, as stated, fails: on the mock deployment every app has an enabled config with a
mean time between fires of one work day and the four apps do not exceed the limit, but
`Populate` does not return: it panics when the location of the configuration cannot be
retrieved, it panics when the window of hours ends when it starts, and it panics when the
window is so long (from 0 to 2 ^ 62) that its number of minutes wraps to 0 in `int`. -/
theorem Populate_mean_one_counterexample :
    (∀ app, fixture.mockConfigGetter app = .ok fixture.meanOne) ∧
      fixture.meanOne.Enabled = true ∧
      fixture.meanOne.MeanTimeBetweenFiresInWorkDays = 1 ∧
      ((((mock.Dep.apps deploy.MapOrder.listed).Teams []).length : Nat) : Int) ≤
        fixture.chaosConfigNoLocation.MaxTeams ∧
      ((((mock.Dep.apps deploy.MapOrder.listed).Teams []).length : Nat) : Int) ≤
        fixture.chaosConfigNoWindow.MaxTeams ∧
      New.Populate fixture.Parse fixture.chance (mock.Dep.apps deploy.MapOrder.listed)
          fixture.mockConfigGetter fixture.chaosConfigNoLocation [] =
        .error (.panic (.wrap (.msg "unknown time zone")
          "Could not get Location for time zone calculation")) ∧
      New.Populate fixture.Parse fixture.chance (mock.Dep.apps deploy.MapOrder.listed)
          fixture.mockConfigGetter fixture.chaosConfigNoWindow [] =
        .error (.panic (.msg
          "ChooseTermination called with startHour <= endHour, startHour: 9. endHour: 9")) ∧
      fixture.chaosConfigWrappedWindow.StartHour < fixture.chaosConfigWrappedWindow.EndHour ∧
      New.Populate fixture.Parse fixture.chance (mock.Dep.apps deploy.MapOrder.listed)
          fixture.mockConfigGetter fixture.chaosConfigWrappedWindow [] =
        .error (.panic (.msg "invalid argument to Intn")) := by
  refine ⟨fun _ => rfl, rfl, rfl, by decide, by decide, rfl, ?_, by decide, ?_⟩
  swap
  · exact Populate_wrapped_window fixture.Parse fixture.chance New
      (mock.Dep.apps deploy.MapOrder.listed) fixture.mockConfigGetter
      fixture.chaosConfigWrappedWindow [] ["foo", "bar", "baz", "quux"] _ _ fixture.meanOne
      (time.FixedZone (-28800)) (grp.New "foo" "prod" "us-east-1" "" "") [] rfl rfl
      (by decide) rfl rfl rfl rfl (by decide) (by decide) rfl
      (by norm_num [fixture.chance, fixture.half])
  exact Populate_no_window fixture.Parse fixture.chance New
    (mock.Dep.apps deploy.MapOrder.listed) fixture.mockConfigGetter
    fixture.chaosConfigNoWindow [] ["foo", "bar", "baz", "quux"] _ _ fixture.meanOne
    (time.FixedZone (-28800)) (grp.New "foo" "prod" "us-east-1" "" "") [] rfl rfl
    (by decide) rfl rfl rfl rfl (by decide) rfl (by norm_num [fixture.chance, fixture.half])

end schedule

namespace schedule

/-- The groups by app and region of an app built by `NewTeam` carry the names of the data:
no newline when the data holds none. -/
theorem oneLineGroup_appIndep (o1 o2 : deploy.MapOrder) (name : String) (data : deploy.AppMap)
    (g : grp.group) (hname : oneLine name)
    (hdata : ∀ ae ∈ data, oneLine ae.1 ∧ ∀ te ∈ ae.2.Teams, ∀ re ∈ te.2, oneLine re.1)
    (hg : g ∈ deploy.appIndep o1 (deploy.NewTeam o2 name data)) : oneLineGroup g := by
  rw [deploy.mem_appIndep] at hg
  obtain ⟨account, ha, team, ht, asg, hasg, hgeq⟩ := hg
  rw [deploy.NewTeam_accounts, List.mem_map] at ha
  obtain ⟨ae, hae, hacc⟩ := ha
  subst hacc
  simp only [List.mem_map, deploy.MapOrder.mem_iter] at ht
  obtain ⟨te, hte, hteam⟩ := ht
  subst hteam
  simp only [List.mem_map, List.mem_flatMap, deploy.MapOrder.mem_iter] at hasg
  obtain ⟨re, hre, ge, hge, hasg2⟩ := hasg
  subst hasg2
  subst hgeq
  have hd := hdata ae ((deploy.MapOrder.mem_iter o2 data ae).1 hae)
  have hempty : oneLine "" := by unfold oneLine; decide
  exact ⟨hname, hd.1, hd.2 te hte re hre, hempty, hempty⟩

theorem mem_groupsOfApps (Parse : String → Except elon.Error frigga.Names)
    (chance : Nat → Chance) (getter : String → Except elon.Error elon.TeamConfig)
    (g : grp.group) (apps : List deploy.App) :
    ∀ i, g ∈ groupsOfApps Parse chance getter i apps →
      ∃ app ∈ apps, ∃ j, g ∈ groupsOfApp Parse chance getter j app := by
  induction apps with
  | nil => intro i h; simp [groupsOfApps] at h
  | cons app rest ih =>
    intro i h
    rw [groupsOfApps, List.mem_append] at h
    rcases h with h | h
    · exact ⟨app, List.mem_cons_self _ _, i, h⟩
    · obtain ⟨a, ha, j, hj⟩ := ih (i + 1) h
      exact ⟨a, List.mem_cons_of_mem _ ha, j, hj⟩

theorem length_groupsOfApps (Parse : String → Except elon.Error frigga.Names)
    (chance : Nat → Chance) (getter : String → Except elon.Error elon.TeamConfig)
    (apps : List deploy.App) :
    ∀ i, (∀ app ∈ apps, ∀ j, (groupsOfApp Parse chance getter j app).length = 1) →
      (groupsOfApps Parse chance getter i apps).length = apps.length := by
  induction apps with
  | nil => intro i _; simp [groupsOfApps]
  | cons app rest ih =>
    intro i h
    rw [groupsOfApps, List.length_append, h app (List.mem_cons_self _ _) i,
      ih (i + 1) fun a ha => h a (List.mem_cons_of_mem _ ha), List.length_cons]
    omega

theorem mock_regions :
    ∀ e ∈ mock.Dep.TeamMap,
      (e.2.map fun accountEntry => (deploy.regionsOf accountEntry.2).dedup.length).sum = 1 := by
  decide

theorem mock_names :
    ∀ e ∈ mock.Dep.TeamMap, Char.ofNat 10 ∉ e.1.data ∧
      ∀ ae ∈ e.2, Char.ofNat 10 ∉ ae.1.data ∧
        ∀ te ∈ ae.2.Teams, ∀ re ∈ te.2, Char.ofNat 10 ∉ re.1.data := by
  decide

/-- The groups examined on the mock deployment with `mockConfigGetter`: one for each of
the four apps, whatever the order of the maps, none with a newline. -/
theorem groupsOfApps_mock (Parse : String → Except elon.Error frigga.Names)
    (chance : Nat → Chance) (o : deploy.MapOrder) (names : List String) :
    ((mock.Dep.apps o).Teams names).length = 4 ∧
      (groupsOfApps Parse chance fixture.mockConfigGetter 0
        ((mock.Dep.apps o).Teams names)).length = 4 ∧
      ∀ g ∈ groupsOfApps Parse chance fixture.mockConfigGetter 0
        ((mock.Dep.apps o).Teams names), oneLineGroup g := by
  have hlen : ((mock.Dep.apps o).Teams names).length = 4 := by
    simp only [mock.Deployment.apps, mock.Deployment.Teams, List.length_map,
      deploy.MapOrder.length_iter]
    rfl
  have happ : ∀ app ∈ (mock.Dep.apps o).Teams names,
      ∃ e ∈ mock.Dep.TeamMap, app = deploy.NewTeam o e.1 e.2 := by
    intro app ha
    simp only [mock.Deployment.apps, mock.Deployment.Teams, List.mem_map,
      deploy.MapOrder.mem_iter] at ha
    obtain ⟨e, he, rfl⟩ := ha
    exact ⟨e, he, rfl⟩
  have hgo : ∀ (j : Nat) (app : deploy.App),
      groupsOfApp Parse chance fixture.mockConfigGetter j app =
        deploy.appIndep (chance j).o app := fun _ _ => rfl
  refine ⟨hlen, ?_, ?_⟩
  · rw [length_groupsOfApps, hlen]
    intro app ha j
    obtain ⟨e, he, rfl⟩ := happ app ha
    rw [hgo, deploy.length_appIndep_NewTeam]
    exact mock_regions e he
  · intro g hg
    obtain ⟨app, ha, j, hj⟩ := mem_groupsOfApps Parse chance _ g _ 0 hg
    obtain ⟨e, he, rfl⟩ := happ app ha
    rw [hgo] at hj
    exact oneLineGroup_appIndep _ _ _ _ g (mock_names e he).1 (mock_names e he).2 hj

end schedule

namespace schedule

/-- C28, amended: suppose the list of apps is given or can be retrieved, every app that
the deployment delivers has an enabled config with a mean time between fires of one work
day for which `EligibleemployeeGroups` returns, the number of apps does not exceed
`MaxTeams`, the location of the configuration can be retrieved, the start hour is before
the end hour, the window `(EndHour - StartHour) * 60` computed in `int` is positive (it is
when the hours are less than 2 ^ 63 / 60 apart), and the samples of the sources lie in
`[0, 1)`. Then `Populate` on a fresh
schedule returns nil and leaves exactly one entry for each group returned by
`EligibleemployeeGroups`, app after app. For the mock deployment with `mockConfigGetter`
(and a limit of at least four apps), whatever the order of its maps, that is exactly 4
entries and a crontab of exactly 4 lines. -/
theorem Populate_mean_one (Parse : String → Except elon.Error frigga.Names)
    (chance : Nat → Chance) (d : deploy.Apps)
    (getter : String → Except elon.Error elon.TeamConfig) (chaosConfig : config.Window)
    (apps names : List String) (location : time.Location)
    (hn : (if apps.length = 0 then d.TeamNames else .ok apps) = .ok names)
    (hmax : (((d.Teams names).length : Nat) : Int) ≤ chaosConfig.MaxTeams)
    (hl : chaosConfig.Location = .ok location)
    (hh : chaosConfig.StartHour < chaosConfig.EndHour)
    (hw : 0 < int64.mul (int64.sub chaosConfig.EndHour chaosConfig.StartHour) 60)
    (hr : ∀ i j, 0 ≤ (chance i).r.samples j ∧ (chance i).r.samples j < 1)
    (happs : ∀ app ∈ d.Teams names, scheduled Parse chance getter app) :
    (∃ s, New.Populate Parse chance d getter chaosConfig apps = .ok (none, s) ∧
      s.entries.map (fun e => e.Group) =
        groupsOfApps Parse chance getter 0 (d.Teams names) ∧
      s.entries.length = (groupsOfApps Parse chance getter 0 (d.Teams names)).length) ∧
    (∀ o : deploy.MapOrder, 4 ≤ chaosConfig.MaxTeams →
      ∃ s, New.Populate Parse chance (mock.Dep.apps o) fixture.mockConfigGetter
          chaosConfig [] = .ok (none, s) ∧
        s.entries.length = 4 ∧
        ∀ sorter : sort.Sorter Entry ByTime.Less,
          countEntries (s.Crontab sorter "dontcare" "dontcare") = 4) := by
  constructor
  · obtain ⟨s2, h2, h3⟩ := populateApps_groups Parse chance getter chaosConfig location hl hh
      hw hr (d.Teams names) 0 New (by rw [Nat.zero_add]; exact hmax)
      (fun app ha => Or.inr (happs app ha))
    refine ⟨s2, ?_, ?_, ?_⟩
    · unfold Schedule.Populate
      rw [hn]
      simp only
      rw [h2]
    · rw [h3]
      rfl
    · have h4 := congrArg List.length h3
      rw [List.length_map] at h4
      rw [h4]
      rfl
  · intro o h4
    obtain ⟨hlen, hgl, hgo⟩ := groupsOfApps_mock Parse chance o
      ((deploy.MapOrder.iter o mock.Dep.TeamMap).map fun entry => entry.1)
    obtain ⟨s2, h2, h3⟩ := populateApps_groups Parse chance fixture.mockConfigGetter
      chaosConfig location hl hh hw hr
      ((mock.Dep.apps o).Teams ((deploy.MapOrder.iter o mock.Dep.TeamMap).map
        fun entry => entry.1)) 0 New
      (by rw [Nat.zero_add, hlen]; exact h4)
      (fun app _ => Or.inr (scheduled_mockConfigGetter Parse chance app))
    have hgroups : s2.entries.map (fun e => e.Group) =
        groupsOfApps Parse chance fixture.mockConfigGetter 0
          ((mock.Dep.apps o).Teams ((deploy.MapOrder.iter o mock.Dep.TeamMap).map
            fun entry => entry.1)) := by
      rw [h3]
      rfl
    have hcount : s2.entries.length = 4 := by
      have h5 := congrArg List.length hgroups
      rw [List.length_map, hgl] at h5
      exact h5
    refine ⟨s2, ?_, hcount, ?_⟩
    · unfold Schedule.Populate
      have hn2 : (if ([] : List String).length = 0 then (mock.Dep.apps o).TeamNames
          else .ok []) =
          .ok ((deploy.MapOrder.iter o mock.Dep.TeamMap).map fun entry => entry.1) := rfl
      rw [hn2]
      simp only
      rw [h2]
    · intro sorter
      rw [countEntries_Crontab sorter s2 "dontcare" "dontcare" (by unfold oneLine; decide)
        (by unfold oneLine; decide), hcount]
      intro e he
      apply hgo
      rw [← hgroups]
      exact List.mem_map_of_mem _ he

theorem Populate_mean_one_witness :
    fixture.chaosConfig.Location = .ok (time.FixedZone (-28800)) ∧
    fixture.chaosConfig.StartHour < fixture.chaosConfig.EndHour ∧
    0 < int64.mul (int64.sub fixture.chaosConfig.EndHour fixture.chaosConfig.StartHour) 60 ∧
    (∀ app ∈ (mock.Dep.apps deploy.MapOrder.listed).Teams ["foo", "bar", "baz", "quux"],
      scheduled fixture.Parse fixture.chance fixture.mockConfigGetter app) ∧
    (∃ s, New.Populate fixture.Parse fixture.chance (mock.Dep.apps deploy.MapOrder.listed)
        fixture.mockConfigGetter fixture.chaosConfig [] = .ok (none, s) ∧
      s.entries.map (fun e => e.Group) =
        groupsOfApps fixture.Parse fixture.chance fixture.mockConfigGetter 0
          ((mock.Dep.apps deploy.MapOrder.listed).Teams ["foo", "bar", "baz", "quux"]) ∧
      s.entries.length =
        (groupsOfApps fixture.Parse fixture.chance fixture.mockConfigGetter 0
          ((mock.Dep.apps deploy.MapOrder.listed).Teams
            ["foo", "bar", "baz", "quux"])).length) ∧
    (∀ o : deploy.MapOrder, 4 ≤ fixture.chaosConfig.MaxTeams →
      ∃ s, New.Populate fixture.Parse fixture.chance (mock.Dep.apps o)
          fixture.mockConfigGetter fixture.chaosConfig [] = .ok (none, s) ∧
        s.entries.length = 4 ∧
        ∀ sorter : sort.Sorter Entry ByTime.Less,
          countEntries (s.Crontab sorter "dontcare" "dontcare") = 4) :=
  ⟨rfl, by decide, by decide,
    fun app _ => scheduled_mockConfigGetter fixture.Parse fixture.chance app,
    Populate_mean_one fixture.Parse fixture.chance (mock.Dep.apps deploy.MapOrder.listed)
      fixture.mockConfigGetter fixture.chaosConfig [] ["foo", "bar", "baz", "quux"]
      (time.FixedZone (-28800)) rfl (by decide) rfl (by decide) (by decide) fixture_samples
      (fun app _ => scheduled_mockConfigGetter fixture.Parse fixture.chance app)⟩

end schedule

/-! ## `Contains` does not panic -/

namespace grp

/-- C39: for every group and all arguments, `Contains` does not panic. Each `must` is
evaluated only when the matching `AnyRegion`, `AnyStack` or `AnyTeam` is false (when it
is true the conjunct is true without a call of `must`), that is when the field is
present, and then `must` returns the value; and `Contains` returns false when the name of
the team does not parse. -/
theorem Contains_never_panics (Parse : String → Except elon.Error frigga.Names) (g : group)
    (account region team : String) :
    Contains Parse g account region team ≠ none ∧
      (∀ (value : String) (p : String × Bool), anyOrEq true value p = some true) ∧
      (AnyRegion g = false → must g.Region = some (g.Region).1) ∧
      (AnyStack g = false → must g.Stack = some (g.Stack).1) ∧
      (AnyTeam g = false → must g.Team2 = some (g.Team2).1) ∧
      anyOrEq (AnyRegion g) region g.Region ≠ none ∧
      (∀ names : frigga.Names, anyOrEq (AnyStack g) names.Stack g.Stack ≠ none) ∧
      anyOrEq (AnyTeam g) team g.Team2 ≠ none ∧
      (∀ err, Parse team = .error err → Contains Parse g account region team = some false) := by
  refine ⟨?_, fun _ _ => rfl, ?_, ?_, ?_, anyOrEq_ne_none region g.Region,
    fun names => anyOrEq_ne_none names.Stack g.Stack, anyOrEq_ne_none team g.Team2, ?_⟩
  · exact Option.isSome_iff_ne_none.1 (Contains_isSome Parse g account region team)
  · intro h
    simp only [AnyRegion, Bool.not_eq_false'] at h
    simp [must, h]
  · intro h
    simp only [AnyStack, Bool.not_eq_false'] at h
    simp [must, h]
  · intro h
    simp only [AnyTeam, Bool.not_eq_false'] at h
    simp [must, h]
  · intro err h
    unfold Contains
    rw [h]

end grp

/-! ## The line of an entry -/

namespace time

/-- The day of the year, counted from 1 March, of day `n` of an era of 400 years. -/
theorem doy_range (n : Int) (h0 : 0 ≤ n) (h1 : n ≤ 146096) :
    0 ≤ n - (365 * ((n - n / 1460 + n / 36524 - n / 146096) / 365) +
        (n - n / 1460 + n / 36524 - n / 146096) / 365 / 4 -
        (n - n / 1460 + n / 36524 - n / 146096) / 365 / 100) ∧
      n - (365 * ((n - n / 1460 + n / 36524 - n / 146096) / 365) +
        (n - n / 1460 + n / 36524 - n / 146096) / 365 / 4 -
        (n - n / 1460 + n / 36524 - n / 146096) / 365 / 100) ≤ 365 := by
  have hb : n / 36524 = 0 ∨ n / 36524 = 1 ∨ n / 36524 = 2 ∨ n / 36524 = 3 ∨
      n / 36524 = 4 := by
    omega
  have hc : n / 146096 = 0 ∨ n / 146096 = 1 := by omega
  generalize hy : (n - n / 1460 + n / 36524 - n / 146096) / 365 = y
  have hq : y / 100 = 0 ∨ y / 100 = 1 ∨ y / 100 = 2 ∨ y / 100 = 3 := by omega
  rcases hb with hb | hb | hb | hb | hb <;> rcases hc with hc | hc <;>
    rcases hq with hq | hq | hq | hq <;> omega

theorem civil_range (day : Int) :
    0 ≤ (civil day).1 ∧ (civil day).1 ≤ 11 ∧ 1 ≤ (civil day).2 ∧ (civil day).2 ≤ 31 := by
  have h := doy_range ((day + 719468) % 146097) (by omega) (by omega)
  simp only [civil]
  generalize (day + 719468) % 146097 - (365 * (((day + 719468) % 146097 -
    (day + 719468) % 146097 / 1460 + (day + 719468) % 146097 / 36524 -
    (day + 719468) % 146097 / 146096) / 365) + ((day + 719468) % 146097 -
    (day + 719468) % 146097 / 1460 + (day + 719468) % 146097 / 36524 -
    (day + 719468) % 146097 / 146096) / 365 / 4 - ((day + 719468) % 146097 -
    (day + 719468) % 146097 / 1460 + (day + 719468) % 146097 / 36524 -
    (day + 719468) % 146097 / 146096) / 365 / 100) = doy at h ⊢
  omega

/-- The calendar fields of an instant read in UTC lie in their ranges, and the hour, the
minute and the second count the time elapsed since the start of the day. -/
theorem fields_range (t : Int) :
    0 ≤ minuteOf t ∧ minuteOf t ≤ 59 ∧ 0 ≤ hourOf t ∧ hourOf t ≤ 23 ∧
      1 ≤ dayOf t ∧ dayOf t ≤ 31 ∧ 1 ≤ monthOf t ∧ monthOf t ≤ 12 ∧
      0 ≤ weekdayOf t ∧ weekdayOf t ≤ 6 ∧
      t = t / 86400 * 86400 + hourOf t * 3600 + minuteOf t * 60 + t % 60 := by
  obtain ⟨h1, h2, h3, h4⟩ := civil_range (t / 86400)
  refine ⟨?_, ?_, ?_, ?_, h3, h4, ?_, ?_, ?_, ?_, ?_⟩
  · unfold minuteOf; omega
  · unfold minuteOf; omega
  · unfold hourOf; omega
  · unfold hourOf; omega
  · unfold monthOf; split_ifs <;> omega
  · unfold monthOf; split_ifs <;> omega
  · unfold weekdayOf; omega
  · unfold weekdayOf; omega
  · unfold hourOf minuteOf; omega

end time

namespace schedule

/-- The command of `terminateCommand`: the path, the app and the account, then one flag
for each field of the group that is present, the team first, then the stack, then the
region. -/
theorem terminateCommand_eq (termPath : String) (group : grp.group) :
    terminateCommand termPath group =
      termPath ++ " " ++ group.Team ++ " " ++ group.Account ++
        (if (group.Team2).2 then " --team=" ++ (group.Team2).1 else "") ++
        (if (group.Stack).2 then " --stack=" ++ (group.Stack).1 else "") ++
        (if (group.Region).2 then " --region=" ++ (group.Region).1 else "") := by
  unfold terminateCommand
  cases (group.Team2).2 <;> cases (group.Stack).2 <;> cases (group.Region).2 <;>
    simp [String.append_assoc]

/-- C31: the line of an entry is the minute, the hour, the day of the month, the month and
the weekday of the time of the entry read in UTC, in decimal, then the account, the path
of the executable, the app and the account of the group, separated by single spaces, then
the flags for the team, the stack and the region, in that order, each present exactly when
the field of the group is present. Nothing follows the last flag: the line holds no
newline unless an argument or a field of the group holds one. The month lies in 1 to 12,
the weekday in 0 to 6 with 0 for a Sunday (13 March 2016), the other fields in their
ranges. -/
theorem Crontab_format (e : Entry) (termPath account : String) :
    e.Crontab termPath account =
        toString (time.minuteOf e.Time) ++ " " ++ toString (time.hourOf e.Time) ++ " " ++
          toString (time.dayOf e.Time) ++ " " ++ toString (time.monthOf e.Time) ++ " " ++
          toString (time.weekdayOf e.Time) ++ " " ++ account ++ " " ++
          (termPath ++ " " ++ e.Group.Team ++ " " ++ e.Group.Account ++
            (if (e.Group.Team2).2 then " --team=" ++ (e.Group.Team2).1 else "") ++
            (if (e.Group.Stack).2 then " --stack=" ++ (e.Group.Stack).1 else "") ++
            (if (e.Group.Region).2 then " --region=" ++ (e.Group.Region).1 else "")) ∧
      (oneLine termPath → oneLine account → oneLineGroup e.Group →
        oneLine (e.Crontab termPath account)) ∧
      (0 ≤ time.minuteOf e.Time ∧ time.minuteOf e.Time ≤ 59 ∧
        0 ≤ time.hourOf e.Time ∧ time.hourOf e.Time ≤ 23 ∧
        1 ≤ time.dayOf e.Time ∧ time.dayOf e.Time ≤ 31 ∧
        1 ≤ time.monthOf e.Time ∧ time.monthOf e.Time ≤ 12 ∧
        0 ≤ time.weekdayOf e.Time ∧ time.weekdayOf e.Time ≤ 6 ∧
        e.Time = e.Time / 86400 * 86400 + time.hourOf e.Time * 3600 +
          time.minuteOf e.Time * 60 + e.Time % 60) ∧
      (time.weekdayOf 1457827200 = 0 ∧ time.dayOf 1457827200 = 13 ∧
        time.monthOf 1457827200 = 3) := by
  refine ⟨?_, oneLine_Crontab e termPath account, time.fields_range e.Time, ?_⟩
  · unfold Entry.Crontab
    rw [terminateCommand_eq]
  · decide

end schedule

/-! ## Claims about `fromJSON` -/

namespace sysbreaker

open elon (Error)

theorem checkExceptions_eq_none (exs : List elon.Exception) :
    checkExceptions exs = none ↔ ∀ ex ∈ exs, ex.Account ≠ "" ∧ ex.Region ≠ "" := by
  induction exs with
  | nil => simp [checkExceptions]
  | cons ex rest ih =>
    unfold checkExceptions
    by_cases ha : ex.Account = ""
    · simp [ha]
    · by_cases hr : ex.Region = ""
      · simp [ha, hr]
      · simp [ha, hr, ih]

theorem groupingOf_ok (enabled : Bool) (grouping : String) (g : Int)
    (h : groupingOf enabled grouping = .ok g) :
    enabled = true → grouping = "app" ∨ grouping = "stack" ∨ grouping = "team" := by
  intro he
  unfold groupingOf at h
  by_cases h1 : grouping = "app"
  · exact Or.inl h1
  · by_cases h2 : grouping = "stack"
    · exact Or.inr (Or.inl h2)
    · by_cases h3 : grouping = "team"
      · exact Or.inr (Or.inr h3)
      · simp [h1, h2, h3, he] at h

/-- What a successful call of `fromJSON` has found in the document. -/
theorem fromJSON_ok (Unmarshal : String → Except Error parsedJSON) (js : String)
    (cfg : elon.TeamConfig) (h : fromJSON Unmarshal js = .ok cfg) :
    ∃ parsed attributes cm enabled,
      Unmarshal js = .ok parsed ∧ parsed.Attributes = some attributes ∧
      attributes.Elon = some cm ∧ cm.Enabled = some enabled ∧ cfg.Enabled = enabled ∧
      cfg.MeanTimeBetweenFiresInWorkDays = cm.MeanTimeBetweenFiresInWorkDays.getD 0 ∧
      (∀ ex ∈ cm.Exceptions, ex.Account ≠ "" ∧ ex.Region ≠ "") ∧
      (enabled = true →
        (∃ mean, cm.MeanTimeBetweenFiresInWorkDays = some mean ∧ 0 < mean) ∧
        (∃ minTime, cm.MinTimeBetweenFiresInWorkDays = some minTime) ∧
        (cm.Grouping = "app" ∨ cm.Grouping = "stack" ∨ cm.Grouping = "team")) := by
  unfold fromJSON at h
  cases hu : Unmarshal js with
  | error err => rw [hu] at h; cases h
  | ok parsed =>
    rw [hu] at h
    simp only at h
    cases ha : parsed.Attributes with
    | none => rw [ha] at h; cases h
    | some attributes =>
      rw [ha] at h
      simp only at h
      cases hc : attributes.Elon with
      | none => rw [hc] at h; cases h
      | some cm =>
        rw [hc] at h
        simp only at h
        cases hen : cm.Enabled with
        | none => rw [hen] at h; cases h
        | some enabled =>
          rw [hen] at h
          simp only at h
          split_ifs at h with h1 h2 h3
          cases hg : groupingOf enabled cm.Grouping with
          | error err => rw [hg] at h; cases h
          | ok grouping =>
            rw [hg] at h
            simp only at h
            cases hx : checkExceptions cm.Exceptions with
            | some err => rw [hx] at h; cases h
            | none =>
              rw [hx] at h
              simp only [Except.ok.injEq] at h
              subst h
              refine ⟨parsed, attributes, cm, enabled, rfl, ha, hc, hen, rfl, rfl,
                (checkExceptions_eq_none _).1 hx, ?_⟩
              intro he
              subst he
              simp only [Bool.true_and, Option.isNone_iff_eq_none, decide_eq_true_eq,
                not_le] at h1 h2 h3
              obtain ⟨mean, hm⟩ := Option.ne_none_iff_exists'.1 h1
              obtain ⟨minTime, hmin⟩ := Option.ne_none_iff_exists'.1 h2
              rw [hm] at h3
              exact ⟨⟨mean, hm, h3⟩, ⟨minTime, hmin⟩, groupingOf_ok true _ _ hg rfl⟩

end sysbreaker

namespace schedule

theorem shouldFireemployee_of_pos (mean : Int) (r : float64Rand) (h : 0 < mean) :
    shouldFireemployee mean r =
      (.ok (decide (r.Float64.1 ≤ float64.div 1 (float64.ofInt mean))), r.Float64.2) := by
  unfold shouldFireemployee
  rw [if_neg (not_le.2 h)]

end schedule

namespace sysbreaker

open elon (Error)

/-- C35: `fromJSON` returns an error whenever the document lacks `attributes`,
`attributes.elon` or `enabled`, whenever an exception has an empty account or an empty
region, and, when `enabled` is true, whenever the mean or the minimum time between fires
is missing, the mean is zero or negative, or the grouping is none of "app", "stack" and
"team". So every config it returns with Enabled = true has a positive mean time between
fires, for which `shouldFireemployee` returns a boolean. The first document of
`TestFromJSON` gives an enabled config with mean 5; the same document with mean 0 is
refused. -/
theorem fromJSON_rejects (Unmarshal : String → Except Error parsedJSON) (js : String) :
    (∀ parsed, Unmarshal js = .ok parsed →
      (parsed.Attributes = none ∨
        ∃ attributes, parsed.Attributes = some attributes ∧
          (attributes.Elon = none ∨
            ∃ cm, attributes.Elon = some cm ∧
              (cm.Enabled = none ∨
                (∃ ex ∈ cm.Exceptions, ex.Account = "" ∨ ex.Region = "") ∨
                (cm.Enabled = some true ∧
                  (cm.MeanTimeBetweenFiresInWorkDays = none ∨
                    cm.MinTimeBetweenFiresInWorkDays = none ∨
                    (∃ mean, cm.MeanTimeBetweenFiresInWorkDays = some mean ∧ mean ≤ 0) ∨
                    (cm.Grouping ≠ "app" ∧ cm.Grouping ≠ "stack" ∧
                      cm.Grouping ≠ "team")))))) →
      ∃ err, fromJSON Unmarshal js = .error err) ∧
    (∀ cfg, fromJSON Unmarshal js = .ok cfg → cfg.Enabled = true →
      0 < cfg.MeanTimeBetweenFiresInWorkDays ∧
      ∀ r : schedule.float64Rand, ∃ fire,
        schedule.shouldFireemployee cfg.MeanTimeBetweenFiresInWorkDays r =
          (.ok fire, r.Float64.2)) ∧
    (∃ cfg, fromJSON fixture.Unmarshal "enabled" = .ok cfg ∧ cfg.Enabled = true ∧
      cfg.MeanTimeBetweenFiresInWorkDays = 5 ∧ cfg.Grouping = elon.Team2) ∧
    (∃ err, fromJSON fixture.Unmarshal "zero-mean" = .error err) := by
  refine ⟨?_, ?_, ⟨_, rfl, rfl, rfl, rfl⟩, ⟨_, rfl⟩⟩
  · intro parsed hu hbad
    cases hf : fromJSON Unmarshal js with
    | error err => exact ⟨err, rfl⟩
    | ok cfg =>
      exfalso
      obtain ⟨parsed2, attributes, cm, enabled, hu2, ha, hc, hen, _, _, hex, hon⟩ :=
        fromJSON_ok Unmarshal js cfg hf
      rw [hu] at hu2
      cases hu2
      rcases hbad with h | ⟨attributes2, ha2, h⟩
      · rw [ha] at h
        cases h
      · rw [ha] at ha2
        cases ha2
        rcases h with h | ⟨cm2, hc2, h⟩
        · rw [hc] at h
          cases h
        · rw [hc] at hc2
          cases hc2
          rcases h with h | ⟨ex, hmem, h⟩ | ⟨htrue, h⟩
          · rw [hen] at h
            cases h
          · rcases h with h | h
            · exact (hex ex hmem).1 h
            · exact (hex ex hmem).2 h
          · rw [hen] at htrue
            cases htrue
            obtain ⟨⟨mean, hm, hpos⟩, ⟨minTime, hmin⟩, hgrp⟩ := hon rfl
            rcases h with h | h | ⟨mean2, hm2, hle⟩ | ⟨g1, g2, g3⟩
            · rw [hm] at h
              cases h
            · rw [hmin] at h
              cases h
            · rw [hm] at hm2
              cases hm2
              omega
            · rcases hgrp with hg | hg | hg
              · exact g1 hg
              · exact g2 hg
              · exact g3 hg
  · intro cfg hf he
    obtain ⟨parsed, attributes, cm, enabled, _, _, _, _, hcen, hmean, _, hon⟩ :=
      fromJSON_ok Unmarshal js cfg hf
    rw [he] at hcen
    obtain ⟨⟨mean, hm, hpos⟩, _, _⟩ := hon hcen.symm
    have hp : 0 < cfg.MeanTimeBetweenFiresInWorkDays := by
      rw [hmean, hm]
      exact hpos
    exact ⟨hp, fun r => ⟨_, schedule.shouldFireemployee_of_pos _ r hp⟩⟩

end sysbreaker

/-! ## The JSON form of a schedule -/

namespace grp

theorem omitempty_getD (value : String) : (omitempty value).getD "" = value := by
  unfold omitempty
  by_cases h : value = ""
  · subst h
    rfl
  · have hb : (value == "") = false := by simpa using h
    rw [hb]
    rfl

theorem omitempty_eq_none (value : String) : omitempty value = none ↔ value = "" := by
  unfold omitempty
  by_cases h : value = ""
  · subst h
    simp
  · have hb : (value == "") = false := by simpa using h
    rw [hb]
    simp [h]

theorem Equal_self (g : group) : Equal g g = true := by
  unfold Equal
  rw [if_pos (by simp)]

theorem Region_absent (g : group) : (g.Region).2 = false ↔ g.region = "" := by
  unfold group.Region
  by_cases h : g.region = ""
  · simp [h]
  · have hb : (g.region == "") = false := by simpa using h
    simp [hb, h]

theorem Stack_absent (g : group) : (g.Stack).2 = false ↔ g.stack = "" := by
  unfold group.Stack
  by_cases h : g.stack = ""
  · simp [h]
  · have hb : (g.stack == "") = false := by simpa using h
    simp [hb, h]

theorem Team2_absent (g : group) : (g.Team2).2 = false ↔ g.team = "" := by
  unfold group.Team2
  by_cases h : g.team = ""
  · simp [h]
  · have hb : (g.team == "") = false := by simpa using h
    simp [hb, h]

end grp

namespace schedule

open elon (Error)

theorem Entry.MarshalJSON_ok (e : Entry) (j : EntryJSON) (h : e.MarshalJSON = .ok j) :
    j = { group := e.Group.MarshalJSON, time := e.Time } := by
  unfold Entry.MarshalJSON time.MarshalJSON at h
  by_cases hr : -62167219200 ≤ e.Time ∧ e.Time ≤ 253402300799
  · rw [if_pos hr] at h
    cases h
    rfl
  · rw [if_neg hr] at h
    cases h

theorem Entry.MarshalJSON_of_range (e : Entry)
    (hr : -62167219200 ≤ e.Time ∧ e.Time ≤ 253402300799) :
    e.MarshalJSON = .ok { group := e.Group.MarshalJSON, time := e.Time } := by
  unfold Entry.MarshalJSON time.MarshalJSON
  rw [if_pos hr]

theorem Entry.UnmarshalJSON_MarshalJSON (e : Entry) :
    Entry.UnmarshalJSON { group := e.Group.MarshalJSON, time := e.Time } = e := by
  unfold Entry.UnmarshalJSON apiGroup.ofJSON grp.group.MarshalJSON grp.New
  simp only [grp.omitempty_getD]

theorem marshalEntries_ok (es : List Entry) :
    ∀ js, marshalEntries es = .ok js →
      js = es.map (fun e => { group := e.Group.MarshalJSON, time := e.Time }) := by
  induction es with
  | nil =>
    intro js h
    cases h
    rfl
  | cons e rest ih =>
    intro js h
    unfold marshalEntries at h
    cases he : e.MarshalJSON with
    | error err =>
      rw [he] at h
      cases h
    | ok j =>
      rw [he] at h
      cases hrest : marshalEntries rest with
      | error err =>
        rw [hrest] at h
        cases h
      | ok js2 =>
        rw [hrest] at h
        cases h
        rw [List.map_cons, ← ih js2 hrest, Entry.MarshalJSON_ok e j he]

theorem marshalEntries_of_range (es : List Entry)
    (hr : ∀ e ∈ es, -62167219200 ≤ e.Time ∧ e.Time ≤ 253402300799) :
    marshalEntries es =
      .ok (es.map (fun e => { group := e.Group.MarshalJSON, time := e.Time })) := by
  induction es with
  | nil => rfl
  | cons e rest ih =>
    unfold marshalEntries
    rw [Entry.MarshalJSON_of_range e (hr e (List.mem_cons_self _ _)),
      ih (fun x hx => hr x (List.mem_cons_of_mem _ hx))]
    rfl

theorem Entry.Equal_refl_entry (e : Entry) : Entry.Equal e e = true := by
  unfold Entry.Equal
  rw [grp.Equal_self]
  simp

theorem forall₂_map_left {α β : Type} (f : α → β) (R : β → α → Prop) (l : List α)
    (h : ∀ a ∈ l, R (f a) a) : List.Forall₂ R (l.map f) l := by
  induction l with
  | nil => exact List.Forall₂.nil
  | cons a rest ih =>
    exact List.Forall₂.cons (h a (List.mem_cons_self _ _))
      (ih (fun x hx => h x (List.mem_cons_of_mem _ hx)))

end schedule

namespace schedule

/-- C32: whenever `Schedule.MarshalJSON` succeeds, `Schedule.UnmarshalJSON` of the
document it wrote holds the entries of the schedule again: as many, in the same order,
each `Entry.Equal` to the original, with a group that is `grp.Equal` and the same time.
On the wire the keys `region`, `stack` and `team` are left out exactly for the fields that
are absent, and a key left out comes back as an absent field. Marshalling succeeds when
every time lies in the years 0 to 9999. -/
theorem Schedule_roundtrip (s s0 : Schedule) :
    (∀ wire, s.MarshalJSON = .ok wire →
      Schedule.UnmarshalJSON s0 wire = s ∧
      (Schedule.UnmarshalJSON s0 wire).Entries.length = s.Entries.length ∧
      List.Forall₂
        (fun back e => Entry.Equal back e = true ∧ grp.Equal back.Group e.Group = true ∧
          back.Time = e.Time)
        (Schedule.UnmarshalJSON s0 wire).Entries s.Entries ∧
      List.Forall₂
        (fun j e =>
          (j.group.region = none ↔ (e.Group.Region).2 = false) ∧
          (j.group.stack = none ↔ (e.Group.Stack).2 = false) ∧
          (j.group.team = none ↔ (e.Group.Team2).2 = false) ∧
          (j.group.region = none → ((Entry.UnmarshalJSON j).Group.Region).2 = false) ∧
          (j.group.stack = none → ((Entry.UnmarshalJSON j).Group.Stack).2 = false) ∧
          (j.group.team = none → ((Entry.UnmarshalJSON j).Group.Team2).2 = false))
        wire s.Entries) ∧
    ((∀ e ∈ s.Entries, -62167219200 ≤ e.Time ∧ e.Time ≤ 253402300799) →
      ∃ wire, s.MarshalJSON = .ok wire) := by
  refine ⟨?_, fun hr => ⟨_, marshalEntries_of_range s.entries hr⟩⟩
  intro wire h
  have hw := marshalEntries_ok s.entries wire h
  have hback : Schedule.UnmarshalJSON s0 wire = s := by
    unfold Schedule.UnmarshalJSON
    rw [hw, List.map_map]
    have hid : (Entry.UnmarshalJSON ∘
        fun e : Entry => ({ group := e.Group.MarshalJSON, time := e.Time } : EntryJSON)) = id := by
      funext e
      exact Entry.UnmarshalJSON_MarshalJSON e
    rw [hid, List.map_id]
  refine ⟨hback, by rw [hback], ?_, ?_⟩
  · rw [hback]
    have := forall₂_map_left (fun e : Entry => e)
      (fun back e => Entry.Equal back e = true ∧ grp.Equal back.Group e.Group = true ∧
        back.Time = e.Time) s.Entries
      (fun e _ => ⟨Entry.Equal_refl_entry e, grp.Equal_self e.Group, rfl⟩)
    simpa using this
  · rw [hw]
    refine forall₂_map_left _ _ s.entries (fun e _ => ?_)
    have h1 := grp.omitempty_eq_none e.Group.region
    have h2 := grp.omitempty_eq_none e.Group.stack
    have h3 := grp.omitempty_eq_none e.Group.team
    have e1 := grp.Region_absent e.Group
    have e2 := grp.Stack_absent e.Group
    have e3 := grp.Team2_absent e.Group
    rw [Entry.UnmarshalJSON_MarshalJSON]
    exact ⟨h1.trans e1.symm, h2.trans e2.symm, h3.trans e3.symm,
      fun h => e1.2 (h1.1 h), fun h => e2.2 (h2.1 h), fun h => e3.2 (h3.1 h)⟩

end schedule

/-! ## The list of eligible employees -/

namespace eligible

open elon (Error Call Traced)

theorem teamsRegions_eq (Parse : String → Except Error frigga.Names) (group : grp.group)
    (cloudProvider : String) (exs : List elon.Exception) (names : frigga.Names)
    (teamName : String) (regs : List String) :
    ∀ result : List team,
      teamsRegions Parse group cloudProvider exs group.Account names teamName result regs =
        result ++ (regs.filter fun region =>
          !isException exs group.Account names region && !isNeverEligible teamName &&
            decide (grp.Contains Parse group group.Account region teamName = some true)).map
          fun region =>
            { appName := names.Team, accountName := group.Account,
              cloudProvider := cloudProvider, regionName := region, teamName := teamName } := by
  induction regs with
  | nil =>
    intro result
    simp [teamsRegions]
  | cons region rest ih =>
    intro result
    unfold teamsRegions
    by_cases h1 : isException exs group.Account names region = true
    · rw [if_pos h1, ih, List.filter_cons_of_neg (by simp [h1])]
    · rw [if_neg h1]
      by_cases h2 : isNeverEligible teamName = true
      · rw [if_pos h2, ih, List.filter_cons_of_neg (by simp [h2])]
      · rw [if_neg h2]
        by_cases h3 : grp.Contains Parse group group.Account region teamName = some true
        · rw [if_pos h3, ih, List.filter_cons_of_pos (by simp [h1, h2, h3]), List.map_cons,
            List.append_assoc]
          rfl
        · rw [if_neg h3, ih, List.filter_cons_of_neg (by simp [h3])]

/-- The outer loop of `teams` either fails, at a lookup of its trace that fails, or
returns the teams of each team name in turn. -/
theorem teamsLoop_cases (Parse : String → Except Error frigga.Names) (group : grp.group)
    (cloudProvider : String) (exs : List elon.Exception) (dep : deploy.Deployment)
    (teamNames : List String) :
    ∀ result : List team,
      ((∃ err, (teamsLoop Parse group cloudProvider exs dep group.Account result
            teamNames).out = .error err) ∧
          ∃ c ∈ (teamsLoop Parse group cloudProvider exs dep group.Account result
            teamNames).calls, lookupFails Parse dep c = true) ∨
        (teamsLoop Parse group cloudProvider exs dep group.Account result teamNames).out =
          .ok (result ++ teamNames.flatMap (teamsOf Parse group cloudProvider exs dep)) := by
  induction teamNames with
  | nil =>
    intro result
    right
    simp [teamsLoop]
  | cons teamName rest ih =>
    intro result
    simp only [teamsLoop, Traced.step_calls, Traced.step_out]
    cases hp : Parse teamName with
    | error e =>
      left
      exact ⟨⟨e, by simp⟩, _, List.mem_cons_self _ _, by simp [lookupFails, hp, Except.toBool]⟩
    | ok names =>
      simp only [Traced.step_calls, Traced.step_out]
      cases hr : dep.GetRegionNames names.Team group.Account teamName with
      | error e =>
        left
        exact ⟨⟨e, by simp⟩, _, List.mem_cons_of_mem _ (List.mem_cons_self _ _),
          by simp [lookupFails, hr, Except.toBool]⟩
      | ok deployedRegions =>
        simp only []
        rcases ih (teamsRegions Parse group cloudProvider exs group.Account names teamName
          result (regions group deployedRegions)) with ⟨he, c, hc, hf⟩ | hok
        · left
          exact ⟨he, c, List.mem_cons_of_mem _ (List.mem_cons_of_mem _ hc), hf⟩
        · right
          rw [hok, teamsRegions_eq, List.flatMap_cons, List.append_assoc]
          congr 2
          unfold teamsOf
          simp only [hp, hr]

end eligible

namespace eligible

open elon (Error Call Traced)

theorem teams_cases (Parse : String → Except Error frigga.Names) (group : grp.group)
    (cloudProvider : String) (exs : List elon.Exception) (dep : deploy.Deployment) :
    ((∃ err, (teams Parse group cloudProvider exs dep).out = .error err) ∧
        ∃ c ∈ (teams Parse group cloudProvider exs dep).calls,
          lookupFails Parse dep c = true) ∨
      ∃ teamNames, dep.GetTeamNames group.Team group.Account = .ok teamNames ∧
        (teams Parse group cloudProvider exs dep).out =
          .ok (teamNames.flatMap (teamsOf Parse group cloudProvider exs dep)) := by
  simp only [teams, Traced.step_calls, Traced.step_out]
  cases hn : dep.GetTeamNames group.Team group.Account with
  | error e =>
    left
    exact ⟨⟨e, by simp⟩, _, List.mem_cons_self _ _, by simp [lookupFails, hn, Except.toBool]⟩
  | ok teamNames =>
    simp only []
    rcases teamsLoop_cases Parse group cloudProvider exs dep teamNames [] with
      ⟨he, c, hc, hf⟩ | hok
    · left
      exact ⟨he, c, List.mem_cons_of_mem _ hc, hf⟩
    · right
      exact ⟨teamNames, rfl, by rw [hok, List.nil_append]⟩

theorem getemployeesLoop_cases (Parse : String → Except Error frigga.Names)
    (dep : deploy.Deployment) (cl : team) (asgName : String) (ids : List String) :
    ∀ result : List employee,
      ((∃ err, (getemployeesLoop Parse cl asgName result ids).out = .error err) ∧
          ∃ c ∈ (getemployeesLoop Parse cl asgName result ids).calls,
            lookupFails Parse dep c = true) ∨
        (getemployeesLoop Parse cl asgName result ids).out =
          .ok (result ++ ids.map fun id =>
            { appName := cl.appName, accountName := cl.accountName,
              regionName := cl.regionName,
              stackName :=
                match Parse asgName with
                | .ok names => names.Stack
                | .error _ => "",
              teamName := cl.teamName, asgName := asgName, id := id,
              cloudProvider := cl.cloudProvider }) := by
  induction ids with
  | nil =>
    intro result
    right
    simp [getemployeesLoop]
  | cons id rest ih =>
    intro result
    simp only [getemployeesLoop, Traced.step_calls, Traced.step_out]
    cases hp : Parse asgName with
    | error e =>
      left
      exact ⟨⟨e.wrap "failed to parse", by simp⟩, _, List.mem_cons_self _ _,
        by simp [lookupFails, hp, Except.toBool]⟩
    | ok names =>
      simp only []
      rcases ih _ with ⟨he, c, hc, hf⟩ | hok
      · left
        exact ⟨he, c, List.mem_cons_of_mem _ hc, hf⟩
      · right
        rw [hok, hp, List.map_cons, List.append_assoc]
        rfl

theorem getemployees_cases (Parse : String → Except Error frigga.Names) (cl : team)
    (dep : deploy.Deployment) :
    ((∃ err, (getemployees Parse cl dep).out = .error err) ∧
        ∃ c ∈ (getemployees Parse cl dep).calls, lookupFails Parse dep c = true) ∨
      (getemployees Parse cl dep).out = .ok (employeesOf Parse dep cl) := by
  simp only [getemployees, Traced.step_calls, Traced.step_out]
  cases hg : dep.GetEmployeeIds cl.appName cl.accountName cl.cloudProvider cl.regionName
      cl.teamName with
  | error e =>
    left
    exact ⟨⟨e, by simp⟩, _, List.mem_cons_self _ _, by simp [lookupFails, hg, Except.toBool]⟩
  | ok p =>
    obtain ⟨asgName, ids⟩ := p
    simp only []
    rcases getemployeesLoop_cases Parse dep cl asgName ids [] with ⟨he, c, hc, hf⟩ | hok
    · left
      exact ⟨he, c, List.mem_cons_of_mem _ hc, hf⟩
    · right
      rw [hok, List.nil_append]
      unfold employeesOf
      simp only [hg]

theorem employeesLoop_cases (Parse : String → Except Error frigga.Names)
    (dep : deploy.Deployment) (cls : List team) :
    ∀ result : List employee,
      ((∃ err, (employeesLoop Parse dep result cls).out = .error err) ∧
          ∃ c ∈ (employeesLoop Parse dep result cls).calls,
            lookupFails Parse dep c = true) ∨
        (employeesLoop Parse dep result cls).out =
          .ok (result ++ cls.flatMap (employeesOf Parse dep)) := by
  induction cls with
  | nil =>
    intro result
    right
    simp [employeesLoop]
  | cons cl rest ih =>
    intro result
    simp only [employeesLoop, Traced.bind_calls, Traced.bind_out]
    rcases getemployees_cases Parse cl dep with ⟨⟨e, he⟩, c, hc, hf⟩ | hok
    · left
      rw [he]
      exact ⟨⟨e, by simp⟩, c, List.mem_append_left _ hc, hf⟩
    · rw [hok]
      simp only []
      rcases ih (result ++ employeesOf Parse dep cl) with ⟨he, c, hc, hf⟩ | hok2
      · left
        exact ⟨he, c, List.mem_append_right _ hc, hf⟩
      · right
        rw [hok2, List.flatMap_cons, List.append_assoc]

/-- The function `employees` either fails, at a lookup of its trace that fails, or
returns the employees of the teams of each team name in turn. -/
theorem employees_cases (Parse : String → Except Error frigga.Names) (group : grp.group)
    (exs : List elon.Exception) (dep : deploy.Deployment) :
    ((∃ err, (employees Parse group exs dep).out = .error err) ∧
        ∃ c ∈ (employees Parse group exs dep).calls, lookupFails Parse dep c = true) ∨
      ∃ cloudProvider teamNames,
        dep.CloudProvider group.Account = .ok cloudProvider ∧
        dep.GetTeamNames group.Team group.Account = .ok teamNames ∧
        (employees Parse group exs dep).out =
          .ok ((teamNames.flatMap (teamsOf Parse group cloudProvider exs dep)).flatMap
            (employeesOf Parse dep)) := by
  simp only [employees, Traced.step_calls, Traced.step_out]
  cases hcp : dep.CloudProvider group.Account with
  | error e =>
    left
    exact ⟨⟨e.wrap "retrieve cloud provider failed", by simp⟩, _, List.mem_cons_self _ _,
      by simp [lookupFails, hcp, Except.toBool]⟩
  | ok cloudProvider =>
    simp only [Traced.bind_calls, Traced.bind_out]
    rcases teams_cases Parse group cloudProvider exs dep with
      ⟨⟨e, he⟩, c, hc, hf⟩ | ⟨teamNames, hn, hok⟩
    · left
      rw [he]
      exact ⟨⟨e, by simp⟩, c, List.mem_cons_of_mem _ (List.mem_append_left _ hc), hf⟩
    · rw [hok]
      simp only []
      rcases employeesLoop_cases Parse dep
        (teamNames.flatMap (teamsOf Parse group cloudProvider exs dep)) [] with
        ⟨he, c, hc, hf⟩ | hok2
      · left
        exact ⟨he, c, List.mem_cons_of_mem _ (List.mem_append_right _ hc), hf⟩
      · right
        exact ⟨cloudProvider, teamNames, rfl, hn, by rw [hok2, List.nil_append]⟩

end eligible

namespace eligible

open elon (Error Call Traced)

theorem isException_eq_any (exs : List elon.Exception) (account : String)
    (names : frigga.Names) (region : String) :
    isException exs account names region =
      exs.any fun ex => ex.Matches account names.Stack names.Detail region := by
  induction exs with
  | nil => rfl
  | cons ex rest ih =>
    unfold isException
    rw [List.any_cons]
    by_cases h : ex.Matches account names.Stack names.Detail region = true
    · rw [if_pos h, h, Bool.true_or]
    · rw [if_neg h, ih]
      simp only [Bool.not_eq_true] at h
      rw [h, Bool.false_or]

theorem hasAnySuffix_eq_any (team : String) (suffixes : List String) :
    hasAnySuffix team suffixes = suffixes.any fun suffix => strings.HasSuffix team suffix := by
  induction suffixes with
  | nil => rfl
  | cons suffix rest ih =>
    unfold hasAnySuffix
    rw [List.any_cons]
    by_cases h : strings.HasSuffix team suffix = true
    · rw [if_pos h, h, Bool.true_or]
    · rw [if_neg h, ih]
      simp only [Bool.not_eq_true] at h
      rw [h, Bool.false_or]

theorem contains_eq_decide (region : String) (regs : List String) :
    contains region regs = decide (region ∈ regs) := by
  induction regs with
  | nil => simp [contains]
  | cons r rest ih =>
    unfold contains
    by_cases h : region = r
    · subst h
      simp
    · have hb : (region == r) = false := by simpa using h
      rw [hb, ih]
      simp [h]

theorem regions_eq_candidateRegions (group : grp.group) (deployedRegions : List String) :
    regions group deployedRegions = candidateRegions group deployedRegions := by
  unfold regions candidateRegions regionsWhenTermScopedtoSingleRegion
  rw [contains_eq_decide]
  simp only [decide_eq_true_eq]

theorem survives_eq (Parse : String → Except Error frigga.Names) (group : grp.group)
    (exs : List elon.Exception) (names : frigga.Names) (teamName region : String) :
    (!isException exs group.Account names region && !isNeverEligible teamName &&
      decide (grp.Contains Parse group group.Account region teamName = some true)) =
      survives Parse group exs names teamName region := by
  unfold survives isNeverEligible
  rw [isException_eq_any, hasAnySuffix_eq_any]

/-- A team that the group contains carries the app of the group in its name. -/
theorem Contains_app (Parse : String → Except Error frigga.Names) (g : grp.group)
    (account region team : String) (names : frigga.Names) (hp : Parse team = .ok names)
    (h : grp.Contains Parse g account region team = some true) : names.Team = g.Team := by
  unfold grp.Contains at h
  rw [hp] at h
  simp only [] at h
  by_cases ha : names.Team = g.Team
  · exact ha
  · have hb : (names.Team == g.Team) = false := by simpa using ha
    rw [hb] at h
    simp at h

theorem employeesOf_mk (Parse : String → Except Error frigga.Names) (group : grp.group)
    (dep : deploy.Deployment) (cloudProvider teamName region : String) :
    employeesOf Parse dep
        { appName := group.Team, accountName := group.Account,
          cloudProvider := cloudProvider, regionName := region, teamName := teamName } =
      employeesOfSpec Parse group dep cloudProvider teamName region := rfl

/-- The employees of the teams appended for one team name are those the specification
lists for that name. -/
theorem teamsOf_flatMap (Parse : String → Except Error frigga.Names) (group : grp.group)
    (cloudProvider : String) (exs : List elon.Exception) (dep : deploy.Deployment)
    (teamName : String) :
    (teamsOf Parse group cloudProvider exs dep teamName).flatMap (employeesOf Parse dep) =
      employeesOfTeamSpec Parse group exs dep cloudProvider teamName := by
  unfold teamsOf employeesOfTeamSpec
  cases hp : Parse teamName with
  | error e => rfl
  | ok names =>
    simp only []
    by_cases ha : names.Team = group.Team
    · rw [ha]
      cases hr : dep.GetRegionNames group.Team group.Account teamName with
      | error e => rfl
      | ok deployedRegions =>
        simp only []
        rw [List.flatMap_map, regions_eq_candidateRegions]
        have hf : (fun region =>
            !isException exs group.Account names region && !isNeverEligible teamName &&
              decide (grp.Contains Parse group group.Account region teamName = some true)) =
            survives Parse group exs names teamName := by
          funext region
          exact survives_eq Parse group exs names teamName region
        rw [hf]
        rfl
    · have hno : ∀ region,
          grp.Contains Parse group group.Account region teamName ≠ some true :=
        fun region h => ha (Contains_app Parse group _ region teamName names hp h)
      have hl : ∀ regs : List String,
          (regs.filter fun region =>
            !isException exs group.Account names region && !isNeverEligible teamName &&
              decide (grp.Contains Parse group group.Account region teamName = some true)) =
            [] := by
        intro regs
        rw [List.filter_eq_nil_iff]
        intro region _
        simp [hno region]
      have hs : ∀ regs : List String,
          regs.filter (survives Parse group exs names teamName) = [] := by
        intro regs
        rw [List.filter_eq_nil_iff]
        intro region _
        simp [survives, hno region]
      cases hr : dep.GetRegionNames names.Team group.Account teamName with
      | error e =>
        simp only []
        cases hr2 : dep.GetRegionNames group.Team group.Account teamName with
        | error e2 => rfl
        | ok deployedRegions2 =>
          simp only []
          rw [hs]
          rfl
      | ok deployedRegions =>
        simp only []
        rw [hl]
        cases hr2 : dep.GetRegionNames group.Team group.Account teamName with
        | error e2 => rfl
        | ok deployedRegions2 =>
          simp only []
          rw [hs]
          rfl

/-- A successful call of `employees` returns the list of the specification. -/
theorem employees_ok (Parse : String → Except Error frigga.Names) (group : grp.group)
    (exs : List elon.Exception) (dep : deploy.Deployment) (res : List employee)
    (h : (employees Parse group exs dep).out = .ok res) :
    res = employeesSpec Parse group exs dep := by
  rcases employees_cases Parse group exs dep with ⟨⟨e, he⟩, _⟩ | ⟨cp, teamNames, hcp, hn, hok⟩
  · rw [he] at h
    cases h
  · rw [hok] at h
    cases h
    unfold employeesSpec
    rw [hcp, hn, List.flatMap_assoc]
    simp only []
    exact List.flatMap_congr fun c _ => teamsOf_flatMap Parse group cp exs dep c

end eligible

namespace eligible

open elon (Error Call Traced)

theorem sublist_flatMap_right {α β : Type} (l : List α) (f g : α → List β)
    (h : ∀ a, List.Sublist (f a) (g a)) : List.Sublist (l.flatMap f) (l.flatMap g) := by
  induction l with
  | nil => exact List.Sublist.refl _
  | cons a rest ih =>
    rw [List.flatMap_cons, List.flatMap_cons]
    exact List.Sublist.append (h a) ih

theorem sublist_flatMap_left {α β : Type} (f : α → List β) (l1 l2 : List α)
    (h : List.Sublist l1 l2) : List.Sublist (l1.flatMap f) (l2.flatMap f) := by
  induction h with
  | slnil => exact List.Sublist.refl _
  | cons a _ ih =>
    rw [List.flatMap_cons]
    exact ih.trans (List.sublist_append_right _ _)
  | cons₂ a _ ih =>
    rw [List.flatMap_cons, List.flatMap_cons]
    exact List.Sublist.append (List.Sublist.refl _) ih

theorem survives_append (Parse : String → Except Error frigga.Names) (group : grp.group)
    (exs extra : List elon.Exception) (names : frigga.Names) (teamName region : String)
    (h : survives Parse group (exs ++ extra) names teamName region = true) :
    survives Parse group exs names teamName region = true := by
  unfold survives at h ⊢
  rw [List.any_append] at h
  simp only [Bool.and_eq_true, Bool.not_eq_true', Bool.or_eq_false_iff] at h ⊢
  exact ⟨⟨h.1.1.1, h.1.2⟩, h.2⟩

/-- The list of the specification only loses employees when exceptions are added. -/
theorem employeesSpec_sublist (Parse : String → Except Error frigga.Names)
    (group : grp.group) (exs extra : List elon.Exception) (dep : deploy.Deployment) :
    List.Sublist (employeesSpec Parse group (exs ++ extra) dep)
      (employeesSpec Parse group exs dep) := by
  unfold employeesSpec
  cases dep.CloudProvider group.Account with
  | error e => exact List.Sublist.refl _
  | ok cloudProvider =>
    cases dep.GetTeamNames group.Team group.Account with
    | error e => exact List.Sublist.refl _
    | ok teamNames =>
      simp only []
      refine sublist_flatMap_right teamNames _ _ fun teamName => ?_
      unfold employeesOfTeamSpec
      cases Parse teamName with
      | error e => exact List.Sublist.refl _
      | ok names =>
        cases dep.GetRegionNames group.Team group.Account teamName with
        | error e => exact List.Sublist.refl _
        | ok deployedRegions =>
          simp only []
          exact sublist_flatMap_left _ _ _
            (List.monotone_filter_right _
              fun region h => survives_append Parse group exs extra names teamName region h)

/-- C36: when every lookup that `employees` makes succeeds (the calls to the deployment
and the parsing of team and ASG names), it returns exactly the list of the specification,
in order: for each team of `GetTeamNames` and each candidate region of the team that no
exception matches, where the team has no never-eligible suffix and the group contains the
(account, region, team), one employee per id of `GetEmployeeIds`, carrying that app,
account, region, team, ASG name and cloud provider. -/
theorem employees_exact (Parse : String → Except Error frigga.Names) (group : grp.group)
    (exs : List elon.Exception) (dep : deploy.Deployment)
    (h : ∀ c ∈ (employees Parse group exs dep).calls, lookupFails Parse dep c = false) :
    (employees Parse group exs dep).out = .ok (employeesSpec Parse group exs dep) ∧
      (∃ cloudProvider, dep.CloudProvider group.Account = .ok cloudProvider) ∧
      (∃ teamNames, dep.GetTeamNames group.Team group.Account = .ok teamNames) := by
  rcases employees_cases Parse group exs dep with
    ⟨_, c, hc, hf⟩ | ⟨cloudProvider, teamNames, hcp, hn, hok⟩
  · rw [h c hc] at hf
    cases hf
  · exact ⟨by rw [hok, ← employees_ok Parse group exs dep _ hok], ⟨_, hcp⟩, ⟨_, hn⟩⟩

theorem employees_exact_witness :
    (∀ c ∈ (employees fixture.Parse (grp.New "foo" "prod" "" "" "") [] fixture.dep).calls,
        lookupFails fixture.Parse fixture.dep c = false) ∧
      employeesSpec fixture.Parse (grp.New "foo" "prod" "" "" "") [] fixture.dep =
        [fixture.e1] ∧
      ((employees fixture.Parse (grp.New "foo" "prod" "" "" "") [] fixture.dep).out =
          .ok (employeesSpec fixture.Parse (grp.New "foo" "prod" "" "" "") [] fixture.dep) ∧
        (∃ cloudProvider,
          fixture.dep.CloudProvider (grp.New "foo" "prod" "" "" "").Account =
            .ok cloudProvider) ∧
        (∃ teamNames,
          fixture.dep.GetTeamNames (grp.New "foo" "prod" "" "" "").Team
            (grp.New "foo" "prod" "" "" "").Account = .ok teamNames)) :=
  ⟨by decide, by decide,
    employees_exact fixture.Parse (grp.New "foo" "prod" "" "" "") [] fixture.dep (by decide)⟩

/-- C40: eligibility is monotone in the exception list. When `employees` succeeds with the
exceptions `exs` and with `exs ++ extra`, the employees returned with `exs ++ extra` form
a sub-list of those returned with `exs`: no employee is new and the survivors keep their
order. -/
theorem employees_monotone (Parse : String → Except Error frigga.Names) (group : grp.group)
    (exs extra : List elon.Exception) (dep : deploy.Deployment) (res1 res2 : List employee)
    (h1 : (employees Parse group exs dep).out = .ok res1)
    (h2 : (employees Parse group (exs ++ extra) dep).out = .ok res2) :
    List.Sublist res2 res1 ∧ ∀ i ∈ res2, i ∈ res1 := by
  have hs : List.Sublist res2 res1 := by
    rw [employees_ok Parse group exs dep res1 h1,
      employees_ok Parse group (exs ++ extra) dep res2 h2]
    exact employeesSpec_sublist Parse group exs extra dep
  exact ⟨hs, fun i hi => hs.subset hi⟩

theorem employees_monotone_witness :
    (employees fixture.Parse (grp.New "foo" "prod" "" "" "") [] fixture.dep).out =
        .ok [fixture.e1] ∧
      (employees fixture.Parse (grp.New "foo" "prod" "" "" "")
        ([] ++ [{ Account := "prod", Stack := "*", Detail := "*", Region := "us-east-1" }])
        fixture.dep).out = .ok [] ∧
      (List.Sublist [] [fixture.e1] ∧ ∀ i ∈ ([] : List employee), i ∈ [fixture.e1]) :=
  ⟨rfl, rfl,
    employees_monotone fixture.Parse (grp.New "foo" "prod" "" "" "") []
      [{ Account := "prod", Stack := "*", Detail := "*", Region := "us-east-1" }] fixture.dep
      [fixture.e1] [] rfl rfl⟩

end eligible

/-! ## Groups by stack of an app with a team without a stack -/

namespace deploy

/-- C37: under the grouping by stack the groups of an app do not partition it when a team
name carries no stack. For the app `foo` with the teams `foo` and `foo-staging` in account
`prod`, region us-east-1, `EligibleemployeeGroups` returns a group with the empty stack next
to the group of the stack `staging`, for independent regions and for dependent ones, and
`grp.Contains` reads the empty stack as any stack: the triple (prod, foo-staging,
us-east-1) is contained in both groups. -/
theorem EligibleemployeeGroups_stackless_overlap :
    EligibleemployeeGroups fixture.stacklessParse MapOrder.listed
        (NewTeam MapOrder.listed "foo" fixture.stacklessData) (fixture.conf elon.Stack true) =
      .ok [grp.New "foo" "prod" "us-east-1" "" "",
           grp.New "foo" "prod" "us-east-1" "staging" ""] ∧
    grp.Contains fixture.stacklessParse (grp.New "foo" "prod" "us-east-1" "" "")
      "prod" "us-east-1" "foo-staging" = some true ∧
    grp.Contains fixture.stacklessParse (grp.New "foo" "prod" "us-east-1" "staging" "")
      "prod" "us-east-1" "foo-staging" = some true ∧
    EligibleemployeeGroups fixture.stacklessParse MapOrder.listed
        (NewTeam MapOrder.listed "foo" fixture.stacklessData) (fixture.conf elon.Stack false) =
      .ok [grp.New "foo" "prod" "" "" "", grp.New "foo" "prod" "" "staging" ""] ∧
    grp.Contains fixture.stacklessParse (grp.New "foo" "prod" "" "" "")
      "prod" "us-east-1" "foo-staging" = some true ∧
    grp.Contains fixture.stacklessParse (grp.New "foo" "prod" "" "staging" "")
      "prod" "us-east-1" "foo-staging" = some true ∧
    grp.Equal (grp.New "foo" "prod" "us-east-1" "" "")
      (grp.New "foo" "prod" "us-east-1" "staging" "") = false :=
  ⟨rfl, rfl, rfl, rfl, rfl, rfl, rfl⟩

end deploy

/-! ## The probability of a fire -/

namespace float64

theorem log_eq (x : ℚ) (z : ℤ) (hx : 0 < x) (h1 : (2 : ℚ) ^ z ≤ x) (h2 : x < (2 : ℚ) ^ (z + 1)) :
    Int.log 2 x = z := by
  have a : z ≤ Int.log 2 x := (Int.zpow_le_iff_le_log (by norm_num) hx).1 (by exact_mod_cast h1)
  have b : Int.log 2 x < z + 1 := (Int.lt_zpow_iff_log_lt (by norm_num) hx).1 (by exact_mod_cast h2)
  omega

theorem round_zpow (z : ℤ) : round ((2 : ℚ) ^ z) = 2 ^ z := by
  have hpos : (0 : ℚ) < 2 ^ z := zpow_pos (by norm_num) z
  have hl : Int.log 2 |(2 : ℚ) ^ z| = z := by
    rw [abs_of_pos hpos]
    exact log_eq _ z hpos le_rfl (zpow_lt_zpow_right₀ (by norm_num) (by omega))
  unfold round
  rw [if_neg hpos.ne', hl]
  have h : (2 : ℚ) ^ z / 2 ^ (z - 52) = ((2 ^ 52 : ℤ) : ℚ) := by
    rw [zpow_sub₀ (by norm_num)]
    field_simp
    norm_num
  rw [h, roundHalfEven_intCast, zpow_sub₀ (by norm_num)]
  field_simp
  norm_num
  ring

theorem round_five : round 5 = 5 := by
  have hl : Int.log 2 |(5 : ℚ)| = 2 := by
    rw [abs_of_pos (by norm_num)]
    exact log_eq _ 2 (by norm_num) (by norm_num) (by norm_num)
  unfold round
  rw [if_neg (by norm_num), hl]
  have h : (5 : ℚ) / 2 ^ ((2 : ℤ) - 52) = ((5 * 2 ^ 50 : ℤ) : ℚ) := by norm_num
  rw [h, roundHalfEven_intCast]
  norm_num

theorem round_fifth : round (1 / 5) = 3602879701896397 / 18014398509481984 := by
  have hl : Int.log 2 |(1 / 5 : ℚ)| = -3 := by
    rw [abs_of_pos (by norm_num)]
    exact log_eq _ (-3) (by norm_num) (by norm_num) (by norm_num)
  unfold round
  rw [if_neg (by norm_num), hl]
  have h : (1 / 5 : ℚ) / 2 ^ ((-3 : ℤ) - 52) = 36028797018963968 / 5 := by norm_num
  have hf : ⌊(36028797018963968 / 5 : ℚ)⌋ = 7205759403792793 := by
    rw [Int.floor_eq_iff]
    constructor <;> norm_num
  have hr : roundHalfEven (36028797018963968 / 5) = 7205759403792794 := by
    unfold roundHalfEven
    rw [hf]
    norm_num
  rw [h, hr]
  norm_num

theorem round_float_fifth :
    round (3602879701896397 / 18014398509481984) = 3602879701896397 / 18014398509481984 := by
  have hl : Int.log 2 |(3602879701896397 / 18014398509481984 : ℚ)| = -3 := by
    rw [abs_of_pos (by norm_num)]
    exact log_eq _ (-3) (by norm_num) (by norm_num) (by norm_num)
  unfold round
  rw [if_neg (by norm_num), hl]
  have h : (3602879701896397 / 18014398509481984 : ℚ) / 2 ^ ((-3 : ℤ) - 52) =
      ((7205759403792794 : ℤ) : ℚ) := by norm_num
  rw [h, roundHalfEven_intCast]
  norm_num


theorem floor_le_roundHalfEven (x : ℚ) : ⌊x⌋ ≤ roundHalfEven x := by
  unfold roundHalfEven
  split_ifs <;> omega

theorem roundHalfEven_le_of_le (x : ℚ) (n : Int) (h : x ≤ n) : roundHalfEven x ≤ n := by
  have hf : ⌊x⌋ ≤ n := Int.floor_le_floor h |>.trans (by rw [Int.floor_intCast])
  rcases hf.lt_or_eq with hlt | heq
  · unfold roundHalfEven
    split_ifs <;> omega
  · have hx : x = n := le_antisymm h (by rw [← heq]; exact Int.floor_le x)
    rw [hx, roundHalfEven_intCast]

/-- A positive number is rounded to a `float64` in the same binade, ends included. -/
theorem round_bounds (x : ℚ) (hx : 0 < x) :
    (2 : ℚ) ^ Int.log 2 x ≤ round x ∧ round x ≤ 2 ^ (Int.log 2 x + 1) := by
  have h1 : (2 : ℚ) ^ Int.log 2 x ≤ x := by
    have := Int.zpow_log_le_self (b := 2) (by norm_num) hx
    exact_mod_cast this
  have h2 : x < (2 : ℚ) ^ (Int.log 2 x + 1) := by
    have := Int.lt_zpow_succ_log_self (b := 2) (by norm_num) x
    exact_mod_cast this
  have hp : (0 : ℚ) < 2 ^ (Int.log 2 x - 52) := zpow_pos (by norm_num) _
  unfold round
  rw [if_neg hx.ne', abs_of_pos hx]
  have e1 : (2 : ℚ) ^ Int.log 2 x = ((2 ^ 52 : ℤ) : ℚ) * 2 ^ (Int.log 2 x - 52) := by
    rw [zpow_sub₀ (by norm_num)]
    field_simp
    norm_num
    ring
  have e2 : (2 : ℚ) ^ (Int.log 2 x + 1) = ((2 ^ 53 : ℤ) : ℚ) * 2 ^ (Int.log 2 x - 52) := by
    rw [zpow_sub₀ (by norm_num), zpow_add₀ (by norm_num)]
    field_simp
    norm_num
    ring
  rw [e1, e2]
  constructor
  · refine mul_le_mul_of_nonneg_right ?_ hp.le
    have : ((2 ^ 52 : ℤ) : ℚ) ≤ x / 2 ^ (Int.log 2 x - 52) := by
      rw [le_div_iff₀ hp, ← e1]
      exact h1
    have hfl : (2 ^ 52 : ℤ) ≤ ⌊x / 2 ^ (Int.log 2 x - 52)⌋ := Int.le_floor.2 this
    exact_mod_cast hfl.trans (floor_le_roundHalfEven _)
  · refine mul_le_mul_of_nonneg_right ?_ hp.le
    have : x / 2 ^ (Int.log 2 x - 52) ≤ ((2 ^ 53 : ℤ) : ℚ) := by
      rw [div_le_iff₀ hp, ← e2]
      exact h2.le
    exact_mod_cast roundHalfEven_le_of_le _ _ this

theorem round_pos (x : ℚ) (hx : 0 < x) : 0 < round x :=
  lt_of_lt_of_le (zpow_pos (by norm_num) _) (round_bounds x hx).1

theorem one_le_round (x : ℚ) (hx : 1 ≤ x) : 1 ≤ round x := by
  have hpos : 0 < x := lt_of_lt_of_le one_pos hx
  have hl : 0 ≤ Int.log 2 x := by
    have := (Int.zpow_le_iff_le_log (b := 2) (by norm_num) hpos (x := 0)).1 (by simpa using hx)
    exact this
  exact le_trans (one_le_zpow₀ (by norm_num) hl) (round_bounds x hpos).1

theorem round_le_one (x : ℚ) (hx : 0 < x) (h1 : x ≤ 1) : round x ≤ 1 := by
  rcases h1.lt_or_eq with hlt | heq
  · have hl : Int.log 2 x < 0 :=
      (Int.lt_zpow_iff_log_lt (b := 2) (by norm_num) hx (x := 0)).1 (by simpa using hlt)
    refine le_trans (round_bounds x hx).2 ?_
    exact zpow_le_one_of_nonpos₀ (by norm_num) (by omega)
  · rw [heq]
    have := round_zpow 0
    simpa using this.le

/-- The quotient `1.0 / float64(m)` of a positive `int` lies in `(0, 1]`. -/
theorem div_one_ofInt_range (m : Int) (hm : 0 < m) :
    0 < div 1 (ofInt m) ∧ div 1 (ofInt m) ≤ 1 := by
  have h1 : (1 : ℚ) ≤ ofInt m := one_le_round _ (by exact_mod_cast hm)
  have hpos : (0 : ℚ) < 1 / ofInt m := by positivity
  have hle : (1 : ℚ) / ofInt m ≤ 1 := by
    rw [div_le_one (lt_of_lt_of_le one_pos h1)]
    exact h1
  exact ⟨round_pos _ hpos, round_le_one _ hpos hle⟩

/-- The quotient `1.0 / float64(m)` is exactly `1 / m` when `m` is a power of two. -/
theorem div_one_ofInt_two_pow (k : Nat) :
    div 1 (ofInt (2 ^ k)) = 1 / ((2 ^ k : ℤ) : ℚ) := by
  have h : (((2 : ℤ) ^ k : ℤ) : ℚ) = (2 : ℚ) ^ (k : ℤ) := by
    norm_cast
  unfold div ofInt
  rw [h, round_zpow, one_div, ← zpow_neg, round_zpow]

end float64

namespace schedule

/-- C38 (counterexample): with a mean of 5 work days the quotient `1.0 / float64(5)` is
the `float64` 3602879701896397 / 2 ^ 54, which is more than 1 / 5. A sample equal to that
`float64` lies in `[0, 1)` and fires, although it is not at most 1 / 5. -/
theorem shouldFireemployee_fifth_counterexample :
    (0 : ℚ) ≤ 3602879701896397 / 18014398509481984 ∧
    (3602879701896397 / 18014398509481984 : ℚ) < 1 ∧
    float64.round (3602879701896397 / 18014398509481984) =
      3602879701896397 / 18014398509481984 ∧
    float64.div 1 (float64.ofInt 5) = 3602879701896397 / 18014398509481984 ∧
    (shouldFireemployee 5
      { samples := fun _ => 3602879701896397 / 18014398509481984 }).1 = .ok true ∧
    ¬ ((3602879701896397 / 18014398509481984 : ℚ) ≤ 1 / ((5 : ℤ) : ℚ)) := by
  have hd : float64.div 1 (float64.ofInt 5) = 3602879701896397 / 18014398509481984 := by
    unfold float64.div float64.ofInt
    rw [show (((5 : ℤ) : ℚ)) = 5 by norm_num, float64.round_five, float64.round_fifth]
  refine ⟨by norm_num, by norm_num, float64.round_float_fifth, hd, ?_, by norm_num⟩
  rw [shouldFireemployee_of_pos 5 _ (by decide), hd]
  simp [float64Rand.Float64]

/-- C38: for a positive mean `m` and a sample `s` in `[0, 1)`, `shouldFireemployee`
returns a boolean, and it returns true iff `s ≤ pfire`, where `pfire` is the `float64`
quotient `1.0 / float64(m)`; a sample equal to `pfire` fires. The firing samples are those
of the interval `[0, pfire]`, with `0 < pfire ≤ 1`; `pfire` is exactly `1 / m` when `m` is a
power of two, and it is more than `1 / 5` for `m = 5`. -/
theorem shouldFireemployee_iff (m : Int) (r : float64Rand) (hm : 0 < m)
    (hs : 0 ≤ r.samples 0 ∧ r.samples 0 < 1) :
    ((shouldFireemployee m r).1 = .ok true ↔
        r.samples 0 ≤ float64.div 1 (float64.ofInt m)) ∧
      ((shouldFireemployee m r).1 = .ok false ↔
        float64.div 1 (float64.ofInt m) < r.samples 0) ∧
      (0 < float64.div 1 (float64.ofInt m) ∧ float64.div 1 (float64.ofInt m) ≤ 1) ∧
      (∀ k : Nat, m = 2 ^ k → float64.div 1 (float64.ofInt m) = 1 / (m : ℚ)) ∧
      (m = 5 → 1 / (m : ℚ) < float64.div 1 (float64.ofInt m)) := by
  have _ := hs
  refine ⟨?_, ?_, float64.div_one_ofInt_range m hm, ?_, ?_⟩
  · rw [shouldFireemployee_of_pos m r hm]
    simp [float64Rand.Float64]
  · rw [shouldFireemployee_of_pos m r hm]
    simp [float64Rand.Float64]
  · intro k hk
    rw [hk]
    exact float64.div_one_ofInt_two_pow k
  · intro h5
    rw [h5]
    unfold float64.div float64.ofInt
    rw [show (((5 : ℤ) : ℚ)) = 5 by norm_num, float64.round_five, float64.round_fifth]
    norm_num

theorem shouldFireemployee_iff_witness :
    (0 : Int) < 2 ∧ (0 ≤ fixture.half.samples 0 ∧ fixture.half.samples 0 < 1) ∧
      (((shouldFireemployee 2 fixture.half).1 = .ok true ↔
          fixture.half.samples 0 ≤ float64.div 1 (float64.ofInt 2)) ∧
        ((shouldFireemployee 2 fixture.half).1 = .ok false ↔
          float64.div 1 (float64.ofInt 2) < fixture.half.samples 0) ∧
        (0 < float64.div 1 (float64.ofInt 2) ∧ float64.div 1 (float64.ofInt 2) ≤ 1) ∧
        (∀ k : Nat, (2 : Int) = 2 ^ k →
          float64.div 1 (float64.ofInt 2) = 1 / (((2 : Int)) : ℚ)) ∧
        ((2 : Int) = 5 → 1 / (((2 : Int)) : ℚ) < float64.div 1 (float64.ofInt 2))) :=
  ⟨by decide, by norm_num [fixture.half],
    shouldFireemployee_iff 2 fixture.half (by decide) (by norm_num [fixture.half])⟩

end schedule

/-! ## The minimum time between fires -/

namespace mysql

open elon (Error Termination)

theorem Check_permitted (store : List Termination) (trm : Termination)
    (appCfg : elon.TeamConfig) (endHour : Int) (loc : time.Location)
    (h : ∀ r ∈ store, blocks trm appCfg
      (cutoff appCfg.MinTimeBetweenFiresInWorkDays trm.Time endHour loc) r = false) :
    Check store trm appCfg endHour loc = (none, store ++ [trm]) := by
  unfold Check
  have hf : store.filter (blocks trm appCfg
      (cutoff appCfg.MinTimeBetweenFiresInWorkDays trm.Time endHour loc)) = [] := by
    rw [List.filter_eq_nil_iff]
    intro r hr
    rw [h r hr]
    decide
  rw [hf]
  rfl

theorem Check_refused (store : List Termination) (trm : Termination)
    (appCfg : elon.TeamConfig) (endHour : Int) (loc : time.Location) (r : Termination)
    (hr : r ∈ store) (hb : blocks trm appCfg
      (cutoff appCfg.MinTimeBetweenFiresInWorkDays trm.Time endHour loc) r = true) :
    ∃ last ∈ store, blocks trm appCfg
        (cutoff appCfg.MinTimeBetweenFiresInWorkDays trm.Time endHour loc) last = true ∧
      Check store trm appCfg endHour loc =
        (some (.ErrViolatesMinTime last.employee.id last.Time), store) := by
  unfold Check
  cases hl : (store.filter (blocks trm appCfg
      (cutoff appCfg.MinTimeBetweenFiresInWorkDays trm.Time endHour loc))).getLast? with
  | none =>
    rw [List.getLast?_eq_none_iff, List.filter_eq_nil_iff] at hl
    exact absurd hb (hl r hr)
  | some last =>
    have hm := List.mem_of_getLast?_eq_some hl
    rw [List.mem_filter] at hm
    exact ⟨last, hm.1, hm.2, rfl⟩

theorem blocks_unleashed (trm : Termination) (appCfg : elon.TeamConfig) (cut : Int)
    (r : Termination) (hl : trm.Leashed = false) :
    blocks trm appCfg cut r = true ↔
      sameGroup appCfg r.employee trm.employee = true ∧ r.Leashed = false ∧ cut ≤ r.Time := by
  unfold blocks
  rw [hl]
  simp [and_assoc]

end mysql

namespace mysql

open elon (Error Termination)

/-- C33: for a candidate termination that is not leashed, `Check` permits it (returns nil
and records it as the most recent termination) iff no recorded termination of the same
group that is not leashed lies at or after the cutoff, which is `endHour`, in the
location, of the day `MinTimeBetweenFiresInWorkDays` work days before the date of the
candidate; otherwise it returns `ErrViolatesMinTime` for such a record and records nothing.
So a record strictly before the cutoff never blocks and a leashed record never blocks. On
the inputs of `TestCheckMinTimeEnforced` the cutoff is Tue Dec 15 15:00:00 2015 -0800: a
fire at 15:01:00 forbids the candidate, a fire at 14:59:59 does not; a second fire at the
same instant is forbidden (`TestCheckForbidden`) and allowed after a leashed one
(`TestCheckLeashed`). -/
theorem Check_min_time (store : List Termination) (trm : Termination)
    (appCfg : elon.TeamConfig) (endHour : Int) (loc : time.Location)
    (hl : trm.Leashed = false) :
    ((Check store trm appCfg endHour loc).1 = none ↔
        ∀ r ∈ store, sameGroup appCfg r.employee trm.employee = true → r.Leashed = false →
          r.Time < cutoff appCfg.MinTimeBetweenFiresInWorkDays trm.Time endHour loc) ∧
      ((Check store trm appCfg endHour loc).1 = none →
        (Check store trm appCfg endHour loc).2 = store ++ [trm]) ∧
      ((Check store trm appCfg endHour loc).1 ≠ none →
        ∃ r ∈ store, sameGroup appCfg r.employee trm.employee = true ∧ r.Leashed = false ∧
          cutoff appCfg.MinTimeBetweenFiresInWorkDays trm.Time endHour loc ≤ r.Time ∧
          Check store trm appCfg endHour loc =
            (some (.ErrViolatesMinTime r.employee.id r.Time), store)) ∧
      cutoff 2 1450380900 15 fixture.pst = 1450220400 ∧
      Check [fixture.fired 1450220460 false] (fixture.fired 1450380900 false) fixture.minTwo
          15 fixture.pst =
        (some (.ErrViolatesMinTime "i-a96a0166" 1450220460),
          [fixture.fired 1450220460 false]) ∧
      Check [fixture.fired 1450220399 false] (fixture.fired 1450380900 false) fixture.minTwo
          15 fixture.pst =
        (none, [fixture.fired 1450220399 false, fixture.fired 1450380900 false]) ∧
      Check [fixture.fired 1450380900 false] (fixture.fired 1450380900 false) fixture.minOne
          15 fixture.pst =
        (some (.ErrViolatesMinTime "i-a96a0166" 1450380900),
          [fixture.fired 1450380900 false]) ∧
      Check [fixture.fired 1450380900 true] (fixture.fired 1450380900 false) fixture.minOne
          15 fixture.pst =
        (none, [fixture.fired 1450380900 true, fixture.fired 1450380900 false]) := by
  have key : (∀ r ∈ store, sameGroup appCfg r.employee trm.employee = true →
      r.Leashed = false →
        r.Time < cutoff appCfg.MinTimeBetweenFiresInWorkDays trm.Time endHour loc) ∨
      ∃ r ∈ store, blocks trm appCfg
        (cutoff appCfg.MinTimeBetweenFiresInWorkDays trm.Time endHour loc) r = true := by
    by_cases hex : ∃ r ∈ store, blocks trm appCfg
        (cutoff appCfg.MinTimeBetweenFiresInWorkDays trm.Time endHour loc) r = true
    · exact Or.inr hex
    · left
      intro r hr hs hrl
      by_contra hlt
      exact hex ⟨r, hr, (blocks_unleashed trm appCfg _ r hl).2 ⟨hs, hrl, not_lt.1 hlt⟩⟩
  refine ⟨?_, ?_, ?_, by decide, by decide, by decide, by decide, by decide⟩
  · constructor
    · intro hnone r hr hs hrl
      by_contra hlt
      obtain ⟨last, _, _, hc⟩ := Check_refused store trm appCfg endHour loc r hr
        ((blocks_unleashed trm appCfg _ r hl).2 ⟨hs, hrl, not_lt.1 hlt⟩)
      rw [hc] at hnone
      cases hnone
    · intro hall
      rw [Check_permitted store trm appCfg endHour loc]
      intro r hr
      cases hb : blocks trm appCfg
        (cutoff appCfg.MinTimeBetweenFiresInWorkDays trm.Time endHour loc) r with
      | false => rfl
      | true =>
        obtain ⟨hs, hrl, hle⟩ := (blocks_unleashed trm appCfg _ r hl).1 hb
        exact absurd (hall r hr hs hrl) (not_lt.2 hle)
  · intro hnone
    rcases key with hall | ⟨r, hr, hb⟩
    · rw [Check_permitted store trm appCfg endHour loc]
      intro r hr
      cases hb : blocks trm appCfg
        (cutoff appCfg.MinTimeBetweenFiresInWorkDays trm.Time endHour loc) r with
      | false => rfl
      | true =>
        obtain ⟨hs, hrl, hle⟩ := (blocks_unleashed trm appCfg _ r hl).1 hb
        exact absurd (hall r hr hs hrl) (not_lt.2 hle)
    · obtain ⟨last, _, _, hc⟩ := Check_refused store trm appCfg endHour loc r hr hb
      rw [hc] at hnone
      cases hnone
  · intro hsome
    rcases key with hall | ⟨r, hr, hb⟩
    · exfalso
      apply hsome
      rw [Check_permitted store trm appCfg endHour loc]
      intro r hr
      cases hb : blocks trm appCfg
        (cutoff appCfg.MinTimeBetweenFiresInWorkDays trm.Time endHour loc) r with
      | false => rfl
      | true =>
        obtain ⟨hs, hrl, hle⟩ := (blocks_unleashed trm appCfg _ r hl).1 hb
        exact absurd (hall r hr hs hrl) (not_lt.2 hle)
    · obtain ⟨last, hlast, hbl, hc⟩ := Check_refused store trm appCfg endHour loc r hr hb
      obtain ⟨hs, hrl, hle⟩ := (blocks_unleashed trm appCfg _ last hl).1 hbl
      exact ⟨last, hlast, hs, hrl, hle, hc⟩

theorem Check_min_time_witness :
    (fixture.fired 1450380900 false).Leashed = false ∧
      (Check [fixture.fired 1450220399 false, fixture.fired 1450220460 true]
        (fixture.fired 1450380900 false) fixture.minTwo 15 fixture.pst).1 = none ∧
      (Check [fixture.fired 1450220399 false, fixture.fired 1450220460 true]
        (fixture.fired 1450380900 false) fixture.minTwo 15 fixture.pst).2 =
        [fixture.fired 1450220399 false, fixture.fired 1450220460 true] ++
          [fixture.fired 1450380900 false] :=
  ⟨rfl, by decide,
    (Check_min_time [fixture.fired 1450220399 false, fixture.fired 1450220460 true]
      (fixture.fired 1450380900 false) fixture.minTwo 15 fixture.pst rfl).2.1 (by decide)⟩

end mysql
